import Mathlib

/-!
# Jet: a shallow embedding of `format.go` and `marshal.go`

The formatter of the Jet encoding renders a generic value tree (records,
sequences, scalars) as text in one of three layouts; the encoder builds that
tree from a Go value by reflection.  This file embeds the functions of
`format.go` and `marshal.go` as Lean definitions and proves properties of them.

Conventions of the embedding:

* a Go `map[string]interface{}` is an association list `List (String × Value)`;
  Go maps have unique keys, which is the invariant `Value.wf`;
* the writer only ever appends to its `strings.Builder`, so every writing
  function returns the text it appends;
* a failed type assertion (a Go panic) makes a function return `none`;
* the mutually recursive functions `writeValue` and `writeTabularArray` take a
  fuel argument that bounds the depth of nested calls, and return `none` when
  it runs out; `Value.depth` is always enough (`writeValue_fuel_irrel`,
  `writeValue_isSome`);
* the input of `encode` is a Go value as reflection shows it, a finite tree
  `RValue`; `encode` returns `none` for a panic, `error` with the message for a
  returned error and `ok` with the generic value otherwise, and takes a fuel
  argument like the writers, for which `RValue.depth` is always enough
  (`encode_fuel_irrel`, `encode_eq_switch`).
-/

namespace Jet

/-! ## Generic values -/

/-- Scalar leaves of a generic value.  A floating-point number is carried as the
text that `%v` prints for it; number formatting itself is not modelled. -/
inductive Scalar
  | str (s : String)
  | int (i : Int)
  | float (text : String)
  | bool (b : Bool)
deriving DecidableEq, Repr

/-- The generic value tree produced by `encode`: `map[string]interface{}`,
`[]interface{}` or a scalar. -/
inductive Value
  | scalar (s : Scalar)
  | record (fields : List (String × Value))
  | seq (items : List Value)

/-- The three layouts (`formatMode` in `format.go`). -/
inductive formatMode
  | modeNormal
  | modeFlattened
  | modeNormalized
deriving DecidableEq, Repr

/-! ## Go primitives used by the formatter -/

/-- Lexicographic `≤` on lists of code points. -/
def lexLE : List Nat → List Nat → Bool
  | [], _ => true
  | _ :: _, [] => false
  | a :: as, b :: bs => decide (a < b) || (a == b && lexLE as bs)

/-- Go's `≤` on strings: byte-wise lexicographic, which on UTF-8 text is the
lexicographic order of the code points. -/
def strLE (a b : String) : Bool :=
  lexLE (a.data.map Char.toNat) (b.data.map Char.toNat)

/-- Go's `sort.Strings`: the ascending arrangement of the list. -/
def sortStrings (keys : List String) : List String :=
  keys.insertionSort (fun a b => strLE a b = true)

/-- Go's `strings.Repeat(" ", n)`. -/
def spaces (n : Nat) : String :=
  String.mk (List.replicate n ' ')

/-- Go's `strings.Join(elems, sep)`. -/
def stringsJoin (elems : List String) (sep : String) : String :=
  sep.intercalate elems

/-- The keys of a map, as `for k := range m` collects them. -/
def mapKeys (m : List (String × Value)) : List String :=
  m.map Prod.fst

/-- Go's map index `m[key]`; `none` is the nil interface of a missing key. -/
def mapGet : List (String × Value) → String → Option Value
  | [], _ => none
  | (k, v) :: rest, key => if k = key then some v else mapGet rest key

/-- Index into a list of rendered map entries. -/
def textGet : List (String × String) → String → String
  | [], _ => "<nil>"
  | (k, t) :: rest, key => if k = key then t else textGet rest key

/-- The text of a scalar under `%v`. -/
def fmtScalar : Scalar → String
  | .str s => s
  | .int i => toString i
  | .float text => text
  | .bool b => if b then "true" else "false"

mutual
/-- The text of a generic value under `fmt`'s `%v`: scalars as `fmtScalar`, a
slice as `[e1 e2 ...]`, a map as `map[k1:v1 k2:v2 ...]` with keys ascending. -/
def fmtV : Value → String
  | .scalar s => fmtScalar s
  | .record fields =>
      "map[" ++ stringsJoin ((sortStrings (mapKeys fields)).map
        (fun k => k ++ ":" ++ textGet (fmtFields fields) k)) " " ++ "]"
  | .seq items => "[" ++ stringsJoin (fmtItems items) " " ++ "]"
/-- The `%v` text of every entry of a map. -/
def fmtFields : List (String × Value) → List (String × String)
  | [] => []
  | (k, v) :: rest => (k, fmtV v) :: fmtFields rest
/-- The `%v` text of every element of a slice. -/
def fmtItems : List Value → List String
  | [] => []
  | v :: rest => fmtV v :: fmtItems rest
end

/-- The text `%v` prints for an `interface{}` that may be nil. -/
def fmtAny : Option Value → String
  | none => "<nil>"
  | some v => fmtV v

/-- Runs `f` on every element in order and concatenates what each run writes;
a run that fails makes the whole loop fail. -/
def writeAll {α : Type} (f : α → Option String) : List α → Option String
  | [] => some ""
  | x :: xs =>
      match f x with
      | none => none
      | some a =>
          match writeAll f xs with
          | none => none
          | some b => some (a ++ b)

/-- Concatenation of a list of text chunks, in order. -/
def concatAll : List String → String
  | [] => ""
  | x :: xs => x ++ concatAll xs

/-! ## Measures and invariants of a tree -/

mutual
/-- Nesting depth of a value; the fuel `writeValue` needs. -/
def Value.depth : Value → Nat
  | .scalar _ => 1
  | .record fields => depthFields fields + 1
  | .seq items => depthItems items + 1
/-- Largest depth among the values of a map, `0` for the empty map. -/
def depthFields : List (String × Value) → Nat
  | [] => 0
  | (_, v) :: rest => max v.depth (depthFields rest)
/-- Largest depth among the elements of a slice, `0` for the empty slice. -/
def depthItems : List Value → Nat
  | [] => 0
  | v :: rest => max v.depth (depthItems rest)
end

mutual
/-- Every record of the tree has pairwise distinct keys, as every Go map has. -/
def Value.wf : Value → Bool
  | .scalar _ => true
  | .record fields => decide (mapKeys fields).Nodup && wfFields fields
  | .seq items => wfItems items
/-- Every value of the map is well-formed. -/
def wfFields : List (String × Value) → Bool
  | [] => true
  | (_, v) :: rest => v.wf && wfFields rest
/-- Every element of the slice is well-formed. -/
def wfItems : List Value → Bool
  | [] => true
  | v :: rest => v.wf && wfItems rest
end

/-! ## `format.go` -/

/-- The function `canFlattenObject`: no value of the object is a map or a slice. -/
def canFlattenObject (obj : List (String × Value)) : Bool :=
  obj.all fun kv =>
    match kv.2 with
    | .record _ => false
    | .seq _ => false
    | .scalar _ => true

/-- Whether a value is a scalar leaf. -/
def Value.isScalar : Value → Bool
  | .scalar _ => true
  | _ => false

/-- The key list of a record; `none` for a value that is not a record. -/
def keysOf : Value → Option (List String)
  | .record m => some (mapKeys m)
  | _ => none

/-- The function `isTabular`. -/
def isTabular (slice : List Value) : Bool :=
  match slice with
  | [] => false
  | .record firstMap :: rest =>
      let firstKeys := mapKeys firstMap
      rest.all fun item =>
        match item with
        | .record currentMap =>
            if currentMap.length != firstKeys.length then false
            else (mapKeys currentMap).all fun k => firstKeys.contains k
        | _ => false
  | _ :: _ => false

/-- The test the table writers make on a column value before treating it as a
nested block: a map, or a slice that `isTabular` accepts. -/
def isNested : Option Value → Bool
  | some (.record _) => true
  | some (.seq subSlice) => isTabular subSlice
  | _ => false

/-- The method `buildFlattenedSchema`. -/
def buildFlattenedSchema (schema : List String) (sampleRow : List (String × Value)) : String :=
  let parts := schema.foldl (fun parts col =>
    match mapGet sampleRow col with
    | some (.record subMap) =>
        if canFlattenObject subMap then
          parts ++ [col ++ "\x7b" ++ stringsJoin (sortStrings (mapKeys subMap)) "," ++ "\x7d"]
        else parts ++ [col]
    | some (.seq subSlice) =>
        if isTabular subSlice then parts ++ [col] else parts ++ [col]
    | _ => parts ++ [col]) []
  stringsJoin parts "|"

/-- The method `buildNormalizedSchema`. -/
def buildNormalizedSchema (schema : List String) (sampleRow : List (String × Value)) : String :=
  let parts := schema.foldl (fun parts col =>
    match mapGet sampleRow col with
    | some (.record subMap) =>
        if canFlattenObject subMap then
          parts ++ [col ++ "\x7b" ++ stringsJoin (sortStrings (mapKeys subMap)) "|" ++ "\x7d"]
        else parts ++ [col]
    | some (.seq subSlice) =>
        if isTabular subSlice then parts ++ [col] else parts ++ [col]
    | _ => parts ++ [col]) []
  stringsJoin parts "|"

/-- The method `extractFlattenedValues`. -/
def extractFlattenedValues (schema : List String) (rowMap : List (String × Value)) :
    List String :=
  schema.foldl (fun values col =>
    match mapGet rowMap col with
    | some (.record subMap) =>
        if canFlattenObject subMap then
          (sortStrings (mapKeys subMap)).foldl
            (fun values subKey => values ++ [fmtAny (mapGet subMap subKey)]) values
        else values ++ ["[nested]"]
    | some (.seq subSlice) =>
        if isTabular subSlice then values ++ ["[table]"]
        else values ++ [fmtV (.seq subSlice)]
    | val => values ++ [fmtAny val]) []

/-- The scalar line of a row in Normal and Normalized mode: the loop that
collects `values`, skipping maps and tabular slices. -/
def rowValues (schema : List String) (rowMap : List (String × Value)) : List String :=
  schema.foldl (fun values col =>
    match mapGet rowMap col with
    | some (.record _) => values
    | some (.seq subSlice) =>
        if isTabular subSlice then values else values ++ [fmtV (.seq subSlice)]
    | val => values ++ [fmtAny val]) []

/-- The method `writeTabularArrayNormal`; `wv` and `wt` are the recursive calls
to `writeValue` and `writeTabularArray`. -/
def writeTabularArrayNormal (wv : Value → Nat → Option String)
    (wt : String → String → List Value → Nat → Option String)
    (indentStr key : String) (data : List Value) (schema : List String)
    (indentLevel : Nat) : Option String :=
  let header := indentStr ++ key ++ "\x7b" ++ stringsJoin schema "|" ++ "\x7d:\n"
  let rowDataIndent := spaces (indentLevel + 1)
  (writeAll (fun row =>
    match row with
    | .record rowMap =>
        (writeAll (fun col =>
          match mapGet rowMap col with
          | some (.record subMap) =>
              (wv (.record subMap) (indentLevel + 2)).map
                (fun block => rowDataIndent ++ "  > " ++ col ++ ":\n" ++ block)
          | some (.seq subSlice) =>
              if isTabular subSlice then
                (wt "" col subSlice (indentLevel + 2)).map
                  (fun table => rowDataIndent ++ "  > " ++ table)
              else some ""
          | _ => some "") schema).map
          (fun nested =>
            rowDataIndent ++ stringsJoin (rowValues schema rowMap) "|" ++ "\n" ++ nested)
    | _ => none) data).map (fun rows => header ++ rows)

/-- The method `writeTabularArrayFlattened`. -/
def writeTabularArrayFlattened (indentStr key : String) (data : List Value)
    (schema : List String) (indentLevel : Nat) : Option String :=
  match data with
  | .record firstRow :: _ =>
      let flatSchema := buildFlattenedSchema schema firstRow
      let header := indentStr ++ key ++ "\x7b" ++ flatSchema ++ "\x7d:\n"
      let rowDataIndent := spaces (indentLevel + 1)
      (writeAll (fun row =>
        match row with
        | .record rowMap =>
            some (rowDataIndent ++ stringsJoin (extractFlattenedValues schema rowMap) "|"
              ++ "\n")
        | _ => none) data).map (fun rows => header ++ rows)
  | _ => none

/-- The method `writeTabularArrayNormalized`; `wv` and `wt` are the recursive
calls to `writeValue` and `writeTabularArray`. -/
def writeTabularArrayNormalized (wv : Value → Nat → Option String)
    (wt : String → String → List Value → Nat → Option String)
    (indentStr key : String) (data : List Value) (schema : List String)
    (indentLevel : Nat) : Option String :=
  match data with
  | .record firstRow :: _ =>
      let normalizedSchema := buildNormalizedSchema schema firstRow
      let header := indentStr ++ key ++ "\x7b" ++ normalizedSchema ++ "\x7d:\n"
      let rowDataIndent := spaces (indentLevel + 1)
      (writeAll (fun row =>
        match row with
        | .record rowMap =>
            (writeAll (fun col =>
              match mapGet rowMap col with
              | some (.record subMap) =>
                  if canFlattenObject subMap then
                    let subValues := (sortStrings (mapKeys subMap)).foldl
                      (fun subValues subKey => subValues ++ [fmtAny (mapGet subMap subKey)]) []
                    some (rowDataIndent ++ "  > " ++ col ++ ":\n" ++ (rowDataIndent ++ "  ")
                      ++ stringsJoin subValues "|" ++ "\n")
                  else
                    (wv (.record subMap) (indentLevel + 2)).map
                      (fun block => rowDataIndent ++ "  > " ++ col ++ ":\n" ++ block)
              | some (.seq subSlice) =>
                  if isTabular subSlice then
                    (wt "" col subSlice (indentLevel + 2)).map
                      (fun table => rowDataIndent ++ "  > " ++ table)
                  else some ""
              | _ => some "") schema).map
              (fun nested =>
                rowDataIndent ++ stringsJoin (rowValues schema rowMap) "|" ++ "\n" ++ nested)
        | _ => none) data).map (fun rows => header ++ rows)
  | _ => none

mutual
/-- The method `writeValue`, for the writer's mode. -/
def writeValue (mode : formatMode) : Nat → Value → Nat → Option String
  | 0, _, _ => none
  | fuel + 1, data, indentLevel =>
      let indentStr := spaces indentLevel
      match data with
      | .record v =>
          let keys := sortStrings (mapKeys v)
          writeAll (fun key =>
            match mapGet v key with
            | some (.seq subSlice) =>
                if isTabular subSlice then
                  writeTabularArray mode fuel indentStr key subSlice indentLevel
                else some (indentStr ++ key ++ ": " ++ fmtV (.seq subSlice) ++ "\n")
            | some (.record subMap) =>
                (writeValue mode fuel (.record subMap) (indentLevel + 1)).map
                  (fun block => indentStr ++ key ++ ":\n" ++ block)
            | value => some (indentStr ++ key ++ ": " ++ fmtAny value ++ "\n")) keys
      | .seq v =>
          if isTabular v then writeTabularArray mode fuel indentStr "" v indentLevel
          else writeAll (fun item => some (indentStr ++ "- " ++ fmtV item ++ "\n")) v
      | .scalar s => some (indentStr ++ fmtScalar s ++ "\n")
/-- The method `writeTabularArray`, for the writer's mode. -/
def writeTabularArray (mode : formatMode) :
    Nat → String → String → List Value → Nat → Option String
  | 0, _, _, _, _ => none
  | fuel + 1, indentStr, key, data, indentLevel =>
      match data with
      | .record firstRow :: _ =>
          let schema := sortStrings (mapKeys firstRow)
          match mode with
          | .modeFlattened => writeTabularArrayFlattened indentStr key data schema indentLevel
          | .modeNormalized =>
              writeTabularArrayNormalized (writeValue mode fuel) (writeTabularArray mode fuel)
                indentStr key data schema indentLevel
          | .modeNormal =>
              writeTabularArrayNormal (writeValue mode fuel) (writeTabularArray mode fuel)
                indentStr key data schema indentLevel
      | _ => none
end

/-- The function `format`: Normal mode, from indent level 0.  Its Go `error`
result is always nil. -/
def format (data : Value) : Option String :=
  writeValue .modeNormal data.depth data 0

/-- The function `formatFlattened`. -/
def formatFlattened (data : Value) : Option String :=
  writeValue .modeFlattened data.depth data 0

/-- The function `formatNormalized`. -/
def formatNormalized (data : Value) : Option String :=
  writeValue .modeNormalized data.depth data 0

/-! ## Vocabulary for properties of outputs and trees -/

/-- Sum of a per-character weight over a text. -/
def textMeasure (w : Char → Nat) (s : String) : Nat :=
  (s.data.map w).sum

/-- Go's `strings.Count(s, "\n")`: the number of newline characters. -/
def countNewlines (s : String) : Nat :=
  textMeasure (fun c => if c = '\n' then 1 else 0) s

/-- Go's `len(s)`: the number of bytes of the UTF-8 text. -/
def byteLen (s : String) : Nat :=
  textMeasure Char.utf8Size s

mutual
/-- Whether `p` holds at every node of the tree: at the value itself and at
every value nested in it. -/
def Value.allNodes (p : Value → Bool) : Value → Bool
  | .scalar s => p (.scalar s)
  | .record fields => p (.record fields) && allNodesFields p fields
  | .seq items => p (.seq items) && allNodesItems p items
/-- Whether `p` holds at every node below a map. -/
def allNodesFields (p : Value → Bool) : List (String × Value) → Bool
  | [] => true
  | (_, v) :: rest => v.allNodes p && allNodesFields p rest
/-- Whether `p` holds at every node below a slice. -/
def allNodesItems (p : Value → Bool) : List Value → Bool
  | [] => true
  | v :: rest => v.allNodes p && allNodesItems p rest
end

/-- A node test: if the node is a tabular slice, every column value of every
row passes `q`. -/
def rowsAll (q : Value → Bool) : Value → Bool
  | .seq items =>
      !isTabular items || items.all fun row =>
        match row with
        | .record m => m.all fun kv => q kv.2
        | _ => true
  | _ => true

/-- A column value that is neither a map nor a tabular slice. -/
def isPlainCell (x : Value) : Bool :=
  !isNested (some x)

/-- A column value that is not a flattenable map. -/
def notFlattenableCell : Value → Bool
  | .record sub => !canFlattenObject sub
  | _ => true

/-- A column value that is not a map without fields. -/
def notEmptyRecordCell : Value → Bool
  | .record sub => !sub.isEmpty
  | _ => true

/-- A column value that is a flattenable map. -/
def isFlattenableCell : Value → Bool
  | .record sub => canFlattenObject sub
  | _ => false

/-- A node test: a scalar's text and a map's keys hold no newline. -/
def noNewlineNode : Value → Bool
  | .scalar s => countNewlines (fmtScalar s) == 0
  | .record m => m.all fun kv => countNewlines kv.1 == 0
  | .seq _ => true

/-- The values the loop body of `extractFlattenedValues` appends for one
column. -/
def flattenedCell (rowMap : List (String × Value)) (col : String) : List String :=
  match mapGet rowMap col with
  | some (.record subMap) =>
      if canFlattenObject subMap then
        (sortStrings (mapKeys subMap)).map fun subKey => fmtAny (mapGet subMap subKey)
      else ["[nested]"]
  | some (.seq subSlice) =>
      if isTabular subSlice then ["[table]"] else [fmtV (.seq subSlice)]
  | val => [fmtAny val]

/-- The newlines that the Normalized header entry of one column adds to the
bare column name: those of the subkeys of a flattenable map. -/
def entryExcess (rowMap : List (String × Value)) (col : String) : Nat :=
  match mapGet rowMap col with
  | some (.record subMap) =>
      if canFlattenObject subMap then
        ((sortStrings (mapKeys subMap)).map countNewlines).sum
      else 0
  | _ => 0

/-- The bytes one nested column adds to a Flattened row line: its values and
one separator for each. -/
def flatCost (rowMap : List (String × Value)) (col : String) : Nat :=
  if isNested (mapGet rowMap col) then
    ((flattenedCell rowMap col).map byteLen).sum + (flattenedCell rowMap col).length
  else 0

/-- The bytes the Flattened header entry of one column adds to the bare column
name: the braces and the comma-joined subkeys of a flattenable map. -/
def headerCost (rowMap : List (String × Value)) (col : String) : Nat :=
  match mapGet rowMap col with
  | some (.record subMap) =>
      if canFlattenObject subMap then
        2 + byteLen (stringsJoin (sortStrings (mapKeys subMap)) ",")
      else 0
  | _ => 0

/-- Whether the column of the row holds a flattenable map. -/
def holdsFlattenable (rowMap : List (String × Value)) (col : String) : Bool :=
  match mapGet rowMap col with
  | some x => isFlattenableCell x
  | none => false

mutual
/-- Whether the second tree is the first with the entries of its records
listed in another order: same scalars, sequences element by element, and for
records the same number of entries with every key of the first found in the
second under a value that is again a reordering. -/
def Value.reorders : Value → Value → Bool
  | .scalar s, .scalar t => s == t
  | .record m, .record m2 => m.length == m2.length && fieldsIn m m2
  | .seq xs, .seq ys => itemsMatch xs ys
  | _, _ => false
/-- Every entry of the first map is found in the second, up to reordering of
its value. -/
def fieldsIn : List (String × Value) → List (String × Value) → Bool
  | [], _ => true
  | (k, x) :: rest, m2 =>
      (match mapGet m2 k with
        | some x2 => x.reorders x2
        | none => false) && fieldsIn rest m2
/-- The two slices match element by element, up to reordering. -/
def itemsMatch : List Value → List Value → Bool
  | [], [] => true
  | x :: xs, y :: ys => x.reorders y && itemsMatch xs ys
  | _, _ => false
end

/-- Two looked-up column values match: both are missing, or both are present,
well-formed, and the second is a reordering of the first. -/
def cellsMatch (o o2 : Option Value) : Prop :=
  (o = none ∧ o2 = none) ∨
  ∃ x x2, o = some x ∧ o2 = some x2 ∧ x.reorders x2 = true ∧ x.wf = true ∧ x2.wf = true

/-! ## Go values as reflection sees them (`marshal.go`) -/

/-- The kinds of `reflect.Kind`. -/
inductive Kind
  | invalid | bool | int | int8 | int16 | int32 | int64
  | uint | uint8 | uint16 | uint32 | uint64 | uintptr
  | float32 | float64 | complex64 | complex128
  | array | chan | func | interface | map | ptr | slice | string | struct | rawPointer
deriving DecidableEq, Repr

/-- The text of a kind, as `%s` prints it (`Kind.String`). -/
def Kind.name : Kind → String
  | .invalid => "invalid" | .bool => "bool" | .int => "int" | .int8 => "int8"
  | .int16 => "int16" | .int32 => "int32" | .int64 => "int64" | .uint => "uint"
  | .uint8 => "uint8" | .uint16 => "uint16" | .uint32 => "uint32" | .uint64 => "uint64"
  | .uintptr => "uintptr" | .float32 => "float32" | .float64 => "float64"
  | .complex64 => "complex64" | .complex128 => "complex128" | .array => "array"
  | .chan => "chan" | .func => "func" | .interface => "interface" | .map => "map"
  | .ptr => "ptr" | .slice => "slice" | .string => "string" | .struct => "struct"
  | .rawPointer => "unsafe.Pointer"

/-- The kinds whose values `encode` never looks into and that are no case of its
switch. -/
inductive OtherKind
  | int8 | int16 | uint | uint8 | uint16 | uint32 | uint64 | uintptr
  | complex64 | complex128 | array | chan | func | rawPointer
deriving DecidableEq, Repr

/-- The `reflect.Kind` of a value of one of the other kinds. -/
def OtherKind.toKind : OtherKind → Kind
  | .int8 => .int8 | .int16 => .int16 | .uint => .uint | .uint8 => .uint8
  | .uint16 => .uint16 | .uint32 => .uint32 | .uint64 => .uint64 | .uintptr => .uintptr
  | .complex64 => .complex64 | .complex128 => .complex128 | .array => .array
  | .chan => .chan | .func => .func | .rawPointer => .rawPointer

/-- What `encode` reads of a `reflect.StructField`: the name of the field, the
value `Tag.Get("jet")` returns (empty when there is no `jet` tag), and whether the
field is exported. -/
structure StructField where
  Name : String
  jetTag : String
  exported : Bool
deriving DecidableEq, Repr

/-- A key of a Go map as `MapKeys` returns it: a key of kind string, or a key of
another kind, of which only the name of its type is kept. -/
inductive MapKey
  | str (s : String)
  | nonString (typeName : String)
deriving DecidableEq, Repr

/-- A Go value as `reflect.Value`.

* `invalid` is the zero `reflect.Value`: what `reflect.ValueOf(nil)` returns and
  what `Elem` returns for a nil pointer or a nil interface;
* `scalar` is a value of kind string, int, int64, int32, float64, float32 or
  bool;
* `other` is a value of any other kind that is not composite for `encode`;
* `iface dyn` is a variable of interface type (kind Interface) holding `dyn`,
  with `dyn = invalid` for the nil interface;
* `ptr elem` is a pointer (kind Ptr) to the variable `elem`, with
  `elem = invalid` for the nil pointer;
* `struct` lists the fields in declaration order, `slice` the elements in index
  order (a nil slice is the slice without elements), `map` the entries in the
  order in which `MapKeys` returns the keys (a nil map is the map without
  entries).

Values are finite trees: a pointer cycle is not a value of this type. -/
inductive RValue
  | invalid
  | scalar (s : Scalar)
  | other (k : OtherKind)
  | iface (dyn : RValue)
  | ptr (elem : RValue)
  | struct (fields : List (StructField × RValue))
  | slice (elems : List RValue)
  | map (entries : List (MapKey × RValue))

/-- The method `Value.Kind`.  The three integer kinds and the two floating-point
kinds that `encode` accepts are carried by one constructor of `Scalar` each and
reported as `int` and `float64`. -/
def RValue.kind : RValue → Kind
  | .invalid => .invalid
  | .scalar (.str _) => .string
  | .scalar (.int _) => .int
  | .scalar (.float _) => .float64
  | .scalar (.bool _) => .bool
  | .other k => k.toKind
  | .iface _ => .interface
  | .ptr _ => .ptr
  | .struct _ => .struct
  | .slice _ => .slice
  | .map _ => .map

/-- The method `Value.Elem`, called on pointers and interfaces only. -/
def RValue.Elem : RValue → RValue
  | .iface dyn => dyn
  | .ptr elem => elem
  | x => x

/-- The value `reflect.ValueOf(x.Interface())`: `Interface` returns what a
variable of interface type holds, and the value itself otherwise. -/
def valueInterface : RValue → RValue
  | .iface dyn => dyn
  | x => x

/-- The method `Value.String` on a map key: the string of a key of kind string,
and the text `<T Value>` for a key of another type `T`. -/
def MapKey.text : MapKey → String
  | .str s => s
  | .nonString typeName => "<" ++ typeName ++ " Value>"

/-- The lower-case mappings of the Unicode character database outside ASCII, as
ranges `(lo, hi, stride, delta)`: a code point `r` with `lo ≤ r ≤ hi` and
`(r - lo) % stride = 0` has the lower-case form `r + delta`; a code point in no
range is its own lower-case form.  These are the mappings that the table
`unicode.CaseRanges` of the Go library holds for `unicode.LowerCase` (Unicode
15.0.0): 1407 code points, among them Latin, Greek, Cyrillic, Armenian, Georgian
and Cherokee capitals. -/
def lowerCaseRanges : List (Nat × Nat × Nat × Int) :=
  [(0x00C0, 0x00D6, 1, 32), (0x00D8, 0x00DE, 1, 32), (0x0100, 0x012E, 2, 1),
   (0x0130, 0x0130, 1, -199), (0x0132, 0x0136, 2, 1), (0x0139, 0x0147, 2, 1),
   (0x014A, 0x0176, 2, 1), (0x0178, 0x0178, 1, -121), (0x0179, 0x017D, 2, 1),
   (0x0181, 0x0181, 1, 210), (0x0182, 0x0184, 2, 1), (0x0186, 0x0186, 1, 206),
   (0x0187, 0x0187, 1, 1), (0x0189, 0x018A, 1, 205), (0x018B, 0x018B, 1, 1),
   (0x018E, 0x018E, 1, 79), (0x018F, 0x018F, 1, 202), (0x0190, 0x0190, 1, 203),
   (0x0191, 0x0191, 1, 1), (0x0193, 0x0193, 1, 205), (0x0194, 0x0194, 1, 207),
   (0x0196, 0x0196, 1, 211), (0x0197, 0x0197, 1, 209), (0x0198, 0x0198, 1, 1),
   (0x019C, 0x019C, 1, 211), (0x019D, 0x019D, 1, 213), (0x019F, 0x019F, 1, 214),
   (0x01A0, 0x01A4, 2, 1), (0x01A6, 0x01A6, 1, 218), (0x01A7, 0x01A7, 1, 1),
   (0x01A9, 0x01A9, 1, 218), (0x01AC, 0x01AC, 1, 1), (0x01AE, 0x01AE, 1, 218),
   (0x01AF, 0x01AF, 1, 1), (0x01B1, 0x01B2, 1, 217), (0x01B3, 0x01B5, 2, 1),
   (0x01B7, 0x01B7, 1, 219), (0x01B8, 0x01B8, 1, 1), (0x01BC, 0x01BC, 1, 1),
   (0x01C4, 0x01C4, 1, 2), (0x01C5, 0x01C5, 1, 1), (0x01C7, 0x01C7, 1, 2),
   (0x01C8, 0x01C8, 1, 1), (0x01CA, 0x01CA, 1, 2), (0x01CB, 0x01DB, 2, 1),
   (0x01DE, 0x01EE, 2, 1), (0x01F1, 0x01F1, 1, 2), (0x01F2, 0x01F4, 2, 1),
   (0x01F6, 0x01F6, 1, -97), (0x01F7, 0x01F7, 1, -56), (0x01F8, 0x021E, 2, 1),
   (0x0220, 0x0220, 1, -130), (0x0222, 0x0232, 2, 1), (0x023A, 0x023A, 1, 10795),
   (0x023B, 0x023B, 1, 1), (0x023D, 0x023D, 1, -163), (0x023E, 0x023E, 1, 10792),
   (0x0241, 0x0241, 1, 1), (0x0243, 0x0243, 1, -195), (0x0244, 0x0244, 1, 69),
   (0x0245, 0x0245, 1, 71), (0x0246, 0x024E, 2, 1), (0x0370, 0x0372, 2, 1),
   (0x0376, 0x0376, 1, 1), (0x037F, 0x037F, 1, 116), (0x0386, 0x0386, 1, 38),
   (0x0388, 0x038A, 1, 37), (0x038C, 0x038C, 1, 64), (0x038E, 0x038F, 1, 63),
   (0x0391, 0x03A1, 1, 32), (0x03A3, 0x03AB, 1, 32), (0x03CF, 0x03CF, 1, 8),
   (0x03D8, 0x03EE, 2, 1), (0x03F4, 0x03F4, 1, -60), (0x03F7, 0x03F7, 1, 1),
   (0x03F9, 0x03F9, 1, -7), (0x03FA, 0x03FA, 1, 1), (0x03FD, 0x03FF, 1, -130),
   (0x0400, 0x040F, 1, 80), (0x0410, 0x042F, 1, 32), (0x0460, 0x0480, 2, 1),
   (0x048A, 0x04BE, 2, 1), (0x04C0, 0x04C0, 1, 15), (0x04C1, 0x04CD, 2, 1),
   (0x04D0, 0x052E, 2, 1), (0x0531, 0x0556, 1, 48), (0x10A0, 0x10C5, 1, 7264),
   (0x10C7, 0x10C7, 1, 7264), (0x10CD, 0x10CD, 1, 7264), (0x13A0, 0x13EF, 1, 38864),
   (0x13F0, 0x13F5, 1, 8), (0x1C90, 0x1CBA, 1, -3008), (0x1CBD, 0x1CBF, 1, -3008),
   (0x1E00, 0x1E94, 2, 1), (0x1E9E, 0x1E9E, 1, -7615), (0x1EA0, 0x1EFE, 2, 1),
   (0x1F08, 0x1F0F, 1, -8), (0x1F18, 0x1F1D, 1, -8), (0x1F28, 0x1F2F, 1, -8),
   (0x1F38, 0x1F3F, 1, -8), (0x1F48, 0x1F4D, 1, -8), (0x1F59, 0x1F5F, 2, -8),
   (0x1F68, 0x1F6F, 1, -8), (0x1F88, 0x1F8F, 1, -8), (0x1F98, 0x1F9F, 1, -8),
   (0x1FA8, 0x1FAF, 1, -8), (0x1FB8, 0x1FB9, 1, -8), (0x1FBA, 0x1FBB, 1, -74),
   (0x1FBC, 0x1FBC, 1, -9), (0x1FC8, 0x1FCB, 1, -86), (0x1FCC, 0x1FCC, 1, -9),
   (0x1FD8, 0x1FD9, 1, -8), (0x1FDA, 0x1FDB, 1, -100), (0x1FE8, 0x1FE9, 1, -8),
   (0x1FEA, 0x1FEB, 1, -112), (0x1FEC, 0x1FEC, 1, -7), (0x1FF8, 0x1FF9, 1, -128),
   (0x1FFA, 0x1FFB, 1, -126), (0x1FFC, 0x1FFC, 1, -9), (0x2126, 0x2126, 1, -7517),
   (0x212A, 0x212A, 1, -8383), (0x212B, 0x212B, 1, -8262), (0x2132, 0x2132, 1, 28),
   (0x2160, 0x216F, 1, 16), (0x2183, 0x2183, 1, 1), (0x24B6, 0x24CF, 1, 26),
   (0x2C00, 0x2C2F, 1, 48), (0x2C60, 0x2C60, 1, 1), (0x2C62, 0x2C62, 1, -10743),
   (0x2C63, 0x2C63, 1, -3814), (0x2C64, 0x2C64, 1, -10727), (0x2C67, 0x2C6B, 2, 1),
   (0x2C6D, 0x2C6D, 1, -10780), (0x2C6E, 0x2C6E, 1, -10749), (0x2C6F, 0x2C6F, 1, -10783),
   (0x2C70, 0x2C70, 1, -10782), (0x2C72, 0x2C72, 1, 1), (0x2C75, 0x2C75, 1, 1),
   (0x2C7E, 0x2C7F, 1, -10815), (0x2C80, 0x2CE2, 2, 1), (0x2CEB, 0x2CED, 2, 1),
   (0x2CF2, 0x2CF2, 1, 1), (0xA640, 0xA66C, 2, 1), (0xA680, 0xA69A, 2, 1),
   (0xA722, 0xA72E, 2, 1), (0xA732, 0xA76E, 2, 1), (0xA779, 0xA77B, 2, 1),
   (0xA77D, 0xA77D, 1, -35332), (0xA77E, 0xA786, 2, 1), (0xA78B, 0xA78B, 1, 1),
   (0xA78D, 0xA78D, 1, -42280), (0xA790, 0xA792, 2, 1), (0xA796, 0xA7A8, 2, 1),
   (0xA7AA, 0xA7AA, 1, -42308), (0xA7AB, 0xA7AB, 1, -42319), (0xA7AC, 0xA7AC, 1, -42315),
   (0xA7AD, 0xA7AD, 1, -42305), (0xA7AE, 0xA7AE, 1, -42308), (0xA7B0, 0xA7B0, 1, -42258),
   (0xA7B1, 0xA7B1, 1, -42282), (0xA7B2, 0xA7B2, 1, -42261), (0xA7B3, 0xA7B3, 1, 928),
   (0xA7B4, 0xA7C2, 2, 1), (0xA7C4, 0xA7C4, 1, -48), (0xA7C5, 0xA7C5, 1, -42307),
   (0xA7C6, 0xA7C6, 1, -35384), (0xA7C7, 0xA7C9, 2, 1), (0xA7D0, 0xA7D0, 1, 1),
   (0xA7D6, 0xA7D8, 2, 1), (0xA7F5, 0xA7F5, 1, 1), (0xFF21, 0xFF3A, 1, 32),
   (0x10400, 0x10427, 1, 40), (0x104B0, 0x104D3, 1, 40), (0x10570, 0x1057A, 1, 39),
   (0x1057C, 0x1058A, 1, 39), (0x1058C, 0x10592, 1, 39), (0x10594, 0x10595, 1, 39),
   (0x10C80, 0x10CB2, 1, 64), (0x118A0, 0x118BF, 1, 32), (0x16E40, 0x16E5F, 1, 32),
   (0x1E900, 0x1E921, 1, 34)]

/-- The lookup of a code point outside ASCII in a list of case ranges. -/
def caseRangeLookup (r : Nat) : List (Nat × Nat × Nat × Int) → Nat
  | [] => r
  | (lo, hi, stride, delta) :: rest =>
      if lo ≤ r ∧ r ≤ hi ∧ (r - lo) % stride = 0 then ((r : Int) + delta).toNat
      else caseRangeLookup r rest

/-- Go's `unicode.ToLower`: an ASCII capital is moved by `'a' - 'A'`, another
ASCII character is returned as it is, and a rune outside ASCII is looked up in
the case ranges. -/
def unicodeToLower (r : Char) : Char :=
  if r.toNat ≤ 127 then
    if 'A'.toNat ≤ r.toNat ∧ r.toNat ≤ 'Z'.toNat then Char.ofNat (r.toNat + ('a'.toNat - 'A'.toNat))
    else r
  else Char.ofNat (caseRangeLookup r.toNat lowerCaseRanges)

/-- Go's `strings.ToLower` on a string of valid UTF-8 (as every identifier is):
every rune is mapped by `unicode.ToLower`. -/
def stringsToLower (s : String) : String :=
  String.mk (s.data.map unicodeToLower)

/-- Go's map assignment `m[key] = v`. -/
def mapSet : List (String × Value) → String → Value → List (String × Value)
  | [], key, v => [(key, v)]
  | (k, x) :: rest, key, v =>
      if k = key then (k, v) :: rest else (k, x) :: mapSet rest key v

mutual
/-- Nesting depth of a Go value; the fuel `encode` needs. -/
def RValue.depth : RValue → Nat
  | .invalid => 1
  | .scalar _ => 1
  | .other _ => 1
  | .iface dyn => dyn.depth + 1
  | .ptr elem => elem.depth + 1
  | .struct fields => depthStructFields fields + 1
  | .slice elems => depthElems elems + 1
  | .map entries => depthEntries entries + 1
/-- Largest depth among the field values of a struct. -/
def depthStructFields : List (StructField × RValue) → Nat
  | [] => 0
  | (_, v) :: rest => max v.depth (depthStructFields rest)
/-- Largest depth among the elements of a slice. -/
def depthElems : List RValue → Nat
  | [] => 0
  | v :: rest => max v.depth (depthElems rest)
/-- Largest depth among the values of a map. -/
def depthEntries : List (MapKey × RValue) → Nat
  | [] => 0
  | (_, v) :: rest => max v.depth (depthEntries rest)
end

/-! ## `marshal.go` -/

/-- The value `encode` switches on: the element of a pointer or an interface,
the value itself otherwise.  One level is taken off, not more. -/
def operand (v : RValue) : RValue :=
  if v.kind = .ptr ∨ v.kind = .interface then v.Elem else v

/-- The name under which `encode` stores a field: the `jet` tag, or the field
name in lower case when the tag is empty. -/
def tagName (field : StructField) : String :=
  if field.jetTag = "" then stringsToLower field.Name else field.jetTag

/-- The loop of `encode` over the fields of a struct, from field `i` on with the
map built so far; `enc` is the recursive call.  `Interface` panics on a field
that is not exported. -/
def encodeFields (enc : RValue → Option (Except String Value)) :
    List (StructField × RValue) → List (String × Value) →
      Option (Except String (List (String × Value)))
  | [], resultMap => some (.ok resultMap)
  | (field, fieldValue) :: rest, resultMap =>
      if tagName field = "-" then encodeFields enc rest resultMap
      else if field.exported = false then none
      else
        match enc (valueInterface fieldValue) with
        | none => none
        | some (.error err) => some (.error err)
        | some (.ok encodedValue) =>
            encodeFields enc rest (mapSet resultMap (tagName field) encodedValue)

/-- The loop of `encode` over the elements of a slice; `enc` is the recursive
call. -/
def encodeElems (enc : RValue → Option (Except String Value)) :
    List RValue → Option (Except String (List Value))
  | [] => some (.ok [])
  | elem :: rest =>
      match enc (valueInterface elem) with
      | none => none
      | some (.error err) => some (.error err)
      | some (.ok encodedValue) =>
          match encodeElems enc rest with
          | none => none
          | some (.error err) => some (.error err)
          | some (.ok resultSlice) => some (.ok (encodedValue :: resultSlice))

/-- The loop of `encode` over the keys of a map, with the map built so far;
`enc` is the recursive call. -/
def encodeEntries (enc : RValue → Option (Except String Value)) :
    List (MapKey × RValue) → List (String × Value) →
      Option (Except String (List (String × Value)))
  | [], resultMap => some (.ok resultMap)
  | (key, mapValue) :: rest, resultMap =>
      match enc (valueInterface mapValue) with
      | none => none
      | some (.error err) => some (.error err)
      | some (.ok encodedValue) =>
          encodeEntries enc rest (mapSet resultMap key.text encodedValue)

/-- The `switch val.Kind()` of `encode`, on the dereferenced value; `enc` is the
recursive call. -/
def encodeSwitch (enc : RValue → Option (Except String Value)) (val : RValue) :
    Option (Except String Value) :=
  match val with
  | .struct fields =>
      match encodeFields enc fields [] with
      | none => none
      | some (.error err) => some (.error err)
      | some (.ok resultMap) => some (.ok (.record resultMap))
  | .slice elems =>
      match encodeElems enc elems with
      | none => none
      | some (.error err) => some (.error err)
      | some (.ok resultSlice) => some (.ok (.seq resultSlice))
  | .map entries =>
      match encodeEntries enc entries [] with
      | none => none
      | some (.error err) => some (.error err)
      | some (.ok resultMap) => some (.ok (.record resultMap))
  | .scalar s => some (.ok (.scalar s))
  | _ => some (.error ("jet: unsupported type for marshaling " ++ val.kind.name))

/-- The function `encode`, on `reflect.ValueOf(v)`.  The result is `none` for a
panic (or when the fuel runs out), `error` with the message for a returned
error, `ok` with the generic value otherwise. -/
def encode : Nat → RValue → Option (Except String Value)
  | 0, _ => none
  | fuel + 1, v =>
      let val := operand v
      encodeSwitch (encode fuel) val

/-- The function `marshal` (and `Marshal`): the pair of the bytes and the error
it returns, `none` standing for nil; the outer `none` is a panic. -/
def marshal (v : RValue) : Option (Option String × Option String) :=
  match encode v.depth v with
  | none => none
  | some (.error err) => some (none, some err)
  | some (.ok genericData) =>
      match format genericData with
      | none => none
      | some formattedBytes => some (some formattedBytes, none)

/-- The function `marshalFlattened` (and `MarshalFlattened`). -/
def marshalFlattened (v : RValue) : Option (Option String × Option String) :=
  match encode v.depth v with
  | none => none
  | some (.error err) => some (none, some err)
  | some (.ok genericData) =>
      match formatFlattened genericData with
      | none => none
      | some formattedBytes => some (some formattedBytes, none)

/-- The function `marshalNormalized` (and `MarshalNormalized`). -/
def marshalNormalized (v : RValue) : Option (Option String × Option String) :=
  match encode v.depth v with
  | none => none
  | some (.error err) => some (none, some err)
  | some (.ok genericData) =>
      match formatNormalized genericData with
      | none => none
      | some formattedBytes => some (some formattedBytes, none)

/-- The function `Marshal`. -/
def Marshal (v : RValue) : Option (Option String × Option String) :=
  marshal v

/-- The function `MarshalFlattened`. -/
def MarshalFlattened (v : RValue) : Option (Option String × Option String) :=
  marshalFlattened v

/-- The function `MarshalNormalized`. -/
def MarshalNormalized (v : RValue) : Option (Option String × Option String) :=
  marshalNormalized v

/-! ## Vocabulary for properties of `encode` -/

/-- The kinds named by the cases of the switch of `encode`. -/
def supportedKind : Kind → Bool
  | .struct | .slice | .map => true
  | .string | .int | .int64 | .int32 | .float64 | .float32 | .bool => true
  | _ => false

/-- The names under which `encode` stores the fields of a struct: the names of
the fields that are not excluded, in declaration order. -/
def storedNames (fields : List (StructField × RValue)) : List String :=
  (fields.filter (fun p => tagName p.1 != "-")).map (fun p => tagName p.1)

/-- The components of a value that `encode` reaches: `Component val w` holds
when `w` is `val`, the value a call of `encode` switches on, or is the value a
recursive call switches on, reached from `val` through fields that are not
excluded, slice elements and map values. -/
inductive Component : RValue → RValue → Prop
  | self (val : RValue) : Component val val
  | field {fields : List (StructField × RValue)} {field : StructField}
      {fieldValue w : RValue} :
      (field, fieldValue) ∈ fields → tagName field ≠ "-" →
      Component (operand (valueInterface fieldValue)) w → Component (.struct fields) w
  | elem {elems : List RValue} {elem w : RValue} :
      elem ∈ elems → Component (operand (valueInterface elem)) w →
      Component (.slice elems) w
  | entry {entries : List (MapKey × RValue)} {key : MapKey} {mapValue w : RValue} :
      (key, mapValue) ∈ entries → Component (operand (valueInterface mapValue)) w →
      Component (.map entries) w

mutual
/-- The value without the struct fields that are excluded by the tag `-`, at
every nesting depth. -/
def stripExcluded : RValue → RValue
  | .invalid => .invalid
  | .scalar s => .scalar s
  | .other k => .other k
  | .iface dyn => .iface (stripExcluded dyn)
  | .ptr elem => .ptr (stripExcluded elem)
  | .struct fields => .struct (stripFields fields)
  | .slice elems => .slice (stripElems elems)
  | .map entries => .map (stripEntries entries)
/-- The fields that are not excluded, each without excluded fields inside. -/
def stripFields : List (StructField × RValue) → List (StructField × RValue)
  | [] => []
  | (field, v) :: rest =>
      if tagName field = "-" then stripFields rest
      else (field, stripExcluded v) :: stripFields rest
/-- The elements, each without excluded fields inside. -/
def stripElems : List RValue → List RValue
  | [] => []
  | v :: rest => stripExcluded v :: stripElems rest
/-- The entries, each value without excluded fields inside. -/
def stripEntries : List (MapKey × RValue) → List (MapKey × RValue)
  | [] => []
  | (key, v) :: rest => (key, stripExcluded v) :: stripEntries rest
end

/-- The test on a node of a generic tree: a record has no field named `-`. -/
def noDashField : Value → Bool
  | .record fields => !(mapKeys fields).contains "-"
  | _ => true

/-! ## `Unmarshal`, header leaves, and the vocabulary of lines and indentation -/

/-- The function `unmarshal`: the pair of the error it returns (`none` for nil)
and the target after the call.  The body is the single statement `return nil`:
the bytes are not read and the target is not written. -/
def unmarshal (_data : List Nat) (v : RValue) : Option String × RValue :=
  (none, v)

/-- The function `Unmarshal`. -/
def Unmarshal (data : List Nat) (v : RValue) : Option String × RValue :=
  unmarshal data v

/-! ## Vocabulary for rows and headers of Flattened tables -/

/-- The leaf names of the Flattened header entry of one column: `none` for a
bare column name, the subkeys listed inside the braces otherwise. -/
def columnLeaves (sampleRow : List (String × Value)) (col : String) :
    Option (List String) :=
  match mapGet sampleRow col with
  | some (.record subMap) =>
      if canFlattenObject subMap then some (sortStrings (mapKeys subMap)) else none
  | _ => none

/-- The text of a header entry with the given leaf names. -/
def headerEntry (col : String) : Option (List String) → String
  | none => col
  | some subKeys => col ++ "\x7b" ++ stringsJoin subKeys "," ++ "\x7d"

/-- The leaf names of a Flattened header, in order: for every column the column
itself when its entry is bare, and its subkeys otherwise. -/
def headerLeaves (schema : List String) (sampleRow : List (String × Value)) :
    List (String × Option String) :=
  schema.flatMap fun col =>
    match columnLeaves sampleRow col with
    | none => [(col, none)]
    | some subKeys => subKeys.map fun subKey => (col, some subKey)

/-- The value of a row at a header leaf: at a bare column the text of a scalar
or of a sequence that is not tabular, `[nested]` for a record and `[table]` for
a tabular sequence; at a subkey the text of the nested record's value. -/
def leafValue (rowMap : List (String × Value)) : String × Option String → String
  | (col, none) =>
      match mapGet rowMap col with
      | some (.record _) => "[nested]"
      | some (.seq subSlice) => if isTabular subSlice then "[table]" else fmtV (.seq subSlice)
      | val => fmtAny val
  | (col, some subKey) =>
      match mapGet rowMap col with
      | some (.record subMap) => fmtAny (mapGet subMap subKey)
      | val => fmtAny val

/-- Whether the value of a row at a column has the shape of the first row's
value there: both scalars, both flattenable records with the same sorted key
list (the same key set, for maps), both records that are not flattenable, or
both sequences that agree on being tabular. -/
def sameShape : Option Value → Option Value → Bool
  | some (.scalar _), some (.scalar _) => true
  | some (.record a), some (.record b) =>
      if canFlattenObject a then
        canFlattenObject b && sortStrings (mapKeys a) == sortStrings (mapKeys b)
      else !canFlattenObject b
  | some (.seq a), some (.seq b) => isTabular a == isTabular b
  | _, _ => false

/-! ## Vocabulary for lines and characters of outputs -/

/-- The number of occurrences of a character in a text. -/
def charCount (c : Char) (s : String) : Nat :=
  textMeasure (fun x => if x = c then 1 else 0) s

/-- A node test: a scalar's text and a map's keys do not hold the character. -/
def noCharNode (c : Char) : Value → Bool
  | .scalar s => charCount c (fmtScalar s) == 0
  | .record m => m.all fun kv => charCount c kv.1 == 0
  | .seq _ => true

/-- The constant texts the formatter writes inside lines below the top level. -/
def formatConstants : List String :=
  [" ", ":", ": ", "|", ",", "\x7b", "\x7d", "\x7d:", "  > ", "> ", "  ", "[nested]", "[table]",
    "map[", "[", "]", "<nil>"]

/-- The text of the given lines written at indent level `L`: every line behind
`L` spaces and closed by a newline. -/
def linesAt (L : Nat) (lines : List String) : String :=
  concatAll (lines.map fun l => spaces L ++ l ++ "\n")

/-- The characters of a text with one space inserted at the start of every
line; the flag tells whether the next character starts a line. -/
def shiftChars : Bool → List Char → List Char
  | _, [] => []
  | atStart, c :: rest =>
      (if atStart then [' ', c] else [c]) ++ shiftChars (c == '\n') rest

/-- The text with one space inserted at the start of every line. -/
def shiftLines (s : String) : String :=
  String.mk (shiftChars true s.data)

/-- Number of spaces a text starts with. -/
def leadingSpaces (s : String) : Nat :=
  (s.data.takeWhile fun c => c == ' ').length


/-! ## The order on strings and `sortStrings` -/

theorem lexLE_total : ∀ a b : List Nat, lexLE a b = true ∨ lexLE b a = true
  | [], _ => Or.inl (by simp [lexLE])
  | _ :: _, [] => Or.inr (by simp [lexLE])
  | a :: as, b :: bs => by
      rcases Nat.lt_trichotomy a b with h | h | h
      · left; simp [lexLE, h]
      · subst h
        rcases lexLE_total as bs with h | h
        · left; simp [lexLE, h]
        · right; simp [lexLE, h]
      · right; simp [lexLE, h]

theorem lexLE_trans : ∀ a b c : List Nat, lexLE a b = true → lexLE b c = true → lexLE a c = true
  | [], _, _ => by intros; simp [lexLE]
  | _ :: _, [], _ => by intro h; simp [lexLE] at h
  | _ :: _, _ :: _, [] => by intro _ h; simp [lexLE] at h
  | a :: as, b :: bs, c :: cs => by
      intro h1 h2
      simp only [lexLE, Bool.or_eq_true, decide_eq_true_eq, Bool.and_eq_true, beq_iff_eq] at h1 h2 ⊢
      rcases h1 with h1 | ⟨rfl, h1⟩
      · rcases h2 with h2 | ⟨rfl, _⟩
        · left; omega
        · left; exact h1
      · rcases h2 with h2 | ⟨rfl, h2⟩
        · left; exact h2
        · right; exact ⟨rfl, lexLE_trans as bs cs h1 h2⟩

theorem lexLE_antisymm : ∀ a b : List Nat, lexLE a b = true → lexLE b a = true → a = b
  | [], [] => by intros; rfl
  | [], _ :: _ => by intro _ h; simp [lexLE] at h
  | _ :: _, [] => by intro h; simp [lexLE] at h
  | a :: as, b :: bs => by
      intro h1 h2
      simp only [lexLE, Bool.or_eq_true, decide_eq_true_eq, Bool.and_eq_true, beq_iff_eq] at h1 h2
      rcases h1 with h1 | ⟨rfl, h1⟩
      · rcases h2 with h2 | ⟨rfl, _⟩ <;> omega
      · rcases h2 with h2 | ⟨_, h2⟩
        · omega
        · rw [lexLE_antisymm as bs h1 h2]

theorem charToNat_injective : Function.Injective Char.toNat := by
  intro c d h
  apply Char.ext
  apply UInt32.ext
  exact h

theorem strLE_total (a b : String) : strLE a b = true ∨ strLE b a = true :=
  lexLE_total _ _

theorem strLE_trans (a b c : String) (h1 : strLE a b = true) (h2 : strLE b c = true) :
    strLE a c = true :=
  lexLE_trans _ _ _ h1 h2

theorem strLE_antisymm (a b : String) (h1 : strLE a b = true) (h2 : strLE b a = true) :
    a = b := by
  have h := lexLE_antisymm _ _ h1 h2
  have h' := List.map_injective_iff.mpr charToNat_injective h
  exact String.ext h'

theorem sortStrings_perm (l : List String) : (sortStrings l).Perm l :=
  List.perm_insertionSort _ l

theorem sortStrings_sorted (l : List String) :
    (sortStrings l).Sorted (fun a b => strLE a b = true) :=
  haveI : IsTotal String (fun a b => strLE a b = true) := ⟨strLE_total⟩
  haveI : IsTrans String (fun a b => strLE a b = true) := ⟨strLE_trans⟩
  List.sorted_insertionSort _ l

theorem mem_sortStrings {l : List String} {k : String} : k ∈ sortStrings l ↔ k ∈ l :=
  (sortStrings_perm l).mem_iff

theorem sortStrings_nodup {l : List String} : (sortStrings l).Nodup ↔ l.Nodup :=
  (sortStrings_perm l).nodup_iff

theorem sortStrings_length (l : List String) : (sortStrings l).length = l.length :=
  (sortStrings_perm l).length_eq

theorem sortStrings_eq_of_perm {l₁ l₂ : List String} (h : l₁.Perm l₂) :
    sortStrings l₁ = sortStrings l₂ :=
  haveI : IsAntisymm String (fun a b => strLE a b = true) := ⟨strLE_antisymm⟩
  List.eq_of_perm_of_sorted ((sortStrings_perm l₁).trans (h.trans (sortStrings_perm l₂).symm))
    (sortStrings_sorted l₁) (sortStrings_sorted l₂)


/-! ## `isTabular` -/

/-- With distinct keys on both sides, equal length and inclusion is equality of
the key sets. -/
theorem sameKeys_iff {a b : List String} (ha : a.Nodup) (hb : b.Nodup) :
    (a.length = b.length ∧ ∀ k, k ∈ a → k ∈ b) ↔ ∀ k, k ∈ a ↔ k ∈ b := by
  constructor
  · rintro ⟨hlen, hsub⟩
    have hp : a.Perm b :=
      (List.subperm_of_subset ha hsub).perm_of_length_le (le_of_eq hlen.symm)
    exact fun k => hp.mem_iff
  · intro h
    have hp : a.Perm b := (List.perm_ext_iff_of_nodup ha hb).mpr h
    exact ⟨hp.length_eq, fun k hk => (h k).mp hk⟩

theorem isTabular_cons_record (first : List (String × Value)) (rest : List Value) :
    isTabular (Value.record first :: rest) = true ↔
      ∀ item ∈ rest, ∃ m, item = Value.record m ∧
        (mapKeys m).length = (mapKeys first).length ∧ ∀ k, k ∈ mapKeys m → k ∈ mapKeys first := by
  simp only [isTabular, List.all_eq_true]
  constructor
  · intro h item hmem
    have := h item hmem
    cases item with
    | scalar s => simp at this
    | seq xs => simp at this
    | record m =>
        refine ⟨m, rfl, ?_⟩
        by_cases hlen : m.length = (mapKeys first).length
        · simpa [hlen, mapKeys] using this
        · simp [hlen] at this
  · intro h item hmem
    obtain ⟨m, rfl, hlen, hsub⟩ := h item hmem
    have hlen2 : m.length = (mapKeys first).length := by simpa [mapKeys] using hlen
    simpa [hlen2, mapKeys] using hsub

theorem isTabular_rows {data : List Value} (h : isTabular data = true) :
    ∀ row ∈ data, ∃ m, row = Value.record m := by
  cases data with
  | nil => simp [isTabular] at h
  | cons v rest =>
      cases v with
      | scalar s => simp [isTabular] at h
      | seq xs => simp [isTabular] at h
      | record first =>
          intro row hrow
          rcases List.mem_cons.mp hrow with rfl | hrow
          · exact ⟨first, rfl⟩
          · obtain ⟨m, hm, _⟩ := (isTabular_cons_record first rest).mp h row hrow
            exact ⟨m, hm⟩

theorem isTabular_head {data : List Value} (h : isTabular data = true) :
    ∃ first rest, data = Value.record first :: rest := by
  cases data with
  | nil => simp [isTabular] at h
  | cons v rest =>
      cases v with
      | scalar s => simp [isTabular] at h
      | seq xs => simp [isTabular] at h
      | record first => exact ⟨first, rest, rfl⟩

theorem isTabular_eq_of_keysOf : ∀ (s s' : List Value),
    s'.map keysOf = s.map keysOf → isTabular s' = isTabular s := by
  have key : ∀ s : List Value, isTabular s =
      (match s.map keysOf with
        | some fk :: rest => rest.all fun o =>
            match o with
            | some ck => if ck.length != fk.length then false else ck.all fun k => fk.contains k
            | none => false
        | _ => false) := by
    intro s
    cases s with
    | nil => rfl
    | cons v rest =>
        cases v with
        | scalar x => rfl
        | seq xs => rfl
        | record first =>
            simp only [isTabular, List.map_cons, keysOf]
            induction rest with
            | nil => rfl
            | cons item rest ih =>
                simp only [List.all_cons, List.map_cons]
                rw [ih]
                cases item <;> simp [keysOf, mapKeys]
  intro s s' h
  rw [key s, key s', h]

/-! ## Loops that write -/

theorem writeAll_congr {α : Type} {f g : α → Option String} {xs : List α}
    (h : ∀ x ∈ xs, f x = g x) : writeAll f xs = writeAll g xs := by
  induction xs with
  | nil => rfl
  | cons x xs ih =>
      simp only [writeAll]
      rw [h x (List.mem_cons_self _ _), ih (fun y hy => h y (List.mem_cons_of_mem _ hy))]

theorem writeAll_eq_some_iff {α : Type} (f : α → Option String) (xs : List α) (out : String) :
    writeAll f xs = some out ↔
      ∃ texts, List.Forall₂ (fun x t => f x = some t) xs texts ∧ out = concatAll texts := by
  induction xs generalizing out with
  | nil =>
      simp only [writeAll, Option.some.injEq, List.forall₂_nil_left_iff, exists_eq_left, concatAll]
      exact eq_comm
  | cons x xs ih =>
      simp only [writeAll]
      constructor
      · intro h
        cases hx : f x with
        | none => simp [hx] at h
        | some a =>
            cases hxs : writeAll f xs with
            | none => simp [hx, hxs] at h
            | some b =>
                simp only [hx, hxs, Option.some.injEq] at h
                obtain ⟨texts, hall, hb⟩ := (ih b).mp hxs
                exact ⟨a :: texts, List.Forall₂.cons hx hall, by rw [← h, hb]; rfl⟩
      · rintro ⟨texts, hall, rfl⟩
        cases hall with
        | cons hx hrest =>
            rw [hx, (ih _).mpr ⟨_, hrest, rfl⟩]
            rfl

theorem writeAll_some {α : Type} {f : α → Option String} {g : α → String} {xs : List α}
    (h : ∀ x ∈ xs, f x = some (g x)) : writeAll f xs = some (concatAll (xs.map g)) := by
  induction xs with
  | nil => rfl
  | cons x xs ih =>
      simp only [writeAll, List.map_cons, concatAll]
      rw [h x (List.mem_cons_self _ _), ih (fun y hy => h y (List.mem_cons_of_mem _ hy))]

theorem writeAll_isSome {α : Type} {f : α → Option String} {xs : List α}
    (h : ∀ x ∈ xs, (f x).isSome = true) : (writeAll f xs).isSome = true := by
  induction xs with
  | nil => rfl
  | cons x xs ih =>
      have hx := h x (List.mem_cons_self _ _)
      have hxs := ih (fun y hy => h y (List.mem_cons_of_mem _ hy))
      obtain ⟨a, ha⟩ := Option.isSome_iff_exists.mp hx
      obtain ⟨b, hb⟩ := Option.isSome_iff_exists.mp hxs
      simp [writeAll, ha, hb]

theorem writeAll_filter {α : Type} {f : α → Option String} (p : α → Bool) {xs : List α}
    (h : ∀ x ∈ xs, p x = false → f x = some "") :
    writeAll f xs = writeAll f (xs.filter p) := by
  induction xs with
  | nil => rfl
  | cons x xs ih =>
      have ih2 := ih (fun y hy => h y (List.mem_cons_of_mem _ hy))
      cases hp : p x with
      | true =>
          rw [List.filter_cons_of_pos (by simpa using hp)]
          simp only [writeAll, ih2]
      | false =>
          rw [List.filter_cons_of_neg (by simp [hp])]
          simp only [writeAll, h x (List.mem_cons_self _ _) hp, ih2]
          cases writeAll f (List.filter p xs) <;> simp

/-! ## Depth -/

theorem depth_pos (v : Value) : 1 ≤ v.depth := by
  cases v <;> simp [Value.depth]

theorem depth_mapGet {m : List (String × Value)} {key : String} {x : Value}
    (h : mapGet m key = some x) : x.depth ≤ depthFields m := by
  induction m with
  | nil => simp [mapGet] at h
  | cons kv rest ih =>
      obtain ⟨k, v⟩ := kv
      simp only [mapGet] at h
      simp only [depthFields]
      by_cases hk : k = key
      · simp only [hk, if_true, Option.some.injEq] at h
        subst h
        exact le_max_left _ _
      · simp only [hk, if_false] at h
        exact le_trans (ih h) (le_max_right _ _)

theorem depth_mem_items {items : List Value} {x : Value} (h : x ∈ items) :
    x.depth ≤ depthItems items := by
  induction items with
  | nil => simp at h
  | cons v rest ih =>
      simp only [depthItems]
      rcases List.mem_cons.mp h with rfl | h
      · exact le_max_left _ _
      · exact le_trans (ih h) (le_max_right _ _)

/-- A map found in a column of a row of `data` is strictly shallower than `data`. -/
theorem depth_cell_record {data : List Value} {m sub : List (String × Value)} {col : String}
    (hrow : Value.record m ∈ data) (hget : mapGet m col = some (Value.record sub)) :
    (Value.record sub).depth + 1 ≤ depthItems data := by
  have h1 := depth_mapGet hget
  have h2 := depth_mem_items hrow
  simp only [Value.depth] at h1 h2 ⊢
  omega

/-- A slice found in a column of a row of `data` is strictly shallower than `data`. -/
theorem depth_cell_seq {data : List Value} {m : List (String × Value)} {sub : List Value}
    {col : String} (hrow : Value.record m ∈ data) (hget : mapGet m col = some (Value.seq sub)) :
    depthItems sub + 2 ≤ depthItems data := by
  have h1 := depth_mapGet hget
  have h2 := depth_mem_items hrow
  simp only [Value.depth] at h1 h2
  omega


/-! ## The recursive calls of the table writers -/

theorem writeTabularArrayNormal_congr {wv wv2 : Value → Nat → Option String}
    {wt wt2 : String → String → List Value → Nat → Option String}
    {indentStr key : String} {data : List Value} {schema : List String} {L : Nat}
    (hv : ∀ m col sub, Value.record m ∈ data → mapGet m col = some (Value.record sub) →
      wv (Value.record sub) (L + 2) = wv2 (Value.record sub) (L + 2))
    (ht : ∀ m col sub, Value.record m ∈ data → mapGet m col = some (Value.seq sub) →
      isTabular sub = true → wt "" col sub (L + 2) = wt2 "" col sub (L + 2)) :
    writeTabularArrayNormal wv wt indentStr key data schema L =
      writeTabularArrayNormal wv2 wt2 indentStr key data schema L := by
  unfold writeTabularArrayNormal
  simp only
  congr 1
  apply writeAll_congr
  intro row hrow
  cases row with
  | scalar s => rfl
  | seq xs => rfl
  | record m =>
      simp only
      congr 1
      apply writeAll_congr
      intro col _
      cases hget : mapGet m col with
      | none => rfl
      | some x =>
          cases x with
          | scalar s => rfl
          | record sub => simp only [hv m col sub hrow hget]
          | seq sub =>
              by_cases htab : isTabular sub = true
              · simp only [htab, if_true, ht m col sub hrow hget htab]
              · simp [htab]

theorem writeTabularArrayNormalized_congr {wv wv2 : Value → Nat → Option String}
    {wt wt2 : String → String → List Value → Nat → Option String}
    {indentStr key : String} {data : List Value} {schema : List String} {L : Nat}
    (hv : ∀ m col sub, Value.record m ∈ data → mapGet m col = some (Value.record sub) →
      wv (Value.record sub) (L + 2) = wv2 (Value.record sub) (L + 2))
    (ht : ∀ m col sub, Value.record m ∈ data → mapGet m col = some (Value.seq sub) →
      isTabular sub = true → wt "" col sub (L + 2) = wt2 "" col sub (L + 2)) :
    writeTabularArrayNormalized wv wt indentStr key data schema L =
      writeTabularArrayNormalized wv2 wt2 indentStr key data schema L := by
  unfold writeTabularArrayNormalized
  cases data with
  | nil => rfl
  | cons first rest =>
      cases first with
      | scalar s => rfl
      | seq xs => rfl
      | record firstRow =>
          simp only
          congr 1
          apply writeAll_congr
          intro row hrow
          cases row with
          | scalar s => rfl
          | seq xs => rfl
          | record m =>
              simp only
              congr 1
              apply writeAll_congr
              intro col _
              cases hget : mapGet m col with
              | none => rfl
              | some x =>
                  cases x with
                  | scalar s => rfl
                  | record sub =>
                      by_cases hflat : canFlattenObject sub = true
                      · simp only [hflat, if_true]
                      · simp only [hflat, if_false, hv m col sub hrow hget]
                  | seq sub =>
                      by_cases htab : isTabular sub = true
                      · simp only [htab, if_true, ht m col sub hrow hget htab]
                      · simp [htab]

/-- Fuel beyond the depth of the value does not change what is written. -/
theorem fuel_irrel (mode : formatMode) : ∀ fuel : Nat,
    (∀ (v : Value) (L fuel2 : Nat), v.depth ≤ fuel → v.depth ≤ fuel2 →
      writeValue mode fuel v L = writeValue mode fuel2 v L) ∧
    (∀ (indentStr key : String) (data : List Value) (L fuel2 : Nat),
      isTabular data = true → depthItems data ≤ fuel → depthItems data ≤ fuel2 →
      writeTabularArray mode fuel indentStr key data L =
        writeTabularArray mode fuel2 indentStr key data L) := by
  intro fuel
  induction fuel with
  | zero =>
      constructor
      · intro v L fuel2 h
        have := depth_pos v
        omega
      · intro indentStr key data L fuel2 htab h
        obtain ⟨first, rest, rfl⟩ := isTabular_head htab
        have := depth_pos (Value.record first)
        simp only [depthItems] at h
        omega
  | succ fuel ih =>
      obtain ⟨ihv, iht⟩ := ih
      constructor
      · intro v L fuel2 h1 h2
        have hpos := depth_pos v
        obtain ⟨fuel3, rfl⟩ : ∃ k, fuel2 = k + 1 := ⟨fuel2 - 1, by omega⟩
        cases v with
        | scalar s => simp only [writeValue]
        | seq items =>
            simp only [Value.depth] at h1 h2
            simp only [writeValue]
            by_cases htab : isTabular items = true
            · simp only [htab, if_true]
              exact iht _ _ _ _ _ htab (by omega) (by omega)
            · simp [htab]
        | record m =>
            simp only [Value.depth] at h1 h2
            simp only [writeValue]
            apply writeAll_congr
            intro key _
            cases hget : mapGet m key with
            | none => rfl
            | some x =>
                have hd := depth_mapGet hget
                cases x with
                | scalar s => rfl
                | record sub =>
                    simp only
                    rw [ihv _ _ fuel3 (by omega) (by omega)]
                | seq sub =>
                    simp only [Value.depth] at hd
                    by_cases htab : isTabular sub = true
                    · simp only [htab, if_true]
                      exact iht _ _ _ _ _ htab (by omega) (by omega)
                    · simp [htab]
      · intro indentStr key data L fuel2 htab h1 h2
        obtain ⟨first, rest, rfl⟩ := isTabular_head htab
        have hpos : 1 ≤ depthItems (Value.record first :: rest) :=
          le_trans (depth_pos _) (depth_mem_items (List.mem_cons_self _ _))
        obtain ⟨fuel3, rfl⟩ : ∃ k, fuel2 = k + 1 := ⟨fuel2 - 1, by omega⟩
        simp only [writeTabularArray]
        cases mode with
        | modeFlattened => rfl
        | modeNormal =>
            simp only
            apply writeTabularArrayNormal_congr
            · intro m col sub hrow hget
              have := depth_cell_record hrow hget
              exact ihv _ _ _ (by omega) (by omega)
            · intro m col sub hrow hget hsub
              have := depth_cell_seq hrow hget
              exact iht _ _ _ _ _ hsub (by omega) (by omega)
        | modeNormalized =>
            simp only
            apply writeTabularArrayNormalized_congr
            · intro m col sub hrow hget
              have := depth_cell_record hrow hget
              exact ihv _ _ _ (by omega) (by omega)
            · intro m col sub hrow hget hsub
              have := depth_cell_seq hrow hget
              exact iht _ _ _ _ _ hsub (by omega) (by omega)

theorem writeValue_fuel_irrel (mode : formatMode) (v : Value) (L : Nat) {fuel : Nat}
    (h : v.depth ≤ fuel) : writeValue mode fuel v L = writeValue mode v.depth v L :=
  (fuel_irrel mode fuel).1 v L v.depth h (le_refl _)

theorem writeTabularArray_fuel_irrel (mode : formatMode) (indentStr key : String)
    (data : List Value) (L : Nat) {fuel : Nat} (htab : isTabular data = true)
    (h : depthItems data ≤ fuel) :
    writeTabularArray mode fuel indentStr key data L =
      writeTabularArray mode (depthItems data) indentStr key data L :=
  (fuel_irrel mode fuel).2 indentStr key data L (depthItems data) htab h (le_refl _)


/-! ## Every write completes -/

theorem writeTabularArrayNormal_isSome {wv : Value → Nat → Option String}
    {wt : String → String → List Value → Nat → Option String}
    {indentStr key : String} {data : List Value} {schema : List String} {L : Nat}
    (hrows : ∀ row ∈ data, ∃ m, row = Value.record m)
    (hv : ∀ m col sub, Value.record m ∈ data → mapGet m col = some (Value.record sub) →
      (wv (Value.record sub) (L + 2)).isSome = true)
    (ht : ∀ m col sub, Value.record m ∈ data → mapGet m col = some (Value.seq sub) →
      isTabular sub = true → (wt "" col sub (L + 2)).isSome = true) :
    (writeTabularArrayNormal wv wt indentStr key data schema L).isSome = true := by
  unfold writeTabularArrayNormal
  simp only [Option.isSome_map']
  apply writeAll_isSome
  intro row hrow
  obtain ⟨m, rfl⟩ := hrows row hrow
  simp only [Option.isSome_map']
  apply writeAll_isSome
  intro col _
  cases hget : mapGet m col with
  | none => rfl
  | some x =>
      cases x with
      | scalar s => rfl
      | record sub => simpa using hv m col sub hrow hget
      | seq sub =>
          by_cases htab : isTabular sub = true
          · simpa [htab] using ht m col sub hrow hget htab
          · simp [htab]

theorem writeTabularArrayNormalized_isSome {wv : Value → Nat → Option String}
    {wt : String → String → List Value → Nat → Option String}
    {indentStr key : String} {data : List Value} {schema : List String} {L : Nat}
    (htab : isTabular data = true)
    (hv : ∀ m col sub, Value.record m ∈ data → mapGet m col = some (Value.record sub) →
      (wv (Value.record sub) (L + 2)).isSome = true)
    (ht : ∀ m col sub, Value.record m ∈ data → mapGet m col = some (Value.seq sub) →
      isTabular sub = true → (wt "" col sub (L + 2)).isSome = true) :
    (writeTabularArrayNormalized wv wt indentStr key data schema L).isSome = true := by
  have hrows := isTabular_rows htab
  obtain ⟨first, rest, rfl⟩ := isTabular_head htab
  unfold writeTabularArrayNormalized
  simp only [Option.isSome_map']
  apply writeAll_isSome
  intro row hrow
  obtain ⟨m, rfl⟩ := hrows row hrow
  simp only [Option.isSome_map']
  apply writeAll_isSome
  intro col _
  cases hget : mapGet m col with
  | none => rfl
  | some x =>
      cases x with
      | scalar s => rfl
      | record sub =>
          by_cases hflat : canFlattenObject sub = true
          · simp [hflat]
          · simpa [hflat] using hv m col sub hrow hget
      | seq sub =>
          by_cases hsub : isTabular sub = true
          · simpa [hsub] using ht m col sub hrow hget hsub
          · simp [hsub]

theorem writeTabularArrayFlattened_isSome {indentStr key : String} {data : List Value}
    {schema : List String} {L : Nat} (htab : isTabular data = true) :
    (writeTabularArrayFlattened indentStr key data schema L).isSome = true := by
  have hrows := isTabular_rows htab
  obtain ⟨first, rest, rfl⟩ := isTabular_head htab
  unfold writeTabularArrayFlattened
  simp only [Option.isSome_map']
  apply writeAll_isSome
  intro row hrow
  obtain ⟨m, rfl⟩ := hrows row hrow
  rfl

/-- With fuel at least the depth, every write completes: no type assertion
fails and the fuel does not run out. -/
theorem writes_isSome (mode : formatMode) : ∀ fuel : Nat,
    (∀ (v : Value) (L : Nat), v.depth ≤ fuel → (writeValue mode fuel v L).isSome = true) ∧
    (∀ (indentStr key : String) (data : List Value) (L : Nat),
      isTabular data = true → depthItems data ≤ fuel →
      (writeTabularArray mode fuel indentStr key data L).isSome = true) := by
  intro fuel
  induction fuel with
  | zero =>
      constructor
      · intro v L h
        have := depth_pos v
        omega
      · intro indentStr key data L htab h
        obtain ⟨first, rest, rfl⟩ := isTabular_head htab
        have := le_trans (depth_pos _)
          (depth_mem_items (List.mem_cons_self (Value.record first) rest))
        omega
  | succ fuel ih =>
      obtain ⟨ihv, iht⟩ := ih
      constructor
      · intro v L h1
        cases v with
        | scalar s => simp only [writeValue, Option.isSome_some]
        | seq items =>
            simp only [Value.depth] at h1
            simp only [writeValue]
            by_cases htab : isTabular items = true
            · simp only [htab, if_true]
              exact iht _ _ _ _ htab (by omega)
            · simp only [htab]
              apply writeAll_isSome
              intro item _
              rfl
        | record m =>
            simp only [Value.depth] at h1
            simp only [writeValue]
            apply writeAll_isSome
            intro key _
            cases hget : mapGet m key with
            | none => rfl
            | some x =>
                have hd := depth_mapGet hget
                cases x with
                | scalar s => rfl
                | record sub =>
                    simp only [Option.isSome_map']
                    exact ihv _ _ (by omega)
                | seq sub =>
                    simp only [Value.depth] at hd
                    by_cases htab : isTabular sub = true
                    · simp only [htab, if_true]
                      exact iht _ _ _ _ htab (by omega)
                    · simp [htab]
      · intro indentStr key data L htab h1
        have hrows := isTabular_rows htab
        obtain ⟨first, rest, rfl⟩ := isTabular_head htab
        simp only [writeTabularArray]
        cases mode with
        | modeFlattened => exact writeTabularArrayFlattened_isSome htab
        | modeNormal =>
            simp only
            apply writeTabularArrayNormal_isSome hrows
            · intro m col sub hrow hget
              have := depth_cell_record hrow hget
              exact ihv _ _ (by omega)
            · intro m col sub hrow hget hsub
              have := depth_cell_seq hrow hget
              exact iht _ _ _ _ hsub (by omega)
        | modeNormalized =>
            simp only
            apply writeTabularArrayNormalized_isSome htab
            · intro m col sub hrow hget
              have := depth_cell_record hrow hget
              exact ihv _ _ (by omega)
            · intro m col sub hrow hget hsub
              have := depth_cell_seq hrow hget
              exact iht _ _ _ _ hsub (by omega)

theorem writeValue_isSome (mode : formatMode) (v : Value) (L : Nat) {fuel : Nat}
    (h : v.depth ≤ fuel) : (writeValue mode fuel v L).isSome = true :=
  (writes_isSome mode fuel).1 v L h

theorem writeTabularArray_isSome (mode : formatMode) (indentStr key : String)
    (data : List Value) (L : Nat) {fuel : Nat} (htab : isTabular data = true)
    (h : depthItems data ≤ fuel) :
    (writeTabularArray mode fuel indentStr key data L).isSome = true :=
  (writes_isSome mode fuel).2 indentStr key data L htab h

/-! ## Map lookups -/

theorem mapGet_mem {m : List (String × Value)} {key : String} {x : Value}
    (h : mapGet m key = some x) : (key, x) ∈ m := by
  induction m with
  | nil => simp [mapGet] at h
  | cons kv rest ih =>
      obtain ⟨k, v⟩ := kv
      simp only [mapGet] at h
      by_cases hk : k = key
      · simp only [hk, if_true, Option.some.injEq] at h
        subst h; subst hk
        exact List.mem_cons_self _ _
      · simp only [hk, if_false] at h
        exact List.mem_cons_of_mem _ (ih h)

theorem mapGet_of_mem_keys {m : List (String × Value)} {key : String}
    (h : key ∈ mapKeys m) : ∃ x, mapGet m key = some x := by
  induction m with
  | nil => simp [mapKeys] at h
  | cons kv rest ih =>
      obtain ⟨k, v⟩ := kv
      simp only [mapGet]
      by_cases hk : k = key
      · exact ⟨v, by simp [hk]⟩
      · simp only [hk, if_false]
        apply ih
        simp only [mapKeys, List.map_cons, List.mem_cons] at h
        rcases h with h | h
        · exact absurd h.symm hk
        · exact h

/-- A map all of whose values are scalars has no nested column. -/
theorem isNested_of_scalars {m : List (String × Value)}
    (h : ∀ kv ∈ m, kv.2.isScalar = true) (col : String) :
    isNested (mapGet m col) = false := by
  cases hget : mapGet m col with
  | none => rfl
  | some x =>
      have hs := h _ (mapGet_mem hget)
      cases x with
      | scalar s => rfl
      | record sub => simp [Value.isScalar] at hs
      | seq sub => simp [Value.isScalar] at hs

/-! ## The loops that collect values -/

theorem foldl_snoc_map {α β : Type} (g : α → β) (xs : List α) (init : List β) :
    xs.foldl (fun acc x => acc ++ [g x]) init = init ++ xs.map g := by
  induction xs generalizing init with
  | nil => simp
  | cons x xs ih => simp [ih]

theorem foldl_append_flatMap {α β : Type} (step : List β → α → List β) (f : α → List β)
    (h : ∀ acc x, step acc x = acc ++ f x) (xs : List α) (init : List β) :
    xs.foldl step init = init ++ xs.flatMap f := by
  induction xs generalizing init with
  | nil => simp
  | cons x xs ih => simp [ih, h]

/-- The `values` loop of the Normal and Normalized writers keeps the columns
that are not nested, in schema order. -/
theorem rowValues_eq (schema : List String) (m : List (String × Value)) :
    rowValues schema m =
      (schema.filter fun col => !isNested (mapGet m col)).map fun col => fmtAny (mapGet m col) := by
  unfold rowValues
  rw [foldl_append_flatMap _
    (fun col => if isNested (mapGet m col) then [] else [fmtAny (mapGet m col)])]
  · induction schema with
    | nil => rfl
    | cons col rest ih =>
        simp only [List.nil_append] at ih
        cases hn : isNested (mapGet m col) <;> simp [hn, ih]
  · intro acc col
    cases hget : mapGet m col with
    | none => simp [isNested]
    | some x =>
        cases x with
        | scalar s => simp [isNested]
        | record sub => simp [isNested]
        | seq sub =>
            by_cases htab : isTabular sub = true
            · simp [isNested, htab]
            · simp [isNested, htab, fmtAny]

theorem rowValues_of_scalars (schema : List String) {m : List (String × Value)}
    (h : ∀ kv ∈ m, kv.2.isScalar = true) :
    rowValues schema m = schema.map fun col => fmtAny (mapGet m col) := by
  rw [rowValues_eq]
  congr 1
  apply List.filter_eq_self.mpr
  intro col _
  simp [isNested_of_scalars h col]

/-- In a tabular slice whose maps have distinct keys, every row has the keys of
the first row. -/
theorem isTabular_keys {first : List (String × Value)} {rest : List Value}
    (htab : isTabular (Value.record first :: rest) = true)
    {m : List (String × Value)} (hm : Value.record m ∈ Value.record first :: rest)
    (huniq : (mapKeys m).Nodup) : ∀ k, k ∈ mapKeys m ↔ k ∈ mapKeys first := by
  rcases List.mem_cons.mp hm with heq | hm2
  · cases heq; exact fun k => Iff.rfl
  · obtain ⟨m2, hm2eq, hlen, hsub⟩ := (isTabular_cons_record first rest).mp htab _ hm2
    cases hm2eq
    have hp : (mapKeys m).Perm (mapKeys first) :=
      (List.subperm_of_subset huniq hsub).perm_of_length_le (le_of_eq hlen.symm)
    exact fun k => hp.mem_iff

theorem writeAll_map {α β : Type} (f : β → Option String) (g : α → β) (xs : List α) :
    writeAll f (xs.map g) = writeAll (fun x => f (g x)) xs := by
  induction xs with
  | nil => rfl
  | cons x xs ih => simp only [List.map_cons, writeAll, ih]

theorem writeAll_nothing {α : Type} {f : α → Option String} {xs : List α}
    (h : ∀ x ∈ xs, f x = some "") : writeAll f xs = some "" := by
  rw [writeAll_filter (fun _ => false) (fun x hx _ => h x hx)]
  simp [writeAll]

/-- In Normal mode a table whose rows hold only scalars is the header and one
line per row, whatever the recursive calls would do. -/
theorem writeTabularArrayNormal_of_scalars (wv : Value → Nat → Option String)
    (wt : String → String → List Value → Nat → Option String)
    (indentStr key : String) (rows : List (List (String × Value))) (schema : List String)
    (L : Nat) (hscalar : ∀ m ∈ rows, ∀ kv ∈ m, kv.2.isScalar = true) :
    writeTabularArrayNormal wv wt indentStr key (rows.map Value.record) schema L =
      some (indentStr ++ key ++ "\x7b" ++ stringsJoin schema "|" ++ "\x7d:\n" ++
        concatAll (rows.map fun m =>
          spaces (L + 1) ++ stringsJoin (schema.map fun col => fmtAny (mapGet m col)) "|"
            ++ "\n")) := by
  unfold writeTabularArrayNormal
  simp only [writeAll_map]
  rw [writeAll_some (g := fun m =>
    spaces (L + 1) ++ stringsJoin (schema.map fun col => fmtAny (mapGet m col)) "|" ++ "\n")]
  · rfl
  · intro m hm
    rw [writeAll_nothing, rowValues_of_scalars schema (hscalar m hm)]
    · simp
    · intro col _
      have hn := isNested_of_scalars (hscalar m hm) col
      cases hget : mapGet m col with
      | none => rfl
      | some x =>
          cases x with
          | scalar s => rfl
          | record sub => simp [hget, isNested] at hn
          | seq sub =>
              simp only [hget, isNested] at hn
              simp [hn]

/-! ## The shape of a written table -/

/-- Whatever the mode, a written table starts with its header line: the given
indentation, the field name, and a column list between braces. -/
theorem writeTabularArray_shape {mode : formatMode} {fuel : Nat} {indentStr key : String}
    {data : List Value} {L : Nat} {text : String}
    (h : writeTabularArray mode fuel indentStr key data L = some text) :
    ∃ cols rows, text = indentStr ++ key ++ "\x7b" ++ cols ++ "\x7d:\n" ++ rows := by
  cases fuel with
  | zero => simp [writeTabularArray] at h
  | succ fuel =>
      cases data with
      | nil => simp [writeTabularArray] at h
      | cons first rest =>
          cases first with
          | scalar s => simp [writeTabularArray] at h
          | seq xs => simp [writeTabularArray] at h
          | record firstRow =>
              cases mode with
              | modeNormal =>
                  simp only [writeTabularArray, writeTabularArrayNormal, Option.map_eq_some'] at h
                  obtain ⟨rows, _, rfl⟩ := h
                  exact ⟨_, rows, rfl⟩
              | modeFlattened =>
                  simp only [writeTabularArray, writeTabularArrayFlattened,
                    Option.map_eq_some'] at h
                  obtain ⟨rows, _, rfl⟩ := h
                  exact ⟨_, rows, rfl⟩
              | modeNormalized =>
                  simp only [writeTabularArray, writeTabularArrayNormalized,
                    Option.map_eq_some'] at h
                  obtain ⟨rows, _, rfl⟩ := h
                  exact ⟨_, rows, rfl⟩

theorem forall₂_mem_left {α β : Type} {R : α → β → Prop} {xs : List α} {ys : List β}
    (h : List.Forall₂ R xs ys) : List.Forall₂ (fun x y => x ∈ xs ∧ R x y) xs ys := by
  induction h with
  | nil => exact List.Forall₂.nil
  | cons hxy _ ih =>
      exact List.Forall₂.cons ⟨List.mem_cons_self _ _, hxy⟩
        (ih.imp fun x y hx => ⟨List.mem_cons_of_mem _ hx.1, hx.2⟩)

/-! ## The header entries of the Flattened and Normalized modes -/

theorem buildFlattenedSchema_eq (schema : List String) (sampleRow : List (String × Value)) :
    buildFlattenedSchema schema sampleRow =
      stringsJoin (schema.map fun col =>
        match mapGet sampleRow col with
        | some (.record subMap) =>
            if canFlattenObject subMap then
              col ++ "\x7b" ++ stringsJoin (sortStrings (mapKeys subMap)) "," ++ "\x7d"
            else col
        | _ => col) "|" := by
  unfold buildFlattenedSchema
  simp only
  rw [foldl_append_flatMap _ (fun col => [match mapGet sampleRow col with
        | some (.record subMap) =>
            if canFlattenObject subMap then
              col ++ "\x7b" ++ stringsJoin (sortStrings (mapKeys subMap)) "," ++ "\x7d"
            else col
        | _ => col])]
  · congr 1
    induction schema with
    | nil => rfl
    | cons col rest ih => simpa using ih
  · intro acc col
    cases hget : mapGet sampleRow col with
    | none => rfl
    | some x =>
        cases x with
        | scalar s => rfl
        | record sub => by_cases hflat : canFlattenObject sub = true <;> simp [hflat]
        | seq sub => simp

theorem buildNormalizedSchema_eq (schema : List String) (sampleRow : List (String × Value)) :
    buildNormalizedSchema schema sampleRow =
      stringsJoin (schema.map fun col =>
        match mapGet sampleRow col with
        | some (.record subMap) =>
            if canFlattenObject subMap then
              col ++ "\x7b" ++ stringsJoin (sortStrings (mapKeys subMap)) "|" ++ "\x7d"
            else col
        | _ => col) "|" := by
  unfold buildNormalizedSchema
  simp only
  rw [foldl_append_flatMap _ (fun col => [match mapGet sampleRow col with
        | some (.record subMap) =>
            if canFlattenObject subMap then
              col ++ "\x7b" ++ stringsJoin (sortStrings (mapKeys subMap)) "|" ++ "\x7d"
            else col
        | _ => col])]
  · congr 1
    induction schema with
    | nil => rfl
    | cons col rest ih => simpa using ih
  · intro acc col
    cases hget : mapGet sampleRow col with
    | none => rfl
    | some x =>
        cases x with
        | scalar s => rfl
        | record sub => by_cases hflat : canFlattenObject sub = true <;> simp [hflat]
        | seq sub => simp

/-! ## The values of a Flattened row -/

/-- The loop of `extractFlattenedValues` appends, column by column, the values
its body produces for the column. -/
theorem extractFlattenedValues_eq (schema : List String) (m : List (String × Value)) :
    extractFlattenedValues schema m =
      schema.flatMap fun col =>
        match mapGet m col with
        | some (.record subMap) =>
            if canFlattenObject subMap then
              (sortStrings (mapKeys subMap)).map fun subKey => fmtAny (mapGet subMap subKey)
            else ["[nested]"]
        | some (.seq subSlice) =>
            if isTabular subSlice then ["[table]"] else [fmtV (.seq subSlice)]
        | val => [fmtAny val] := by
  unfold extractFlattenedValues
  rw [foldl_append_flatMap _ (fun col =>
        match mapGet m col with
        | some (.record subMap) =>
            if canFlattenObject subMap then
              (sortStrings (mapKeys subMap)).map fun subKey => fmtAny (mapGet subMap subKey)
            else ["[nested]"]
        | some (.seq subSlice) =>
            if isTabular subSlice then ["[table]"] else [fmtV (.seq subSlice)]
        | val => [fmtAny val])]
  · simp
  · intro acc col
    cases hget : mapGet m col with
    | none => rfl
    | some x =>
        cases x with
        | scalar s => rfl
        | record sub =>
            by_cases hflat : canFlattenObject sub = true
            · simp only [hflat, if_true, foldl_snoc_map]
            · simp [hflat]
        | seq sub => by_cases htab : isTabular sub = true <;> simp [htab]

theorem extractFlattenedValues_append (s1 s2 : List String) (m : List (String × Value)) :
    extractFlattenedValues (s1 ++ s2) m =
      extractFlattenedValues s1 m ++ extractFlattenedValues s2 m := by
  simp only [extractFlattenedValues_eq, List.flatMap_append]

theorem extractFlattenedValues_flattenable {m sub : List (String × Value)} {col : String}
    (hget : mapGet m col = some (Value.record sub)) (hflat : canFlattenObject sub = true) :
    extractFlattenedValues [col] m =
      (sortStrings (mapKeys sub)).map fun subKey => fmtAny (mapGet sub subKey) := by
  simp [extractFlattenedValues_eq, hget, hflat]

theorem extractFlattenedValues_plain {m : List (String × Value)} {col : String}
    (hn : isNested (mapGet m col) = false) :
    extractFlattenedValues [col] m = [fmtAny (mapGet m col)] := by
  cases hget : mapGet m col with
  | none => simp [extractFlattenedValues_eq, hget]
  | some x =>
      cases x with
      | scalar s => simp [extractFlattenedValues_eq, hget]
      | record sub => simp [hget, isNested] at hn
      | seq sub =>
          have hsub : isTabular sub = false := by simpa [hget, isNested] using hn
          simp [extractFlattenedValues_eq, hget, hsub, fmtAny]

/-- Every value of a flattenable object is a scalar. -/
theorem canFlattenObject_scalar {sub : List (String × Value)}
    (hflat : canFlattenObject sub = true) {k : String} (hk : k ∈ mapKeys sub) :
    ∃ s, mapGet sub k = some (Value.scalar s) := by
  obtain ⟨x, hx⟩ := mapGet_of_mem_keys hk
  have hmem := mapGet_mem hx
  simp only [canFlattenObject, List.all_eq_true] at hflat
  have := hflat _ hmem
  cases x with
  | scalar s => exact ⟨s, hx⟩
  | record r => simp at this
  | seq r => simp at this

theorem writeTabularArrayFlattened_rows (indentStr key : String)
    (first : List (String × Value)) (rest : List (List (String × Value)))
    (schema : List String) (L : Nat) :
    writeTabularArrayFlattened indentStr key ((first :: rest).map Value.record) schema L =
      some (indentStr ++ key ++ "\x7b" ++ buildFlattenedSchema schema first ++ "\x7d:\n" ++
        concatAll ((first :: rest).map fun m =>
          spaces (L + 1) ++ stringsJoin (extractFlattenedValues schema m) "|" ++ "\n")) := by
  simp only [List.map_cons, writeTabularArrayFlattened]
  rw [← List.map_cons, writeAll_map, writeAll_some (g := fun m =>
    spaces (L + 1) ++ stringsJoin (extractFlattenedValues schema m) "|" ++ "\n")]
  · rfl
  · intro m _
    rfl

/-! ## Measures of texts -/

theorem textMeasure_append (w : Char → Nat) (a b : String) :
    textMeasure w (a ++ b) = textMeasure w a + textMeasure w b := by
  simp [textMeasure, String.data_append]

theorem textMeasure_empty (w : Char → Nat) : textMeasure w "" = 0 := rfl

theorem textMeasure_concatAll (w : Char → Nat) (xs : List String) :
    textMeasure w (concatAll xs) = (xs.map (textMeasure w)).sum := by
  induction xs with
  | nil => rfl
  | cons x xs ih => simp [concatAll, textMeasure_append, ih]

theorem textMeasure_intercalate_go (w : Char → Nat) (sep : String) (xs : List String)
    (acc : String) :
    textMeasure w (String.intercalate.go acc sep xs) =
      textMeasure w acc + xs.length * textMeasure w sep + (xs.map (textMeasure w)).sum := by
  induction xs generalizing acc with
  | nil => simp [String.intercalate.go]
  | cons x xs ih =>
      simp only [String.intercalate.go, ih, textMeasure_append, List.length_cons, List.map_cons,
        List.sum_cons]
      ring

theorem textMeasure_stringsJoin (w : Char → Nat) (xs : List String) (sep : String) :
    textMeasure w (stringsJoin xs sep) =
      (xs.map (textMeasure w)).sum + (xs.length - 1) * textMeasure w sep := by
  cases xs with
  | nil => simp [stringsJoin, String.intercalate, textMeasure]
  | cons x xs =>
      simp only [stringsJoin, String.intercalate, textMeasure_intercalate_go, List.map_cons,
        List.sum_cons, List.length_cons, Nat.add_sub_cancel]
      ring

theorem textMeasure_spaces (w : Char → Nat) (n : Nat) :
    textMeasure w (spaces n) = n * w ' ' := by
  simp [textMeasure, spaces]

theorem countNewlines_append (a b : String) :
    countNewlines (a ++ b) = countNewlines a + countNewlines b :=
  textMeasure_append _ a b

theorem countNewlines_concatAll (xs : List String) :
    countNewlines (concatAll xs) = (xs.map countNewlines).sum :=
  textMeasure_concatAll _ xs

theorem countNewlines_stringsJoin (xs : List String) (sep : String)
    (hsep : countNewlines sep = 0) :
    countNewlines (stringsJoin xs sep) = (xs.map countNewlines).sum := by
  have h := textMeasure_stringsJoin (fun c => if c = '\n' then 1 else 0) xs sep
  have hsep2 : textMeasure (fun c => if c = '\n' then 1 else 0) sep = 0 := hsep
  rw [hsep2, Nat.mul_zero, Nat.add_zero] at h
  exact h

theorem countNewlines_spaces (n : Nat) : countNewlines (spaces n) = 0 := by
  simp [countNewlines, textMeasure_spaces]

theorem byteLen_append (a b : String) : byteLen (a ++ b) = byteLen a + byteLen b :=
  textMeasure_append _ a b

theorem byteLen_spaces (n : Nat) : byteLen (spaces n) = n := by
  have h : Char.utf8Size ' ' = 1 := by decide
  simp [byteLen, textMeasure_spaces, h]

theorem extractFlattenedValues_nested {m sub : List (String × Value)} {col : String}
    (hget : mapGet m col = some (Value.record sub)) (hflat : canFlattenObject sub = false) :
    extractFlattenedValues [col] m = ["[nested]"] := by
  simp [extractFlattenedValues_eq, hget, hflat]

theorem extractFlattenedValues_table {m : List (String × Value)} {sub : List Value}
    {col : String} (hget : mapGet m col = some (Value.seq sub)) (htab : isTabular sub = true) :
    extractFlattenedValues [col] m = ["[table]"] := by
  simp [extractFlattenedValues_eq, hget, htab]

/-! ## The rows of a Normalized table -/

/-- A Normalized table is its header followed by one text per row; a row's
text is the line of its plain columns followed by one block per nested column,
and a block is of one of three kinds. -/
theorem writeTabularArrayNormalized_decomp (fuel L : Nat) (indentStr key : String)
    (data : List Value) (htab : isTabular data = true) (hfuel : depthItems data ≤ fuel) :
    ∃ first rest rowTexts, data = Value.record first :: rest ∧
      writeTabularArray .modeNormalized fuel indentStr key data L =
        some (indentStr ++ key ++ "\x7b" ++
          buildNormalizedSchema (sortStrings (mapKeys first)) first ++ "\x7d:\n" ++
          concatAll rowTexts) ∧
      List.Forall₂ (fun row text => ∃ m blocks, row = Value.record m ∧ row ∈ data ∧
        text = spaces (L + 1) ++
          stringsJoin (rowValues (sortStrings (mapKeys first)) m) "|" ++ "\n" ++
          concatAll blocks ∧
        List.Forall₂ (fun col block =>
          (∃ sub, mapGet m col = some (Value.record sub) ∧ canFlattenObject sub = true ∧
            block = spaces (L + 1) ++ "  > " ++ col ++ ":\n" ++ (spaces (L + 1) ++ "  ") ++
              stringsJoin ((sortStrings (mapKeys sub)).map
                fun subKey => fmtAny (mapGet sub subKey)) "|" ++ "\n") ∨
          (∃ sub body, mapGet m col = some (Value.record sub) ∧
            canFlattenObject sub = false ∧
            writeValue .modeNormalized (Value.record sub).depth (.record sub) (L + 2) =
              some body ∧
            block = spaces (L + 1) ++ "  > " ++ col ++ ":\n" ++ body) ∨
          (∃ sub table, mapGet m col = some (Value.seq sub) ∧ isTabular sub = true ∧
            writeTabularArray .modeNormalized (depthItems sub) "" col sub (L + 2) =
              some table ∧
            block = spaces (L + 1) ++ "  > " ++ table))
          ((sortStrings (mapKeys first)).filter fun col => isNested (mapGet m col)) blocks)
        data rowTexts := by
  obtain ⟨out, hout⟩ := Option.isSome_iff_exists.mp
    (writeTabularArray_isSome .modeNormalized indentStr key data L htab hfuel)
  obtain ⟨first, rest, rfl⟩ := isTabular_head htab
  have hpos := le_trans (depth_pos _)
    (depth_mem_items (List.mem_cons_self (Value.record first) rest))
  obtain ⟨fuel2, rfl⟩ : ∃ k, fuel = k + 1 := ⟨fuel - 1, by omega⟩
  have hout2 := hout
  simp only [writeTabularArray, writeTabularArrayNormalized, Option.map_eq_some'] at hout2
  obtain ⟨rows, hrows, rfl⟩ := hout2
  obtain ⟨rowTexts, hall, rfl⟩ := (writeAll_eq_some_iff _ _ _).mp hrows
  refine ⟨first, rest, rowTexts, rfl, hout, (forall₂_mem_left hall).imp ?_⟩
  rintro row text ⟨hrow, hrt⟩
  cases row with
  | scalar s => simp at hrt
  | seq xs => simp at hrt
  | record m =>
      simp only [Option.map_eq_some'] at hrt
      obtain ⟨nested, hnested, rfl⟩ := hrt
      rw [writeAll_filter (fun col => isNested (mapGet m col))] at hnested
      · obtain ⟨blocks, hblocks, rfl⟩ := (writeAll_eq_some_iff _ _ _).mp hnested
        refine ⟨m, blocks, rfl, hrow, rfl, (forall₂_mem_left hblocks).imp ?_⟩
        rintro col block ⟨hcol, hcb⟩
        have hn : isNested (mapGet m col) = true := (List.mem_filter.mp hcol).2
        cases hget : mapGet m col with
        | none => simp [hget, isNested] at hn
        | some x =>
            cases x with
            | scalar s => simp [hget, isNested] at hn
            | record sub =>
                by_cases hflat : canFlattenObject sub = true
                · left
                  simp only [hget, hflat, if_true, Option.some.injEq, foldl_snoc_map,
                    List.nil_append] at hcb
                  exact ⟨sub, rfl, hflat, hcb.symm⟩
                · right; left
                  have hflat2 : canFlattenObject sub = false := by simpa using hflat
                  simp only [hget, hflat2, Bool.false_eq_true, if_false,
                    Option.map_eq_some'] at hcb
                  obtain ⟨body, hbody, rfl⟩ := hcb
                  have hd := depth_cell_record hrow hget
                  rw [writeValue_fuel_irrel .modeNormalized _ _ (by omega)] at hbody
                  exact ⟨sub, body, rfl, hflat2, hbody, rfl⟩
            | seq sub =>
                right; right
                have hsub : isTabular sub = true := by simpa [hget, isNested] using hn
                simp only [hget, hsub, if_true, Option.map_eq_some'] at hcb
                obtain ⟨table, htable, rfl⟩ := hcb
                have hd := depth_cell_seq hrow hget
                rw [writeTabularArray_fuel_irrel .modeNormalized _ _ _ _ hsub (by omega)]
                  at htable
                exact ⟨sub, table, rfl, hsub, htable, rfl⟩
      · intro col _ hn
        cases hget : mapGet m col with
        | none => rfl
        | some x =>
            cases x with
            | scalar s => rfl
            | record sub => simp [hget, isNested] at hn
            | seq sub =>
                have hsub : isTabular sub = false := by simpa [hget, isNested] using hn
                simp [hsub]

/-! ## Properties that hold at every node -/

theorem allNodes_self {p : Value → Bool} {v : Value} (h : v.allNodes p = true) :
    p v = true := by
  cases v with
  | scalar s => simpa [Value.allNodes] using h
  | record m =>
      simp only [Value.allNodes, Bool.and_eq_true] at h
      exact h.1
  | seq xs =>
      simp only [Value.allNodes, Bool.and_eq_true] at h
      exact h.1

theorem allNodesFields_mem {p : Value → Bool} {m : List (String × Value)}
    (h : allNodesFields p m = true) {kv : String × Value} (hkv : kv ∈ m) :
    kv.2.allNodes p = true := by
  induction m with
  | nil => simp at hkv
  | cons e rest ih =>
      obtain ⟨k, v⟩ := e
      simp only [allNodesFields, Bool.and_eq_true] at h
      rcases List.mem_cons.mp hkv with rfl | hkv
      · exact h.1
      · exact ih h.2 hkv

theorem allNodesItems_mem {p : Value → Bool} {xs : List Value}
    (h : allNodesItems p xs = true) {x : Value} (hx : x ∈ xs) : x.allNodes p = true := by
  induction xs with
  | nil => simp at hx
  | cons e rest ih =>
      simp only [allNodesItems, Bool.and_eq_true] at h
      rcases List.mem_cons.mp hx with rfl | hx
      · exact h.1
      · exact ih h.2 hx

theorem allNodes_mapGet {p : Value → Bool} {m : List (String × Value)} {key : String}
    {x : Value} (h : (Value.record m).allNodes p = true) (hget : mapGet m key = some x) :
    x.allNodes p = true := by
  simp only [Value.allNodes, Bool.and_eq_true] at h
  exact allNodesFields_mem h.2 (mapGet_mem hget)

theorem allNodes_mem {p : Value → Bool} {xs : List Value} {x : Value}
    (h : (Value.seq xs).allNodes p = true) (hx : x ∈ xs) : x.allNodes p = true := by
  simp only [Value.allNodes, Bool.and_eq_true] at h
  exact allNodesItems_mem h.2 hx

/-- A property of every node holds at every column value of every row. -/
theorem allNodes_cell {p : Value → Bool} {data : List Value} {m : List (String × Value)}
    {col : String} {x : Value} (h : (Value.seq data).allNodes p = true)
    (hrow : Value.record m ∈ data) (hget : mapGet m col = some x) :
    x.allNodes p = true :=
  allNodes_mapGet (allNodes_mem h hrow) hget

/-- In a tree that passes `rowsAll q` at every node, every column value of every
row of a tabular slice passes `q`. -/
theorem rowsAll_cell {q : Value → Bool} {data : List Value} {m : List (String × Value)}
    {col : String} {x : Value} (h : (Value.seq data).allNodes (rowsAll q) = true)
    (htab : isTabular data = true) (hrow : Value.record m ∈ data)
    (hget : mapGet m col = some x) : q x = true := by
  have h1 := allNodes_self h
  simp only [rowsAll, htab, Bool.not_true, Bool.false_or, List.all_eq_true] at h1
  have h2 := h1 _ hrow
  simp only [List.all_eq_true] at h2
  exact h2 _ (mapGet_mem hget)

/-! ## Relating the outputs of two modes -/

theorem writeAll_rel {α : Type} (R : String → String → Prop) (hnil : R "" "")
    (happ : ∀ a b c d, R a b → R c d → R (a ++ c) (b ++ d))
    {f g : α → Option String} {xs : List α}
    (h : ∀ x ∈ xs, ∀ a b, f x = some a → g x = some b → R a b) :
    ∀ a b, writeAll f xs = some a → writeAll g xs = some b → R a b := by
  induction xs with
  | nil =>
      intro a b ha hb
      simp only [writeAll, Option.some.injEq] at ha hb
      subst ha; subst hb
      exact hnil
  | cons x xs ih =>
      intro a b ha hb
      simp only [writeAll] at ha hb
      cases hfx : f x with
      | none => simp [hfx] at ha
      | some a1 =>
          cases hgx : g x with
          | none => simp [hgx] at hb
          | some b1 =>
              cases hfs : writeAll f xs with
              | none => simp [hfx, hfs] at ha
              | some a2 =>
                  cases hgs : writeAll g xs with
                  | none => simp [hgx, hgs] at hb
                  | some b2 =>
                      simp only [hfx, hfs, Option.some.injEq] at ha
                      simp only [hgx, hgs, Option.some.injEq] at hb
                      subst ha; subst hb
                      exact happ _ _ _ _ (h x (List.mem_cons_self _ _) a1 b1 hfx hgx)
                        (ih (fun y hy => h y (List.mem_cons_of_mem _ hy)) a2 b2 hfs hgs)

/-- If two modes write related texts for every table of a tree, given that
their nested writes are related, then they write related texts for the tree. -/
theorem writes_rel (R : String → String → Prop) (hrefl : ∀ s, R s s)
    (happ : ∀ a b c d, R a b → R c d → R (a ++ c) (b ++ d))
    (P : Value → Bool) (m1 m2 : formatMode)
    (htable : ∀ (fuel : Nat) (indentStr key : String) (data : List Value) (L : Nat),
      isTabular data = true → (Value.seq data).allNodes P = true →
      (∀ (v : Value) (L2 : Nat), v.allNodes P = true → ∀ a b,
        writeValue m1 fuel v L2 = some a → writeValue m2 fuel v L2 = some b → R a b) →
      (∀ (is k : String) (d : List Value) (L2 : Nat), isTabular d = true →
        (Value.seq d).allNodes P = true → ∀ a b,
        writeTabularArray m1 fuel is k d L2 = some a →
        writeTabularArray m2 fuel is k d L2 = some b → R a b) →
      ∀ a b, writeTabularArray m1 (fuel + 1) indentStr key data L = some a →
        writeTabularArray m2 (fuel + 1) indentStr key data L = some b → R a b) :
    ∀ fuel : Nat,
      (∀ (v : Value) (L : Nat), v.allNodes P = true → ∀ a b,
        writeValue m1 fuel v L = some a → writeValue m2 fuel v L = some b → R a b) ∧
      (∀ (is k : String) (d : List Value) (L : Nat), isTabular d = true →
        (Value.seq d).allNodes P = true → ∀ a b,
        writeTabularArray m1 fuel is k d L = some a →
        writeTabularArray m2 fuel is k d L = some b → R a b) := by
  intro fuel
  induction fuel with
  | zero =>
      constructor
      · intro v L _ a b ha
        simp [writeValue] at ha
      · intro is k d L _ _ a b ha
        simp [writeTabularArray] at ha
  | succ fuel ih =>
      obtain ⟨ihv, iht⟩ := ih
      refine ⟨?_, fun is k d L htab hP => htable fuel is k d L htab hP ihv iht⟩
      intro v L hP a b ha hb
      cases v with
      | scalar s =>
          simp only [writeValue, Option.some.injEq] at ha hb
          subst ha; subst hb
          exact hrefl _
      | seq items =>
          simp only [writeValue] at ha hb
          by_cases htab : isTabular items = true
          · simp only [htab, if_true] at ha hb
            exact iht _ _ _ _ htab hP a b ha hb
          · simp only [htab, Bool.false_eq_true, if_false] at ha hb
            rw [ha] at hb
            cases hb
            exact hrefl _
      | record m =>
          simp only [writeValue] at ha hb
          refine writeAll_rel R (hrefl "") happ ?_ a b ha hb
          intro key _ x y hx hy
          cases hget : mapGet m key with
          | none =>
              simp only [hget] at hx hy
              rw [hx] at hy
              cases hy
              exact hrefl _
          | some c =>
              have hc := allNodes_mapGet hP hget
              cases c with
              | scalar s =>
                  simp only [hget] at hx hy
                  rw [hx] at hy
                  cases hy
                  exact hrefl _
              | record sub =>
                  simp only [hget, Option.map_eq_some'] at hx hy
                  obtain ⟨x2, hx2, rfl⟩ := hx
                  obtain ⟨y2, hy2, rfl⟩ := hy
                  exact happ _ _ _ _ (hrefl _) (ihv _ _ hc x2 y2 hx2 hy2)
              | seq sub =>
                  by_cases htab : isTabular sub = true
                  · simp only [hget, htab, if_true] at hx hy
                    exact iht _ _ _ _ htab hc x y hx hy
                  · simp only [hget, htab, Bool.false_eq_true, if_false] at hx hy
                    rw [hx] at hy
                    cases hy
                    exact hrefl _

/-! ## Normalized and Normal mode on trees without flattenable records in rows -/

/-- Without a flattenable record in the sample row the Normalized header is the
plain column list. -/
theorem buildNormalizedSchema_plain (schema : List String) (m : List (String × Value))
    (h : ∀ col sub, mapGet m col = some (Value.record sub) → canFlattenObject sub = false) :
    buildNormalizedSchema schema m = stringsJoin schema "|" := by
  rw [buildNormalizedSchema_eq]
  congr 1
  conv => rhs; rw [← List.map_id schema]
  apply List.map_congr_left
  intro col _
  cases hget : mapGet m col with
  | none => rfl
  | some x =>
      cases x with
      | scalar s => rfl
      | seq xs => rfl
      | record sub => simp [h col sub hget]

theorem normalized_eq_normal_table (fuel : Nat) (indentStr key : String) (data : List Value)
    (L : Nat) (htab : isTabular data = true)
    (hP : (Value.seq data).allNodes (rowsAll notFlattenableCell) = true)
    (ihv : ∀ (v : Value) (L2 : Nat), v.allNodes (rowsAll notFlattenableCell) = true → ∀ a b,
      writeValue .modeNormalized fuel v L2 = some a →
      writeValue .modeNormal fuel v L2 = some b → a = b)
    (iht : ∀ (is k : String) (d : List Value) (L2 : Nat), isTabular d = true →
      (Value.seq d).allNodes (rowsAll notFlattenableCell) = true → ∀ a b,
      writeTabularArray .modeNormalized fuel is k d L2 = some a →
      writeTabularArray .modeNormal fuel is k d L2 = some b → a = b) :
    ∀ a b, writeTabularArray .modeNormalized (fuel + 1) indentStr key data L = some a →
      writeTabularArray .modeNormal (fuel + 1) indentStr key data L = some b → a = b := by
  intro a b ha hb
  obtain ⟨first, rest, rfl⟩ := isTabular_head htab
  have hcell : ∀ m col sub, Value.record m ∈ Value.record first :: rest →
      mapGet m col = some (Value.record sub) → canFlattenObject sub = false := by
    intro m col sub hrow hget
    have := rowsAll_cell hP htab hrow hget
    simpa [notFlattenableCell] using this
  simp only [writeTabularArray, writeTabularArrayNormalized, writeTabularArrayNormal,
    Option.map_eq_some'] at ha hb
  obtain ⟨rowsA, hrowsA, rfl⟩ := ha
  obtain ⟨rowsB, hrowsB, rfl⟩ := hb
  rw [buildNormalizedSchema_plain _ _ (fun col sub => hcell first col sub
    (List.mem_cons_self _ _))]
  congr 1
  refine writeAll_rel Eq rfl (fun _ _ _ _ h1 h2 => by rw [h1, h2]) ?_ rowsA rowsB hrowsA hrowsB
  intro row hrow x y hx hy
  cases row with
  | scalar s => simp at hx
  | seq xs => simp at hx
  | record m =>
      simp only [Option.map_eq_some'] at hx hy
      obtain ⟨nx, hnx, rfl⟩ := hx
      obtain ⟨ny, hny, rfl⟩ := hy
      congr 1
      refine writeAll_rel Eq rfl (fun _ _ _ _ h1 h2 => by rw [h1, h2]) ?_ nx ny hnx hny
      intro col _ u v hu hv
      cases hget : mapGet m col with
      | none =>
          simp only [hget] at hu hv
          rw [hu] at hv
          exact Option.some.inj hv
      | some c =>
          have hc := allNodes_cell hP hrow hget
          cases c with
          | scalar s =>
              simp only [hget] at hu hv
              rw [hu] at hv
              exact Option.some.inj hv
          | record sub =>
              simp only [hget, hcell m col sub hrow hget, Bool.false_eq_true, if_false,
                Option.map_eq_some'] at hu hv
              obtain ⟨u2, hu2, rfl⟩ := hu
              obtain ⟨v2, hv2, rfl⟩ := hv
              rw [ihv _ _ hc u2 v2 hu2 hv2]
          | seq sub =>
              by_cases hsub : isTabular sub = true
              · simp only [hget, hsub, if_true, Option.map_eq_some'] at hu hv
                obtain ⟨u2, hu2, rfl⟩ := hu
                obtain ⟨v2, hv2, rfl⟩ := hv
                rw [iht _ _ _ _ hsub hc u2 v2 hu2 hv2]
              · simp only [hget, hsub, Bool.false_eq_true, if_false] at hu hv
                rw [hu] at hv
                exact Option.some.inj hv

/-- On a tree in which no row of a tabular slice holds a flattenable record,
Normalized mode writes what Normal mode writes. -/
theorem writeValue_normalized_eq_normal (v : Value) (L : Nat) {fuel : Nat}
    (hP : v.allNodes (rowsAll notFlattenableCell) = true) (hfuel : v.depth ≤ fuel) :
    writeValue .modeNormalized fuel v L = writeValue .modeNormal fuel v L := by
  obtain ⟨a, ha⟩ := Option.isSome_iff_exists.mp (writeValue_isSome .modeNormalized v L hfuel)
  obtain ⟨b, hb⟩ := Option.isSome_iff_exists.mp (writeValue_isSome .modeNormal v L hfuel)
  have h := (writes_rel Eq (fun _ => rfl) (fun _ _ _ _ h1 h2 => by rw [h1, h2])
    (rowsAll notFlattenableCell) .modeNormalized .modeNormal
    (fun fuel2 is k d L2 htab hP2 ihv iht =>
      normalized_eq_normal_table fuel2 is k d L2 htab hP2 ihv iht) fuel).1 v L hP a b ha hb
  rw [ha, hb, h]

theorem writeTabularArray_normalized_eq_normal (indentStr key : String) (data : List Value)
    (L : Nat) {fuel : Nat} (htab : isTabular data = true)
    (hP : (Value.seq data).allNodes (rowsAll notFlattenableCell) = true)
    (hfuel : depthItems data ≤ fuel) :
    writeTabularArray .modeNormalized fuel indentStr key data L =
      writeTabularArray .modeNormal fuel indentStr key data L := by
  obtain ⟨a, ha⟩ := Option.isSome_iff_exists.mp
    (writeTabularArray_isSome .modeNormalized indentStr key data L htab hfuel)
  obtain ⟨b, hb⟩ := Option.isSome_iff_exists.mp
    (writeTabularArray_isSome .modeNormal indentStr key data L htab hfuel)
  have h := (writes_rel Eq (fun _ => rfl) (fun _ _ _ _ h1 h2 => by rw [h1, h2])
    (rowsAll notFlattenableCell) .modeNormalized .modeNormal
    (fun fuel2 is k d L2 htab hP2 ihv iht =>
      normalized_eq_normal_table fuel2 is k d L2 htab hP2 ihv iht) fuel).2
      indentStr key data L htab hP a b ha hb
  rw [ha, hb, h]

/-! ## Tables whose rows hold no nested value -/

mutual
theorem allNodes_mono {p q : Value → Bool} (h : ∀ x, p x = true → q x = true) :
    ∀ v : Value, v.allNodes p = true → v.allNodes q = true
  | .scalar s, hv => by
      simp only [Value.allNodes] at hv ⊢
      exact h _ hv
  | .record m, hv => by
      simp only [Value.allNodes, Bool.and_eq_true] at hv ⊢
      exact ⟨h _ hv.1, allNodesFields_mono h m hv.2⟩
  | .seq xs, hv => by
      simp only [Value.allNodes, Bool.and_eq_true] at hv ⊢
      exact ⟨h _ hv.1, allNodesItems_mono h xs hv.2⟩
theorem allNodesFields_mono {p q : Value → Bool} (h : ∀ x, p x = true → q x = true) :
    ∀ m : List (String × Value), allNodesFields p m = true → allNodesFields q m = true
  | [], _ => rfl
  | (_, v) :: rest, hm => by
      simp only [allNodesFields, Bool.and_eq_true] at hm ⊢
      exact ⟨allNodes_mono h v hm.1, allNodesFields_mono h rest hm.2⟩
theorem allNodesItems_mono {p q : Value → Bool} (h : ∀ x, p x = true → q x = true) :
    ∀ xs : List Value, allNodesItems p xs = true → allNodesItems q xs = true
  | [], _ => rfl
  | v :: rest, hm => by
      simp only [allNodesItems, Bool.and_eq_true] at hm ⊢
      exact ⟨allNodes_mono h v hm.1, allNodesItems_mono h rest hm.2⟩
end

theorem rowsAll_mono {q r : Value → Bool} (h : ∀ x, q x = true → r x = true) (x : Value)
    (hx : rowsAll q x = true) : rowsAll r x = true := by
  cases x with
  | scalar s => rfl
  | record m => rfl
  | seq items =>
      simp only [rowsAll, Bool.or_eq_true, Bool.not_eq_true', List.all_eq_true] at hx ⊢
      rcases hx with hx | hx
      · exact Or.inl hx
      · right
        intro row hrow
        have := hx row hrow
        cases row with
        | scalar s => rfl
        | seq ys => rfl
        | record m =>
            simp only [List.all_eq_true] at this ⊢
            exact fun kv hkv => h _ (this kv hkv)

theorem plain_cells {data : List Value} {m : List (String × Value)}
    (hP : (Value.seq data).allNodes (rowsAll isPlainCell) = true)
    (htab : isTabular data = true) (hrow : Value.record m ∈ data) (col : String) :
    isNested (mapGet m col) = false := by
  cases hget : mapGet m col with
  | none => rfl
  | some x =>
      have := rowsAll_cell hP htab hrow hget
      simpa [isPlainCell] using this

theorem rowValues_of_plain (schema : List String) {m : List (String × Value)}
    (h : ∀ col, isNested (mapGet m col) = false) :
    rowValues schema m = schema.map fun col => fmtAny (mapGet m col) := by
  rw [rowValues_eq]
  congr 1
  apply List.filter_eq_self.mpr
  intro col _
  simp [h col]

theorem extractFlattenedValues_of_plain (schema : List String) {m : List (String × Value)}
    (h : ∀ col, isNested (mapGet m col) = false) :
    extractFlattenedValues schema m = schema.map fun col => fmtAny (mapGet m col) := by
  induction schema with
  | nil => rfl
  | cons col rest ih =>
      have hsplit : col :: rest = [col] ++ rest := rfl
      rw [hsplit, extractFlattenedValues_append, extractFlattenedValues_plain (h col), ih]
      rfl

theorem buildFlattenedSchema_plain (schema : List String) (m : List (String × Value))
    (h : ∀ col sub, mapGet m col = some (Value.record sub) → canFlattenObject sub = false) :
    buildFlattenedSchema schema m = stringsJoin schema "|" := by
  rw [buildFlattenedSchema_eq]
  congr 1
  conv => rhs; rw [← List.map_id schema]
  apply List.map_congr_left
  intro col _
  cases hget : mapGet m col with
  | none => rfl
  | some x =>
      cases x with
      | scalar s => rfl
      | seq xs => rfl
      | record sub => simp [h col sub hget]

/-- The nested-block loop of the Normal writer writes nothing for a row
without nested columns. -/
theorem normal_blocks_of_plain (wv : Value → Nat → Option String)
    (wt : String → String → List Value → Nat → Option String) (L : Nat)
    (schema : List String) {m : List (String × Value)}
    (h : ∀ col, isNested (mapGet m col) = false) :
    writeAll (fun col =>
      match mapGet m col with
      | some (.record subMap) =>
          (wv (.record subMap) (L + 2)).map
            (fun block => spaces (L + 1) ++ "  > " ++ col ++ ":\n" ++ block)
      | some (.seq subSlice) =>
          if isTabular subSlice then
            (wt "" col subSlice (L + 2)).map (fun table => spaces (L + 1) ++ "  > " ++ table)
          else some ""
      | _ => some "") schema = some "" := by
  apply writeAll_nothing
  intro col _
  have hn := h col
  cases hget : mapGet m col with
  | none => rfl
  | some x =>
      cases x with
      | scalar s => rfl
      | record sub => simp [hget, isNested] at hn
      | seq sub =>
          have hsub : isTabular sub = false := by simpa [hget, isNested] using hn
          simp [hsub]

theorem flattened_eq_normal_table (fuel : Nat) (indentStr key : String) (data : List Value)
    (L : Nat) (htab : isTabular data = true)
    (hP : (Value.seq data).allNodes (rowsAll isPlainCell) = true) :
    ∀ a b, writeTabularArray .modeFlattened (fuel + 1) indentStr key data L = some a →
      writeTabularArray .modeNormal (fuel + 1) indentStr key data L = some b → a = b := by
  intro a b ha hb
  obtain ⟨first, rest, rfl⟩ := isTabular_head htab
  simp only [writeTabularArray, writeTabularArrayFlattened, writeTabularArrayNormal,
    Option.map_eq_some'] at ha hb
  obtain ⟨rowsA, hrowsA, rfl⟩ := ha
  obtain ⟨rowsB, hrowsB, rfl⟩ := hb
  have hfirst := plain_cells hP htab (List.mem_cons_self _ _)
  rw [buildFlattenedSchema_plain _ _ (fun col sub hget => by
    have := hfirst col
    simp [hget, isNested] at this)]
  congr 1
  refine writeAll_rel Eq rfl (fun _ _ _ _ h1 h2 => by rw [h1, h2]) ?_ rowsA rowsB hrowsA hrowsB
  intro row hrow x y hx hy
  cases row with
  | scalar s => simp at hx
  | seq xs => simp at hx
  | record m =>
      have hplain := plain_cells hP htab hrow
      simp only [Option.some.injEq] at hx
      dsimp only at hy
      rw [normal_blocks_of_plain _ _ _ _ hplain] at hy
      simp only [Option.map_some', Option.some.injEq] at hy
      rw [← hx, ← hy, extractFlattenedValues_of_plain _ hplain, rowValues_of_plain _ hplain]
      simp

/-! ## Texts without newlines -/

theorem sum_map_eq_zero {α : Type} {f : α → Nat} {xs : List α} (h : ∀ x ∈ xs, f x = 0) :
    (xs.map f).sum = 0 := by
  induction xs with
  | nil => rfl
  | cons x xs ih =>
      simp only [List.map_cons, List.sum_cons, h x (List.mem_cons_self _ _),
        ih (fun y hy => h y (List.mem_cons_of_mem _ hy))]

theorem countNewlines_stringsJoin_zero {xs : List String} {sep : String}
    (hsep : countNewlines sep = 0) (h : ∀ x ∈ xs, countNewlines x = 0) :
    countNewlines (stringsJoin xs sep) = 0 := by
  rw [countNewlines_stringsJoin xs sep hsep]
  exact sum_map_eq_zero h

theorem textGet_noNewline {entries : List (String × String)}
    (h : ∀ e ∈ entries, countNewlines e.2 = 0) (key : String) :
    countNewlines (textGet entries key) = 0 := by
  induction entries with
  | nil =>
      have h0 : countNewlines "<nil>" = 0 := by decide
      exact h0
  | cons e rest ih =>
      obtain ⟨k, t⟩ := e
      simp only [textGet]
      by_cases hk : k = key
      · simp only [hk, if_true]
        exact h (k, t) (List.mem_cons_self _ _)
      · simp only [hk, if_false]
        exact ih (fun e he => h e (List.mem_cons_of_mem _ he))

theorem noNewline_key {m : List (String × Value)} {k : String}
    (h : noNewlineNode (Value.record m) = true) (hk : k ∈ mapKeys m) :
    countNewlines k = 0 := by
  simp only [noNewlineNode, List.all_eq_true, beq_iff_eq] at h
  obtain ⟨kv, hkv, rfl⟩ := List.mem_map.mp hk
  exact h kv hkv

mutual
theorem fmtV_noNewline : ∀ v : Value, v.allNodes noNewlineNode = true →
    countNewlines (fmtV v) = 0
  | .scalar s, hv => by
      simp only [Value.allNodes, noNewlineNode, beq_iff_eq] at hv
      simpa only [fmtV] using hv
  | .record m, hv => by
      simp only [Value.allNodes, Bool.and_eq_true] at hv
      have hfields := fmtFields_noNewline m hv.2
      simp only [fmtV, countNewlines_append]
      rw [countNewlines_stringsJoin_zero (by decide)]
      · decide
      · intro x hx
        obtain ⟨k, hk, rfl⟩ := List.mem_map.mp hx
        simp only [countNewlines_append]
        rw [noNewline_key hv.1 (mem_sortStrings.mp hk), textGet_noNewline hfields]
        decide
  | .seq xs, hv => by
      simp only [Value.allNodes, Bool.and_eq_true] at hv
      simp only [fmtV, countNewlines_append]
      rw [countNewlines_stringsJoin_zero (by decide) (fmtItems_noNewline xs hv.2)]
      decide
theorem fmtFields_noNewline : ∀ m : List (String × Value),
    allNodesFields noNewlineNode m = true → ∀ e ∈ fmtFields m, countNewlines e.2 = 0
  | [], _ => by
      intro e he
      simp [fmtFields] at he
  | (k, v) :: rest, hm => by
      simp only [allNodesFields, Bool.and_eq_true] at hm
      intro e he
      simp only [fmtFields, List.mem_cons] at he
      rcases he with rfl | he
      · exact fmtV_noNewline v hm.1
      · exact fmtFields_noNewline rest hm.2 e he
theorem fmtItems_noNewline : ∀ xs : List Value,
    allNodesItems noNewlineNode xs = true → ∀ t ∈ fmtItems xs, countNewlines t = 0
  | [], _ => by
      intro t ht
      simp [fmtItems] at ht
  | v :: rest, hm => by
      simp only [allNodesItems, Bool.and_eq_true] at hm
      intro t ht
      simp only [fmtItems, List.mem_cons] at ht
      rcases ht with rfl | ht
      · exact fmtV_noNewline v hm.1
      · exact fmtItems_noNewline rest hm.2 t ht
end

theorem fmtAny_noNewline {m : List (String × Value)} (key : String)
    (h : (Value.record m).allNodes noNewlineNode = true) :
    countNewlines (fmtAny (mapGet m key)) = 0 := by
  cases hget : mapGet m key with
  | none => decide
  | some x => exact fmtV_noNewline x (allNodes_mapGet h hget)

/-- In a tree without newlines in keys and scalars, no value of a Flattened
row holds a newline. -/
theorem extractFlattenedValues_noNewline (schema : List String) {m : List (String × Value)}
    (h : (Value.record m).allNodes noNewlineNode = true) :
    ∀ t ∈ extractFlattenedValues schema m, countNewlines t = 0 := by
  intro t ht
  rw [extractFlattenedValues_eq] at ht
  obtain ⟨col, _, ht⟩ := List.mem_flatMap.mp ht
  cases hget : mapGet m col with
  | none =>
      simp only [hget, List.mem_singleton] at ht
      subst ht
      decide
  | some x =>
      have hx := allNodes_mapGet h hget
      cases x with
      | scalar s =>
          simp only [hget, List.mem_singleton] at ht
          subst ht
          exact fmtV_noNewline _ hx
      | record sub =>
          by_cases hflat : canFlattenObject sub = true
          · simp only [hget, hflat, if_true, List.mem_map] at ht
            obtain ⟨k, _, rfl⟩ := ht
            exact fmtAny_noNewline k hx
          · simp only [hget, hflat, Bool.false_eq_true, if_false, List.mem_singleton] at ht
            subst ht
            decide
      | seq sub =>
          by_cases htab : isTabular sub = true
          · simp only [hget, htab, if_true, List.mem_singleton] at ht
            subst ht
            decide
          · simp only [hget, htab, Bool.false_eq_true, if_false, List.mem_singleton] at ht
            subst ht
            exact fmtV_noNewline _ hx

/-- In a tree without newlines in keys, the Flattened column list of a row,
over that row's keys, holds no newline. -/
theorem buildFlattenedSchema_noNewline {schema : List String} {m : List (String × Value)}
    (hschema : ∀ col ∈ schema, countNewlines col = 0)
    (h : (Value.record m).allNodes noNewlineNode = true) :
    countNewlines (buildFlattenedSchema schema m) = 0 := by
  rw [buildFlattenedSchema_eq]
  apply countNewlines_stringsJoin_zero (by decide)
  intro x hx
  obtain ⟨col, hcol, rfl⟩ := List.mem_map.mp hx
  have hc := hschema col hcol
  cases hget : mapGet m col with
  | none => exact hc
  | some c =>
      cases c with
      | scalar s => exact hc
      | seq xs => exact hc
      | record sub =>
          by_cases hflat : canFlattenObject sub = true
          · simp only [hflat, if_true, countNewlines_append, hc]
            have hsub := allNodes_self (allNodes_mapGet h hget)
            rw [countNewlines_stringsJoin_zero (by decide)
              (fun k hk => noNewline_key hsub (mem_sortStrings.mp hk))]
            decide
          · simp only [hflat, Bool.false_eq_true, if_false]
            exact hc

theorem rows_of_records {data : List Value} (h : ∀ row ∈ data, ∃ m, row = Value.record m) :
    ∃ rows : List (List (String × Value)), data = rows.map Value.record := by
  induction data with
  | nil => exact ⟨[], rfl⟩
  | cons row rest ih =>
      obtain ⟨m, rfl⟩ := h row (List.mem_cons_self _ _)
      obtain ⟨rows, rfl⟩ := ih (fun r hr => h r (List.mem_cons_of_mem _ hr))
      exact ⟨m :: rows, rfl⟩

theorem sum_map_add_one {α : Type} (f : α → Nat) (xs : List α) :
    (xs.map fun x => f x + 1).sum = (xs.map f).sum + xs.length := by
  induction xs with
  | nil => rfl
  | cons x xs ih =>
      simp only [List.map_cons, List.sum_cons, List.length_cons, ih]
      omega

/-! ## Counting newlines across modes -/

theorem sum_map_flatMap {α β : Type} (f : β → Nat) (g : α → List β) (xs : List α) :
    ((xs.flatMap g).map f).sum = (xs.map fun x => ((g x).map f).sum).sum := by
  induction xs with
  | nil => rfl
  | cons x xs ih => simp [List.flatMap_cons, ih]

theorem sum_map_filter {α : Type} (f : α → Nat) (p : α → Bool) (xs : List α) :
    ((xs.filter p).map f).sum = (xs.map fun x => if p x then f x else 0).sum := by
  induction xs with
  | nil => rfl
  | cons x xs ih =>
      cases hp : p x <;> simp [List.filter_cons, hp, ih]

theorem sum_map_le_add {α : Type} {u v w : α → Nat} {xs : List α}
    (h : ∀ x ∈ xs, u x ≤ v x + w x) :
    (xs.map u).sum ≤ (xs.map v).sum + (xs.map w).sum := by
  induction xs with
  | nil => simp
  | cons x xs ih =>
      have h1 := h x (List.mem_cons_self _ _)
      have h2 := ih (fun y hy => h y (List.mem_cons_of_mem _ hy))
      simp only [List.map_cons, List.sum_cons]
      omega

/-- A loop that writes at least `w x` newlines for every `x` writes at least
their sum. -/
theorem writeAll_newlines_ge {α : Type} {g : α → Option String} {u v : α → Nat}
    {xs : List α} (h : ∀ x ∈ xs, ∀ b, g x = some b → u x ≤ v x + countNewlines b) :
    ∀ B, writeAll g xs = some B → (xs.map u).sum ≤ (xs.map v).sum + countNewlines B := by
  induction xs with
  | nil =>
      intro B _
      simp
  | cons x xs ih =>
      intro B hB
      simp only [writeAll] at hB
      cases hgx : g x with
      | none => simp [hgx] at hB
      | some b1 =>
          cases hgs : writeAll g xs with
          | none => simp [hgx, hgs] at hB
          | some b2 =>
              simp only [hgx, hgs, Option.some.injEq] at hB
              subst hB
              have h1 := h x (List.mem_cons_self _ _) b1 hgx
              have h2 := ih (fun y hy => h y (List.mem_cons_of_mem _ hy)) b2 hgs
              simp only [List.map_cons, List.sum_cons, countNewlines_append]
              omega

/-- Two loops over the same list: if the second writes, for every `x`, at least
`w x` newlines more than the first, it writes at least their sum more. -/
theorem writeAll_newlines_rel {α : Type} {f g : α → Option String} {w : α → Nat}
    {xs : List α}
    (h : ∀ x ∈ xs, ∀ a b, f x = some a → g x = some b →
      countNewlines a + w x ≤ countNewlines b) :
    ∀ A B, writeAll f xs = some A → writeAll g xs = some B →
      countNewlines A + (xs.map w).sum ≤ countNewlines B := by
  induction xs with
  | nil =>
      intro A B hA hB
      simp only [writeAll, Option.some.injEq] at hA hB
      subst hA; subst hB
      simp
  | cons x xs ih =>
      intro A B hA hB
      simp only [writeAll] at hA hB
      cases hfx : f x with
      | none => simp [hfx] at hA
      | some a1 =>
          cases hgx : g x with
          | none => simp [hgx] at hB
          | some b1 =>
              cases hfs : writeAll f xs with
              | none => simp [hfx, hfs] at hA
              | some a2 =>
                  cases hgs : writeAll g xs with
                  | none => simp [hgx, hgs] at hB
                  | some b2 =>
                      simp only [hfx, hfs, Option.some.injEq] at hA
                      simp only [hgx, hgs, Option.some.injEq] at hB
                      subst hA; subst hB
                      have h1 := h x (List.mem_cons_self _ _) a1 b1 hfx hgx
                      have h2 := ih (fun y hy => h y (List.mem_cons_of_mem _ hy)) a2 b2 hfs hgs
                      simp only [List.map_cons, List.sum_cons, countNewlines_append]
                      omega

theorem extractFlattenedValues_eq_cells (schema : List String) (m : List (String × Value)) :
    extractFlattenedValues schema m = schema.flatMap (flattenedCell m) := by
  rw [extractFlattenedValues_eq]
  rfl

theorem countNewlines_schema_entries (schema : List String) (m : List (String × Value)) :
    countNewlines (buildFlattenedSchema schema m) =
      countNewlines (buildNormalizedSchema schema m) := by
  rw [buildFlattenedSchema_eq, buildNormalizedSchema_eq,
    countNewlines_stringsJoin _ _ (by decide), countNewlines_stringsJoin _ _ (by decide),
    List.map_map, List.map_map]
  congr 1
  apply List.map_congr_left
  intro col _
  simp only [Function.comp]
  cases hget : mapGet m col with
  | none => rfl
  | some x =>
      cases x with
      | scalar s => rfl
      | seq xs => rfl
      | record sub =>
          by_cases hflat : canFlattenObject sub = true
          · simp only [hflat, if_true, countNewlines_append,
              countNewlines_stringsJoin _ _ (show countNewlines "," = 0 by decide),
              countNewlines_stringsJoin _ _ (show countNewlines "|" = 0 by decide)]
          · simp only [hflat, Bool.false_eq_true, if_false]

/-- Row by row, a Flattened table has at most the newlines of the Normalized
table. -/
theorem flattened_le_normalized_table (fuel : Nat) (indentStr key : String)
    (data : List Value) (L : Nat) (htab : isTabular data = true) :
    ∀ a b, writeTabularArray .modeFlattened (fuel + 1) indentStr key data L = some a →
      writeTabularArray .modeNormalized (fuel + 1) indentStr key data L = some b →
      countNewlines a ≤ countNewlines b := by
  intro a b ha hb
  obtain ⟨first, rest, rfl⟩ := isTabular_head htab
  simp only [writeTabularArray, writeTabularArrayFlattened, writeTabularArrayNormalized,
    Option.map_eq_some'] at ha hb
  obtain ⟨rowsA, hrowsA, rfl⟩ := ha
  obtain ⟨rowsB, hrowsB, rfl⟩ := hb
  have hrows : countNewlines rowsA ≤ countNewlines rowsB := by
    refine writeAll_rel (fun x y => countNewlines x ≤ countNewlines y) (le_refl _)
      (fun _ _ _ _ h1 h2 => by simp only [countNewlines_append]; omega) ?_
      rowsA rowsB hrowsA hrowsB
    intro row _ x y hx hy
    cases row with
    | scalar s => simp at hx
    | seq xs => simp at hx
    | record m =>
        simp only [Option.some.injEq, Option.map_eq_some'] at hx hy
        obtain ⟨nested, hnested, rfl⟩ := hy
        subst hx
        have hsum := writeAll_newlines_ge
          (u := fun col => ((flattenedCell m col).map countNewlines).sum)
          (v := fun col => if !isNested (mapGet m col) then
            countNewlines (fmtAny (mapGet m col)) else 0) ?_ nested hnested
        · simp only [countNewlines_append, countNewlines_spaces,
            countNewlines_stringsJoin _ _ (show countNewlines "|" = 0 by decide),
            extractFlattenedValues_eq_cells, sum_map_flatMap, rowValues_eq, List.map_map,
            Function.comp_def]
          rw [sum_map_filter (fun col => countNewlines (fmtAny (mapGet m col)))]
          omega
        · intro col _ blk hblk
          cases hget : mapGet m col with
          | none => simp [flattenedCell, hget, isNested]
          | some c =>
              cases c with
              | scalar s => simp [flattenedCell, hget, isNested]
              | record sub =>
                  by_cases hflat : canFlattenObject sub = true
                  · simp only [hget, hflat, if_true, Option.some.injEq, foldl_snoc_map,
                      List.nil_append] at hblk
                    subst hblk
                    simp only [flattenedCell, hget, hflat, if_true, isNested,
                      Bool.not_true, Bool.false_eq_true, if_false, Nat.zero_add,
                      countNewlines_append,
                      countNewlines_stringsJoin _ _ (show countNewlines "|" = 0 by decide)]
                    omega
                  · have h0 : countNewlines "[nested]" = 0 := by decide
                    simp [flattenedCell, hget, hflat, h0]
              | seq s =>
                  by_cases hs : isTabular s = true
                  · have h0 : countNewlines "[table]" = 0 := by decide
                    simp [flattenedCell, hget, hs, h0]
                  · simp [flattenedCell, hget, hs, isNested, fmtAny]
  simp only [countNewlines_append, countNewlines_schema_entries]
  omega

mutual
theorem allNodes_true : ∀ v : Value, v.allNodes (fun _ => true) = true
  | .scalar _ => rfl
  | .record m => by
      simp only [Value.allNodes, Bool.true_and]
      exact allNodesFields_true m
  | .seq xs => by
      simp only [Value.allNodes, Bool.true_and]
      exact allNodesItems_true xs
theorem allNodesFields_true : ∀ m : List (String × Value),
    allNodesFields (fun _ => true) m = true
  | [] => rfl
  | (_, v) :: rest => by
      simp only [allNodesFields, Bool.and_eq_true]
      exact ⟨allNodes_true v, allNodesFields_true rest⟩
theorem allNodesItems_true : ∀ xs : List Value, allNodesItems (fun _ => true) xs = true
  | [] => rfl
  | v :: rest => by
      simp only [allNodesItems, Bool.and_eq_true]
      exact ⟨allNodes_true v, allNodesItems_true rest⟩
end

/-- Flattened mode never writes more newlines than Normalized mode. -/
theorem writeValue_flattened_le_normalized (v : Value) (L fuel : Nat) :
    ∀ a b, writeValue .modeFlattened fuel v L = some a →
      writeValue .modeNormalized fuel v L = some b → countNewlines a ≤ countNewlines b :=
  (writes_rel (fun x y => countNewlines x ≤ countNewlines y) (fun _ => le_refl _)
    (fun _ _ _ _ h1 h2 => by simp only [countNewlines_append]; omega)
    (fun _ => true) .modeFlattened .modeNormalized
    (fun fuel2 is k d L2 htab _ _ _ =>
      flattened_le_normalized_table fuel2 is k d L2 htab) fuel).1 v L (allNodes_true v)

/-! ## Normalized against Normal mode, by newlines -/

theorem sum_map_add {α : Type} (f g : α → Nat) (xs : List α) :
    (xs.map fun x => f x + g x).sum = (xs.map f).sum + (xs.map g).sum := by
  induction xs with
  | nil => rfl
  | cons x xs ih =>
      simp only [List.map_cons, List.sum_cons, ih]
      omega

/-- A flattenable record is written, in every mode, as one line per key. -/
theorem writeValue_record_flattenable (mode : formatMode) (fuel L : Nat)
    {sub : List (String × Value)} (hflat : canFlattenObject sub = true) :
    writeValue mode (fuel + 1) (.record sub) L =
      some (concatAll ((sortStrings (mapKeys sub)).map fun key =>
        spaces L ++ key ++ ": " ++ fmtAny (mapGet sub key) ++ "\n")) := by
  rw [writeValue]
  apply writeAll_some
  intro key hkey
  obtain ⟨s, hs⟩ := canFlattenObject_scalar hflat (mem_sortStrings.mp hkey)
  simp only [hs]

theorem countNewlines_normalized_schema (schema : List String) (m : List (String × Value)) :
    countNewlines (buildNormalizedSchema schema m) =
      countNewlines (stringsJoin schema "|") + (schema.map (entryExcess m)).sum := by
  rw [buildNormalizedSchema_eq, countNewlines_stringsJoin _ _ (by decide),
    countNewlines_stringsJoin _ _ (by decide), List.map_map, ← sum_map_add]
  congr 1
  apply List.map_congr_left
  intro col _
  simp only [Function.comp, entryExcess]
  cases hget : mapGet m col with
  | none => rfl
  | some x =>
      cases x with
      | scalar s => rfl
      | seq xs => rfl
      | record sub =>
          by_cases hflat : canFlattenObject sub = true
          · simp only [hflat, if_true, countNewlines_append,
              countNewlines_stringsJoin _ _ (show countNewlines "|" = 0 by decide)]
            have h1 : countNewlines "\x7b" = 0 := by decide
            have h2 : countNewlines "\x7d" = 0 := by decide
            omega
          · simp only [hflat, Bool.false_eq_true, if_false, Nat.add_zero]

theorem normalized_le_normal_table (fuel : Nat) (indentStr key : String) (data : List Value)
    (L : Nat) (htab : isTabular data = true)
    (hP : (Value.seq data).allNodes (rowsAll notEmptyRecordCell) = true)
    (ihv : ∀ (v : Value) (L2 : Nat), v.allNodes (rowsAll notEmptyRecordCell) = true →
      ∀ a b, writeValue .modeNormalized fuel v L2 = some a →
      writeValue .modeNormal fuel v L2 = some b → countNewlines a ≤ countNewlines b)
    (iht : ∀ (is k : String) (d : List Value) (L2 : Nat), isTabular d = true →
      (Value.seq d).allNodes (rowsAll notEmptyRecordCell) = true → ∀ a b,
      writeTabularArray .modeNormalized fuel is k d L2 = some a →
      writeTabularArray .modeNormal fuel is k d L2 = some b →
      countNewlines a ≤ countNewlines b) :
    ∀ a b, writeTabularArray .modeNormalized (fuel + 1) indentStr key data L = some a →
      writeTabularArray .modeNormal (fuel + 1) indentStr key data L = some b →
      countNewlines a ≤ countNewlines b := by
  intro a b ha hb
  obtain ⟨first, rest, rfl⟩ := isTabular_head htab
  simp only [writeTabularArray, writeTabularArrayNormalized, writeTabularArrayNormal,
    Option.map_eq_some'] at ha hb
  obtain ⟨rowsA, hrowsA, rfl⟩ := ha
  obtain ⟨rowsB, hrowsB, rfl⟩ := hb
  have hrows := writeAll_newlines_rel
    (w := fun row => match row with
      | Value.record m => ((sortStrings (mapKeys first)).map (entryExcess m)).sum
      | _ => 0) ?_ rowsA rowsB hrowsA hrowsB
  · simp only [List.map_cons, List.sum_cons] at hrows
    simp only [countNewlines_append, countNewlines_normalized_schema]
    omega
  · intro row hrow x y hx hy
    cases row with
    | scalar s => simp at hx
    | seq xs => simp at hx
    | record m =>
        simp only [Option.map_eq_some'] at hx hy
        obtain ⟨nx, hnx, rfl⟩ := hx
        obtain ⟨ny, hny, rfl⟩ := hy
        have hblocks := writeAll_newlines_rel (w := entryExcess m) ?_ nx ny hnx hny
        · simp only [countNewlines_append]
          omega
        · intro col _ u v hu hv
          cases hget : mapGet m col with
          | none =>
              simp only [hget] at hu hv
              rw [hu] at hv
              cases hv
              simp [entryExcess, hget]
          | some c =>
              have hc := allNodes_cell hP hrow hget
              cases c with
              | scalar s =>
                  simp only [hget] at hu hv
                  rw [hu] at hv
                  cases hv
                  simp [entryExcess, hget]
              | record sub =>
                  by_cases hflat : canFlattenObject sub = true
                  · have hne : sub ≠ [] := by
                      have := rowsAll_cell hP htab hrow hget
                      simpa [notEmptyRecordCell] using this
                    cases fuel with
                    | zero => simp [hget, writeValue] at hv
                    | succ fuel =>
                        simp only [hget, hflat, if_true, Option.some.injEq, foldl_snoc_map,
                          List.nil_append, writeValue_record_flattenable _ _ _ hflat,
                          Option.map_some'] at hu hv
                        subst hu; subst hv
                        have hlen : 1 ≤ (sortStrings (mapKeys sub)).length := by
                          rw [sortStrings_length]
                          cases sub with
                          | nil => exact absurd rfl hne
                          | cons e es => simp [mapKeys]
                        have h1 : countNewlines "\n" = 1 := by decide
                        have h2 : countNewlines ": " = 0 := by decide
                        have h3 : countNewlines "  " = 0 := by decide
                        have heta : List.map (fun x => countNewlines x)
                            (sortStrings (mapKeys sub)) =
                            List.map countNewlines (sortStrings (mapKeys sub)) := rfl
                        simp only [entryExcess, hget, hflat, if_true, countNewlines_append,
                          countNewlines_spaces, countNewlines_concatAll, List.map_map,
                          Function.comp_def, h1, h2, h3,
                          countNewlines_stringsJoin _ _ (show countNewlines "|" = 0 by decide)]
                        rw [sum_map_add_one, sum_map_add]
                        simp only [Nat.zero_add, Nat.add_zero, heta]
                        omega
                  · have hflat2 : canFlattenObject sub = false := by simpa using hflat
                    simp only [hget, hflat2, Bool.false_eq_true, if_false,
                      Option.map_eq_some'] at hu hv
                    obtain ⟨u2, hu2, rfl⟩ := hu
                    obtain ⟨v2, hv2, rfl⟩ := hv
                    have := ihv _ _ hc u2 v2 hu2 hv2
                    simp only [entryExcess, hget, hflat2, Bool.false_eq_true, if_false,
                      countNewlines_append]
                    omega
              | seq s =>
                  by_cases hs : isTabular s = true
                  · simp only [hget, hs, if_true, Option.map_eq_some'] at hu hv
                    obtain ⟨u2, hu2, rfl⟩ := hu
                    obtain ⟨v2, hv2, rfl⟩ := hv
                    have := iht _ _ _ _ hs hc u2 v2 hu2 hv2
                    simp only [entryExcess, hget, countNewlines_append]
                    omega
                  · simp only [hget, hs, Bool.false_eq_true, if_false] at hu hv
                    rw [hu] at hv
                    cases hv
                    simp [entryExcess, hget]

/-! ## Byte lengths: Flattened against Normal mode -/

theorem sum_map_add_const {α : Type} (f : α → Nat) (c : Nat) (xs : List α) :
    (xs.map fun x => f x + c).sum = (xs.map f).sum + c * xs.length := by
  induction xs with
  | nil => rfl
  | cons x xs ih =>
      simp only [List.map_cons, List.sum_cons, List.length_cons, ih, Nat.mul_add, Nat.mul_one]
      omega

theorem le_sum_of_mem {α : Type} (f : α → Nat) {xs : List α} {x : α} (h : x ∈ xs) :
    f x ≤ (xs.map f).sum := by
  induction xs with
  | nil => simp at h
  | cons y ys ih =>
      simp only [List.map_cons, List.sum_cons]
      rcases List.mem_cons.mp h with rfl | h
      · omega
      · have := ih h
        omega

theorem byteLen_concatAll (xs : List String) :
    byteLen (concatAll xs) = (xs.map byteLen).sum :=
  textMeasure_concatAll _ xs

theorem byteLen_stringsJoin (xs : List String) (sep : String) (hsep : byteLen sep = 1) :
    byteLen (stringsJoin xs sep) = (xs.map byteLen).sum + (xs.length - 1) := by
  have h := textMeasure_stringsJoin Char.utf8Size xs sep
  have hsep2 : textMeasure Char.utf8Size sep = 1 := hsep
  rw [hsep2, Nat.mul_one] at h
  exact h

/-- A loop that writes at least `u x - v x` bytes for every `x`. -/
theorem writeAll_bytes_ge {α : Type} {g : α → Option String} {u : α → Nat}
    {xs : List α} (h : ∀ x ∈ xs, ∀ b, g x = some b → u x ≤ byteLen b) :
    ∀ B, writeAll g xs = some B → (xs.map u).sum ≤ byteLen B := by
  induction xs with
  | nil =>
      intro B _
      simp
  | cons x xs ih =>
      intro B hB
      simp only [writeAll] at hB
      cases hgx : g x with
      | none => simp [hgx] at hB
      | some b1 =>
          cases hgs : writeAll g xs with
          | none => simp [hgx, hgs] at hB
          | some b2 =>
              simp only [hgx, hgs, Option.some.injEq] at hB
              subst hB
              have h1 := h x (List.mem_cons_self _ _) b1 hgx
              have h2 := ih (fun y hy => h y (List.mem_cons_of_mem _ hy)) b2 hgs
              simp only [List.map_cons, List.sum_cons, byteLen_append]
              omega

/-- Two loops over the same list: if the second writes, for every `x`, at least
`w x` bytes more than the first, it writes at least their sum more. -/
theorem writeAll_bytes_rel {α : Type} {f g : α → Option String} {w : α → Nat}
    {xs : List α}
    (h : ∀ x ∈ xs, ∀ a b, f x = some a → g x = some b → byteLen a + w x ≤ byteLen b) :
    ∀ A B, writeAll f xs = some A → writeAll g xs = some B →
      byteLen A + (xs.map w).sum ≤ byteLen B := by
  induction xs with
  | nil =>
      intro A B hA hB
      simp only [writeAll, Option.some.injEq] at hA hB
      subst hA; subst hB
      simp
  | cons x xs ih =>
      intro A B hA hB
      simp only [writeAll] at hA hB
      cases hfx : f x with
      | none => simp [hfx] at hA
      | some a1 =>
          cases hgx : g x with
          | none => simp [hgx] at hB
          | some b1 =>
              cases hfs : writeAll f xs with
              | none => simp [hfx, hfs] at hA
              | some a2 =>
                  cases hgs : writeAll g xs with
                  | none => simp [hgx, hgs] at hB
                  | some b2 =>
                      simp only [hfx, hfs, Option.some.injEq] at hA
                      simp only [hgx, hgs, Option.some.injEq] at hB
                      subst hA; subst hB
                      have h1 := h x (List.mem_cons_self _ _) a1 b1 hfx hgx
                      have h2 := ih (fun y hy => h y (List.mem_cons_of_mem _ hy)) a2 b2 hfs hgs
                      simp only [List.map_cons, List.sum_cons, byteLen_append]
                      omega

theorem flattenedCell_of_plain {m : List (String × Value)} {col : String}
    (hn : isNested (mapGet m col) = false) :
    flattenedCell m col = [fmtAny (mapGet m col)] := by
  cases hget : mapGet m col with
  | none => simp [flattenedCell, hget]
  | some x =>
      cases x with
      | scalar s => simp [flattenedCell, hget]
      | record sub => simp [hget, isNested] at hn
      | seq sub =>
          have hsub : isTabular sub = false := by simpa [hget, isNested] using hn
          simp [flattenedCell, hget, hsub, fmtAny]

/-- The values of a Flattened row against those of the Normal row line: the
same values plus what the nested columns add. -/
theorem flattened_values_cost (schema : List String) (m : List (String × Value)) :
    ((extractFlattenedValues schema m).map byteLen).sum +
        (extractFlattenedValues schema m).length =
      ((rowValues schema m).map byteLen).sum + (rowValues schema m).length +
        (schema.map (flatCost m)).sum ∧
    (rowValues schema m).length ≤ (extractFlattenedValues schema m).length := by
  rw [extractFlattenedValues_eq_cells, rowValues_eq]
  induction schema with
  | nil => simp
  | cons col rest ih =>
      obtain ⟨ih1, ih2⟩ := ih
      cases hn : isNested (mapGet m col) with
      | true =>
          simp only [List.flatMap_cons, List.map_append, List.sum_append, List.length_append,
            List.filter_cons, hn, Bool.not_true, Bool.false_eq_true, if_false, List.map_cons,
            List.sum_cons, flatCost, if_true]
          constructor <;> omega
      | false =>
          have hcell := flattenedCell_of_plain hn
          simp only [List.flatMap_cons, hcell, List.singleton_append, List.map_cons,
            List.sum_cons, List.length_cons, List.filter_cons, hn, Bool.not_false, if_true,
            flatCost, Bool.false_eq_true, if_false, Nat.zero_add]
          constructor <;> omega

theorem byteLen_flattened_schema (schema : List String) (m : List (String × Value)) :
    byteLen (buildFlattenedSchema schema m) =
      byteLen (stringsJoin schema "|") + (schema.map (headerCost m)).sum := by
  have hsep : byteLen "|" = 1 := by decide
  rw [buildFlattenedSchema_eq, byteLen_stringsJoin _ _ hsep, byteLen_stringsJoin _ _ hsep,
    List.map_map, List.length_map]
  have hsum : (schema.map (byteLen ∘ fun col =>
      match mapGet m col with
      | some (.record subMap) =>
          if canFlattenObject subMap then
            col ++ "\x7b" ++ stringsJoin (sortStrings (mapKeys subMap)) "," ++ "\x7d"
          else col
      | _ => col)).sum = (schema.map byteLen).sum + (schema.map (headerCost m)).sum := by
    rw [← sum_map_add]
    congr 1
    apply List.map_congr_left
    intro col _
    simp only [Function.comp, headerCost]
    cases hget : mapGet m col with
    | none => rfl
    | some x =>
        cases x with
        | scalar s => rfl
        | seq xs => rfl
        | record sub =>
            by_cases hflat : canFlattenObject sub = true
            · have h1 : byteLen "\x7b" = 1 := by decide
              have h2 : byteLen "\x7d" = 1 := by decide
              simp only [hflat, if_true, byteLen_append, h1, h2]
              omega
            · simp only [hflat, Bool.false_eq_true, if_false, Nat.add_zero]
  rw [hsum]
  omega

/-- A record with a field is written with at least its indentation. -/
theorem byteLen_record_body {mode : formatMode} {fuel L : Nat}
    {sub : List (String × Value)} {body : String} (hne : sub ≠ [])
    (h : writeValue mode fuel (.record sub) L = some body) : L ≤ byteLen body := by
  cases fuel with
  | zero => simp [writeValue] at h
  | succ fuel =>
      rw [writeValue] at h
      have hkeys : sortStrings (mapKeys sub) ≠ [] := by
        intro hnil
        have := sortStrings_length (mapKeys sub)
        rw [hnil] at this
        cases sub with
        | nil => exact hne rfl
        | cons e es => simp [mapKeys] at this
      cases hk : sortStrings (mapKeys sub) with
      | nil => exact absurd hk hkeys
      | cons key keys =>
          rw [hk] at h
          simp only [writeAll] at h
          split at h
          · simp at h
          · rename_i t ht
            split at h
            · simp at h
            · rename_i t2 _
              simp only [Option.some.injEq] at h
              subst h
              rw [byteLen_append]
              have hL : L ≤ byteLen t := by
                cases hget : mapGet sub key with
                | none =>
                    simp only [hget, Option.some.injEq] at ht
                    subst ht
                    simp only [byteLen_append, byteLen_spaces]
                    omega
                | some x =>
                    cases x with
                    | scalar s =>
                        simp only [hget, Option.some.injEq] at ht
                        subst ht
                        simp only [byteLen_append, byteLen_spaces]
                        omega
                    | record r =>
                        simp only [hget, Option.map_eq_some'] at ht
                        obtain ⟨blk, _, rfl⟩ := ht
                        simp only [byteLen_append, byteLen_spaces]
                        omega
                    | seq s =>
                        by_cases hs : isTabular s = true
                        · simp only [hget, hs, if_true] at ht
                          obtain ⟨cols, rows, rfl⟩ := writeTabularArray_shape ht
                          simp only [byteLen_append, byteLen_spaces]
                          omega
                        · simp only [hget, hs, Bool.false_eq_true, if_false,
                            Option.some.injEq] at ht
                          subst ht
                          simp only [byteLen_append, byteLen_spaces]
                          omega
              omega

theorem sum_map_le {α : Type} {f g : α → Nat} {xs : List α} (h : ∀ x ∈ xs, f x ≤ g x) :
    (xs.map f).sum ≤ (xs.map g).sum := by
  induction xs with
  | nil => simp
  | cons x xs ih =>
      have h1 := h x (List.mem_cons_self _ _)
      have h2 := ih (fun y hy => h y (List.mem_cons_of_mem _ hy))
      simp only [List.map_cons, List.sum_cons]
      omega

/-- The block Normal mode writes for a nested column is at least as long as
what the column costs in Flattened mode, header entry included, and longer when
the column holds a flattenable record. -/
theorem normal_block_bytes (fuel L : Nat) (m : List (String × Value)) (col blk : String)
    (h : (match mapGet m col with
      | some (.record subMap) =>
          (writeValue .modeNormal fuel (.record subMap) (L + 2)).map
            (fun block => spaces (L + 1) ++ "  > " ++ col ++ ":\n" ++ block)
      | some (.seq subSlice) =>
          if isTabular subSlice then
            (writeTabularArray .modeNormal fuel "" col subSlice (L + 2)).map
              (fun table => spaces (L + 1) ++ "  > " ++ table)
          else some ""
      | _ => some "") = some blk) :
    flatCost m col + headerCost m col + (if holdsFlattenable m col then 1 else 0) ≤
      byteLen blk := by
  have hm1 : byteLen "  > " = 4 := by decide
  have hm2 : byteLen ":\n" = 2 := by decide
  cases hget : mapGet m col with
  | none => simp [flatCost, headerCost, holdsFlattenable, hget, isNested]
  | some x =>
      cases x with
      | scalar s =>
          simp [flatCost, headerCost, holdsFlattenable, hget, isNested, isFlattenableCell]
      | record sub =>
          by_cases hflat : canFlattenObject sub = true
          · cases fuel with
            | zero => simp [hget, writeValue] at h
            | succ fuel =>
                simp only [hget, writeValue_record_flattenable _ _ _ hflat, Option.map_some',
                  Option.some.injEq] at h
                subst h
                have hline : ∀ key ∈ sortStrings (mapKeys sub),
                    (fun key => byteLen key + byteLen (fmtAny (mapGet sub key)) + 5) key ≤
                    (byteLen ∘ fun key => spaces (L + 2) ++ key ++ ": " ++
                      fmtAny (mapGet sub key) ++ "\n") key := by
                  intro key _
                  have h1 : byteLen ": " = 2 := by decide
                  have h2 : byteLen "\n" = 1 := by decide
                  simp only [Function.comp, byteLen_append, byteLen_spaces, h1, h2]
                  omega
                have hsum := sum_map_le hline
                rw [sum_map_add_const, sum_map_add] at hsum
                have hjoin := byteLen_stringsJoin (sortStrings (mapKeys sub)) ","
                  (by decide)
                simp only [flatCost, headerCost, holdsFlattenable, hget, isNested, if_true,
                  flattenedCell, hflat, isFlattenableCell, List.map_map, List.length_map,
                  byteLen_append, byteLen_spaces, byteLen_concatAll, hm1, hm2, hjoin]
                simp only [Function.comp_def] at hsum ⊢
                omega
          · have hflat2 : canFlattenObject sub = false := by simpa using hflat
            have hne : sub ≠ [] := by
              intro hnil
              rw [hnil] at hflat2
              simp [canFlattenObject] at hflat2
            simp only [hget, Option.map_eq_some'] at h
            obtain ⟨body, hbody, rfl⟩ := h
            have hb := byteLen_record_body hne hbody
            have h8 : byteLen "[nested]" = 8 := by decide
            simp only [flatCost, headerCost, holdsFlattenable, hget, isNested, if_true,
              flattenedCell, hflat2, isFlattenableCell, Bool.false_eq_true, if_false,
              List.map_cons, List.map_nil, List.sum_cons, List.sum_nil, List.length_singleton,
              byteLen_append, byteLen_spaces, hm1, hm2, h8]
            omega
      | seq s =>
          by_cases hs : isTabular s = true
          · simp only [hget, hs, if_true, Option.map_eq_some'] at h
            obtain ⟨table, htable, rfl⟩ := h
            obtain ⟨cols, rows, rfl⟩ := writeTabularArray_shape htable
            have h7 : byteLen "[table]" = 7 := by decide
            have hb1 : byteLen "\x7b" = 1 := by decide
            have hb2 : byteLen "\x7d:\n" = 3 := by decide
            simp only [flatCost, headerCost, holdsFlattenable, hget, isNested, hs, if_true,
              flattenedCell, isFlattenableCell, Bool.false_eq_true, if_false,
              List.map_cons, List.map_nil, List.sum_cons, List.sum_nil, List.length_singleton,
              byteLen_append, byteLen_spaces, hm1, h7, hb1, hb2]
            omega
          · simp [flatCost, headerCost, holdsFlattenable, hget, isNested, hs,
              isFlattenableCell]

/-- A table each of whose rows holds a flattenable record in a column of the
schema is strictly shorter in Flattened mode than in Normal mode. -/
theorem flattened_lt_normal_table (fuel : Nat) (indentStr key : String) (data : List Value)
    (L : Nat) (htab : isTabular data = true)
    (hflat : ∀ m, Value.record m ∈ data → ∃ col sub,
      mapGet m col = some (Value.record sub) ∧ canFlattenObject sub = true) :
    ∀ a b, writeTabularArray .modeFlattened (fuel + 1) indentStr key data L = some a →
      writeTabularArray .modeNormal (fuel + 1) indentStr key data L = some b →
      byteLen a < byteLen b := by
  intro a b ha hb
  obtain ⟨first, rest, rfl⟩ := isTabular_head htab
  simp only [writeTabularArray, writeTabularArrayFlattened, writeTabularArrayNormal,
    Option.map_eq_some'] at ha hb
  obtain ⟨rowsA, hrowsA, rfl⟩ := ha
  obtain ⟨rowsB, hrowsB, rfl⟩ := hb
  have hrows := writeAll_bytes_rel
    (w := fun row => match row with
      | Value.record m => ((sortStrings (mapKeys first)).map (headerCost m)).sum + 1
      | _ => 0) ?_ rowsA rowsB hrowsA hrowsB
  · simp only [List.map_cons, List.sum_cons] at hrows
    simp only [byteLen_append, byteLen_flattened_schema]
    omega
  · intro row hrow x y hx hy
    cases row with
    | scalar s => simp at hx
    | seq xs => simp at hx
    | record m =>
        simp only [Option.some.injEq, Option.map_eq_some'] at hx hy
        obtain ⟨nested, hnested, rfl⟩ := hy
        subst hx
        have hblocks := writeAll_bytes_ge
          (u := fun col => flatCost m col + headerCost m col +
            (if holdsFlattenable m col then 1 else 0))
          (fun col _ blk hblk => normal_block_bytes fuel L m col blk hblk) nested hnested
        rw [sum_map_add, sum_map_add] at hblocks
        obtain ⟨col, sub, hget, hsub⟩ := hflat m hrow
        have hcol : col ∈ sortStrings (mapKeys first) := by
          rw [mem_sortStrings]
          have hmem : col ∈ mapKeys m :=
            List.mem_map.mpr ⟨(col, Value.record sub), mapGet_mem hget, rfl⟩
          rcases List.mem_cons.mp hrow with heq | hrow2
          · cases heq
            exact hmem
          · obtain ⟨m2, hm2, _, hsubset⟩ := (isTabular_cons_record first rest).mp htab _ hrow2
            cases hm2
            exact hsubset col hmem
        have hone : (if holdsFlattenable m col then 1 else 0) = 1 := by
          simp [holdsFlattenable, hget, isFlattenableCell, hsub]
        have hstrict : 1 ≤ ((sortStrings (mapKeys first)).map
            (fun col => if holdsFlattenable m col then 1 else 0)).sum := by
          have := le_sum_of_mem (fun col => if holdsFlattenable m col then 1 else 0) hcol
          simpa only [hone] using this
        obtain ⟨hcost, hlen⟩ := flattened_values_cost (sortStrings (mapKeys first)) m
        have hsep : byteLen "|" = 1 := by decide
        simp only [byteLen_append, byteLen_stringsJoin _ _ hsep]
        omega

/-! ## Reordering the entries of records -/

theorem reorders_scalar_left {s : Scalar} {w : Value}
    (h : (Value.scalar s).reorders w = true) : w = Value.scalar s := by
  cases w with
  | scalar t =>
      simp only [Value.reorders, beq_iff_eq] at h
      rw [h]
  | record m => simp [Value.reorders] at h
  | seq xs => simp [Value.reorders] at h

theorem reorders_record_left {m : List (String × Value)} {w : Value}
    (h : (Value.record m).reorders w = true) :
    ∃ m2, w = Value.record m2 ∧ m.length = m2.length ∧ fieldsIn m m2 = true := by
  cases w with
  | scalar t => simp [Value.reorders] at h
  | record m2 =>
      simp only [Value.reorders, Bool.and_eq_true, beq_iff_eq] at h
      exact ⟨m2, rfl, h.1, h.2⟩
  | seq xs => simp [Value.reorders] at h

theorem reorders_seq_left {xs : List Value} {w : Value}
    (h : (Value.seq xs).reorders w = true) :
    ∃ ys, w = Value.seq ys ∧ itemsMatch xs ys = true := by
  cases w with
  | scalar t => simp [Value.reorders] at h
  | record m2 => simp [Value.reorders] at h
  | seq ys =>
      simp only [Value.reorders] at h
      exact ⟨ys, rfl, h⟩

theorem itemsMatch_forall₂ : ∀ {xs ys : List Value}, itemsMatch xs ys = true →
    List.Forall₂ (fun x y => x.reorders y = true) xs ys
  | [], [], _ => List.Forall₂.nil
  | [], _ :: _, h => by simp [itemsMatch] at h
  | _ :: _, [], h => by simp [itemsMatch] at h
  | x :: xs, y :: ys, h => by
      simp only [itemsMatch, Bool.and_eq_true] at h
      exact List.Forall₂.cons h.1 (itemsMatch_forall₂ h.2)

theorem fieldsIn_mem {m m2 : List (String × Value)} (h : fieldsIn m m2 = true)
    {k : String} {x : Value} (hkx : (k, x) ∈ m) :
    ∃ x2, mapGet m2 k = some x2 ∧ x.reorders x2 = true := by
  induction m with
  | nil => simp at hkx
  | cons e rest ih =>
      obtain ⟨k1, x1⟩ := e
      simp only [fieldsIn, Bool.and_eq_true] at h
      rcases List.mem_cons.mp hkx with heq | hmem
      · cases heq
        cases hget : mapGet m2 k with
        | none => simp [hget] at h
        | some x2 =>
            simp only [hget] at h
            exact ⟨x2, rfl, h.1⟩
      · exact ih h.2 hmem

theorem wf_record {m : List (String × Value)} (h : (Value.record m).wf = true) :
    (mapKeys m).Nodup ∧ wfFields m = true := by
  simpa [Value.wf] using h

theorem wfFields_mem {m : List (String × Value)} (h : wfFields m = true)
    {kv : String × Value} (hkv : kv ∈ m) : kv.2.wf = true := by
  induction m with
  | nil => simp at hkv
  | cons e rest ih =>
      obtain ⟨k, v⟩ := e
      simp only [wfFields, Bool.and_eq_true] at h
      rcases List.mem_cons.mp hkv with rfl | hkv
      · exact h.1
      · exact ih h.2 hkv

theorem wfItems_mem {xs : List Value} (h : wfItems xs = true) {x : Value} (hx : x ∈ xs) :
    x.wf = true := by
  induction xs with
  | nil => simp at hx
  | cons e rest ih =>
      simp only [wfItems, Bool.and_eq_true] at h
      rcases List.mem_cons.mp hx with rfl | hx
      · exact h.1
      · exact ih h.2 hx

theorem wf_mapGet {m : List (String × Value)} {k : String} {x : Value}
    (h : (Value.record m).wf = true) (hget : mapGet m k = some x) : x.wf = true :=
  wfFields_mem (wf_record h).2 (mapGet_mem hget)

theorem wf_mem {xs : List Value} {x : Value} (h : (Value.seq xs).wf = true) (hx : x ∈ xs) :
    x.wf = true := by
  simp only [Value.wf] at h
  exact wfItems_mem h hx

theorem mapGet_of_mem_nodup {m : List (String × Value)} (hnd : (mapKeys m).Nodup)
    {k : String} {x : Value} (hkx : (k, x) ∈ m) : mapGet m k = some x := by
  induction m with
  | nil => simp at hkx
  | cons e rest ih =>
      obtain ⟨k1, x1⟩ := e
      simp only [mapKeys, List.map_cons, List.nodup_cons] at hnd
      rcases List.mem_cons.mp hkx with heq | hmem
      · cases heq
        simp [mapGet]
      · have hne : k1 ≠ k := by
          intro heq
          subst heq
          exact hnd.1 (List.mem_map.mpr ⟨(k1, x), hmem, rfl⟩)
        simp only [mapGet, hne, if_false]
        exact ih hnd.2 hmem

theorem mapGet_eq_none {m : List (String × Value)} {k : String} (h : k ∉ mapKeys m) :
    mapGet m k = none := by
  cases hget : mapGet m k with
  | none => rfl
  | some x =>
      exact absurd (List.mem_map.mpr ⟨(k, x), mapGet_mem hget, rfl⟩) h

/-- The keys of two records that are reorderings of each other are a
permutation of each other. -/
theorem reorders_keys_perm {m m2 : List (String × Value)}
    (hwf : (Value.record m).wf = true)
    (hlen : m.length = m2.length) (hin : fieldsIn m m2 = true) :
    (mapKeys m).Perm (mapKeys m2) := by
  have hsub : ∀ k, k ∈ mapKeys m → k ∈ mapKeys m2 := by
    intro k hk
    obtain ⟨kv, hkv, rfl⟩ := List.mem_map.mp hk
    obtain ⟨x2, hx2, _⟩ := fieldsIn_mem hin (k := kv.1) (x := kv.2) hkv
    exact List.mem_map.mpr ⟨(kv.1, x2), mapGet_mem hx2, rfl⟩
  exact (List.subperm_of_subset (wf_record hwf).1 hsub).perm_of_length_le
    (by simp [mapKeys, hlen])

/-- Looking a key up in two records that are reorderings of each other gives
nothing in both, or two values that are reorderings of each other. -/
theorem reorders_mapGet {m m2 : List (String × Value)}
    (hwf : (Value.record m).wf = true) (hwf2 : (Value.record m2).wf = true)
    (hlen : m.length = m2.length) (hin : fieldsIn m m2 = true) (k : String) :
    (mapGet m k = none ∧ mapGet m2 k = none) ∨
    ∃ x x2, mapGet m k = some x ∧ mapGet m2 k = some x2 ∧ x.reorders x2 = true ∧
      x.wf = true ∧ x2.wf = true := by
  have hperm := reorders_keys_perm hwf hlen hin
  cases hget : mapGet m k with
  | none =>
      left
      refine ⟨rfl, mapGet_eq_none ?_⟩
      intro hk2
      obtain ⟨x, hx⟩ := mapGet_of_mem_keys (hperm.mem_iff.mpr hk2)
      rw [hget] at hx
      cases hx
  | some x =>
      right
      obtain ⟨x2, hx2, hr⟩ := fieldsIn_mem hin (mapGet_mem hget)
      exact ⟨x, x2, rfl, hx2, hr, wf_mapGet hwf hget, wf_mapGet hwf2 hx2⟩

theorem forall₂_mem_both {α β : Type} {R : α → β → Prop} {xs : List α} {ys : List β}
    (h : List.Forall₂ R xs ys) :
    List.Forall₂ (fun x y => x ∈ xs ∧ y ∈ ys ∧ R x y) xs ys := by
  induction h with
  | nil => exact List.Forall₂.nil
  | cons hxy _ ih =>
      exact List.Forall₂.cons ⟨List.mem_cons_self _ _, List.mem_cons_self _ _, hxy⟩
        (ih.imp fun x y hx => ⟨List.mem_cons_of_mem _ hx.1, List.mem_cons_of_mem _ hx.2.1,
          hx.2.2⟩)

theorem forall₂_map_eq {α β γ : Type} {f : α → γ} {g : β → γ} {xs : List α} {ys : List β}
    (h : List.Forall₂ (fun x y => f x = g y) xs ys) : xs.map f = ys.map g := by
  induction h with
  | nil => rfl
  | cons hxy _ ih => simp only [List.map_cons, hxy, ih]

theorem textGet_fmtFields (m : List (String × Value)) (key : String) :
    textGet (fmtFields m) key = fmtAny (mapGet m key) := by
  induction m with
  | nil => rfl
  | cons e rest ih =>
      obtain ⟨k, v⟩ := e
      simp only [fmtFields, textGet, mapGet]
      by_cases hk : k = key
      · simp [hk, fmtAny]
      · simp only [hk, if_false]
        exact ih

theorem fmtItems_eq_map (xs : List Value) : fmtItems xs = xs.map fmtV := by
  induction xs with
  | nil => rfl
  | cons x xs ih => simp only [fmtItems, List.map_cons, ih]

theorem fmtV_record (m : List (String × Value)) :
    fmtV (.record m) =
      "map[" ++ stringsJoin ((sortStrings (mapKeys m)).map
        (fun k => k ++ ":" ++ fmtAny (mapGet m k))) " " ++ "]" := by
  simp only [fmtV, textGet_fmtFields]

/-- The `%v` text does not depend on the order of record entries. -/
theorem fmtV_reorders : ∀ (n : Nat) (v v2 : Value), v.depth ≤ n → v.wf = true →
    v2.wf = true → v.reorders v2 = true → fmtV v = fmtV v2 := by
  intro n
  induction n with
  | zero =>
      intro v v2 hd
      have := depth_pos v
      omega
  | succ n ih =>
      intro v v2 hd hwf hwf2 hr
      cases v with
      | scalar s =>
          rw [reorders_scalar_left hr]
      | record m =>
          obtain ⟨m2, rfl, hlen, hin⟩ := reorders_record_left hr
          simp only [Value.depth] at hd
          rw [fmtV_record, fmtV_record,
            sortStrings_eq_of_perm (reorders_keys_perm hwf hlen hin)]
          congr 3
          apply List.map_congr_left
          intro k _
          rcases reorders_mapGet hwf hwf2 hlen hin k with ⟨h1, h2⟩ | ⟨x, x2, h1, h2, hx, hw, hw2⟩
          · rw [h1, h2]
          · have := depth_mapGet h1
            rw [h1, h2]
            simp only [fmtAny]
            rw [ih x x2 (by omega) hw hw2 hx]
      | seq xs =>
          obtain ⟨ys, rfl, hmatch⟩ := reorders_seq_left hr
          simp only [Value.depth] at hd
          simp only [fmtV, fmtItems_eq_map]
          congr 3
          apply forall₂_map_eq
          refine (forall₂_mem_both (itemsMatch_forall₂ hmatch)).imp ?_
          rintro x y ⟨hx, hy, hxy⟩
          have := depth_mem_items hx
          exact ih x y (by omega) (wf_mem hwf hx) (wf_mem hwf2 hy) hxy

theorem fmtV_of_reorders {v v2 : Value} (hwf : v.wf = true) (hwf2 : v2.wf = true)
    (hr : v.reorders v2 = true) : fmtV v = fmtV v2 :=
  fmtV_reorders v.depth v v2 (le_refl _) hwf hwf2 hr

theorem forall₂_exists_left {α β : Type} {R : α → β → Prop} {xs : List α} {ys : List β}
    (h : List.Forall₂ R xs ys) {y : β} (hy : y ∈ ys) : ∃ x ∈ xs, R x y := by
  induction h with
  | nil => simp at hy
  | cons hxy _ ih =>
      rcases List.mem_cons.mp hy with rfl | hy
      · exact ⟨_, List.mem_cons_self _ _, hxy⟩
      · obtain ⟨x, hx, hr⟩ := ih hy
        exact ⟨x, List.mem_cons_of_mem _ hx, hr⟩

theorem forall₂_exists_right {α β : Type} {R : α → β → Prop} {xs : List α} {ys : List β}
    (h : List.Forall₂ R xs ys) {x : α} (hx : x ∈ xs) : ∃ y ∈ ys, R x y := by
  induction h with
  | nil => simp at hx
  | cons hxy _ ih =>
      rcases List.mem_cons.mp hx with rfl | hx
      · exact ⟨_, List.mem_cons_self _ _, hxy⟩
      · obtain ⟨y, hy, hr⟩ := ih hx
        exact ⟨y, List.mem_cons_of_mem _ hy, hr⟩

theorem reorders_record_right {v : Value} {m2 : List (String × Value)}
    (h : v.reorders (Value.record m2) = true) :
    ∃ m, v = Value.record m ∧ m.length = m2.length ∧ fieldsIn m m2 = true := by
  cases v with
  | scalar s => simp [Value.reorders] at h
  | seq xs => simp [Value.reorders] at h
  | record m =>
      obtain ⟨m3, h3, hlen, hin⟩ := reorders_record_left h
      cases h3
      exact ⟨m, rfl, hlen, hin⟩

/-- Whether a slice is tabular does not depend on the order of record
entries. -/
theorem isTabular_reorders {xs ys : List Value} (hwf : (Value.seq xs).wf = true)
    (hmatch : itemsMatch xs ys = true) : isTabular xs = isTabular ys := by
  have hall := itemsMatch_forall₂ hmatch
  cases hall with
  | nil => rfl
  | cons hxy hrest =>
      rename_i x y xs2 ys2
      have hwfx : x.wf = true := wf_mem hwf (List.mem_cons_self _ _)
      cases x with
      | scalar s =>
          rw [reorders_scalar_left hxy]
          rfl
      | seq zs =>
          obtain ⟨ws, rfl, _⟩ := reorders_seq_left hxy
          rfl
      | record first =>
          obtain ⟨first2, rfl, hlen, hin⟩ := reorders_record_left hxy
          have hperm := reorders_keys_perm hwfx hlen hin
          rw [Bool.eq_iff_iff, isTabular_cons_record, isTabular_cons_record]
          constructor
          · intro h item2 hitem2
            obtain ⟨item, hitem, hr⟩ := forall₂_exists_left hrest hitem2
            obtain ⟨m, rfl, hl, hsub⟩ := h item hitem
            obtain ⟨m2, rfl, hlen2, hin2⟩ := reorders_record_left hr
            have hp2 := reorders_keys_perm
              (wf_mem hwf (List.mem_cons_of_mem _ hitem)) hlen2 hin2
            refine ⟨m2, rfl, ?_, ?_⟩
            · rw [← hp2.length_eq, hl, hperm.length_eq]
            · intro k hk
              exact hperm.mem_iff.mp (hsub k (hp2.mem_iff.mpr hk))
          · intro h item hitem
            obtain ⟨item2, hitem2, hr⟩ := forall₂_exists_right hrest hitem
            obtain ⟨m2, rfl, hl, hsub⟩ := h item2 hitem2
            obtain ⟨m, rfl, hlen2, hin2⟩ := reorders_record_right hr
            have hp2 := reorders_keys_perm
              (wf_mem hwf (List.mem_cons_of_mem _ hitem)) hlen2 hin2
            refine ⟨m, rfl, ?_, ?_⟩
            · rw [hp2.length_eq, hl, hperm.length_eq]
            · intro k hk
              exact hperm.mem_iff.mpr (hsub k (hp2.mem_iff.mp hk))

/-- Whether an object is flattenable does not depend on the order of its
entries. -/
theorem canFlattenObject_reorders {m m2 : List (String × Value)}
    (hwf : (Value.record m).wf = true) (hwf2 : (Value.record m2).wf = true)
    (hlen : m.length = m2.length) (hin : fieldsIn m m2 = true) :
    canFlattenObject m = canFlattenObject m2 := by
  have hperm := reorders_keys_perm hwf hlen hin
  rw [Bool.eq_iff_iff]
  simp only [canFlattenObject, List.all_eq_true]
  constructor
  · intro h kv2 hkv2
    obtain ⟨k2, x2⟩ := kv2
    have hget2 := mapGet_of_mem_nodup (wf_record hwf2).1 hkv2
    have hk : k2 ∈ mapKeys m :=
      hperm.mem_iff.mpr (List.mem_map.mpr ⟨(k2, x2), hkv2, rfl⟩)
    obtain ⟨x, hx⟩ := mapGet_of_mem_keys hk
    obtain ⟨x3, hx3, hr⟩ := fieldsIn_mem hin (mapGet_mem hx)
    rw [hget2] at hx3
    cases hx3
    have hsc := h _ (mapGet_mem hx)
    cases x with
    | scalar s =>
        rw [reorders_scalar_left hr]
    | record r => simp at hsc
    | seq r => simp at hsc
  · intro h kv hkv
    obtain ⟨k, x⟩ := kv
    obtain ⟨x2, hx2, hr⟩ := fieldsIn_mem hin hkv
    have hsc := h _ (mapGet_mem hx2)
    cases x with
    | scalar s => rfl
    | record r =>
        obtain ⟨r2, rfl, _⟩ := reorders_record_left hr
        simp at hsc
    | seq r =>
        obtain ⟨r2, rfl, _⟩ := reorders_seq_left hr
        simp at hsc

theorem cellsMatch_of_records {m m2 : List (String × Value)}
    (hwf : (Value.record m).wf = true) (hwf2 : (Value.record m2).wf = true)
    (hr : (Value.record m).reorders (Value.record m2) = true) (k : String) :
    cellsMatch (mapGet m k) (mapGet m2 k) := by
  obtain ⟨m3, h3, hlen, hin⟩ := reorders_record_left hr
  cases h3
  exact reorders_mapGet hwf hwf2 hlen hin k

theorem fmtAny_cellsMatch {o o2 : Option Value} (h : cellsMatch o o2) :
    fmtAny o = fmtAny o2 := by
  rcases h with ⟨rfl, rfl⟩ | ⟨x, x2, rfl, rfl, hr, hw, hw2⟩
  · rfl
  · exact fmtV_of_reorders hw hw2 hr

theorem isNested_cellsMatch {o o2 : Option Value} (h : cellsMatch o o2) :
    isNested o = isNested o2 := by
  rcases h with ⟨rfl, rfl⟩ | ⟨x, x2, rfl, rfl, hr, hw, hw2⟩
  · rfl
  · cases x with
    | scalar s =>
        rw [reorders_scalar_left hr]
    | record r =>
        obtain ⟨r2, rfl, _⟩ := reorders_record_left hr
        rfl
    | seq xs =>
        obtain ⟨ys, rfl, hmatch⟩ := reorders_seq_left hr
        simp only [isNested]
        exact isTabular_reorders hw hmatch

theorem sortedKeys_reorders {m m2 : List (String × Value)}
    (hwf : (Value.record m).wf = true)
    (hr : (Value.record m).reorders (Value.record m2) = true) :
    sortStrings (mapKeys m) = sortStrings (mapKeys m2) := by
  obtain ⟨m3, h3, hlen, hin⟩ := reorders_record_left hr
  cases h3
  exact sortStrings_eq_of_perm (reorders_keys_perm hwf hlen hin)

/-- The values of a flattenable object, in key order, do not depend on the
order of its entries. -/
theorem subValues_reorders {m m2 : List (String × Value)}
    (hwf : (Value.record m).wf = true) (hwf2 : (Value.record m2).wf = true)
    (hr : (Value.record m).reorders (Value.record m2) = true) :
    ((sortStrings (mapKeys m)).map fun k => fmtAny (mapGet m k)) =
      (sortStrings (mapKeys m2)).map fun k => fmtAny (mapGet m2 k) := by
  rw [sortedKeys_reorders hwf hr]
  apply List.map_congr_left
  intro k _
  exact fmtAny_cellsMatch (cellsMatch_of_records hwf hwf2 hr k)

theorem cellsMatch_cases {o o2 : Option Value} (h : cellsMatch o o2) :
    (o = none ∧ o2 = none) ∨
    (∃ s, o = some (Value.scalar s) ∧ o2 = some (Value.scalar s)) ∨
    (∃ r r2, o = some (Value.record r) ∧ o2 = some (Value.record r2) ∧
      (Value.record r).reorders (Value.record r2) = true ∧
      (Value.record r).wf = true ∧ (Value.record r2).wf = true) ∨
    (∃ xs ys, o = some (Value.seq xs) ∧ o2 = some (Value.seq ys) ∧
      itemsMatch xs ys = true ∧ (Value.seq xs).wf = true ∧ (Value.seq ys).wf = true) := by
  rcases h with ⟨rfl, rfl⟩ | ⟨x, x2, rfl, rfl, hr, hw, hw2⟩
  · exact Or.inl ⟨rfl, rfl⟩
  · cases x with
    | scalar s =>
        rw [reorders_scalar_left hr]
        exact Or.inr (Or.inl ⟨s, rfl, rfl⟩)
    | record r =>
        obtain ⟨r2, rfl, _⟩ := reorders_record_left hr
        exact Or.inr (Or.inr (Or.inl ⟨r, r2, rfl, rfl, hr, hw, hw2⟩))
    | seq xs =>
        obtain ⟨ys, rfl, hmatch⟩ := reorders_seq_left hr
        exact Or.inr (Or.inr (Or.inr ⟨xs, ys, rfl, rfl, hmatch, hw, hw2⟩))

theorem rowValues_reorders (schema : List String) {m m2 : List (String × Value)}
    (h : ∀ col, cellsMatch (mapGet m col) (mapGet m2 col)) :
    rowValues schema m = rowValues schema m2 := by
  rw [rowValues_eq, rowValues_eq]
  have hfilter : (schema.filter fun col => !isNested (mapGet m col)) =
      schema.filter fun col => !isNested (mapGet m2 col) := by
    apply List.filter_congr
    intro col _
    rw [isNested_cellsMatch (h col)]
  rw [hfilter]
  apply List.map_congr_left
  intro col _
  exact fmtAny_cellsMatch (h col)

theorem flattenedCell_reorders {m m2 : List (String × Value)} {col : String}
    (h : cellsMatch (mapGet m col) (mapGet m2 col)) :
    flattenedCell m col = flattenedCell m2 col := by
  rcases cellsMatch_cases h with ⟨h1, h2⟩ | ⟨s, h1, h2⟩ | ⟨r, r2, h1, h2, hr, hw, hw2⟩ |
    ⟨xs, ys, h1, h2, hmatch, hw, hw2⟩
  · simp only [flattenedCell, h1, h2]
  · simp only [flattenedCell, h1, h2]
  · obtain ⟨r3, h3, hlen, hin⟩ := reorders_record_left hr
    cases h3
    simp only [flattenedCell, h1, h2, canFlattenObject_reorders hw hw2 hlen hin,
      subValues_reorders hw hw2 hr]
  · have hfmt : fmtV (Value.seq xs) = fmtV (Value.seq ys) :=
      fmtV_of_reorders hw hw2 (by simpa [Value.reorders] using hmatch)
    simp only [flattenedCell, h1, h2, isTabular_reorders hw hmatch, hfmt]

theorem extractFlattenedValues_reorders (schema : List String) {m m2 : List (String × Value)}
    (h : ∀ col, cellsMatch (mapGet m col) (mapGet m2 col)) :
    extractFlattenedValues schema m = extractFlattenedValues schema m2 := by
  rw [extractFlattenedValues_eq_cells, extractFlattenedValues_eq_cells]
  induction schema with
  | nil => rfl
  | cons col rest ih =>
      simp only [List.flatMap_cons, flattenedCell_reorders (h col), ih]

theorem buildFlattenedSchema_reorders (schema : List String) {m m2 : List (String × Value)}
    (h : ∀ col, cellsMatch (mapGet m col) (mapGet m2 col)) :
    buildFlattenedSchema schema m = buildFlattenedSchema schema m2 := by
  rw [buildFlattenedSchema_eq, buildFlattenedSchema_eq]
  congr 1
  apply List.map_congr_left
  intro col _
  rcases cellsMatch_cases (h col) with ⟨h1, h2⟩ | ⟨s, h1, h2⟩ | ⟨r, r2, h1, h2, hr, hw, hw2⟩ |
    ⟨xs, ys, h1, h2, hmatch, hw, hw2⟩
  · simp only [h1, h2]
  · simp only [h1, h2]
  · obtain ⟨r3, h3, hlen, hin⟩ := reorders_record_left hr
    cases h3
    simp only [h1, h2, canFlattenObject_reorders hw hw2 hlen hin, sortedKeys_reorders hw hr]
  · simp only [h1, h2]

theorem buildNormalizedSchema_reorders (schema : List String) {m m2 : List (String × Value)}
    (h : ∀ col, cellsMatch (mapGet m col) (mapGet m2 col)) :
    buildNormalizedSchema schema m = buildNormalizedSchema schema m2 := by
  rw [buildNormalizedSchema_eq, buildNormalizedSchema_eq]
  congr 1
  apply List.map_congr_left
  intro col _
  rcases cellsMatch_cases (h col) with ⟨h1, h2⟩ | ⟨s, h1, h2⟩ | ⟨r, r2, h1, h2, hr, hw, hw2⟩ |
    ⟨xs, ys, h1, h2, hmatch, hw, hw2⟩
  · simp only [h1, h2]
  · simp only [h1, h2]
  · obtain ⟨r3, h3, hlen, hin⟩ := reorders_record_left hr
    cases h3
    simp only [h1, h2, canFlattenObject_reorders hw hw2 hlen hin, sortedKeys_reorders hw hr]
  · simp only [h1, h2]

theorem writeAll_forall₂ {α β : Type} {f : α → Option String} {g : β → Option String}
    {xs : List α} {ys : List β} (h : List.Forall₂ (fun x y => f x = g y) xs ys) :
    writeAll f xs = writeAll g ys := by
  induction h with
  | nil => rfl
  | cons hxy _ ih => simp only [writeAll, hxy, ih]

/-- What is written does not depend on the order of record entries. -/
theorem writes_reorders (mode : formatMode) : ∀ fuel : Nat,
    (∀ (v v2 : Value) (L : Nat), v.wf = true → v2.wf = true → v.reorders v2 = true →
      writeValue mode fuel v L = writeValue mode fuel v2 L) ∧
    (∀ (is k : String) (d d2 : List Value) (L : Nat), (Value.seq d).wf = true →
      (Value.seq d2).wf = true → itemsMatch d d2 = true →
      writeTabularArray mode fuel is k d L = writeTabularArray mode fuel is k d2 L) := by
  intro fuel
  induction fuel with
  | zero =>
      constructor
      · intro v v2 L _ _ _
        simp [writeValue]
      · intro is k d d2 L _ _ _
        simp [writeTabularArray]
  | succ fuel ih =>
      obtain ⟨ihv, iht⟩ := ih
      constructor
      · intro v v2 L hwf hwf2 hr
        cases v with
        | scalar s =>
            rw [reorders_scalar_left hr]
        | seq xs =>
            obtain ⟨ys, rfl, hmatch⟩ := reorders_seq_left hr
            simp only [writeValue, isTabular_reorders hwf hmatch]
            by_cases htab : isTabular ys = true
            · simp only [htab, if_true]
              exact iht _ _ _ _ _ hwf hwf2 hmatch
            · simp only [htab, Bool.false_eq_true, if_false]
              apply writeAll_forall₂
              refine (forall₂_mem_both (itemsMatch_forall₂ hmatch)).imp ?_
              rintro x y ⟨hx, hy, hxy⟩
              rw [fmtV_of_reorders (wf_mem hwf hx) (wf_mem hwf2 hy) hxy]
        | record m =>
            obtain ⟨m2, rfl, _, _⟩ := reorders_record_left hr
            simp only [writeValue, sortedKeys_reorders hwf hr]
            apply writeAll_congr
            intro key _
            rcases cellsMatch_cases (cellsMatch_of_records hwf hwf2 hr key) with
              ⟨h1, h2⟩ | ⟨s, h1, h2⟩ | ⟨r, r2, h1, h2, hrr, hw, hw2⟩ |
              ⟨xs, ys, h1, h2, hmatch, hw, hw2⟩
            · simp only [h1, h2]
            · simp only [h1, h2]
            · simp only [h1, h2, ihv _ _ _ hw hw2 hrr]
            · simp only [h1, h2, isTabular_reorders hw hmatch]
              by_cases htab : isTabular ys = true
              · simp only [htab, if_true]
                exact iht _ _ _ _ _ hw hw2 hmatch
              · have hfmt : fmtV (Value.seq xs) = fmtV (Value.seq ys) :=
                  fmtV_of_reorders hw hw2 (by simpa [Value.reorders] using hmatch)
                simp only [htab, Bool.false_eq_true, if_false, hfmt]
      · intro is k d d2 L hwf hwf2 hmatch
        have hall := itemsMatch_forall₂ hmatch
        cases hall with
        | nil => rfl
        | cons hxy hrest =>
            rename_i x y xs ys
            have hrows : List.Forall₂ (fun a b => a.reorders b = true) (x :: xs) (y :: ys) :=
              List.Forall₂.cons hxy hrest
            have hwfx : x.wf = true := wf_mem hwf (List.mem_cons_self _ _)
            have hwfy : y.wf = true := wf_mem hwf2 (List.mem_cons_self _ _)
            cases x with
            | scalar s =>
                rw [reorders_scalar_left hxy]
                simp [writeTabularArray]
            | seq zs =>
                obtain ⟨ws, rfl, _⟩ := reorders_seq_left hxy
                simp [writeTabularArray]
            | record first =>
                obtain ⟨first2, rfl, _, _⟩ := reorders_record_left hxy
                have hcellsFirst := cellsMatch_of_records hwfx hwfy hxy
                have hschema := sortedKeys_reorders hwfx hxy
                have hrowCells : List.Forall₂ (fun a b =>
                    (∃ s, a = Value.scalar s ∧ b = Value.scalar s) ∨
                    (∃ zs ws, a = Value.seq zs ∧ b = Value.seq ws) ∨
                    (∃ m m2, a = Value.record m ∧ b = Value.record m2 ∧
                      ∀ col, cellsMatch (mapGet m col) (mapGet m2 col)))
                    (Value.record first :: xs) (Value.record first2 :: ys) := by
                  refine (forall₂_mem_both hrows).imp ?_
                  rintro a b ⟨ha, hb, hab⟩
                  have hwa := wf_mem hwf ha
                  have hwb := wf_mem hwf2 hb
                  cases a with
                  | scalar s => exact Or.inl ⟨s, rfl, reorders_scalar_left hab⟩
                  | seq zs =>
                      obtain ⟨ws, rfl, _⟩ := reorders_seq_left hab
                      exact Or.inr (Or.inl ⟨zs, ws, rfl, rfl⟩)
                  | record m =>
                      obtain ⟨m2, rfl, _, _⟩ := reorders_record_left hab
                      exact Or.inr (Or.inr ⟨m, m2, rfl, rfl,
                        cellsMatch_of_records hwa hwb hab⟩)
                cases mode with
                | modeFlattened =>
                    simp only [writeTabularArray, writeTabularArrayFlattened, hschema,
                      buildFlattenedSchema_reorders _ hcellsFirst]
                    congr 1
                    apply writeAll_forall₂
                    refine hrowCells.imp ?_
                    rintro a b (⟨s, rfl, rfl⟩ | ⟨zs, ws, rfl, rfl⟩ | ⟨m, m2, rfl, rfl, hc⟩)
                    · rfl
                    · rfl
                    · simp only [extractFlattenedValues_reorders _ hc]
                | modeNormal =>
                    simp only [writeTabularArray, writeTabularArrayNormal, hschema]
                    congr 1
                    apply writeAll_forall₂
                    refine hrowCells.imp ?_
                    rintro a b (⟨s, rfl, rfl⟩ | ⟨zs, ws, rfl, rfl⟩ | ⟨m, m2, rfl, rfl, hc⟩)
                    · rfl
                    · rfl
                    · simp only [rowValues_reorders _ hc]
                      congr 1
                      apply writeAll_congr
                      intro col _
                      rcases cellsMatch_cases (hc col) with
                        ⟨h1, h2⟩ | ⟨s, h1, h2⟩ | ⟨r, r2, h1, h2, hrr, hw, hw2⟩ |
                        ⟨zs, ws, h1, h2, hm, hw, hw2⟩
                      · simp only [h1, h2]
                      · simp only [h1, h2]
                      · simp only [h1, h2, ihv _ _ _ hw hw2 hrr]
                      · simp only [h1, h2, isTabular_reorders hw hm]
                        by_cases htab : isTabular ws = true
                        · simp only [htab, if_true, iht _ _ _ _ _ hw hw2 hm]
                        · simp only [htab, Bool.false_eq_true, if_false]
                | modeNormalized =>
                    simp only [writeTabularArray, writeTabularArrayNormalized, hschema,
                      buildNormalizedSchema_reorders _ hcellsFirst]
                    congr 1
                    apply writeAll_forall₂
                    refine hrowCells.imp ?_
                    rintro a b (⟨s, rfl, rfl⟩ | ⟨zs, ws, rfl, rfl⟩ | ⟨m, m2, rfl, rfl, hc⟩)
                    · rfl
                    · rfl
                    · simp only [rowValues_reorders _ hc]
                      congr 1
                      apply writeAll_congr
                      intro col _
                      rcases cellsMatch_cases (hc col) with
                        ⟨h1, h2⟩ | ⟨s, h1, h2⟩ | ⟨r, r2, h1, h2, hrr, hw, hw2⟩ |
                        ⟨zs, ws, h1, h2, hm, hw, hw2⟩
                      · simp only [h1, h2]
                      · simp only [h1, h2]
                      · obtain ⟨r3, h3, hlen, hin⟩ := reorders_record_left hrr
                        cases h3
                        simp only [h1, h2, canFlattenObject_reorders hw hw2 hlen hin,
                          foldl_snoc_map, subValues_reorders hw hw2 hrr,
                          ihv _ _ _ hw hw2 hrr]
                      · simp only [h1, h2, isTabular_reorders hw hm]
                        by_cases htab : isTabular ws = true
                        · simp only [htab, if_true, iht _ _ _ _ _ hw hw2 hm]
                        · simp only [htab, Bool.false_eq_true, if_false]

theorem fieldsIn_of {m m2 : List (String × Value)}
    (h : ∀ kv ∈ m, ∃ x2, mapGet m2 kv.1 = some x2 ∧ kv.2.reorders x2 = true) :
    fieldsIn m m2 = true := by
  induction m with
  | nil => rfl
  | cons e rest ih =>
      obtain ⟨k, x⟩ := e
      obtain ⟨x2, hx2, hr⟩ := h (k, x) (List.mem_cons_self _ _)
      simp only [fieldsIn, hx2, hr, Bool.true_and]
      exact ih (fun kv hkv => h kv (List.mem_cons_of_mem _ hkv))

mutual
theorem reorders_refl : ∀ v : Value, v.wf = true → v.reorders v = true
  | .scalar s, _ => by simp [Value.reorders]
  | .record m, h => by
      simp only [Value.reorders, beq_self_eq_true, Bool.true_and]
      apply fieldsIn_of
      intro kv hkv
      exact ⟨kv.2, mapGet_of_mem_nodup (wf_record h).1 hkv,
        reordersFields_refl m (wf_record h).2 kv hkv⟩
  | .seq xs, h => by
      simp only [Value.reorders]
      exact itemsMatch_refl xs (by simpa [Value.wf] using h)
theorem reordersFields_refl : ∀ m : List (String × Value), wfFields m = true →
    ∀ kv ∈ m, kv.2.reorders kv.2 = true
  | [], _ => by
      intro kv hkv
      simp at hkv
  | (k, x) :: rest, h => by
      simp only [wfFields, Bool.and_eq_true] at h
      intro kv hkv
      rcases List.mem_cons.mp hkv with rfl | hkv
      · exact reorders_refl x h.1
      · exact reordersFields_refl rest h.2 kv hkv
theorem itemsMatch_refl : ∀ xs : List Value, wfItems xs = true → itemsMatch xs xs = true
  | [], _ => rfl
  | x :: rest, h => by
      simp only [wfItems, Bool.and_eq_true] at h
      simp only [itemsMatch, Bool.and_eq_true]
      exact ⟨reorders_refl x h.1, itemsMatch_refl rest h.2⟩
end

/-! ## Go maps: assignment -/

theorem mapGet_mapSet_self (m : List (String × Value)) (key : String) (v : Value) :
    mapGet (mapSet m key v) key = some v := by
  induction m with
  | nil => simp [mapSet, mapGet]
  | cons kx rest ih =>
      obtain ⟨k, x⟩ := kx
      by_cases h : k = key
      · simp [mapSet, mapGet, h]
      · simp [mapSet, mapGet, h, ih]

theorem mapGet_mapSet_ne (m : List (String × Value)) {key other : String} (v : Value)
    (hne : key ≠ other) : mapGet (mapSet m key v) other = mapGet m other := by
  induction m with
  | nil => simp [mapSet, mapGet, hne]
  | cons kx rest ih =>
      obtain ⟨k, x⟩ := kx
      by_cases h : k = key
      · subst h
        simp [mapSet, mapGet, hne]
      · by_cases h2 : k = other
        · subst h2
          simp [mapSet, mapGet, h]
        · simp [mapSet, mapGet, h, h2, ih]

theorem mem_mapSet {m : List (String × Value)} {key : String} {v : Value}
    {k : String} {x : Value} (h : (k, x) ∈ mapSet m key v) :
    (k = key ∧ x = v) ∨ (k, x) ∈ m := by
  induction m with
  | nil =>
      simp [mapSet] at h
      exact Or.inl h
  | cons kx rest ih =>
      obtain ⟨k0, x0⟩ := kx
      by_cases hk : k0 = key
      · simp only [mapSet, hk, if_true, List.mem_cons, Prod.mk.injEq] at h
        rcases h with h | h
        · exact Or.inl h
        · exact Or.inr (List.mem_cons_of_mem _ h)
      · simp only [mapSet, hk, if_false, List.mem_cons, Prod.mk.injEq] at h
        rcases h with h | h
        · exact Or.inr (by simp [h.1, h.2])
        · rcases ih h with h2 | h2
          · exact Or.inl h2
          · exact Or.inr (List.mem_cons_of_mem _ h2)

theorem mapKeys_mapSet (m : List (String × Value)) (key : String) (v : Value)
    (k : String) : k ∈ mapKeys (mapSet m key v) ↔ k = key ∨ k ∈ mapKeys m := by
  induction m with
  | nil => simp [mapSet, mapKeys]
  | cons kx rest ih =>
      obtain ⟨k0, x0⟩ := kx
      by_cases hk : k0 = key
      · subst hk
        simp [mapSet, mapKeys]
      · simp only [mapKeys] at ih
        simp only [mapSet, hk, if_false, mapKeys, List.map_cons, List.mem_cons, ih]
        tauto

theorem nodup_mapSet {m : List (String × Value)} (key : String) (v : Value)
    (h : (mapKeys m).Nodup) : (mapKeys (mapSet m key v)).Nodup := by
  induction m with
  | nil => simp [mapSet, mapKeys]
  | cons kx rest ih =>
      obtain ⟨k0, x0⟩ := kx
      simp only [mapKeys, List.map_cons, List.nodup_cons] at h
      by_cases hk : k0 = key
      · subst hk
        simpa [mapSet, mapKeys] using h
      · have ih2 := ih h.2
        simp only [mapSet, hk, if_false, mapKeys, List.map_cons, List.nodup_cons]
        refine ⟨?_, ih2⟩
        intro hmem
        have := (mapKeys_mapSet rest key v k0).1 hmem
        rcases this with h1 | h1
        · exact hk h1
        · exact h.1 h1

/-! ## Depth of Go values -/

theorem RValue.one_le_depth (v : RValue) : 1 ≤ v.depth := by
  cases v <;> simp [RValue.depth]

theorem valueInterface_depth_le (x : RValue) : (valueInterface x).depth ≤ x.depth := by
  cases x <;> simp [valueInterface, RValue.depth]

theorem operand_depth_le (v : RValue) : (operand v).depth ≤ v.depth := by
  cases v <;> simp [operand, RValue.kind, RValue.Elem, RValue.depth]

theorem depth_mem_structFields {fields : List (StructField × RValue)}
    {p : StructField × RValue} (h : p ∈ fields) : p.2.depth ≤ depthStructFields fields := by
  induction fields with
  | nil => cases h
  | cons q rest ih =>
      obtain ⟨f, x⟩ := q
      rcases List.mem_cons.1 h with h | h
      · subst h
        simp [depthStructFields]
      · have := ih h
        simp only [depthStructFields]
        omega

theorem depth_mem_elems {elems : List RValue} {x : RValue} (h : x ∈ elems) :
    x.depth ≤ depthElems elems := by
  induction elems with
  | nil => cases h
  | cons q rest ih =>
      rcases List.mem_cons.1 h with h | h
      · subst h
        simp [depthElems]
      · have := ih h
        simp only [depthElems]
        omega

theorem depth_mem_entries {entries : List (MapKey × RValue)}
    {p : MapKey × RValue} (h : p ∈ entries) : p.2.depth ≤ depthEntries entries := by
  induction entries with
  | nil => cases h
  | cons q rest ih =>
      obtain ⟨f, x⟩ := q
      rcases List.mem_cons.1 h with h | h
      · subst h
        simp [depthEntries]
      · have := ih h
        simp only [depthEntries]
        omega

/-! ## The loops of `encode` depend on the recursive call at the members only -/

theorem encodeFields_congr {enc1 enc2 : RValue → Option (Except String Value)}
    (fields : List (StructField × RValue)) (resultMap : List (String × Value))
    (h : ∀ p ∈ fields, enc1 (valueInterface p.2) = enc2 (valueInterface p.2)) :
    encodeFields enc1 fields resultMap = encodeFields enc2 fields resultMap := by
  induction fields generalizing resultMap with
  | nil => rfl
  | cons q rest ih =>
      obtain ⟨f, x⟩ := q
      have hx := h (f, x) (List.mem_cons_self _ _)
      have hrest : ∀ p ∈ rest, enc1 (valueInterface p.2) = enc2 (valueInterface p.2) :=
        fun p hp => h p (List.mem_cons_of_mem _ hp)
      simp only at hx
      simp only [encodeFields, hx, ih _ hrest]

theorem encodeElems_congr {enc1 enc2 : RValue → Option (Except String Value)}
    (elems : List RValue)
    (h : ∀ x ∈ elems, enc1 (valueInterface x) = enc2 (valueInterface x)) :
    encodeElems enc1 elems = encodeElems enc2 elems := by
  induction elems with
  | nil => rfl
  | cons x rest ih =>
      have hx := h x (List.mem_cons_self _ _)
      have hrest : ∀ y ∈ rest, enc1 (valueInterface y) = enc2 (valueInterface y) :=
        fun p hp => h p (List.mem_cons_of_mem _ hp)
      simp only [encodeElems, hx, ih hrest]

theorem encodeEntries_congr {enc1 enc2 : RValue → Option (Except String Value)}
    (entries : List (MapKey × RValue)) (resultMap : List (String × Value))
    (h : ∀ p ∈ entries, enc1 (valueInterface p.2) = enc2 (valueInterface p.2)) :
    encodeEntries enc1 entries resultMap = encodeEntries enc2 entries resultMap := by
  induction entries generalizing resultMap with
  | nil => rfl
  | cons q rest ih =>
      obtain ⟨f, x⟩ := q
      have hx := h (f, x) (List.mem_cons_self _ _)
      have hrest : ∀ p ∈ rest, enc1 (valueInterface p.2) = enc2 (valueInterface p.2) :=
        fun p hp => h p (List.mem_cons_of_mem _ hp)
      simp only at hx
      simp only [encodeEntries, hx]
      cases enc2 (valueInterface x) with
      | none => rfl
      | some r =>
          cases r with
          | error e => rfl
          | ok g => simp only [ih _ hrest]

theorem encodeSwitch_congr {enc1 enc2 : RValue → Option (Except String Value)}
    (val : RValue) (h : ∀ c : RValue, c.depth < val.depth → enc1 c = enc2 c) :
    encodeSwitch enc1 val = encodeSwitch enc2 val := by
  cases val with
  | struct fields =>
      have : encodeFields enc1 fields [] = encodeFields enc2 fields [] := by
        apply encodeFields_congr
        intro p hp
        apply h
        have h1 := depth_mem_structFields hp
        have h2 := valueInterface_depth_le p.2
        simp only [RValue.depth]
        omega
      simp only [encodeSwitch, this]
  | slice elems =>
      have : encodeElems enc1 elems = encodeElems enc2 elems := by
        apply encodeElems_congr
        intro p hp
        apply h
        have h1 := depth_mem_elems hp
        have h2 := valueInterface_depth_le p
        simp only [RValue.depth]
        omega
      simp only [encodeSwitch, this]
  | map entries =>
      have : encodeEntries enc1 entries [] = encodeEntries enc2 entries [] := by
        apply encodeEntries_congr
        intro p hp
        apply h
        have h1 := depth_mem_entries hp
        have h2 := valueInterface_depth_le p.2
        simp only [RValue.depth]
        omega
      simp only [encodeSwitch, this]
  | invalid => rfl
  | scalar s => rfl
  | other k => rfl
  | iface d => rfl
  | ptr e => rfl

/-! ## Enough fuel -/

theorem encode_succ (fuel : Nat) (v : RValue) :
    encode (fuel + 1) v = encodeSwitch (encode fuel) (operand v) := rfl

theorem encode_fuel_irrel_aux (n : Nat) :
    ∀ (v : RValue) (m : Nat), v.depth ≤ n → v.depth ≤ m → encode n v = encode m v := by
  induction n with
  | zero =>
      intro v m h
      have := v.one_le_depth
      omega
  | succ n ih =>
      intro v m hn hm
      cases m with
      | zero =>
          have := v.one_le_depth
          omega
      | succ m =>
          rw [encode_succ, encode_succ]
          apply encodeSwitch_congr
          intro c hc
          have := operand_depth_le v
          exact ih c m (by omega) (by omega)

theorem encode_fuel_irrel (v : RValue) {fuel : Nat} (h : v.depth ≤ fuel) :
    encode fuel v = encode v.depth v :=
  encode_fuel_irrel_aux fuel v v.depth h (le_refl _)

/-- With enough fuel, `encode` is its own recursive call. -/
theorem encode_eq_switch (v : RValue) {fuel : Nat} (h : v.depth ≤ fuel) :
    encode fuel v = encodeSwitch (encode fuel) (operand v) := by
  cases fuel with
  | zero =>
      have := v.one_le_depth
      omega
  | succ n =>
      rw [encode_succ]
      apply encodeSwitch_congr
      intro c hc
      have := operand_depth_le v
      exact encode_fuel_irrel_aux n c (n + 1) (by omega) (by omega)

/-! ## The loop over the fields of a struct -/

theorem encodeFields_cons_excluded (enc : RValue → Option (Except String Value))
    {field : StructField} (fieldValue : RValue) (rest : List (StructField × RValue))
    (resultMap : List (String × Value)) (h : tagName field = "-") :
    encodeFields enc ((field, fieldValue) :: rest) resultMap =
      encodeFields enc rest resultMap := by
  simp only [encodeFields, h, if_true]

theorem encodeFields_cons_ok (enc : RValue → Option (Except String Value))
    {field : StructField} {fieldValue : RValue} (rest : List (StructField × RValue))
    (resultMap : List (String × Value)) {g : Value} (h : tagName field ≠ "-")
    (hexp : field.exported = true) (hg : enc (valueInterface fieldValue) = some (.ok g)) :
    encodeFields enc ((field, fieldValue) :: rest) resultMap =
      encodeFields enc rest (mapSet resultMap (tagName field) g) := by
  simp only [encodeFields, h, if_false, hexp, hg, Bool.true_eq_false]

/-- What a successful loop over a non-excluded first field went through. -/
theorem encodeFields_cons_inv {enc : RValue → Option (Except String Value)}
    {field : StructField} {fieldValue : RValue} {rest : List (StructField × RValue)}
    {resultMap m : List (String × Value)} (h : tagName field ≠ "-")
    (hok : encodeFields enc ((field, fieldValue) :: rest) resultMap = some (.ok m)) :
    field.exported = true ∧ ∃ g, enc (valueInterface fieldValue) = some (.ok g) ∧
      encodeFields enc rest (mapSet resultMap (tagName field) g) = some (.ok m) := by
  simp only [encodeFields, h, if_false] at hok
  cases hexp : field.exported with
  | false => simp [hexp] at hok
  | true =>
      simp only [hexp, Bool.true_eq_false, if_false] at hok
      cases hg : enc (valueInterface fieldValue) with
      | none => simp [hg] at hok
      | some r =>
          cases r with
          | error e => simp [hg] at hok
          | ok g =>
              simp only [hg] at hok
              exact ⟨rfl, g, rfl, hok⟩

theorem encodeFields_ok_members {enc : RValue → Option (Except String Value)}
    {fields : List (StructField × RValue)} {resultMap m : List (String × Value)}
    (hok : encodeFields enc fields resultMap = some (.ok m)) :
    ∀ p ∈ fields, tagName p.1 ≠ "-" →
      p.1.exported = true ∧ ∃ g, enc (valueInterface p.2) = some (.ok g) := by
  induction fields generalizing resultMap with
  | nil => intro p hp; cases hp
  | cons q rest ih =>
      obtain ⟨f, x⟩ := q
      intro p hp hne
      by_cases hf : tagName f = "-"
      · rw [encodeFields_cons_excluded enc x rest resultMap hf] at hok
        rcases List.mem_cons.1 hp with h | h
        · subst h
          exact absurd hf hne
        · exact ih hok p h hne
      · obtain ⟨hexp, g, hg, hrest⟩ := encodeFields_cons_inv hf hok
        rcases List.mem_cons.1 hp with h | h
        · subst h
          exact ⟨hexp, g, hg⟩
        · exact ih hrest p h hne

theorem encodeFields_provenance {enc : RValue → Option (Except String Value)}
    {fields : List (StructField × RValue)} {resultMap m : List (String × Value)}
    (hok : encodeFields enc fields resultMap = some (.ok m)) :
    ∀ k x, (k, x) ∈ m → (k, x) ∈ resultMap ∨
      ∃ p ∈ fields, tagName p.1 ≠ "-" ∧ tagName p.1 = k ∧
        enc (valueInterface p.2) = some (.ok x) := by
  induction fields generalizing resultMap with
  | nil =>
      intro k x hkx
      simp only [encodeFields, Option.some.injEq, Except.ok.injEq] at hok
      subst hok
      exact Or.inl hkx
  | cons q rest ih =>
      obtain ⟨f, y⟩ := q
      intro k x hkx
      by_cases hf : tagName f = "-"
      · rw [encodeFields_cons_excluded enc y rest resultMap hf] at hok
        rcases ih hok k x hkx with h | ⟨p, hp, h1, h2, h3⟩
        · exact Or.inl h
        · exact Or.inr ⟨p, List.mem_cons_of_mem _ hp, h1, h2, h3⟩
      · obtain ⟨_, g, hg, hrest⟩ := encodeFields_cons_inv hf hok
        rcases ih hrest k x hkx with h | ⟨p, hp, h1, h2, h3⟩
        · rcases mem_mapSet h with ⟨h1, h2⟩ | h1
          · subst h1; subst h2
            exact Or.inr ⟨(f, y), List.mem_cons_self _ _, hf, rfl, hg⟩
          · exact Or.inl h1
        · exact Or.inr ⟨p, List.mem_cons_of_mem _ hp, h1, h2, h3⟩

theorem encodeFields_keys {enc : RValue → Option (Except String Value)}
    {fields : List (StructField × RValue)} {resultMap m : List (String × Value)}
    (hok : encodeFields enc fields resultMap = some (.ok m)) (k : String) :
    k ∈ mapKeys m ↔
      (k ∈ mapKeys resultMap ∨ ∃ p ∈ fields, tagName p.1 ≠ "-" ∧ tagName p.1 = k) := by
  induction fields generalizing resultMap with
  | nil =>
      simp only [encodeFields, Option.some.injEq, Except.ok.injEq] at hok
      subst hok
      simp
  | cons q rest ih =>
      obtain ⟨f, y⟩ := q
      by_cases hf : tagName f = "-"
      · rw [encodeFields_cons_excluded enc y rest resultMap hf] at hok
        rw [ih hok]
        constructor
        · rintro (h | ⟨p, hp, h1, h2⟩)
          · exact Or.inl h
          · exact Or.inr ⟨p, List.mem_cons_of_mem _ hp, h1, h2⟩
        · rintro (h | ⟨p, hp, h1, h2⟩)
          · exact Or.inl h
          · rcases List.mem_cons.1 hp with h | h
            · subst h
              exact absurd hf h1
            · exact Or.inr ⟨p, h, h1, h2⟩
      · obtain ⟨_, g, hg, hrest⟩ := encodeFields_cons_inv hf hok
        rw [ih hrest, mapKeys_mapSet]
        constructor
        · rintro ((h | h) | ⟨p, hp, h1, h2⟩)
          · exact Or.inr ⟨(f, y), List.mem_cons_self _ _, hf, h.symm⟩
          · exact Or.inl h
          · exact Or.inr ⟨p, List.mem_cons_of_mem _ hp, h1, h2⟩
        · rintro (h | ⟨p, hp, h1, h2⟩)
          · exact Or.inl (Or.inr h)
          · rcases List.mem_cons.1 hp with h | h
            · subst h
              exact Or.inl (Or.inl h2.symm)
            · exact Or.inr ⟨p, h, h1, h2⟩

theorem encodeFields_nodup {enc : RValue → Option (Except String Value)}
    {fields : List (StructField × RValue)} {resultMap m : List (String × Value)}
    (hok : encodeFields enc fields resultMap = some (.ok m))
    (hnd : (mapKeys resultMap).Nodup) : (mapKeys m).Nodup := by
  induction fields generalizing resultMap with
  | nil =>
      simp only [encodeFields, Option.some.injEq, Except.ok.injEq] at hok
      subst hok
      exact hnd
  | cons q rest ih =>
      obtain ⟨f, y⟩ := q
      by_cases hf : tagName f = "-"
      · rw [encodeFields_cons_excluded enc y rest resultMap hf] at hok
        exact ih hok hnd
      · obtain ⟨_, g, hg, hrest⟩ := encodeFields_cons_inv hf hok
        exact ih hrest (nodup_mapSet _ _ hnd)

/-- The names under which the fields that are not excluded are stored, in
declaration order. -/
theorem encodeFields_untouched {enc : RValue → Option (Except String Value)}
    {fields : List (StructField × RValue)} {resultMap m : List (String × Value)}
    (hok : encodeFields enc fields resultMap = some (.ok m)) (k : String)
    (hk : ∀ p ∈ fields, tagName p.1 ≠ "-" → tagName p.1 ≠ k) :
    mapGet m k = mapGet resultMap k := by
  induction fields generalizing resultMap with
  | nil =>
      simp only [encodeFields, Option.some.injEq, Except.ok.injEq] at hok
      subst hok
      rfl
  | cons q rest ih =>
      obtain ⟨f, y⟩ := q
      have hrestk : ∀ p ∈ rest, tagName p.1 ≠ "-" → tagName p.1 ≠ k :=
        fun p hp => hk p (List.mem_cons_of_mem _ hp)
      by_cases hf : tagName f = "-"
      · rw [encodeFields_cons_excluded enc y rest resultMap hf] at hok
        exact ih hok hrestk
      · obtain ⟨_, g, hg, hrest⟩ := encodeFields_cons_inv hf hok
        rw [ih hrest hrestk]
        exact mapGet_mapSet_ne _ _ (hk (f, y) (List.mem_cons_self _ _) hf)

/-- The value found under a name is the encoding of the last field stored under
that name. -/
theorem encodeFields_last {enc : RValue → Option (Except String Value)}
    {front back : List (StructField × RValue)} {p : StructField × RValue}
    {resultMap m : List (String × Value)}
    (hok : encodeFields enc (front ++ p :: back) resultMap = some (.ok m))
    (hp : tagName p.1 ≠ "-")
    (hback : ∀ q ∈ back, tagName q.1 ≠ "-" → tagName q.1 ≠ tagName p.1) :
    ∃ g, enc (valueInterface p.2) = some (.ok g) ∧ mapGet m (tagName p.1) = some g := by
  induction front generalizing resultMap with
  | nil =>
      obtain ⟨f, y⟩ := p
      obtain ⟨_, g, hg, hrest⟩ := encodeFields_cons_inv hp hok
      refine ⟨g, hg, ?_⟩
      rw [encodeFields_untouched hrest _ hback]
      exact mapGet_mapSet_self _ _ _
  | cons q rest ih =>
      obtain ⟨f, y⟩ := q
      by_cases hf : tagName f = "-"
      · rw [List.cons_append, encodeFields_cons_excluded enc y _ resultMap hf] at hok
        exact ih hok
      · rw [List.cons_append] at hok
        obtain ⟨_, g, hg, hrest⟩ := encodeFields_cons_inv hf hok
        exact ih hrest

theorem encodeFields_total {enc : RValue → Option (Except String Value)}
    (fields : List (StructField × RValue)) (resultMap : List (String × Value))
    (h : ∀ p ∈ fields, tagName p.1 ≠ "-" →
      p.1.exported = true ∧ ∃ g, enc (valueInterface p.2) = some (.ok g)) :
    ∃ m, encodeFields enc fields resultMap = some (.ok m) := by
  induction fields generalizing resultMap with
  | nil => exact ⟨resultMap, rfl⟩
  | cons q rest ih =>
      obtain ⟨f, y⟩ := q
      have hrest : ∀ p ∈ rest, tagName p.1 ≠ "-" →
          p.1.exported = true ∧ ∃ g, enc (valueInterface p.2) = some (.ok g) :=
        fun p hp => h p (List.mem_cons_of_mem _ hp)
      by_cases hf : tagName f = "-"
      · rw [encodeFields_cons_excluded enc y rest resultMap hf]
        exact ih _ hrest
      · obtain ⟨hexp, g, hg⟩ := h (f, y) (List.mem_cons_self _ _) hf
        rw [encodeFields_cons_ok enc rest resultMap hf hexp hg]
        exact ih _ hrest

theorem encodeFields_error {enc : RValue → Option (Except String Value)}
    {fields : List (StructField × RValue)} {resultMap : List (String × Value)}
    {err : String} (herr : encodeFields enc fields resultMap = some (.error err)) :
    ∃ p ∈ fields, tagName p.1 ≠ "-" ∧ enc (valueInterface p.2) = some (.error err) := by
  induction fields generalizing resultMap with
  | nil => simp [encodeFields] at herr
  | cons q rest ih =>
      obtain ⟨f, y⟩ := q
      by_cases hf : tagName f = "-"
      · rw [encodeFields_cons_excluded enc y rest resultMap hf] at herr
        obtain ⟨p, hp, h1, h2⟩ := ih herr
        exact ⟨p, List.mem_cons_of_mem _ hp, h1, h2⟩
      · simp only [encodeFields, hf, if_false] at herr
        cases hexp : f.exported with
        | false => simp [hexp] at herr
        | true =>
            simp only [hexp, Bool.true_eq_false, if_false] at herr
            cases hg : enc (valueInterface y) with
            | none => simp [hg] at herr
            | some r =>
                cases r with
                | error e =>
                    simp only [hg, Option.some.injEq, Except.error.injEq] at herr
                    subst herr
                    exact ⟨(f, y), List.mem_cons_self _ _, hf, hg⟩
                | ok g =>
                    simp only [hg] at herr
                    obtain ⟨p, hp, h1, h2⟩ := ih herr
                    exact ⟨p, List.mem_cons_of_mem _ hp, h1, h2⟩

theorem encodeFields_ne_none {enc : RValue → Option (Except String Value)}
    (fields : List (StructField × RValue)) (resultMap : List (String × Value))
    (h : ∀ p ∈ fields, tagName p.1 ≠ "-" →
      p.1.exported = true ∧ enc (valueInterface p.2) ≠ none) :
    encodeFields enc fields resultMap ≠ none := by
  induction fields generalizing resultMap with
  | nil => simp [encodeFields]
  | cons q rest ih =>
      obtain ⟨f, y⟩ := q
      have hrest : ∀ p ∈ rest, tagName p.1 ≠ "-" →
          p.1.exported = true ∧ enc (valueInterface p.2) ≠ none :=
        fun p hp => h p (List.mem_cons_of_mem _ hp)
      by_cases hf : tagName f = "-"
      · rw [encodeFields_cons_excluded enc y rest resultMap hf]
        exact ih _ hrest
      · obtain ⟨hexp, hg⟩ := h (f, y) (List.mem_cons_self _ _) hf
        have hexp2 : f.exported = true := hexp
        have hg2 : enc (valueInterface y) ≠ none := hg
        simp only [encodeFields, hf, if_false, hexp2, Bool.true_eq_false]
        cases hr : enc (valueInterface y) with
        | none => exact absurd hr hg2
        | some r =>
            cases r with
            | error e => simp
            | ok g => exact ih _ hrest

/-! ## The loop over the elements of a slice -/

theorem encodeElems_ok_iff (enc : RValue → Option (Except String Value))
    (elems : List RValue) (items : List Value) :
    encodeElems enc elems = some (.ok items) ↔
      List.Forall₂ (fun x item => enc (valueInterface x) = some (.ok item)) elems items := by
  induction elems generalizing items with
  | nil =>
      constructor
      · intro h
        simp only [encodeElems, Option.some.injEq, Except.ok.injEq] at h
        subst h
        exact List.Forall₂.nil
      · intro h
        cases h
        rfl
  | cons x rest ih =>
      constructor
      · intro h
        simp only [encodeElems] at h
        cases hx : enc (valueInterface x) with
        | none => simp [hx] at h
        | some r =>
            cases r with
            | error e => simp [hx] at h
            | ok g =>
                simp only [hx] at h
                cases hr : encodeElems enc rest with
                | none => simp [hr] at h
                | some r2 =>
                    cases r2 with
                    | error e => simp [hr] at h
                    | ok gs =>
                        simp only [hr, Option.some.injEq, Except.ok.injEq] at h
                        subst h
                        exact List.Forall₂.cons hx ((ih gs).1 hr)
      · intro h
        cases h with
        | cons h1 h2 =>
            simp only [encodeElems, h1, (ih _).2 h2]

theorem encodeElems_error {enc : RValue → Option (Except String Value)}
    {elems : List RValue} {err : String}
    (herr : encodeElems enc elems = some (.error err)) :
    ∃ x ∈ elems, enc (valueInterface x) = some (.error err) := by
  induction elems with
  | nil => simp [encodeElems] at herr
  | cons x rest ih =>
      simp only [encodeElems] at herr
      cases hx : enc (valueInterface x) with
      | none => simp [hx] at herr
      | some r =>
          cases r with
          | error e =>
              simp only [hx, Option.some.injEq, Except.error.injEq] at herr
              subst herr
              exact ⟨x, List.mem_cons_self _ _, hx⟩
          | ok g =>
              simp only [hx] at herr
              cases hr : encodeElems enc rest with
              | none => simp [hr] at herr
              | some r2 =>
                  cases r2 with
                  | error e =>
                      simp only [hr, Option.some.injEq, Except.error.injEq] at herr
                      subst herr
                      obtain ⟨y, hy, h2⟩ := ih hr
                      exact ⟨y, List.mem_cons_of_mem _ hy, h2⟩
                  | ok gs => simp [hr] at herr

theorem encodeElems_ne_none {enc : RValue → Option (Except String Value)}
    (elems : List RValue) (h : ∀ x ∈ elems, enc (valueInterface x) ≠ none) :
    encodeElems enc elems ≠ none := by
  induction elems with
  | nil => simp [encodeElems]
  | cons x rest ih =>
      have hrest : ∀ y ∈ rest, enc (valueInterface y) ≠ none :=
        fun p hp => h p (List.mem_cons_of_mem _ hp)
      have hx := h x (List.mem_cons_self _ _)
      simp only [encodeElems]
      cases hr : enc (valueInterface x) with
      | none => exact absurd hr hx
      | some r =>
          cases r with
          | error e => simp
          | ok g =>
              cases hr2 : encodeElems enc rest with
              | none => exact absurd hr2 (ih hrest)
              | some r2 =>
                  cases r2 with
                  | error e => simp
                  | ok gs => simp

/-! ## The loop over the keys of a map -/

theorem encodeEntries_cons_inv {enc : RValue → Option (Except String Value)}
    {key : MapKey} {mapValue : RValue} {rest : List (MapKey × RValue)}
    {resultMap m : List (String × Value)}
    (hok : encodeEntries enc ((key, mapValue) :: rest) resultMap = some (.ok m)) :
    ∃ g, enc (valueInterface mapValue) = some (.ok g) ∧
      encodeEntries enc rest (mapSet resultMap key.text g) = some (.ok m) := by
  simp only [encodeEntries] at hok
  cases hg : enc (valueInterface mapValue) with
  | none => simp [hg] at hok
  | some r =>
      cases r with
      | error e => simp [hg] at hok
      | ok g =>
          simp only [hg] at hok
          exact ⟨g, rfl, hok⟩

theorem encodeEntries_ok_members {enc : RValue → Option (Except String Value)}
    {entries : List (MapKey × RValue)} {resultMap m : List (String × Value)}
    (hok : encodeEntries enc entries resultMap = some (.ok m)) :
    ∀ p ∈ entries, ∃ g, enc (valueInterface p.2) = some (.ok g) := by
  induction entries generalizing resultMap with
  | nil => intro p hp; cases hp
  | cons q rest ih =>
      obtain ⟨f, x⟩ := q
      intro p hp
      obtain ⟨g, hg, hrest⟩ := encodeEntries_cons_inv hok
      rcases List.mem_cons.1 hp with h | h
      · subst h
        exact ⟨g, hg⟩
      · exact ih hrest p h

theorem encodeEntries_provenance {enc : RValue → Option (Except String Value)}
    {entries : List (MapKey × RValue)} {resultMap m : List (String × Value)}
    (hok : encodeEntries enc entries resultMap = some (.ok m)) :
    ∀ k x, (k, x) ∈ m → (k, x) ∈ resultMap ∨
      ∃ p ∈ entries, p.1.text = k ∧ enc (valueInterface p.2) = some (.ok x) := by
  induction entries generalizing resultMap with
  | nil =>
      intro k x hkx
      simp only [encodeEntries, Option.some.injEq, Except.ok.injEq] at hok
      subst hok
      exact Or.inl hkx
  | cons q rest ih =>
      obtain ⟨f, y⟩ := q
      intro k x hkx
      obtain ⟨g, hg, hrest⟩ := encodeEntries_cons_inv hok
      rcases ih hrest k x hkx with h | ⟨p, hp, h2, h3⟩
      · rcases mem_mapSet h with ⟨h1, h2⟩ | h1
        · subst h1; subst h2
          exact Or.inr ⟨(f, y), List.mem_cons_self _ _, rfl, hg⟩
        · exact Or.inl h1
      · exact Or.inr ⟨p, List.mem_cons_of_mem _ hp, h2, h3⟩

theorem encodeEntries_nodup {enc : RValue → Option (Except String Value)}
    {entries : List (MapKey × RValue)} {resultMap m : List (String × Value)}
    (hok : encodeEntries enc entries resultMap = some (.ok m))
    (hnd : (mapKeys resultMap).Nodup) : (mapKeys m).Nodup := by
  induction entries generalizing resultMap with
  | nil =>
      simp only [encodeEntries, Option.some.injEq, Except.ok.injEq] at hok
      subst hok
      exact hnd
  | cons q rest ih =>
      obtain ⟨f, y⟩ := q
      obtain ⟨g, hg, hrest⟩ := encodeEntries_cons_inv hok
      exact ih hrest (nodup_mapSet _ _ hnd)

theorem encodeEntries_error {enc : RValue → Option (Except String Value)}
    {entries : List (MapKey × RValue)} {resultMap : List (String × Value)}
    {err : String} (herr : encodeEntries enc entries resultMap = some (.error err)) :
    ∃ p ∈ entries, enc (valueInterface p.2) = some (.error err) := by
  induction entries generalizing resultMap with
  | nil => simp [encodeEntries] at herr
  | cons q rest ih =>
      obtain ⟨f, y⟩ := q
      simp only [encodeEntries] at herr
      cases hg : enc (valueInterface y) with
      | none => simp [hg] at herr
      | some r =>
          cases r with
          | error e =>
              simp only [hg, Option.some.injEq, Except.error.injEq] at herr
              subst herr
              exact ⟨(f, y), List.mem_cons_self _ _, hg⟩
          | ok g =>
              simp only [hg] at herr
              obtain ⟨p, hp, h2⟩ := ih herr
              exact ⟨p, List.mem_cons_of_mem _ hp, h2⟩

theorem encodeEntries_ne_none {enc : RValue → Option (Except String Value)}
    (entries : List (MapKey × RValue)) (resultMap : List (String × Value))
    (h : ∀ p ∈ entries, enc (valueInterface p.2) ≠ none) :
    encodeEntries enc entries resultMap ≠ none := by
  induction entries generalizing resultMap with
  | nil => simp [encodeEntries]
  | cons q rest ih =>
      obtain ⟨f, y⟩ := q
      have hrest : ∀ p ∈ rest, enc (valueInterface p.2) ≠ none :=
        fun p hp => h p (List.mem_cons_of_mem _ hp)
      have hg := h (f, y) (List.mem_cons_self _ _)
      simp only [encodeEntries]
      cases hr : enc (valueInterface y) with
      | none => exact absurd hr hg
      | some r =>
          cases r with
          | error e => simp
          | ok g => exact ih _ hrest

/-! ## Stored names -/

theorem mem_storedNames {fields : List (StructField × RValue)} {k : String} :
    k ∈ storedNames fields ↔ ∃ p ∈ fields, tagName p.1 ≠ "-" ∧ tagName p.1 = k := by
  simp only [storedNames, List.mem_map, List.mem_filter, bne_iff_ne, ne_eq]
  constructor
  · rintro ⟨p, ⟨hp, hne⟩, hk⟩
    exact ⟨p, hp, hne, hk⟩
  · rintro ⟨p, hp, hne, hk⟩
    exact ⟨p, ⟨hp, hne⟩, hk⟩

theorem storedNames_append (front back : List (StructField × RValue)) :
    storedNames (front ++ back) = storedNames front ++ storedNames back := by
  simp [storedNames]

theorem storedNames_cons_stored {p : StructField × RValue}
    (back : List (StructField × RValue)) (hp : tagName p.1 ≠ "-") :
    storedNames (p :: back) = tagName p.1 :: storedNames back := by
  simp [storedNames, hp]

/-- With pairwise distinct stored names, no later field is stored under the name
of an earlier one. -/
theorem storedNames_nodup_back {front back : List (StructField × RValue)}
    {p : StructField × RValue} (hp : tagName p.1 ≠ "-")
    (hnd : (storedNames (front ++ p :: back)).Nodup) :
    ∀ q ∈ back, tagName q.1 ≠ "-" → tagName q.1 ≠ tagName p.1 := by
  rw [storedNames_append, storedNames_cons_stored back hp] at hnd
  have h2 := (List.nodup_append.1 hnd).2.1
  rw [List.nodup_cons] at h2
  intro q hq hne heq
  exact h2.1 (heq ▸ mem_storedNames.2 ⟨q, hq, hne, rfl⟩)

/-! ## Removing the excluded fields -/

theorem kind_stripExcluded (v : RValue) : (stripExcluded v).kind = v.kind := by
  cases v <;> simp [stripExcluded, RValue.kind]

theorem operand_stripExcluded (v : RValue) :
    operand (stripExcluded v) = stripExcluded (operand v) := by
  cases v <;> simp [stripExcluded, operand, RValue.kind, RValue.Elem]

theorem valueInterface_stripExcluded (v : RValue) :
    valueInterface (stripExcluded v) = stripExcluded (valueInterface v) := by
  cases v <;> simp [stripExcluded, valueInterface]

mutual
theorem depth_stripExcluded_le : ∀ v : RValue, (stripExcluded v).depth ≤ v.depth
  | .invalid => le_refl _
  | .scalar _ => le_refl _
  | .other _ => le_refl _
  | .iface d => by
      have := depth_stripExcluded_le d
      simp only [stripExcluded, RValue.depth]
      omega
  | .ptr e => by
      have := depth_stripExcluded_le e
      simp only [stripExcluded, RValue.depth]
      omega
  | .struct fs => by
      have := depth_stripFields_le fs
      simp only [stripExcluded, RValue.depth]
      omega
  | .slice xs => by
      have := depth_stripElems_le xs
      simp only [stripExcluded, RValue.depth]
      omega
  | .map es => by
      have := depth_stripEntries_le es
      simp only [stripExcluded, RValue.depth]
      omega
theorem depth_stripFields_le : ∀ fs : List (StructField × RValue),
    depthStructFields (stripFields fs) ≤ depthStructFields fs
  | [] => le_refl _
  | (f, v) :: rest => by
      have h1 := depth_stripExcluded_le v
      have h2 := depth_stripFields_le rest
      by_cases hf : tagName f = "-"
      · simp only [stripFields, hf, if_true, depthStructFields]
        omega
      · simp only [stripFields, hf, if_false, depthStructFields]
        omega
theorem depth_stripElems_le : ∀ xs : List RValue,
    depthElems (stripElems xs) ≤ depthElems xs
  | [] => le_refl _
  | v :: rest => by
      have h1 := depth_stripExcluded_le v
      have h2 := depth_stripElems_le rest
      simp only [stripElems, depthElems]
      omega
theorem depth_stripEntries_le : ∀ es : List (MapKey × RValue),
    depthEntries (stripEntries es) ≤ depthEntries es
  | [] => le_refl _
  | (k, v) :: rest => by
      have h1 := depth_stripExcluded_le v
      have h2 := depth_stripEntries_le rest
      simp only [stripEntries, depthEntries]
      omega
end

theorem encodeFields_stripFields {enc : RValue → Option (Except String Value)}
    (henc : ∀ x, enc (stripExcluded x) = enc x)
    (fields : List (StructField × RValue)) (resultMap : List (String × Value)) :
    encodeFields enc (stripFields fields) resultMap = encodeFields enc fields resultMap := by
  induction fields generalizing resultMap with
  | nil => rfl
  | cons q rest ih =>
      obtain ⟨f, x⟩ := q
      by_cases hf : tagName f = "-"
      · simp only [stripFields, hf, if_true, encodeFields, ih]
      · simp only [stripFields, hf, if_false, encodeFields, valueInterface_stripExcluded,
          henc, ih]

theorem encodeElems_stripElems {enc : RValue → Option (Except String Value)}
    (henc : ∀ x, enc (stripExcluded x) = enc x) (elems : List RValue) :
    encodeElems enc (stripElems elems) = encodeElems enc elems := by
  induction elems with
  | nil => rfl
  | cons x rest ih =>
      simp only [stripElems, encodeElems, valueInterface_stripExcluded, henc, ih]

theorem encodeEntries_stripEntries {enc : RValue → Option (Except String Value)}
    (henc : ∀ x, enc (stripExcluded x) = enc x)
    (entries : List (MapKey × RValue)) (resultMap : List (String × Value)) :
    encodeEntries enc (stripEntries entries) resultMap =
      encodeEntries enc entries resultMap := by
  induction entries generalizing resultMap with
  | nil => rfl
  | cons q rest ih =>
      obtain ⟨k, x⟩ := q
      simp only [stripEntries, encodeEntries, valueInterface_stripExcluded, henc, ih]

theorem encodeSwitch_stripExcluded {enc : RValue → Option (Except String Value)}
    (henc : ∀ x, enc (stripExcluded x) = enc x) (val : RValue) :
    encodeSwitch enc (stripExcluded val) = encodeSwitch enc val := by
  cases val with
  | struct fs => simp only [stripExcluded, encodeSwitch, encodeFields_stripFields henc]
  | slice xs => simp only [stripExcluded, encodeSwitch, encodeElems_stripElems henc]
  | map es => simp only [stripExcluded, encodeSwitch, encodeEntries_stripEntries henc]
  | invalid => rfl
  | scalar s => rfl
  | other k => rfl
  | iface d => rfl
  | ptr e => rfl

/-- The excluded fields have no effect on the result of `encode`. -/
theorem encode_stripExcluded (fuel : Nat) :
    ∀ v : RValue, encode fuel (stripExcluded v) = encode fuel v := by
  induction fuel with
  | zero => intro v; rfl
  | succ n ih =>
      intro v
      rw [encode_succ, encode_succ, operand_stripExcluded]
      exact encodeSwitch_stripExcluded ih _

theorem encode_depth_stripExcluded (v : RValue) :
    encode (stripExcluded v).depth (stripExcluded v) = encode v.depth v := by
  rw [← encode_fuel_irrel (stripExcluded v) (depth_stripExcluded_le v)]
  exact encode_stripExcluded _ v

/-! ## Properties of every node of an encoded tree -/

theorem allNodesFields_of_mem {p : Value → Bool} {m : List (String × Value)}
    (h : ∀ kv ∈ m, kv.2.allNodes p = true) : allNodesFields p m = true := by
  induction m with
  | nil => rfl
  | cons e rest ih =>
      obtain ⟨k, v⟩ := e
      simp only [allNodesFields, Bool.and_eq_true]
      exact ⟨h (k, v) (List.mem_cons_self _ _),
        ih (fun kv hkv => h kv (List.mem_cons_of_mem _ hkv))⟩

theorem allNodesItems_of_mem {p : Value → Bool} {xs : List Value}
    (h : ∀ x ∈ xs, x.allNodes p = true) : allNodesItems p xs = true := by
  induction xs with
  | nil => rfl
  | cons e rest ih =>
      simp only [allNodesItems, Bool.and_eq_true]
      exact ⟨h e (List.mem_cons_self _ _),
        ih (fun kv hkv => h kv (List.mem_cons_of_mem _ hkv))⟩

theorem mem_mapKeys_iff {m : List (String × Value)} {k : String} :
    k ∈ mapKeys m ↔ ∃ x, (k, x) ∈ m := by
  simp only [mapKeys, List.mem_map, Prod.exists]
  constructor
  · rintro ⟨a, b, hab, rfl⟩
    exact ⟨b, hab⟩
  · rintro ⟨x, hx⟩
    exact ⟨k, x, hx, rfl⟩

/-- What `encodeSwitch` went through when it returned a value. -/
theorem encodeSwitch_ok_cases {enc : RValue → Option (Except String Value)}
    {val : RValue} {r : Value} (h : encodeSwitch enc val = some (.ok r)) :
    (∃ fields m, val = .struct fields ∧ encodeFields enc fields [] = some (.ok m) ∧
      r = .record m) ∨
    (∃ elems items, val = .slice elems ∧ encodeElems enc elems = some (.ok items) ∧
      r = .seq items) ∨
    (∃ entries m, val = .map entries ∧ encodeEntries enc entries [] = some (.ok m) ∧
      r = .record m) ∨
    (∃ s, val = .scalar s ∧ r = .scalar s) := by
  cases val with
  | struct fields =>
      simp only [encodeSwitch] at h
      cases hf : encodeFields enc fields [] with
      | none => simp [hf] at h
      | some res =>
          cases res with
          | error e => simp [hf] at h
          | ok m =>
              simp only [hf, Option.some.injEq, Except.ok.injEq] at h
              exact Or.inl ⟨fields, m, rfl, hf, h.symm⟩
  | slice elems =>
      simp only [encodeSwitch] at h
      cases hf : encodeElems enc elems with
      | none => simp [hf] at h
      | some res =>
          cases res with
          | error e => simp [hf] at h
          | ok m =>
              simp only [hf, Option.some.injEq, Except.ok.injEq] at h
              exact Or.inr (Or.inl ⟨elems, m, rfl, hf, h.symm⟩)
  | map entries =>
      simp only [encodeSwitch] at h
      cases hf : encodeEntries enc entries [] with
      | none => simp [hf] at h
      | some res =>
          cases res with
          | error e => simp [hf] at h
          | ok m =>
              simp only [hf, Option.some.injEq, Except.ok.injEq] at h
              exact Or.inr (Or.inr (Or.inl ⟨entries, m, rfl, hf, h.symm⟩))
  | scalar s =>
      simp only [encodeSwitch, Option.some.injEq, Except.ok.injEq] at h
      exact Or.inr (Or.inr (Or.inr ⟨s, rfl, h.symm⟩))
  | invalid => simp [encodeSwitch] at h
  | other k => simp [encodeSwitch] at h
  | iface d => simp [encodeSwitch] at h
  | ptr e => simp [encodeSwitch] at h

/-- What `encodeSwitch` went through when it returned an error. -/
theorem encodeSwitch_error_cases {enc : RValue → Option (Except String Value)}
    {val : RValue} {err : String} (h : encodeSwitch enc val = some (.error err)) :
    (∃ fields, val = .struct fields ∧ encodeFields enc fields [] = some (.error err)) ∨
    (∃ elems, val = .slice elems ∧ encodeElems enc elems = some (.error err)) ∨
    (∃ entries, val = .map entries ∧ encodeEntries enc entries [] = some (.error err)) ∨
    (supportedKind val.kind = false ∧
      err = "jet: unsupported type for marshaling " ++ val.kind.name) := by
  cases val with
  | struct fields =>
      simp only [encodeSwitch] at h
      cases hf : encodeFields enc fields [] with
      | none => simp [hf] at h
      | some res =>
          cases res with
          | error e =>
              simp only [hf, Option.some.injEq, Except.error.injEq] at h
              subst h
              exact Or.inl ⟨fields, rfl, hf⟩
          | ok m => simp [hf] at h
  | slice elems =>
      simp only [encodeSwitch] at h
      cases hf : encodeElems enc elems with
      | none => simp [hf] at h
      | some res =>
          cases res with
          | error e =>
              simp only [hf, Option.some.injEq, Except.error.injEq] at h
              subst h
              exact Or.inr (Or.inl ⟨elems, rfl, hf⟩)
          | ok m => simp [hf] at h
  | map entries =>
      simp only [encodeSwitch] at h
      cases hf : encodeEntries enc entries [] with
      | none => simp [hf] at h
      | some res =>
          cases res with
          | error e =>
              simp only [hf, Option.some.injEq, Except.error.injEq] at h
              subst h
              exact Or.inr (Or.inr (Or.inl ⟨entries, rfl, hf⟩))
          | ok m => simp [hf] at h
  | scalar s => simp [encodeSwitch] at h
  | invalid =>
      simp only [encodeSwitch, Option.some.injEq, Except.error.injEq] at h
      exact Or.inr (Or.inr (Or.inr ⟨rfl, h.symm⟩))
  | other k =>
      simp only [encodeSwitch, Option.some.injEq, Except.error.injEq] at h
      refine Or.inr (Or.inr (Or.inr ⟨?_, h.symm⟩))
      cases k <;> rfl
  | iface d =>
      simp only [encodeSwitch, Option.some.injEq, Except.error.injEq] at h
      exact Or.inr (Or.inr (Or.inr ⟨rfl, h.symm⟩))
  | ptr e =>
      simp only [encodeSwitch, Option.some.injEq, Except.error.injEq] at h
      exact Or.inr (Or.inr (Or.inr ⟨rfl, h.symm⟩))

/-- A value of a kind that is no case of the switch is rejected. -/
theorem encodeSwitch_unsupported (enc : RValue → Option (Except String Value))
    {val : RValue} (h : supportedKind val.kind = false) :
    encodeSwitch enc val =
      some (.error ("jet: unsupported type for marshaling " ++ val.kind.name)) := by
  cases val with
  | struct fields => simp [RValue.kind, supportedKind] at h
  | slice elems => simp [RValue.kind, supportedKind] at h
  | map entries => simp [RValue.kind, supportedKind] at h
  | scalar s => cases s <;> simp [RValue.kind, supportedKind] at h
  | invalid => rfl
  | other k => rfl
  | iface d => rfl
  | ptr e => rfl

/-! ## Which components `encode` accepts -/

theorem encodeSwitch_ne_none_struct {enc : RValue → Option (Except String Value)}
    {fields : List (StructField × RValue)}
    (h : encodeFields enc fields [] ≠ none) : encodeSwitch enc (.struct fields) ≠ none := by
  simp only [encodeSwitch]
  cases hf : encodeFields enc fields [] with
  | none => exact absurd hf h
  | some res => cases res <;> simp

theorem encodeSwitch_ne_none_slice {enc : RValue → Option (Except String Value)}
    {elems : List RValue}
    (h : encodeElems enc elems ≠ none) : encodeSwitch enc (.slice elems) ≠ none := by
  simp only [encodeSwitch]
  cases hf : encodeElems enc elems with
  | none => exact absurd hf h
  | some res => cases res <;> simp

theorem encodeSwitch_ne_none_map {enc : RValue → Option (Except String Value)}
    {entries : List (MapKey × RValue)}
    (h : encodeEntries enc entries [] ≠ none) : encodeSwitch enc (.map entries) ≠ none := by
  simp only [encodeSwitch]
  cases hf : encodeEntries enc entries [] with
  | none => exact absurd hf h
  | some res => cases res <;> simp

/-- When `encode` returns a value, every component it reaches has a kind that is
a case of the switch. -/
theorem encode_ok_components (fuel : Nat) :
    ∀ (v : RValue) (r : Value), encode fuel v = some (.ok r) →
      ∀ w, Component (operand v) w → supportedKind w.kind = true := by
  induction fuel with
  | zero => intro v r h; simp [encode] at h
  | succ n ih =>
      intro v r hr w hc
      rw [encode_succ] at hr
      generalize operand v = val at hr hc
      cases hc with
      | self =>
          rcases encodeSwitch_ok_cases hr with ⟨fields, m, hval, _, _⟩ |
            ⟨elems, items, hval, _, _⟩ | ⟨entries, m, hval, _, _⟩ | ⟨s, hval, _⟩
          · rw [hval]; rfl
          · rw [hval]; rfl
          · rw [hval]; rfl
          · rw [hval]; cases s <;> rfl
      | field hmem hne hc2 =>
          rcases encodeSwitch_ok_cases hr with ⟨fields, m, hval, hf, _⟩ |
            ⟨elems, items, hval, _, _⟩ | ⟨entries, m, hval, _, _⟩ | ⟨s, hval, _⟩
          · cases hval
            obtain ⟨_, g, hg⟩ := encodeFields_ok_members hf _ hmem hne
            exact ih _ g hg w hc2
          · cases hval
          · cases hval
          · cases hval
      | elem hmem hc2 =>
          rcases encodeSwitch_ok_cases hr with ⟨fields, m, hval, hf, _⟩ |
            ⟨elems, items, hval, hf, _⟩ | ⟨entries, m, hval, _, _⟩ | ⟨s, hval, _⟩
          · cases hval
          · cases hval
            obtain ⟨g, _, hg⟩ := forall₂_exists_right ((encodeElems_ok_iff _ _ _).1 hf) hmem
            exact ih _ g hg w hc2
          · cases hval
          · cases hval
      | entry hmem hc2 =>
          rcases encodeSwitch_ok_cases hr with ⟨fields, m, hval, hf, _⟩ |
            ⟨elems, items, hval, hf, _⟩ | ⟨entries, m, hval, hf, _⟩ | ⟨s, hval, _⟩
          · cases hval
          · cases hval
          · cases hval
            obtain ⟨g, hg⟩ := encodeEntries_ok_members hf _ hmem
            exact ih _ g hg w hc2
          · cases hval

/-- When `encode` returns an error, it has reached a component whose kind is no
case of the switch, and the error names that kind. -/
theorem encode_error_component (fuel : Nat) :
    ∀ (v : RValue) (err : String), encode fuel v = some (.error err) →
      ∃ w, Component (operand v) w ∧ supportedKind w.kind = false ∧
        err = "jet: unsupported type for marshaling " ++ w.kind.name := by
  induction fuel with
  | zero => intro v r h; simp [encode] at h
  | succ n ih =>
      intro v err hr
      rw [encode_succ] at hr
      rcases encodeSwitch_error_cases hr with ⟨fields, hval, hf⟩ | ⟨elems, hval, hf⟩ |
        ⟨entries, hval, hf⟩ | ⟨hk, he⟩
      · obtain ⟨p, hp, hne, hg⟩ := encodeFields_error hf
        obtain ⟨w, hc, hw⟩ := ih _ _ hg
        exact ⟨w, hval ▸ Component.field hp hne hc, hw⟩
      · obtain ⟨x, hx, hg⟩ := encodeElems_error hf
        obtain ⟨w, hc, hw⟩ := ih _ _ hg
        exact ⟨w, hval ▸ Component.elem hx hc, hw⟩
      · obtain ⟨p, hp, hg⟩ := encodeEntries_error hf
        obtain ⟨w, hc, hw⟩ := ih _ _ hg
        exact ⟨w, hval ▸ Component.entry hp hc, hw⟩
      · exact ⟨operand v, Component.self _, hk, he⟩

/-- With enough fuel `encode` returns, a value or an error, when every field it
reaches that is not excluded is exported. -/
theorem encode_ne_none (fuel : Nat) :
    ∀ (v : RValue), v.depth ≤ fuel →
      (∀ fields field fieldValue, Component (operand v) (.struct fields) →
        (field, fieldValue) ∈ fields → tagName field ≠ "-" → field.exported = true) →
      encode fuel v ≠ none := by
  induction fuel with
  | zero =>
      intro v h
      have := v.one_le_depth
      omega
  | succ n ih =>
      intro v hfuel hexp
      rw [encode_succ]
      have hd := operand_depth_le v
      generalize operand v = val at hexp hd
      cases val with
      | struct fields =>
          apply encodeSwitch_ne_none_struct
          apply encodeFields_ne_none
          intro p hp hne
          refine ⟨hexp fields p.1 p.2 (Component.self _) hp hne, ?_⟩
          apply ih
          · have h1 := depth_mem_structFields hp
            have h2 := valueInterface_depth_le p.2
            simp only [RValue.depth] at hd
            omega
          · intro fields2 f2 x2 hc
            exact hexp fields2 f2 x2 (Component.field hp hne hc)
      | slice elems =>
          apply encodeSwitch_ne_none_slice
          apply encodeElems_ne_none
          intro x hx
          apply ih
          · have h1 := depth_mem_elems hx
            have h2 := valueInterface_depth_le x
            simp only [RValue.depth] at hd
            omega
          · intro fields2 f2 x2 hc
            exact hexp fields2 f2 x2 (Component.elem hx hc)
      | map entries =>
          apply encodeSwitch_ne_none_map
          apply encodeEntries_ne_none
          intro p hp
          apply ih
          · have h1 := depth_mem_entries hp
            have h2 := valueInterface_depth_le p.2
            simp only [RValue.depth] at hd
            omega
          · intro fields2 f2 x2 hc
            exact hexp fields2 f2 x2 (Component.entry hp hc)
      | invalid => simp [encodeSwitch]
      | scalar s => simp [encodeSwitch]
      | other k => simp [encodeSwitch]
      | iface d => simp [encodeSwitch]
      | ptr e => simp [encodeSwitch]

/-! ## Lines, character counts and indentation -/

/-! ## Texts as lists of indented lines -/

theorem spaces_add (a b : Nat) : spaces (a + b) = spaces a ++ spaces b := by
  apply String.ext
  show List.replicate (a + b) ' ' = List.replicate a ' ' ++ List.replicate b ' '
  exact List.replicate_add a b ' ' 

theorem spaces_zero : spaces 0 = "" := rfl

theorem concatAll_append (xs ys : List String) :
    concatAll (xs ++ ys) = concatAll xs ++ concatAll ys := by
  induction xs with
  | nil => simp [concatAll]
  | cons x rest ih => simp [concatAll, ih, String.append_assoc]

theorem linesAt_nil (L : Nat) : linesAt L [] = "" := rfl

theorem linesAt_cons (L : Nat) (l : String) (ls : List String) :
    linesAt L (l :: ls) = spaces L ++ l ++ "\n" ++ linesAt L ls := rfl

theorem linesAt_append (L : Nat) (xs ys : List String) :
    linesAt L (xs ++ ys) = linesAt L xs ++ linesAt L ys := by
  simp only [linesAt, List.map_append, concatAll_append]

/-- Lines written `k` levels deeper are the lines behind `k` more spaces. -/
theorem linesAt_shift (L k : Nat) (ls : List String) :
    linesAt (L + k) ls = linesAt L (ls.map fun l => spaces k ++ l) := by
  simp only [linesAt, List.map_map]
  congr 1
  apply List.map_congr_left
  intro l _
  simp only [Function.comp, spaces_add, String.append_assoc]

theorem linesAt_flatMap {α : Type} (L : Nat) (g : α → List String) (xs : List α) :
    linesAt L (xs.flatMap g) = concatAll (xs.map fun x => linesAt L (g x)) := by
  induction xs with
  | nil => rfl
  | cons x rest ih =>
      simp only [List.flatMap_cons, linesAt_append, ih, List.map_cons, concatAll]

/-- A loop whose every run writes lines at the current level writes lines at that
level, the same lines at every level. -/
theorem writeAll_lines {α : Type} (Q : String → Prop) (f : Nat → α → Option String)
    (xs : List α)
    (h : ∀ x ∈ xs, ∃ ls : List String, (∀ l ∈ ls, Q l) ∧
      ∀ L, f L x = some (linesAt L ls)) :
    ∃ ls : List String, (∀ l ∈ ls, Q l) ∧ ∀ L, writeAll (f L) xs = some (linesAt L ls) := by
  induction xs with
  | nil => exact ⟨[], by simp, fun L => rfl⟩
  | cons x rest ih =>
      obtain ⟨ls1, hq1, h1⟩ := h x (List.mem_cons_self _ _)
      obtain ⟨ls2, hq2, h2⟩ := ih (fun y hy => h y (List.mem_cons_of_mem _ hy))
      refine ⟨ls1 ++ ls2, ?_, ?_⟩
      · intro l hl
        rcases List.mem_append.1 hl with hl | hl
        · exact hq1 l hl
        · exact hq2 l hl
      · intro L
        simp only [writeAll, h1 L, h2 L, linesAt_append]

/-! ## Counting a character -/

theorem charCount_append (c : Char) (a b : String) :
    charCount c (a ++ b) = charCount c a + charCount c b :=
  textMeasure_append _ a b

theorem charCount_spaces {c : Char} (hc : charCount c " " = 0) (n : Nat) :
    charCount c (spaces n) = 0 := by
  have h1 : (if ' ' = c then 1 else 0) = 0 := hc
  simp only [charCount, textMeasure_spaces, h1, Nat.mul_zero]

theorem charCount_stringsJoin_zero {c : Char} {sep : String} (hsep : charCount c sep = 0)
    {xs : List String} (h : ∀ x ∈ xs, charCount c x = 0) :
    charCount c (stringsJoin xs sep) = 0 := by
  have hle := textMeasure_stringsJoin (fun x => if x = c then 1 else 0) xs sep
  have hsum : (xs.map (textMeasure fun x => if x = c then 1 else 0)).sum = 0 :=
    sum_map_eq_zero (fun x hx => h x hx)
  have hsep2 : textMeasure (fun x => if x = c then 1 else 0) sep = 0 := hsep
  simp only [charCount]
  rw [hle, hsum, hsep2]
  simp

theorem charCount_concatAll_zero {c : Char} {xs : List String}
    (h : ∀ x ∈ xs, charCount c x = 0) : charCount c (concatAll xs) = 0 := by
  simp only [charCount, textMeasure_concatAll]
  exact sum_map_eq_zero (fun x hx => h x hx)

theorem charCount_linesAt_zero {c : Char} (hsp : charCount c " " = 0)
    (hnl : charCount c "\n" = 0) {ls : List String} (h : ∀ l ∈ ls, charCount c l = 0)
    (L : Nat) : charCount c (linesAt L ls) = 0 := by
  apply charCount_concatAll_zero
  intro x hx
  obtain ⟨l, hl, rfl⟩ := List.mem_map.1 hx
  simp only [charCount_append, charCount_spaces hsp, h l hl, hnl]

/-! ## Texts of values without a given character -/

theorem noChar_key {c : Char} {m : List (String × Value)} {k : String}
    (h : noCharNode c (Value.record m) = true) (hk : k ∈ mapKeys m) :
    charCount c k = 0 := by
  simp only [noCharNode, List.all_eq_true, beq_iff_eq] at h
  obtain ⟨kv, hkv, rfl⟩ := List.mem_map.mp hk
  exact h kv hkv

theorem textGet_noChar {c : Char} (hnil : charCount c "<nil>" = 0)
    {entries : List (String × String)}
    (h : ∀ e ∈ entries, charCount c e.2 = 0) (key : String) :
    charCount c (textGet entries key) = 0 := by
  induction entries with
  | nil => exact hnil
  | cons e rest ih =>
      obtain ⟨k, t⟩ := e
      simp only [textGet]
      by_cases hk : k = key
      · simp only [hk, if_true]
        exact h (k, t) (List.mem_cons_self _ _)
      · simp only [hk, if_false]
        exact ih (fun e he => h e (List.mem_cons_of_mem _ he))

mutual
theorem fmtV_noChar {c : Char} (hconst : ∀ s ∈ formatConstants, charCount c s = 0) :
    ∀ v : Value, v.allNodes (noCharNode c) = true → charCount c (fmtV v) = 0
  | .scalar s, hv => by
      simp only [Value.allNodes, noCharNode, beq_iff_eq] at hv
      simpa only [fmtV] using hv
  | .record m, hv => by
      simp only [Value.allNodes, Bool.and_eq_true] at hv
      have hfields := fmtFields_noChar hconst m hv.2
      simp only [fmtV, charCount_append]
      rw [charCount_stringsJoin_zero (hconst " " (by decide)), hconst "map[" (by decide),
        hconst "]" (by decide)]
      intro x hx
      obtain ⟨k, hk, rfl⟩ := List.mem_map.mp hx
      simp only [charCount_append]
      rw [noChar_key hv.1 (mem_sortStrings.mp hk),
        textGet_noChar (hconst "<nil>" (by decide)) hfields, hconst ":" (by decide)]
  | .seq xs, hv => by
      simp only [Value.allNodes, Bool.and_eq_true] at hv
      simp only [fmtV, charCount_append]
      rw [charCount_stringsJoin_zero (hconst " " (by decide)) (fmtItems_noChar hconst xs hv.2),
        hconst "[" (by decide), hconst "]" (by decide)]
theorem fmtFields_noChar {c : Char} (hconst : ∀ s ∈ formatConstants, charCount c s = 0) :
    ∀ m : List (String × Value),
      allNodesFields (noCharNode c) m = true → ∀ e ∈ fmtFields m, charCount c e.2 = 0
  | [], _ => by
      intro e he
      simp [fmtFields] at he
  | (k, v) :: rest, hm => by
      simp only [allNodesFields, Bool.and_eq_true] at hm
      intro e he
      simp only [fmtFields, List.mem_cons] at he
      rcases he with rfl | he
      · exact fmtV_noChar hconst v hm.1
      · exact fmtFields_noChar hconst rest hm.2 e he
theorem fmtItems_noChar {c : Char} (hconst : ∀ s ∈ formatConstants, charCount c s = 0) :
    ∀ xs : List Value,
      allNodesItems (noCharNode c) xs = true → ∀ t ∈ fmtItems xs, charCount c t = 0
  | [], _ => by
      intro t ht
      simp [fmtItems] at ht
  | v :: rest, hm => by
      simp only [allNodesItems, Bool.and_eq_true] at hm
      intro t ht
      simp only [fmtItems, List.mem_cons] at ht
      rcases ht with rfl | ht
      · exact fmtV_noChar hconst v hm.1
      · exact fmtItems_noChar hconst rest hm.2 t ht
end

theorem fmtAny_noChar {c : Char} (hconst : ∀ s ∈ formatConstants, charCount c s = 0)
    {m : List (String × Value)} (key : String)
    (h : (Value.record m).allNodes (noCharNode c) = true) :
    charCount c (fmtAny (mapGet m key)) = 0 := by
  cases hget : mapGet m key with
  | none => exact hconst "<nil>" (by decide)
  | some x => exact fmtV_noChar hconst x (allNodes_mapGet h hget)

theorem extractFlattenedValues_noChar {c : Char}
    (hconst : ∀ s ∈ formatConstants, charCount c s = 0)
    (schema : List String) {m : List (String × Value)}
    (h : (Value.record m).allNodes (noCharNode c) = true) :
    ∀ t ∈ extractFlattenedValues schema m, charCount c t = 0 := by
  intro t ht
  rw [extractFlattenedValues_eq] at ht
  obtain ⟨col, _, ht⟩ := List.mem_flatMap.mp ht
  cases hget : mapGet m col with
  | none =>
      simp only [hget, List.mem_singleton] at ht
      subst ht
      exact hconst "<nil>" (by decide)
  | some x =>
      have hx := allNodes_mapGet h hget
      cases x with
      | scalar s =>
          simp only [hget, List.mem_singleton] at ht
          subst ht
          exact fmtV_noChar hconst _ hx
      | record sub =>
          by_cases hflat : canFlattenObject sub = true
          · simp only [hget, hflat, if_true, List.mem_map] at ht
            obtain ⟨k, _, rfl⟩ := ht
            exact fmtAny_noChar hconst k hx
          · simp only [hget, hflat, Bool.false_eq_true, if_false, List.mem_singleton] at ht
            subst ht
            exact hconst "[nested]" (by decide)
      | seq sub =>
          by_cases htab : isTabular sub = true
          · simp only [hget, htab, if_true, List.mem_singleton] at ht
            subst ht
            exact hconst "[table]" (by decide)
          · simp only [hget, htab, Bool.false_eq_true, if_false, List.mem_singleton] at ht
            subst ht
            exact fmtV_noChar hconst _ hx

theorem rowValues_noChar {c : Char} (hconst : ∀ s ∈ formatConstants, charCount c s = 0)
    (schema : List String) {m : List (String × Value)}
    (h : (Value.record m).allNodes (noCharNode c) = true) :
    ∀ t ∈ rowValues schema m, charCount c t = 0 := by
  intro t ht
  rw [rowValues_eq] at ht
  obtain ⟨col, _, rfl⟩ := List.mem_map.mp ht
  exact fmtAny_noChar hconst col h

theorem schemaEntries_noChar {c : Char} (hconst : ∀ s ∈ formatConstants, charCount c s = 0)
    {sep : String} (hsep : charCount c sep = 0)
    {schema : List String} {m : List (String × Value)}
    (hschema : ∀ col ∈ schema, charCount c col = 0)
    (h : (Value.record m).allNodes (noCharNode c) = true) :
    charCount c (stringsJoin (schema.map fun col =>
        match mapGet m col with
        | some (.record subMap) =>
            if canFlattenObject subMap then
              col ++ "\x7b" ++ stringsJoin (sortStrings (mapKeys subMap)) sep ++ "\x7d"
            else col
        | _ => col) "|") = 0 := by
  apply charCount_stringsJoin_zero (hconst "|" (by decide))
  intro x hx
  obtain ⟨col, hcol, rfl⟩ := List.mem_map.mp hx
  have hc := hschema col hcol
  cases hget : mapGet m col with
  | none => exact hc
  | some v =>
      cases v with
      | scalar s => exact hc
      | seq xs => exact hc
      | record sub =>
          by_cases hflat : canFlattenObject sub = true
          · simp only [hflat, if_true, charCount_append, hc]
            have hsub := allNodes_self (allNodes_mapGet h hget)
            rw [charCount_stringsJoin_zero hsep
              (fun k hk => noChar_key hsub (mem_sortStrings.mp hk)),
              hconst "\x7b" (by decide), hconst "\x7d" (by decide)]
          · simp only [hflat, Bool.false_eq_true, if_false]
            exact hc

theorem buildFlattenedSchema_noChar {c : Char}
    (hconst : ∀ s ∈ formatConstants, charCount c s = 0)
    {schema : List String} {m : List (String × Value)}
    (hschema : ∀ col ∈ schema, charCount c col = 0)
    (h : (Value.record m).allNodes (noCharNode c) = true) :
    charCount c (buildFlattenedSchema schema m) = 0 := by
  rw [buildFlattenedSchema_eq]
  exact schemaEntries_noChar hconst (hconst "," (by decide)) hschema h

theorem buildNormalizedSchema_noChar {c : Char}
    (hconst : ∀ s ∈ formatConstants, charCount c s = 0)
    {schema : List String} {m : List (String × Value)}
    (hschema : ∀ col ∈ schema, charCount c col = 0)
    (h : (Value.record m).allNodes (noCharNode c) = true) :
    charCount c (buildNormalizedSchema schema m) = 0 := by
  rw [buildNormalizedSchema_eq]
  exact schemaEntries_noChar hconst (hconst "|" (by decide)) hschema h

theorem sortedKeys_noChar {c : Char} {m : List (String × Value)}
    (h : (Value.record m).allNodes (noCharNode c) = true) :
    ∀ col ∈ sortStrings (mapKeys m), charCount c col = 0 :=
  fun _ hcol => noChar_key (allNodes_self h) (mem_sortStrings.mp hcol)

/-! ## The pieces the writers emit, as lines -/

theorem spaces_one : spaces 1 = " " := rfl

theorem spaces_two : spaces 2 = "  " := rfl

/-- A row line. -/
theorem rowLine_eq (L : Nat) (x : String) (ls : List String) :
    spaces (L + 1) ++ x ++ "\n" ++ linesAt L ls = linesAt L ((" " ++ x) :: ls) := by
  simp only [linesAt_cons, spaces_add, spaces_one, String.append_assoc]

/-- The marker of a nested record and the record two levels deeper. -/
theorem markerBlock_eq (L : Nat) (col : String) (ls : List String) :
    spaces (L + 1) ++ "  > " ++ col ++ ":\n" ++ linesAt (L + 2) ls =
      linesAt L (("   > " ++ col ++ ":") :: ls.map fun l => "  " ++ l) := by
  have h1 : (":\n" : String) = ":" ++ "\n" := by decide
  have h2 : ("   > " : String) = " " ++ "  > " := by decide
  simp only [linesAt_cons, linesAt_shift, spaces_add, spaces_one, spaces_two, h1, h2,
    String.append_assoc]

/-- The prefix `> ` and a nested table two levels deeper. -/
theorem tableBlock_eq (L : Nat) (hdr : String) (ls : List String) :
    spaces (L + 1) ++ "  > " ++ ("" ++ hdr ++ "\n" ++ linesAt (L + 2) ls) =
      linesAt L (("   > " ++ hdr) :: ls.map fun l => "  " ++ l) := by
  have h2 : ("   > " : String) = " " ++ "  > " := by decide
  simp only [linesAt_cons, linesAt_shift, spaces_add, spaces_one, spaces_two, h2,
    String.append_assoc, String.empty_append]

/-- The marker of a flattenable record and its line of values. -/
theorem valuesBlock_eq (L : Nat) (col vals : String) :
    spaces (L + 1) ++ "  > " ++ col ++ ":\n" ++ (spaces (L + 1) ++ "  ") ++ vals ++ "\n" =
      linesAt L ["   > " ++ col ++ ":", "   " ++ vals] := by
  have h1 : (":\n" : String) = ":" ++ "\n" := by decide
  have h2 : ("   > " : String) = " " ++ "  > " := by decide
  have h3 : ("   " : String) = " " ++ "  " := by decide
  simp only [linesAt_cons, linesAt_nil, spaces_add, spaces_one, h1, h2, h3,
    String.append_assoc, String.append_empty]

/-- A field holding a record: the key line and the record one level deeper. -/
theorem recordField_eq (L : Nat) (key : String) (ls : List String) :
    spaces L ++ key ++ ":\n" ++ linesAt (L + 1) ls =
      linesAt L ((key ++ ":") :: ls.map fun l => " " ++ l) := by
  have h1 : (":\n" : String) = ":" ++ "\n" := by decide
  simp only [linesAt_cons, linesAt_shift, spaces_one, h1, String.append_assoc]

/-- A field written on one line. -/
theorem plainField_eq (L : Nat) (key text : String) :
    spaces L ++ key ++ ": " ++ text ++ "\n" = linesAt L [key ++ ": " ++ text] := by
  simp only [linesAt_cons, linesAt_nil, String.append_assoc, String.append_empty]

/-- A table: the header line behind its own prefix, then the lines of the rows. -/
theorem tableText_eq (indentStr key cols rows : String) :
    indentStr ++ key ++ "\x7b" ++ cols ++ "\x7d:\n" ++ rows =
      indentStr ++ (key ++ "\x7b" ++ cols ++ "\x7d:") ++ "\n" ++ rows := by
  have h1 : ("\x7d:\n" : String) = "\x7d:" ++ "\n" := by decide
  simp only [h1, String.append_assoc]

/-- A table written by `writeValue`, whose prefix is the indentation. -/
theorem tableField_eq (L : Nat) (hdr : String) (ls : List String) :
    spaces L ++ hdr ++ "\n" ++ linesAt L ls = linesAt L (hdr :: ls) := by
  simp only [linesAt_cons]

/-! ## The three table writers write lines -/

/-- The Flattened table: a header line and one line per row. -/
theorem flattened_table_lines {c : Char}
    (hconst : ∀ s ∈ formatConstants, charCount c s = 0)
    (key : String) (first : List (String × Value)) (rest : List Value)
    (hrows : ∀ row ∈ Value.record first :: rest, ∃ m, row = Value.record m)
    (hnodes : (Value.seq (.record first :: rest)).allNodes (noCharNode c) = true)
    (hkey : charCount c key = 0) :
    ∃ (hdr : String) (ls : List String),
      charCount c hdr = 0 ∧ (∀ l ∈ ls, charCount c l = 0) ∧
      ∀ L indentStr, writeTabularArrayFlattened indentStr key (.record first :: rest)
          (sortStrings (mapKeys first)) L = some (indentStr ++ hdr ++ "\n" ++ linesAt L ls) := by
  obtain ⟨rows, hrest⟩ := rows_of_records
    (fun row hrow => hrows row (List.mem_cons_of_mem _ hrow))
  subst hrest
  have hrow : ∀ m ∈ first :: rows, (Value.record m).allNodes (noCharNode c) = true :=
    fun m hm => allNodes_mem hnodes (by
      rw [← List.map_cons]
      exact List.mem_map.2 ⟨m, hm, rfl⟩)
  have hfirst := hrow first (List.mem_cons_self _ _)
  refine ⟨key ++ "\x7b" ++ buildFlattenedSchema (sortStrings (mapKeys first)) first ++ "\x7d:",
    (first :: rows).map (fun m =>
      " " ++ stringsJoin (extractFlattenedValues (sortStrings (mapKeys first)) m) "|"),
    ?_, ?_, ?_⟩
  · simp only [charCount_append, hkey,
      buildFlattenedSchema_noChar hconst (sortedKeys_noChar hfirst) hfirst,
      hconst "\x7b" (by decide), hconst "\x7d:" (by decide)]
  · intro l hl
    obtain ⟨m, hm, rfl⟩ := List.mem_map.1 hl
    simp only [charCount_append, hconst " " (by decide), Nat.zero_add]
    exact charCount_stringsJoin_zero (hconst "|" (by decide))
      (extractFlattenedValues_noChar hconst _ (hrow m hm))
  · intro L indentStr
    rw [← List.map_cons, writeTabularArrayFlattened_rows, tableText_eq]
    congr 2
    simp only [linesAt, List.map_map]
    congr 1
    apply List.map_congr_left
    intro m _
    simp only [Function.comp, spaces_add, spaces_one, String.append_assoc]

/-- The nested blocks of a row in Normal mode. -/
theorem normal_blocks_lines {c : Char}
    (hconst : ∀ s ∈ formatConstants, charCount c s = 0)
    (wv : Value → Nat → Option String)
    (wt : String → String → List Value → Nat → Option String)
    (m : List (String × Value)) (schema : List String)
    (hcols : ∀ col ∈ schema, charCount c col = 0)
    (hv : ∀ col sub, mapGet m col = some (.record sub) →
      ∃ ls : List String, (∀ l ∈ ls, charCount c l = 0) ∧
        ∀ L, wv (.record sub) L = some (linesAt L ls))
    (ht : ∀ col sub, mapGet m col = some (.seq sub) → isTabular sub = true →
      ∃ (hdr : String) (ls : List String), charCount c hdr = 0 ∧
        (∀ l ∈ ls, charCount c l = 0) ∧
        ∀ L indentStr, wt indentStr col sub L = some (indentStr ++ hdr ++ "\n" ++ linesAt L ls)) :
    ∃ ls : List String, (∀ l ∈ ls, charCount c l = 0) ∧
      ∀ L, writeAll (fun col =>
          match mapGet m col with
          | some (.record subMap) =>
              (wv (.record subMap) (L + 2)).map
                (fun block => spaces (L + 1) ++ "  > " ++ col ++ ":\n" ++ block)
          | some (.seq subSlice) =>
              if isTabular subSlice then
                (wt "" col subSlice (L + 2)).map
                  (fun table => spaces (L + 1) ++ "  > " ++ table)
              else some ""
          | _ => some "") schema = some (linesAt L ls) := by
  apply writeAll_lines (fun l => charCount c l = 0)
    (fun L col =>
      match mapGet m col with
      | some (.record subMap) =>
          (wv (.record subMap) (L + 2)).map
            (fun block => spaces (L + 1) ++ "  > " ++ col ++ ":\n" ++ block)
      | some (.seq subSlice) =>
          if isTabular subSlice then
            (wt "" col subSlice (L + 2)).map
              (fun table => spaces (L + 1) ++ "  > " ++ table)
          else some ""
      | _ => some "")
  intro col hcol
  have hc := hcols col hcol
  cases hget : mapGet m col with
  | none => exact ⟨[], by simp, fun L => rfl⟩
  | some x =>
      cases x with
      | scalar s => exact ⟨[], by simp, fun L => rfl⟩
      | record sub =>
          obtain ⟨ls, hq, hw⟩ := hv col sub hget
          refine ⟨("   > " ++ col ++ ":") :: ls.map (fun l => "  " ++ l), ?_, ?_⟩
          · intro l hl
            rcases List.mem_cons.1 hl with rfl | hl
            · simp only [charCount_append, hc, hconst ":" (by decide)]
              have h2 : ("   > " : String) = " " ++ "  > " := by decide
              rw [h2, charCount_append, hconst " " (by decide), hconst "  > " (by decide)]
            · obtain ⟨l2, hl2, rfl⟩ := List.mem_map.1 hl
              simp only [charCount_append, hconst "  " (by decide), hq l2 hl2]
          · intro L
            simp only [hw (L + 2), Option.map_some', markerBlock_eq]
      | seq sub =>
          by_cases hsub : isTabular sub = true
          · obtain ⟨hdr, ls, hh, hq, hw⟩ := ht col sub hget hsub
            refine ⟨("   > " ++ hdr) :: ls.map (fun l => "  " ++ l), ?_, ?_⟩
            · intro l hl
              rcases List.mem_cons.1 hl with rfl | hl
              · have h2 : ("   > " : String) = " " ++ "  > " := by decide
                rw [h2, charCount_append, charCount_append, hconst " " (by decide),
                  hconst "  > " (by decide), hh]
              · obtain ⟨l2, hl2, rfl⟩ := List.mem_map.1 hl
                simp only [charCount_append, hconst "  " (by decide), hq l2 hl2]
            · intro L
              simp only [hsub, if_true, hw (L + 2) "", Option.map_some', tableBlock_eq]
          · refine ⟨[], by simp, fun L => ?_⟩
            simp only [hsub, Bool.false_eq_true, if_false]
            rfl

/-- The nested blocks of a row in Normalized mode. -/
theorem normalized_blocks_lines {c : Char}
    (hconst : ∀ s ∈ formatConstants, charCount c s = 0)
    (wv : Value → Nat → Option String)
    (wt : String → String → List Value → Nat → Option String)
    (m : List (String × Value)) (schema : List String)
    (hnodes : (Value.record m).allNodes (noCharNode c) = true)
    (hcols : ∀ col ∈ schema, charCount c col = 0)
    (hv : ∀ col sub, mapGet m col = some (.record sub) →
      ∃ ls : List String, (∀ l ∈ ls, charCount c l = 0) ∧
        ∀ L, wv (.record sub) L = some (linesAt L ls))
    (ht : ∀ col sub, mapGet m col = some (.seq sub) → isTabular sub = true →
      ∃ (hdr : String) (ls : List String), charCount c hdr = 0 ∧
        (∀ l ∈ ls, charCount c l = 0) ∧
        ∀ L indentStr, wt indentStr col sub L = some (indentStr ++ hdr ++ "\n" ++ linesAt L ls)) :
    ∃ ls : List String, (∀ l ∈ ls, charCount c l = 0) ∧
      ∀ L, writeAll (fun col =>
          match mapGet m col with
          | some (.record subMap) =>
              if canFlattenObject subMap then
                some (spaces (L + 1) ++ "  > " ++ col ++ ":\n" ++ (spaces (L + 1) ++ "  ")
                  ++ stringsJoin ((sortStrings (mapKeys subMap)).foldl
                    (fun subValues subKey => subValues ++ [fmtAny (mapGet subMap subKey)]) [])
                    "|" ++ "\n")
              else
                (wv (.record subMap) (L + 2)).map
                  (fun block => spaces (L + 1) ++ "  > " ++ col ++ ":\n" ++ block)
          | some (.seq subSlice) =>
              if isTabular subSlice then
                (wt "" col subSlice (L + 2)).map
                  (fun table => spaces (L + 1) ++ "  > " ++ table)
              else some ""
          | _ => some "") schema = some (linesAt L ls) := by
  apply writeAll_lines (fun l => charCount c l = 0)
    (fun L col =>
      match mapGet m col with
      | some (.record subMap) =>
          if canFlattenObject subMap then
            some (spaces (L + 1) ++ "  > " ++ col ++ ":\n" ++ (spaces (L + 1) ++ "  ")
              ++ stringsJoin ((sortStrings (mapKeys subMap)).foldl
                (fun subValues subKey => subValues ++ [fmtAny (mapGet subMap subKey)]) [])
                "|" ++ "\n")
          else
            (wv (.record subMap) (L + 2)).map
              (fun block => spaces (L + 1) ++ "  > " ++ col ++ ":\n" ++ block)
      | some (.seq subSlice) =>
          if isTabular subSlice then
            (wt "" col subSlice (L + 2)).map
              (fun table => spaces (L + 1) ++ "  > " ++ table)
          else some ""
      | _ => some "")
  intro col hcol
  have hc := hcols col hcol
  have hmark : charCount c ("   > " ++ col ++ ":") = 0 := by
    have h2 : ("   > " : String) = " " ++ "  > " := by decide
    rw [h2]
    simp only [charCount_append, hc, hconst ":" (by decide), hconst " " (by decide),
      hconst "  > " (by decide)]
  cases hget : mapGet m col with
  | none => exact ⟨[], by simp, fun L => rfl⟩
  | some x =>
      cases x with
      | scalar s => exact ⟨[], by simp, fun L => rfl⟩
      | record sub =>
          by_cases hflat : canFlattenObject sub = true
          · refine ⟨["   > " ++ col ++ ":", "   " ++ stringsJoin
              ((sortStrings (mapKeys sub)).foldl
                (fun subValues subKey => subValues ++ [fmtAny (mapGet sub subKey)]) []) "|"],
              ?_, ?_⟩
            · intro l hl
              simp only [List.mem_cons, List.mem_singleton, List.not_mem_nil, or_false] at hl
              rcases hl with rfl | rfl
              · exact hmark
              · have h3 : ("   " : String) = " " ++ "  " := by decide
                rw [h3]
                simp only [charCount_append, hconst " " (by decide), hconst "  " (by decide),
                  Nat.zero_add]
                apply charCount_stringsJoin_zero (hconst "|" (by decide))
                intro t ht
                rw [foldl_snoc_map] at ht
                simp only [List.nil_append, List.mem_map] at ht
                obtain ⟨k, _, rfl⟩ := ht
                exact fmtAny_noChar hconst k (allNodes_mapGet hnodes hget)
            · intro L
              simp only [hflat, if_true, valuesBlock_eq]
          · obtain ⟨ls, hq, hw⟩ := hv col sub hget
            refine ⟨("   > " ++ col ++ ":") :: ls.map (fun l => "  " ++ l), ?_, ?_⟩
            · intro l hl
              rcases List.mem_cons.1 hl with rfl | hl
              · exact hmark
              · obtain ⟨l2, hl2, rfl⟩ := List.mem_map.1 hl
                simp only [charCount_append, hconst "  " (by decide), hq l2 hl2]
            · intro L
              simp only [hflat, Bool.false_eq_true, if_false, hw (L + 2), Option.map_some',
                markerBlock_eq]
      | seq sub =>
          by_cases hsub : isTabular sub = true
          · obtain ⟨hdr, ls, hh, hq, hw⟩ := ht col sub hget hsub
            refine ⟨("   > " ++ hdr) :: ls.map (fun l => "  " ++ l), ?_, ?_⟩
            · intro l hl
              rcases List.mem_cons.1 hl with rfl | hl
              · have h2 : ("   > " : String) = " " ++ "  > " := by decide
                rw [h2, charCount_append, charCount_append, hconst " " (by decide),
                  hconst "  > " (by decide), hh]
              · obtain ⟨l2, hl2, rfl⟩ := List.mem_map.1 hl
                simp only [charCount_append, hconst "  " (by decide), hq l2 hl2]
            · intro L
              simp only [hsub, if_true, hw (L + 2) "", Option.map_some', tableBlock_eq]
          · refine ⟨[], by simp, fun L => ?_⟩
            simp only [hsub, Bool.false_eq_true, if_false]
            rfl

/-- The Normal table: a header line, then per row the row line and the lines of
its nested blocks. -/
theorem normal_table_lines {c : Char}
    (hconst : ∀ s ∈ formatConstants, charCount c s = 0)
    (wv : Value → Nat → Option String)
    (wt : String → String → List Value → Nat → Option String)
    (key : String) (data : List Value) (schema : List String)
    (hrows : ∀ row ∈ data, ∃ m, row = Value.record m)
    (hnodes : (Value.seq data).allNodes (noCharNode c) = true)
    (hkey : charCount c key = 0) (hcols : ∀ col ∈ schema, charCount c col = 0)
    (hv : ∀ m col sub, Value.record m ∈ data → mapGet m col = some (.record sub) →
      ∃ ls : List String, (∀ l ∈ ls, charCount c l = 0) ∧
        ∀ L, wv (.record sub) L = some (linesAt L ls))
    (ht : ∀ m col sub, Value.record m ∈ data → mapGet m col = some (.seq sub) →
      isTabular sub = true →
      ∃ (hdr : String) (ls : List String), charCount c hdr = 0 ∧
        (∀ l ∈ ls, charCount c l = 0) ∧
        ∀ L indentStr, wt indentStr col sub L = some (indentStr ++ hdr ++ "\n" ++ linesAt L ls)) :
    ∃ (hdr : String) (ls : List String), charCount c hdr = 0 ∧
      (∀ l ∈ ls, charCount c l = 0) ∧
      ∀ L indentStr, writeTabularArrayNormal wv wt indentStr key data schema L =
        some (indentStr ++ hdr ++ "\n" ++ linesAt L ls) := by
  obtain ⟨ls, hq, hw⟩ := writeAll_lines (fun l => charCount c l = 0)
    (fun L row =>
      match row with
      | .record rowMap =>
          (writeAll (fun col =>
            match mapGet rowMap col with
            | some (.record subMap) =>
                (wv (.record subMap) (L + 2)).map
                  (fun block => spaces (L + 1) ++ "  > " ++ col ++ ":\n" ++ block)
            | some (.seq subSlice) =>
                if isTabular subSlice then
                  (wt "" col subSlice (L + 2)).map
                    (fun table => spaces (L + 1) ++ "  > " ++ table)
                else some ""
            | _ => some "") schema).map
            (fun nested =>
              spaces (L + 1) ++ stringsJoin (rowValues schema rowMap) "|" ++ "\n" ++ nested)
      | _ => none) data (by
    intro row hrow
    obtain ⟨m, rfl⟩ := hrows row hrow
    have hm := allNodes_mem hnodes hrow
    obtain ⟨bl, hbq, hbw⟩ := normal_blocks_lines hconst wv wt m schema hcols
      (fun col sub hget => hv m col sub hrow hget)
      (fun col sub hget hsub => ht m col sub hrow hget hsub)
    refine ⟨(" " ++ stringsJoin (rowValues schema m) "|") :: bl, ?_, ?_⟩
    · intro l hl
      rcases List.mem_cons.1 hl with rfl | hl
      · simp only [charCount_append, hconst " " (by decide), Nat.zero_add]
        exact charCount_stringsJoin_zero (hconst "|" (by decide))
          (rowValues_noChar hconst schema hm)
      · exact hbq l hl
    · intro L
      exact (congrArg (Option.map fun nested =>
        spaces (L + 1) ++ stringsJoin (rowValues schema m) "|" ++ "\n" ++ nested)
        (hbw L)).trans (by simp only [Option.map_some', rowLine_eq]))
  refine ⟨key ++ "\x7b" ++ stringsJoin schema "|" ++ "\x7d:", ls, ?_, hq, ?_⟩
  · simp only [charCount_append, hkey, hconst "\x7b" (by decide), hconst "\x7d:" (by decide),
      charCount_stringsJoin_zero (hconst "|" (by decide)) hcols]
  · intro L indentStr
    exact (congrArg (Option.map fun rows =>
      (indentStr ++ key ++ "\x7b" ++ stringsJoin schema "|" ++ "\x7d:\n") ++ rows)
      (hw L)).trans (by simp only [Option.map_some', tableText_eq])

/-- The Normalized table: a header line, then per row the row line and the lines
of its nested blocks. -/
theorem normalized_table_lines {c : Char}
    (hconst : ∀ s ∈ formatConstants, charCount c s = 0)
    (wv : Value → Nat → Option String)
    (wt : String → String → List Value → Nat → Option String)
    (key : String) (first : List (String × Value)) (rest : List Value)
    (schema : List String)
    (hrows : ∀ row ∈ Value.record first :: rest, ∃ m, row = Value.record m)
    (hnodes : (Value.seq (.record first :: rest)).allNodes (noCharNode c) = true)
    (hkey : charCount c key = 0) (hcols : ∀ col ∈ schema, charCount c col = 0)
    (hv : ∀ m col sub, Value.record m ∈ Value.record first :: rest →
      mapGet m col = some (.record sub) →
      ∃ ls : List String, (∀ l ∈ ls, charCount c l = 0) ∧
        ∀ L, wv (.record sub) L = some (linesAt L ls))
    (ht : ∀ m col sub, Value.record m ∈ Value.record first :: rest →
      mapGet m col = some (.seq sub) → isTabular sub = true →
      ∃ (hdr : String) (ls : List String), charCount c hdr = 0 ∧
        (∀ l ∈ ls, charCount c l = 0) ∧
        ∀ L indentStr, wt indentStr col sub L = some (indentStr ++ hdr ++ "\n" ++ linesAt L ls)) :
    ∃ (hdr : String) (ls : List String), charCount c hdr = 0 ∧
      (∀ l ∈ ls, charCount c l = 0) ∧
      ∀ L indentStr, writeTabularArrayNormalized wv wt indentStr key
          (.record first :: rest) schema L =
        some (indentStr ++ hdr ++ "\n" ++ linesAt L ls) := by
  obtain ⟨ls, hq, hw⟩ := writeAll_lines (fun l => charCount c l = 0)
    (fun L row =>
      match row with
      | .record rowMap =>
          (writeAll (fun col =>
            match mapGet rowMap col with
            | some (.record subMap) =>
                if canFlattenObject subMap then
                  some (spaces (L + 1) ++ "  > " ++ col ++ ":\n" ++ (spaces (L + 1) ++ "  ")
                    ++ stringsJoin ((sortStrings (mapKeys subMap)).foldl
                      (fun subValues subKey => subValues ++ [fmtAny (mapGet subMap subKey)]) [])
                      "|" ++ "\n")
                else
                  (wv (.record subMap) (L + 2)).map
                    (fun block => spaces (L + 1) ++ "  > " ++ col ++ ":\n" ++ block)
            | some (.seq subSlice) =>
                if isTabular subSlice then
                  (wt "" col subSlice (L + 2)).map
                    (fun table => spaces (L + 1) ++ "  > " ++ table)
                else some ""
            | _ => some "") schema).map
            (fun nested =>
              spaces (L + 1) ++ stringsJoin (rowValues schema rowMap) "|" ++ "\n" ++ nested)
      | _ => none) (.record first :: rest) (by
    intro row hrow
    obtain ⟨m, rfl⟩ := hrows row hrow
    have hm := allNodes_mem hnodes hrow
    obtain ⟨bl, hbq, hbw⟩ := normalized_blocks_lines hconst wv wt m schema hm hcols
      (fun col sub hget => hv m col sub hrow hget)
      (fun col sub hget hsub => ht m col sub hrow hget hsub)
    refine ⟨(" " ++ stringsJoin (rowValues schema m) "|") :: bl, ?_, ?_⟩
    · intro l hl
      rcases List.mem_cons.1 hl with rfl | hl
      · simp only [charCount_append, hconst " " (by decide), Nat.zero_add]
        exact charCount_stringsJoin_zero (hconst "|" (by decide))
          (rowValues_noChar hconst schema hm)
      · exact hbq l hl
    · intro L
      exact (congrArg (Option.map fun nested =>
        spaces (L + 1) ++ stringsJoin (rowValues schema m) "|" ++ "\n" ++ nested)
        (hbw L)).trans (by simp only [Option.map_some', rowLine_eq]))
  have hfirst := allNodes_mem hnodes (List.mem_cons_self (Value.record first) rest)
  refine ⟨key ++ "\x7b" ++ buildNormalizedSchema schema first ++ "\x7d:", ls, ?_, hq, ?_⟩
  · simp only [charCount_append, hkey, hconst "\x7b" (by decide), hconst "\x7d:" (by decide),
      buildNormalizedSchema_noChar hconst hcols hfirst]
  · intro L indentStr
    exact (congrArg (Option.map fun rows =>
      (indentStr ++ key ++ "\x7b" ++ buildNormalizedSchema schema first ++ "\x7d:\n") ++ rows)
      (hw L)).trans (by simp only [Option.map_some', tableText_eq])

/-- A tabular slice has depth at least one. -/
theorem depthItems_pos_of_tabular {data : List Value} (htab : isTabular data = true) :
    1 ≤ depthItems data := by
  obtain ⟨first, rest, rfl⟩ := isTabular_head htab
  exact le_trans (depth_pos _) (depth_mem_items (List.mem_cons_self _ _))

/-- In every mode, below the top level, the formatter writes lines: a record is
written at level `L` as a list of lines each behind `L` spaces, a table as its
header behind the prefix it is given and then such lines; the lines are the same
at every level, and hold no character that keys, scalar texts and the constant
texts of the format do not hold. -/
theorem writes_lines (mode : formatMode) {c : Char}
    (hconst : ∀ s ∈ formatConstants, charCount c s = 0) (fuel : Nat) :
    (∀ m : List (String × Value), (Value.record m).allNodes (noCharNode c) = true →
      (Value.record m).depth ≤ fuel →
      ∃ ls : List String, (∀ l ∈ ls, charCount c l = 0) ∧
        ∀ L, writeValue mode fuel (.record m) L = some (linesAt L ls)) ∧
    (∀ (key : String) (data : List Value), isTabular data = true →
      (Value.seq data).allNodes (noCharNode c) = true → charCount c key = 0 →
      depthItems data ≤ fuel →
      ∃ (hdr : String) (ls : List String), charCount c hdr = 0 ∧
        (∀ l ∈ ls, charCount c l = 0) ∧
        ∀ L indentStr, writeTabularArray mode fuel indentStr key data L =
          some (indentStr ++ hdr ++ "\n" ++ linesAt L ls)) := by
  induction fuel with
  | zero =>
      constructor
      · intro m _ hd
        have := depth_pos (Value.record m)
        omega
      · intro key data htab _ _ hd
        have := depthItems_pos_of_tabular htab
        omega
  | succ n ih =>
      obtain ⟨ihA, ihB⟩ := ih
      constructor
      · intro m hnodes hd
        simp only [Value.depth] at hd
        obtain ⟨ls, hq, hw⟩ := writeAll_lines (fun l => charCount c l = 0)
          (fun L key =>
            match mapGet m key with
            | some (.seq subSlice) =>
                if isTabular subSlice then
                  writeTabularArray mode n (spaces L) key subSlice L
                else some (spaces L ++ key ++ ": " ++ fmtV (.seq subSlice) ++ "\n")
            | some (.record subMap) =>
                (writeValue mode n (.record subMap) (L + 1)).map
                  (fun block => spaces L ++ key ++ ":\n" ++ block)
            | value => some (spaces L ++ key ++ ": " ++ fmtAny value ++ "\n"))
          (sortStrings (mapKeys m)) (by
          intro key hkeymem
          have hkey : charCount c key = 0 :=
            noChar_key (allNodes_self hnodes) (mem_sortStrings.mp hkeymem)
          have hplain : ∀ text : String, charCount c text = 0 →
              charCount c (key ++ ": " ++ text) = 0 := by
            intro text ht
            simp only [charCount_append, hkey, ht, hconst ": " (by decide)]
          cases hget : mapGet m key with
          | none =>
              exact ⟨[key ++ ": " ++ fmtAny none], by
                intro l hl
                rw [List.mem_singleton.1 hl]
                exact hplain _ (hconst "<nil>" (by decide)),
                fun L => by simp only [hget, plainField_eq]⟩
          | some x =>
              have hx := allNodes_mapGet hnodes hget
              have hdx := depth_mapGet hget
              cases x with
              | scalar s =>
                  exact ⟨[key ++ ": " ++ fmtAny (some (.scalar s))], by
                    intro l hl
                    rw [List.mem_singleton.1 hl]
                    exact hplain _ (fmtV_noChar hconst _ hx),
                    fun L => by simp only [hget, plainField_eq]⟩
              | record sub =>
                  obtain ⟨ls, hq, hw⟩ := ihA sub hx (by omega)
                  refine ⟨(key ++ ":") :: ls.map (fun l => " " ++ l), ?_, ?_⟩
                  · intro l hl
                    rcases List.mem_cons.1 hl with rfl | hl
                    · simp only [charCount_append, hkey, hconst ":" (by decide)]
                    · obtain ⟨l2, hl2, rfl⟩ := List.mem_map.1 hl
                      simp only [charCount_append, hconst " " (by decide), hq l2 hl2]
                  · intro L
                    simp only [hget, hw (L + 1), Option.map_some', recordField_eq]
              | seq sub =>
                  simp only [Value.depth] at hdx
                  by_cases hsub : isTabular sub = true
                  · obtain ⟨hdr, ls, hh, hq, hw⟩ := ihB key sub hsub hx hkey (by omega)
                    refine ⟨hdr :: ls, ?_, ?_⟩
                    · intro l hl
                      rcases List.mem_cons.1 hl with rfl | hl
                      · exact hh
                      · exact hq l hl
                    · intro L
                      simp only [hget, hsub, if_true, hw L (spaces L), tableField_eq]
                  · exact ⟨[key ++ ": " ++ fmtV (.seq sub)], by
                      intro l hl
                      rw [List.mem_singleton.1 hl]
                      exact hplain _ (fmtV_noChar hconst _ hx),
                      fun L => by
                        simp only [hget, hsub, Bool.false_eq_true, if_false, plainField_eq]⟩)
        refine ⟨ls, hq, fun L => ?_⟩
        rw [writeValue]
        exact hw L
      · intro key data htab hnodes hkey hd
        obtain ⟨first, rest, rfl⟩ := isTabular_head htab
        have hrows := isTabular_rows htab
        have hfirst := allNodes_mem hnodes (List.mem_cons_self (Value.record first) rest)
        have hv : ∀ m col sub, Value.record m ∈ Value.record first :: rest →
            mapGet m col = some (.record sub) →
            ∃ ls : List String, (∀ l ∈ ls, charCount c l = 0) ∧
              ∀ L, writeValue mode n (.record sub) L = some (linesAt L ls) := by
          intro m col sub hrow hget
          have hdc := depth_cell_record hrow hget
          exact ihA sub (allNodes_cell hnodes hrow hget) (by omega)
        have ht : ∀ m col sub, Value.record m ∈ Value.record first :: rest →
            mapGet m col = some (.seq sub) → isTabular sub = true →
            ∃ (hdr : String) (ls : List String), charCount c hdr = 0 ∧
              (∀ l ∈ ls, charCount c l = 0) ∧
              ∀ L indentStr, writeTabularArray mode n indentStr col sub L =
                some (indentStr ++ hdr ++ "\n" ++ linesAt L ls) := by
          intro m col sub hrow hget hsub
          have hdc := depth_cell_seq hrow hget
          have hcol : charCount c col = 0 := by
            have hmem : col ∈ mapKeys m :=
              List.mem_map.2 ⟨(col, .seq sub), mapGet_mem hget, rfl⟩
            exact noChar_key (allNodes_self (allNodes_mem hnodes hrow)) hmem
          exact ihB col sub hsub (allNodes_cell hnodes hrow hget) hcol (by omega)
        cases mode with
        | modeFlattened =>
            obtain ⟨hdr, ls, hh, hq, hw⟩ :=
              flattened_table_lines hconst key first rest hrows hnodes hkey
            refine ⟨hdr, ls, hh, hq, fun L indentStr => ?_⟩
            simp only [writeTabularArray]
            exact hw L indentStr
        | modeNormalized =>
            obtain ⟨hdr, ls, hh, hq, hw⟩ :=
              normalized_table_lines hconst (writeValue .modeNormalized n)
                (writeTabularArray .modeNormalized n) key first rest
                (sortStrings (mapKeys first)) hrows hnodes hkey (sortedKeys_noChar hfirst)
                hv ht
            refine ⟨hdr, ls, hh, hq, fun L indentStr => ?_⟩
            simp only [writeTabularArray]
            exact hw L indentStr
        | modeNormal =>
            obtain ⟨hdr, ls, hh, hq, hw⟩ :=
              normal_table_lines hconst (writeValue .modeNormal n)
                (writeTabularArray .modeNormal n) key (.record first :: rest)
                (sortStrings (mapKeys first)) hrows hnodes hkey (sortedKeys_noChar hfirst)
                hv ht
            refine ⟨hdr, ls, hh, hq, fun L indentStr => ?_⟩
            simp only [writeTabularArray]
            exact hw L indentStr

/-! ## Shifting lines by one space -/

theorem not_mem_of_charCount_zero {c : Char} {s : String} (h : charCount c s = 0) :
    c ∉ s.data := by
  simp only [charCount, textMeasure] at h
  generalize s.data = cs at h
  induction cs with
  | nil => simp
  | cons x rest ih =>
      simp only [List.map_cons, List.sum_cons] at h
      intro hmem
      rcases List.mem_cons.1 hmem with heq | hmem
      · subst heq
        simp at h
      · exact ih (by omega) hmem

theorem shiftChars_inside (x rest : List Char) (hx : '\n' ∉ x) :
    shiftChars false (x ++ '\n' :: rest) = x ++ '\n' :: shiftChars true rest := by
  induction x with
  | nil => simp [shiftChars]
  | cons ch cs ih =>
      have hne : ch ≠ '\n' := fun h => hx (by simp [h])
      have hcs : '\n' ∉ cs := fun h => hx (List.mem_cons_of_mem _ h)
      have hb : (ch == '\n') = false := by simpa using hne
      have e : shiftChars false (ch :: (cs ++ '\n' :: rest)) =
          ch :: shiftChars (ch == '\n') (cs ++ '\n' :: rest) := rfl
      rw [List.cons_append, e, hb, ih hcs, List.cons_append]

theorem shiftChars_line (x rest : List Char) (hx : '\n' ∉ x) :
    shiftChars true (x ++ '\n' :: rest) = ' ' :: x ++ '\n' :: shiftChars true rest := by
  cases x with
  | nil => simp [shiftChars]
  | cons ch cs =>
      have hne : ch ≠ '\n' := fun h => hx (by simp [h])
      have hcs : '\n' ∉ cs := fun h => hx (List.mem_cons_of_mem _ h)
      have hb : (ch == '\n') = false := by simpa using hne
      have e : shiftChars true (ch :: (cs ++ '\n' :: rest)) =
          ' ' :: ch :: shiftChars (ch == '\n') (cs ++ '\n' :: rest) := rfl
      rw [List.cons_append, e, hb, shiftChars_inside cs rest hcs]
      rfl

theorem spaces_succ_data (L : Nat) : (spaces (L + 1)).data = ' ' :: (spaces L).data := by
  simp [spaces, List.replicate_succ]

/-- Shifting lines written at level `L` gives the lines written at level `L+1`. -/
theorem shiftLines_linesAt (L : Nat) (ls : List String)
    (h : ∀ l ∈ ls, charCount '\n' l = 0) :
    shiftLines (linesAt L ls) = linesAt (L + 1) ls := by
  apply String.ext
  simp only [shiftLines]
  induction ls with
  | nil => rfl
  | cons l rest ih =>
      have hl : '\n' ∉ (spaces L).data ++ l.data := by
        intro hmem
        rcases List.mem_append.1 hmem with h1 | h1
        · exact not_mem_of_charCount_zero (charCount_spaces (by decide) L) h1
        · exact not_mem_of_charCount_zero (h l (List.mem_cons_self _ _)) h1
      have hnl : ("\n" : String).data = ['\n'] := rfl
      simp only [linesAt_cons, String.data_append, hnl, List.append_assoc,
        List.singleton_append]
      rw [← List.append_assoc, shiftChars_line _ _ hl,
        ih (fun x hx => h x (List.mem_cons_of_mem _ hx)), spaces_succ_data]
      simp

theorem noNewlineNode_eq : noNewlineNode = noCharNode '\n' := by
  funext v
  cases v <;> rfl

theorem formatConstants_noNewline : ∀ s ∈ formatConstants, charCount '\n' s = 0 := by
  decide

theorem formatConstants_noDash : ∀ s ∈ formatConstants, charCount '-' s = 0 := by
  decide

/-- The prefix of a nested block, counted in spaces. -/
theorem markerPrefix_eq (L : Nat) : spaces (L + 1) ++ "  > " = spaces (L + 3) ++ "> " := by
  have h1 : ("  > " : String) = spaces 2 ++ "> " := by decide
  rw [h1, ← String.append_assoc, ← spaces_add]

/-- Every field text of a record written at level `L` starts with `L` spaces
and the key. -/
theorem writeValue_record_fields {mode : formatMode} {fuel L : Nat}
    {v : List (String × Value)} {out : String}
    (h : writeValue mode fuel (.record v) L = some out) :
    ∃ texts, out = concatAll texts ∧
      List.Forall₂ (fun key text => ∃ tail, text = spaces L ++ key ++ tail)
        (sortStrings (mapKeys v)) texts := by
  cases fuel with
  | zero => simp [writeValue] at h
  | succ n =>
      rw [writeValue] at h
      obtain ⟨texts, hall, rfl⟩ := (writeAll_eq_some_iff _ _ _).mp h
      refine ⟨texts, rfl, hall.imp ?_⟩
      intro key text hkt
      cases hget : mapGet v key with
      | none =>
          simp only [hget, Option.some.injEq] at hkt
          exact ⟨_, by rw [← hkt, String.append_assoc, String.append_assoc]⟩
      | some x =>
          cases x with
          | scalar s =>
              simp only [hget, Option.some.injEq] at hkt
              exact ⟨_, by rw [← hkt, String.append_assoc, String.append_assoc]⟩
          | record sub =>
              simp only [hget, Option.map_eq_some'] at hkt
              obtain ⟨block, _, rfl⟩ := hkt
              exact ⟨_, by rw [String.append_assoc]⟩
          | seq sub =>
              by_cases htab : isTabular sub = true
              · simp only [hget, htab, if_true] at hkt
                obtain ⟨cols, rows, hrows⟩ := writeTabularArray_shape hkt
                exact ⟨_, by
                  rw [hrows, String.append_assoc, String.append_assoc,
                    String.append_assoc]⟩
              · simp only [hget, htab, Bool.false_eq_true, if_false,
                  Option.some.injEq] at hkt
                exact ⟨_, by rw [← hkt, String.append_assoc, String.append_assoc]⟩

theorem takeWhile_space_replicate (n : Nat) (l : List Char) :
    (List.replicate n ' ' ++ l).takeWhile (fun c => c == ' ') =
      List.replicate n ' ' ++ l.takeWhile (fun c => c == ' ') := by
  induction n with
  | zero => rfl
  | succ n ih =>
      rw [List.replicate_succ, List.cons_append, List.takeWhile_cons_of_pos (by rfl), ih,
        List.cons_append]

theorem takeWhile_space_stop (k : List Char) (c : Char) (r : List Char) (hc : c ≠ ' ') :
    ((k ++ c :: r).takeWhile (fun c => c == ' ')).length =
      (k.takeWhile (fun c => c == ' ')).length := by
  induction k with
  | nil =>
      have h : (c == ' ') = false := by simpa using hc
      simp [List.takeWhile_cons, h]
  | cons x xs ih =>
      by_cases hx : (x == ' ') = true
      · simp only [List.cons_append, List.takeWhile_cons, hx, if_true, List.length_cons, ih]
      · simp only [List.cons_append, List.takeWhile_cons, hx, Bool.false_eq_true, if_false]

/-- Leading spaces of a line: the indentation, then those of the content, when
the content is followed by a character that is not a space. -/
theorem leadingSpaces_behind (N : Nat) (key a b : String) (c : Char) (hc : c ≠ ' ')
    (ha : a.data.head? = some c) :
    leadingSpaces (spaces N ++ key ++ a ++ b) = N + leadingSpaces key := by
  obtain ⟨r, hr⟩ : ∃ r, a.data = c :: r := by
    cases h : a.data with
    | nil => simp [h] at ha
    | cons x xs =>
        simp only [h, List.head?_cons, Option.some.injEq] at ha
        exact ⟨xs, by rw [ha]⟩
  have hd : (spaces N ++ key ++ a ++ b).data =
      List.replicate N ' ' ++ (key.data ++ c :: (r ++ b.data)) := by
    simp only [String.data_append, hr, spaces, List.append_assoc, List.cons_append]
  unfold leadingSpaces
  rw [hd, takeWhile_space_replicate, List.length_append, List.length_replicate,
    takeWhile_space_stop _ _ _ hc]

/-- A line that starts with the indentation and `> ` has exactly the
indentation as leading spaces. -/
theorem leadingSpaces_marker (N : Nat) (b : String) :
    leadingSpaces (spaces N ++ "> " ++ b) = N := by
  have h := leadingSpaces_behind N "" "> " b '>' (by decide) (by decide)
  rw [String.append_empty] at h
  rw [h]
  rfl

/-- Every field text of a record written at level `L` is `L` spaces, the key
and a tail starting with `:` or with an opening brace; its leading spaces are
`L` plus those of the key. -/
theorem writeValue_record_fields_lead {mode : formatMode} {fuel L : Nat}
    {v : List (String × Value)} {out : String}
    (h : writeValue mode fuel (.record v) L = some out) :
    ∃ texts, out = concatAll texts ∧
      List.Forall₂ (fun key text => (∃ tail, text = spaces L ++ key ++ tail) ∧
          leadingSpaces text = L + leadingSpaces key)
        (sortStrings (mapKeys v)) texts := by
  cases fuel with
  | zero => simp [writeValue] at h
  | succ n =>
      rw [writeValue] at h
      obtain ⟨texts, hall, rfl⟩ := (writeAll_eq_some_iff _ _ _).mp h
      refine ⟨texts, rfl, hall.imp ?_⟩
      intro key text hkt
      cases hget : mapGet v key with
      | none =>
          simp only [hget, Option.some.injEq] at hkt
          subst hkt
          refine ⟨⟨_, by rw [String.append_assoc, String.append_assoc]⟩, ?_⟩
          rw [String.append_assoc (spaces L ++ key ++ ": ")]
          exact leadingSpaces_behind L key ": " _ ':' (by decide) (by decide)
      | some x =>
          cases x with
          | scalar s =>
              simp only [hget, Option.some.injEq] at hkt
              subst hkt
              refine ⟨⟨_, by rw [String.append_assoc, String.append_assoc]⟩, ?_⟩
              rw [String.append_assoc (spaces L ++ key ++ ": ")]
              exact leadingSpaces_behind L key ": " _ ':' (by decide) (by decide)
          | record sub =>
              simp only [hget, Option.map_eq_some'] at hkt
              obtain ⟨block, _, rfl⟩ := hkt
              exact ⟨⟨_, by rw [String.append_assoc]⟩,
                leadingSpaces_behind L key ":\n" _ ':' (by decide) (by decide)⟩
          | seq sub =>
              by_cases htab : isTabular sub = true
              · simp only [hget, htab, if_true] at hkt
                obtain ⟨cols, rows, hrows⟩ := writeTabularArray_shape hkt
                subst hrows
                refine ⟨⟨_, by rw [String.append_assoc, String.append_assoc,
                    String.append_assoc]⟩, ?_⟩
                rw [String.append_assoc (spaces L ++ key ++ "\x7b"),
                  String.append_assoc (spaces L ++ key ++ "\x7b")]
                exact leadingSpaces_behind L key "\x7b" _ '\x7b' (by decide) (by decide)
              · simp only [hget, htab, Bool.false_eq_true, if_false,
                  Option.some.injEq] at hkt
                subst hkt
                refine ⟨⟨_, by rw [String.append_assoc, String.append_assoc]⟩, ?_⟩
                rw [String.append_assoc (spaces L ++ key ++ ": ")]
                exact leadingSpaces_behind L key ": " _ ':' (by decide) (by decide)

/-! ## Flattened header leaves -/

/-- The leaf names of one column, as pairs. -/
theorem headerLeaves_eq (schema : List String) (sampleRow : List (String × Value)) :
    headerLeaves schema sampleRow = schema.flatMap fun col =>
      match columnLeaves sampleRow col with
      | none => [(col, none)]
      | some subKeys => subKeys.map fun subKey => (col, some subKey) := rfl

/-- With the shape of the first row's value, a column contributes to the row
line exactly the values of the row at the column's header leaves. -/
theorem flattenedCell_of_sameShape {first m : List (String × Value)} {col : String}
    (h : sameShape (mapGet first col) (mapGet m col) = true) :
    flattenedCell m col =
      (match columnLeaves first col with
        | none => [(col, none)]
        | some subKeys => subKeys.map fun subKey => (col, some subKey)).map (leafValue m) := by
  cases hf : mapGet first col with
  | none => simp [hf, sameShape] at h
  | some x =>
      cases hm : mapGet m col with
      | none => cases x <;> simp [hf, hm, sameShape] at h
      | some y =>
          cases x with
          | scalar s =>
              cases y with
              | scalar t => simp [flattenedCell, columnLeaves, leafValue, hf, hm]
              | record b => simp [hf, hm, sameShape] at h
              | seq b => simp [hf, hm, sameShape] at h
          | record a =>
              cases y with
              | scalar t => simp [hf, hm, sameShape] at h
              | seq b => simp [hf, hm, sameShape] at h
              | record b =>
                  simp only [hf, hm, sameShape] at h
                  cases ha : canFlattenObject a with
                  | true =>
                      simp only [ha, if_true, Bool.and_eq_true, beq_iff_eq] at h
                      simp only [flattenedCell, columnLeaves, hf, hm, ha, h.1, if_true,
                        List.map_map, ← h.2]
                      apply List.map_congr_left
                      intro subKey _
                      simp only [Function.comp, leafValue, hm]
                  | false =>
                      simp only [ha, Bool.false_eq_true, if_false, Bool.not_eq_true'] at h
                      simp [flattenedCell, columnLeaves, leafValue, hf, hm, ha, h]
          | seq a =>
              cases y with
              | scalar t => simp [hf, hm, sameShape] at h
              | record b => simp [hf, hm, sameShape] at h
              | seq b =>
                  cases hb : isTabular b <;>
                    simp [flattenedCell, columnLeaves, leafValue, hf, hm, hb]

/-- The Flattened header is the `|`-joined list of the header entries. -/
theorem buildFlattenedSchema_entries (schema : List String)
    (sampleRow : List (String × Value)) :
    buildFlattenedSchema schema sampleRow =
      stringsJoin (schema.map fun col => headerEntry col (columnLeaves sampleRow col)) "|" := by
  rw [buildFlattenedSchema_eq]
  congr 1
  apply List.map_congr_left
  intro col _
  cases hget : mapGet sampleRow col with
  | none => simp [columnLeaves, headerEntry, hget]
  | some x =>
      cases x with
      | scalar s => simp [columnLeaves, headerEntry, hget]
      | seq xs => simp [columnLeaves, headerEntry, hget]
      | record sub =>
          cases hc : canFlattenObject sub <;> simp [columnLeaves, headerEntry, hget, hc]


/-! ## Lower case -/

/-- The lower-case form of some identifiers: ASCII capitals, capitals of Latin-1
(`Ñame` is stored under `ñame`), Greek, Cyrillic, the dotted capital I and a
digraph; lower-case letters, digits and the underscore are kept. -/
theorem stringsToLower_examples :
    stringsToLower "Name" = "name" ∧ stringsToLower "userID_2" = "userid_2" ∧
    stringsToLower "Ñame" = "ñame" ∧ stringsToLower "ΑΒΓ" = "αβγ" ∧
    stringsToLower "Жук" = "жук" ∧ stringsToLower "İ" = "i" ∧
    stringsToLower "ñame" = "ñame" ∧ stringsToLower "Ǆ" = "ǆ" ∧
    tagName ⟨"Ñame", "", true⟩ = "ñame" ∧ tagName ⟨"Ñame", "n", true⟩ = "n" ∧
    storedNames [(⟨"Ñ", "", true⟩, .scalar (.int 1)), (⟨"X", "ñ", true⟩, .scalar (.int 2))]
      = ["ñ", "ñ"] := by
  decide
/-! ## The claims -/

/-- C1: `isTabular s` holds exactly when `s` is non-empty, every element is a
record and every element has the key set of the first element; it is false for
the empty sequence, and it depends only on which elements are records and on
their keys, not on any field value. -/
theorem isTabular_iff_same_keys (s : List Value)
    (huniq : ∀ m, Value.record m ∈ s → (mapKeys m).Nodup) :
    (isTabular s = true ↔
      s ≠ [] ∧ (∀ v ∈ s, ∃ m, v = Value.record m) ∧
        ∀ first m, s.head? = some (Value.record first) → Value.record m ∈ s →
          ∀ k, k ∈ mapKeys m ↔ k ∈ mapKeys first) ∧
    isTabular [] = false ∧
    ∀ s' : List Value, s'.map keysOf = s.map keysOf → isTabular s' = isTabular s := by
  refine ⟨?_, rfl, isTabular_eq_of_keysOf s⟩
  cases s with
  | nil => simp [isTabular]
  | cons v rest =>
      cases v with
      | scalar x =>
          simp only [isTabular, Bool.false_eq_true, false_iff, not_and]
          intro _ hall
          obtain ⟨m, hm⟩ := hall _ (List.mem_cons_self _ _)
          cases hm
      | seq xs =>
          simp only [isTabular, Bool.false_eq_true, false_iff, not_and]
          intro _ hall
          obtain ⟨m, hm⟩ := hall _ (List.mem_cons_self _ _)
          cases hm
      | record first =>
          have hfirst : (mapKeys first).Nodup := huniq first (List.mem_cons_self _ _)
          rw [isTabular_cons_record]
          constructor
          · intro h
            refine ⟨by simp, ?_, ?_⟩
            · intro v hv
              rcases List.mem_cons.mp hv with rfl | hv
              · exact ⟨first, rfl⟩
              · obtain ⟨m, hm, _⟩ := h v hv
                exact ⟨m, hm⟩
            · intro first2 m hhead hm
              simp only [List.head?_cons, Option.some.injEq, Value.record.injEq] at hhead
              subst hhead
              rcases List.mem_cons.mp hm with heq | hm2
              · cases heq; exact fun k => Iff.rfl
              · obtain ⟨m2, hm2eq, hlen, hsub⟩ := h _ hm2
                cases hm2eq
                exact (sameKeys_iff (huniq m hm) hfirst).mp ⟨hlen, hsub⟩
          · rintro ⟨_, hall, hkeys⟩ item hitem
            obtain ⟨m, rfl⟩ := hall item (List.mem_cons_of_mem _ hitem)
            have hm : Value.record m ∈ Value.record first :: rest := List.mem_cons_of_mem _ hitem
            exact ⟨m, rfl, (sameKeys_iff (huniq m hm) hfirst).mpr (hkeys first m rfl hm)⟩

/-- C1 at a two-row table: the hypothesis holds and the table is tabular. -/
theorem isTabular_iff_same_keys_witness :
    (∀ m, Value.record m ∈
        [Value.record [("id", .scalar (.int 1)), ("name", .scalar (.str "Laptop"))],
         Value.record [("name", .scalar (.bool true)), ("id", .scalar (.str "x"))]] →
        (mapKeys m).Nodup) ∧
    isTabular
        [Value.record [("id", .scalar (.int 1)), ("name", .scalar (.str "Laptop"))],
         Value.record [("name", .scalar (.bool true)), ("id", .scalar (.str "x"))]] = true := by
  have huniq : ∀ m, Value.record m ∈
        [Value.record [("id", .scalar (.int 1)), ("name", .scalar (.str "Laptop"))],
         Value.record [("name", .scalar (.bool true)), ("id", .scalar (.str "x"))]] →
        (mapKeys m).Nodup := by
    intro m hm
    simp only [List.mem_cons, Value.record.injEq, List.mem_singleton, List.not_mem_nil,
      or_false] at hm
    rcases hm with rfl | rfl <;> decide
  refine ⟨huniq, ((isTabular_iff_same_keys _ huniq).1).mpr ⟨by simp, ?_, ?_⟩⟩
  · intro v hv
    simp only [List.mem_cons, List.mem_singleton, List.not_mem_nil, or_false] at hv
    rcases hv with rfl | rfl
    · exact ⟨_, rfl⟩
    · exact ⟨_, rfl⟩
  · intro first m hhead hm k
    simp only [List.head?_cons, Option.some.injEq, Value.record.injEq] at hhead
    subst hhead
    simp only [List.mem_cons, Value.record.injEq, List.mem_singleton, List.not_mem_nil,
      or_false] at hm
    rcases hm with rfl | rfl
    · exact Iff.rfl
    · simp [mapKeys]; tauto

/-- C2: in Normal mode a tabular sequence whose rows hold only scalars, written
under field name `f` at indent level `L`, is the header line (`L` spaces, `f`,
the first row's keys ascending and `|`-joined between braces, `:`) followed by
one line per row in sequence order: `L+1` spaces and the row's values in the
header's column order, `|`-joined.  The same holds for a top-level sequence
(empty field name), and the products example gives the documented text. -/
theorem normal_table_scalar_rows (fuel L : Nat) (f : String)
    (first : List (String × Value)) (rest : List (List (String × Value)))
    (htab : isTabular ((first :: rest).map Value.record) = true)
    (huniq : ∀ m ∈ first :: rest, (mapKeys m).Nodup)
    (hscalar : ∀ m ∈ first :: rest, ∀ kv ∈ m, kv.2.isScalar = true) :
    writeTabularArray .modeNormal (fuel + 1) (spaces L) f ((first :: rest).map Value.record) L =
      some (spaces L ++ f ++ "\x7b" ++ stringsJoin (sortStrings (mapKeys first)) "|" ++ "\x7d:\n" ++
        concatAll ((first :: rest).map fun m =>
          spaces (L + 1) ++
            stringsJoin ((sortStrings (mapKeys first)).map fun col => fmtAny (mapGet m col)) "|"
            ++ "\n")) ∧
    writeValue .modeNormal (fuel + 2) (.seq ((first :: rest).map Value.record)) L =
      some (spaces L ++ "" ++ "\x7b" ++ stringsJoin (sortStrings (mapKeys first)) "|" ++ "\x7d:\n" ++
        concatAll ((first :: rest).map fun m =>
          spaces (L + 1) ++
            stringsJoin ((sortStrings (mapKeys first)).map fun col => fmtAny (mapGet m col)) "|"
            ++ "\n")) ∧
    (∀ m ∈ first :: rest, ∀ col ∈ sortStrings (mapKeys first),
      ∃ s, mapGet m col = some (Value.scalar s)) ∧
    (sortStrings (mapKeys first)).Sorted (fun a b => strLE a b = true) ∧
    (sortStrings (mapKeys first)).Perm (mapKeys first) ∧
    format (.seq [
      .record [("id", .scalar (.int 1)), ("name", .scalar (.str "Laptop")),
        ("category", .scalar (.str "Electronics"))],
      .record [("id", .scalar (.int 2)), ("name", .scalar (.str "Mouse")),
        ("category", .scalar (.str "Electronics"))]]) =
      some "\x7bcategory|id|name\x7d:\n Electronics|1|Laptop\n Electronics|2|Mouse\n" := by
  have hcall : ∀ (fuel2 : Nat) (indentStr key : String),
      writeTabularArray .modeNormal (fuel2 + 1) indentStr key
          ((first :: rest).map Value.record) L =
        some (indentStr ++ key ++ "\x7b" ++ stringsJoin (sortStrings (mapKeys first)) "|"
          ++ "\x7d:\n" ++
          concatAll ((first :: rest).map fun m =>
            spaces (L + 1) ++
              stringsJoin ((sortStrings (mapKeys first)).map fun col => fmtAny (mapGet m col)) "|"
              ++ "\n")) := by
    intro fuel2 indentStr key
    have h := writeTabularArrayNormal_of_scalars (writeValue .modeNormal fuel2)
      (writeTabularArray .modeNormal fuel2) indentStr key (first :: rest)
      (sortStrings (mapKeys first)) L hscalar
    simpa only [writeTabularArray, List.map_cons] using h
  refine ⟨hcall fuel (spaces L) f, ?_, ?_, sortStrings_sorted _, sortStrings_perm _, ?_⟩
  · rw [writeValue]
    simp only [htab, if_true]
    exact hcall fuel (spaces L) ""
  · intro m hm col hcol
    have hmem : Value.record m ∈ Value.record first :: rest.map Value.record := by
      have := List.mem_map_of_mem Value.record hm
      simpa only [List.map_cons] using this
    have hkeys := isTabular_keys (by simpa only [List.map_cons] using htab) hmem (huniq m hm)
    obtain ⟨x, hx⟩ := mapGet_of_mem_keys ((hkeys col).mpr (mem_sortStrings.mp hcol))
    have hs := hscalar m hm _ (mapGet_mem hx)
    cases x with
    | scalar s => exact ⟨s, hx⟩
    | record sub => simp [Value.isScalar] at hs
    | seq sub => simp [Value.isScalar] at hs
  · decide

/-- C2 at a two-row table written at indent level 3. -/
theorem normal_table_scalar_rows_witness :
    writeValue .modeNormal 2 (.seq [
      .record [("b", .scalar (.int 1)), ("a", .scalar (.str "x"))],
      .record [("a", .scalar (.bool true)), ("b", .scalar (.int 2))]]) 3 =
      some "   \x7ba|b\x7d:\n    x|1\n    true|2\n" :=
  (normal_table_scalar_rows 0 3 "" [("b", .scalar (.int 1)), ("a", .scalar (.str "x"))]
    [[("a", .scalar (.bool true)), ("b", .scalar (.int 2))]]
    (by decide) (by decide) (by decide)).2.1.trans (by decide)

/-- C3: a record whose values are all scalars, written at indent level `L` in
any mode, is exactly one line `<L spaces><key>: <scalar text>` per key, keys
ascending; the Alice example gives the three documented lines in every mode. -/
theorem record_of_scalars_lines (mode : formatMode) (fuel L : Nat)
    (v : List (String × Value)) (hscalar : ∀ kv ∈ v, kv.2.isScalar = true) :
    writeValue mode (fuel + 1) (.record v) L =
      some (concatAll ((sortStrings (mapKeys v)).map fun key =>
        spaces L ++ key ++ ": " ++ fmtAny (mapGet v key) ++ "\n")) ∧
    (∀ key ∈ sortStrings (mapKeys v), ∃ s, mapGet v key = some (Value.scalar s) ∧
      fmtAny (mapGet v key) = fmtScalar s) ∧
    (sortStrings (mapKeys v)).Sorted (fun a b => strLE a b = true) ∧
    (sortStrings (mapKeys v)).Perm (mapKeys v) ∧
    format (.record [("name", .scalar (.str "Alice")), ("age", .scalar (.int 30)),
      ("city", .scalar (.str "Wonderland"))]) =
        some "age: 30\ncity: Wonderland\nname: Alice\n" ∧
    formatFlattened (.record [("name", .scalar (.str "Alice")), ("age", .scalar (.int 30)),
      ("city", .scalar (.str "Wonderland"))]) =
        some "age: 30\ncity: Wonderland\nname: Alice\n" ∧
    formatNormalized (.record [("name", .scalar (.str "Alice")), ("age", .scalar (.int 30)),
      ("city", .scalar (.str "Wonderland"))]) =
        some "age: 30\ncity: Wonderland\nname: Alice\n" := by
  have hget : ∀ key ∈ sortStrings (mapKeys v), ∃ s, mapGet v key = some (Value.scalar s) := by
    intro key hkey
    obtain ⟨x, hx⟩ := mapGet_of_mem_keys (mem_sortStrings.mp hkey)
    have hs := hscalar _ (mapGet_mem hx)
    cases x with
    | scalar s => exact ⟨s, hx⟩
    | record sub => simp [Value.isScalar] at hs
    | seq sub => simp [Value.isScalar] at hs
  refine ⟨?_, ?_, sortStrings_sorted _, sortStrings_perm _, by decide, by decide, by decide⟩
  · rw [writeValue]
    apply writeAll_some
    intro key hkey
    obtain ⟨s, hs⟩ := hget key hkey
    simp only [hs]
  · intro key hkey
    obtain ⟨s, hs⟩ := hget key hkey
    exact ⟨s, hs, by rw [hs]; rfl⟩

/-- C3 at a two-field record written at indent level 2 in Flattened mode. -/
theorem record_of_scalars_lines_witness :
    writeValue .modeFlattened 1
      (.record [("b", .scalar (.bool false)), ("a", .scalar (.int (-4)))]) 2 =
      some "  a: -4\n  b: false\n" :=
  (record_of_scalars_lines .modeFlattened 0 2
    [("b", .scalar (.bool false)), ("a", .scalar (.int (-4)))] (by decide)).1.trans (by decide)

/-- C4: a record written at indent level `L` is the concatenation, over its keys
in ascending order, of one text per field, and each field falls in exactly one
of three cases: a tabular sequence is written as a table whose header starts
with `L` spaces and the field's key; a record is written as the line
`<L spaces><key>:` followed by that record written at level `L+1`; any other
value is the single line `<L spaces><key>: <text>`. -/
theorem record_field_cases (mode : formatMode) (v : List (String × Value)) (L fuel : Nat)
    (hfuel : (Value.record v).depth ≤ fuel) :
    (∃ texts, writeValue mode fuel (.record v) L = some (concatAll texts) ∧
      List.Forall₂ (fun key text =>
        (∃ sub, mapGet v key = some (Value.seq sub) ∧ isTabular sub = true ∧
          writeTabularArray mode (depthItems sub) (spaces L) key sub L = some text ∧
          ∃ cols rows, text = spaces L ++ key ++ "\x7b" ++ cols ++ "\x7d:\n" ++ rows) ∨
        (∃ sub block, mapGet v key = some (Value.record sub) ∧
          writeValue mode (Value.record sub).depth (.record sub) (L + 1) = some block ∧
          text = spaces L ++ key ++ ":\n" ++ block) ∨
        (isNested (mapGet v key) = false ∧
          text = spaces L ++ key ++ ": " ++ fmtAny (mapGet v key) ++ "\n"))
        (sortStrings (mapKeys v)) texts) ∧
    (sortStrings (mapKeys v)).Sorted (fun a b => strLE a b = true) ∧
    (sortStrings (mapKeys v)).Perm (mapKeys v) := by
  refine ⟨?_, sortStrings_sorted _, sortStrings_perm _⟩
  obtain ⟨out, hout⟩ := Option.isSome_iff_exists.mp (writeValue_isSome mode (.record v) L hfuel)
  obtain ⟨fuel2, rfl⟩ : ∃ k, fuel = k + 1 := ⟨fuel - 1, by have := depth_pos (.record v); omega⟩
  simp only [Value.depth] at hfuel
  have hout2 := hout
  rw [writeValue] at hout2
  obtain ⟨texts, hall, rfl⟩ := (writeAll_eq_some_iff _ _ _).mp hout2
  refine ⟨texts, hout, hall.imp ?_⟩
  intro key text hkt
  cases hget : mapGet v key with
  | none =>
      right; right
      simp only [hget] at hkt
      exact ⟨rfl, (Option.some.inj hkt).symm⟩
  | some x =>
      have hd := depth_mapGet hget
      cases x with
      | scalar s =>
          right; right
          simp only [hget] at hkt
          exact ⟨rfl, (Option.some.inj hkt).symm⟩
      | record sub =>
          right; left
          simp only [hget, Option.map_eq_some'] at hkt
          obtain ⟨block, hblock, rfl⟩ := hkt
          rw [writeValue_fuel_irrel mode _ _ (by omega)] at hblock
          exact ⟨sub, block, rfl, hblock, rfl⟩
      | seq sub =>
          simp only [Value.depth] at hd
          by_cases htab : isTabular sub = true
          · left
            simp only [hget, htab, if_true] at hkt
            rw [writeTabularArray_fuel_irrel mode _ _ _ _ htab (by omega)] at hkt
            exact ⟨sub, rfl, htab, hkt, writeTabularArray_shape hkt⟩
          · right; right
            simp only [hget, htab] at hkt
            refine ⟨by simpa [isNested] using htab, ?_⟩
            simpa [fmtAny] using hkt.symm

/-- C4 at a record with a table, a nested record and a scalar: three field
texts are written. -/
theorem record_field_cases_witness :
    ∃ texts, writeValue .modeNormal 4 (.record [
        ("t", .seq [.record [("a", .scalar (.int 1))]]),
        ("r", .record [("x", .scalar (.str "y"))]),
        ("s", .scalar (.bool true))]) 0 = some (concatAll texts) ∧ texts.length = 3 := by
  obtain ⟨⟨texts, hout, hall⟩, _⟩ := record_field_cases .modeNormal [
        ("t", .seq [.record [("a", .scalar (.int 1))]]),
        ("r", .record [("x", .scalar (.str "y"))]),
        ("s", .scalar (.bool true))] 0 4 (by decide)
  exact ⟨texts, hout, hall.length_eq.symm.trans (by decide)⟩

/-- C5: in Normal mode the column list in the header of a tabular sequence is
ascending, has no duplicates, and has exactly the keys of every row of the
table. -/
theorem normal_header_columns (fuel L : Nat) (indentStr key : String) (data : List Value)
    (htab : isTabular data = true)
    (huniq : ∀ m, Value.record m ∈ data → (mapKeys m).Nodup)
    (hfuel : depthItems data ≤ fuel) :
    ∃ schema rows,
      writeTabularArray .modeNormal fuel indentStr key data L =
        some (indentStr ++ key ++ "\x7b" ++ stringsJoin schema "|" ++ "\x7d:\n" ++ rows) ∧
      schema.Sorted (fun a b => strLE a b = true) ∧ schema.Nodup ∧
      ∀ m, Value.record m ∈ data → ∀ k, k ∈ schema ↔ k ∈ mapKeys m := by
  obtain ⟨out, hout⟩ := Option.isSome_iff_exists.mp
    (writeTabularArray_isSome .modeNormal indentStr key data L htab hfuel)
  obtain ⟨first, rest, rfl⟩ := isTabular_head htab
  have hpos := le_trans (depth_pos _)
    (depth_mem_items (List.mem_cons_self (Value.record first) rest))
  obtain ⟨fuel2, rfl⟩ : ∃ k, fuel = k + 1 := ⟨fuel - 1, by omega⟩
  have hout2 := hout
  simp only [writeTabularArray, writeTabularArrayNormal, Option.map_eq_some'] at hout2
  obtain ⟨rows, _, rfl⟩ := hout2
  refine ⟨sortStrings (mapKeys first), rows, hout, sortStrings_sorted _,
    sortStrings_nodup.mpr (huniq first (List.mem_cons_self _ _)), ?_⟩
  intro m hm k
  rw [mem_sortStrings]
  exact (isTabular_keys htab hm (huniq m hm) k).symm

/-- C5 at a two-row table with a nested record: the header columns are `a`, `b`. -/
theorem normal_header_columns_witness :
    ∃ schema rows,
      writeTabularArray .modeNormal 3 "" "t" [
        .record [("b", .record [("x", .scalar (.int 1))]), ("a", .scalar (.int 2))],
        .record [("a", .scalar (.int 3)), ("b", .scalar (.int 4))]] 0 =
        some ("" ++ "t" ++ "\x7b" ++ stringsJoin schema "|" ++ "\x7d:\n" ++ rows) ∧
      schema.Nodup ∧ ∀ k, k ∈ schema ↔ k ∈ ["a", "b"] := by
  obtain ⟨schema, rows, hout, _, hnodup, hkeys⟩ := normal_header_columns 3 0 "" "t" [
        .record [("b", .record [("x", .scalar (.int 1))]), ("a", .scalar (.int 2))],
        .record [("a", .scalar (.int 3)), ("b", .scalar (.int 4))]]
      (by decide)
      (by
        intro m hm
        simp only [List.mem_cons, Value.record.injEq, List.mem_singleton, List.not_mem_nil,
          or_false] at hm
        rcases hm with rfl | rfl <;> decide)
      (by decide)
  exact ⟨schema, rows, hout, hnodup,
    hkeys [("a", .scalar (.int 3)), ("b", .scalar (.int 4))] (by simp)⟩

/-- C6: in Normal mode, a tabular sequence written at indent level `L` is the
header followed by one text per row.  A row's text starts with the row line:
`L+1` spaces and the `|`-joined values of the columns whose value in that row is
neither a record nor a tabular sequence, in ascending column order.  Then, in
ascending column order, each column holding a record adds the marker line
`> <column>:` followed by that record written in Normal mode, and each column
holding a tabular sequence adds the prefix `> ` followed by the nested table,
whose header is named after the column. -/
theorem normal_table_rows (fuel L : Nat) (indentStr key : String) (data : List Value)
    (htab : isTabular data = true) (hfuel : depthItems data ≤ fuel) :
    ∃ first rest rowTexts, data = Value.record first :: rest ∧
      writeTabularArray .modeNormal fuel indentStr key data L =
        some (indentStr ++ key ++ "\x7b" ++ stringsJoin (sortStrings (mapKeys first)) "|"
          ++ "\x7d:\n" ++ concatAll rowTexts) ∧
      List.Forall₂ (fun row text => ∃ m blocks, row = Value.record m ∧
        text = spaces (L + 1) ++
          stringsJoin (((sortStrings (mapKeys first)).filter
            fun col => !isNested (mapGet m col)).map fun col => fmtAny (mapGet m col)) "|"
          ++ "\n" ++ concatAll blocks ∧
        List.Forall₂ (fun col block =>
          (∃ sub body, mapGet m col = some (Value.record sub) ∧
            writeValue .modeNormal (Value.record sub).depth (.record sub) (L + 2) = some body ∧
            block = spaces (L + 1) ++ "  > " ++ col ++ ":\n" ++ body) ∨
          (∃ sub table, mapGet m col = some (Value.seq sub) ∧ isTabular sub = true ∧
            writeTabularArray .modeNormal (depthItems sub) "" col sub (L + 2) = some table ∧
            block = spaces (L + 1) ++ "  > " ++ table ∧
            ∃ cols rows, table = "" ++ col ++ "\x7b" ++ cols ++ "\x7d:\n" ++ rows))
          ((sortStrings (mapKeys first)).filter fun col => isNested (mapGet m col)) blocks)
        data rowTexts := by
  obtain ⟨out, hout⟩ := Option.isSome_iff_exists.mp
    (writeTabularArray_isSome .modeNormal indentStr key data L htab hfuel)
  obtain ⟨first, rest, rfl⟩ := isTabular_head htab
  have hpos := le_trans (depth_pos _)
    (depth_mem_items (List.mem_cons_self (Value.record first) rest))
  obtain ⟨fuel2, rfl⟩ : ∃ k, fuel = k + 1 := ⟨fuel - 1, by omega⟩
  have hout2 := hout
  simp only [writeTabularArray, writeTabularArrayNormal, Option.map_eq_some'] at hout2
  obtain ⟨rows, hrows, rfl⟩ := hout2
  obtain ⟨rowTexts, hall, rfl⟩ := (writeAll_eq_some_iff _ _ _).mp hrows
  refine ⟨first, rest, rowTexts, rfl, hout, (forall₂_mem_left hall).imp ?_⟩
  rintro row text ⟨hrow, hrt⟩
  cases row with
  | scalar s => simp at hrt
  | seq xs => simp at hrt
  | record m =>
      simp only [Option.map_eq_some'] at hrt
      obtain ⟨nested, hnested, rfl⟩ := hrt
      rw [writeAll_filter (fun col => isNested (mapGet m col))] at hnested
      · obtain ⟨blocks, hblocks, rfl⟩ := (writeAll_eq_some_iff _ _ _).mp hnested
        refine ⟨m, blocks, rfl, by rw [rowValues_eq], (forall₂_mem_left hblocks).imp ?_⟩
        rintro col block ⟨hcol, hcb⟩
        have hn : isNested (mapGet m col) = true := (List.mem_filter.mp hcol).2
        cases hget : mapGet m col with
        | none => simp [hget, isNested] at hn
        | some x =>
            cases x with
            | scalar s => simp [hget, isNested] at hn
            | record sub =>
                left
                simp only [hget, Option.map_eq_some'] at hcb
                obtain ⟨body, hbody, rfl⟩ := hcb
                have hd := depth_cell_record hrow hget
                rw [writeValue_fuel_irrel .modeNormal _ _ (by omega)] at hbody
                exact ⟨sub, body, rfl, hbody, rfl⟩
            | seq sub =>
                right
                have hsub : isTabular sub = true := by simpa [hget, isNested] using hn
                simp only [hget, hsub, if_true, Option.map_eq_some'] at hcb
                obtain ⟨table, htable, rfl⟩ := hcb
                have hd := depth_cell_seq hrow hget
                rw [writeTabularArray_fuel_irrel .modeNormal _ _ _ _ hsub (by omega)] at htable
                exact ⟨sub, table, rfl, hsub, htable, rfl, writeTabularArray_shape htable⟩
      · intro col _ hn
        cases hget : mapGet m col with
        | none => rfl
        | some x =>
            cases x with
            | scalar s => rfl
            | record sub => simp [hget, isNested] at hn
            | seq sub =>
                have hsub : isTabular sub = false := by simpa [hget, isNested] using hn
                simp [hsub]

/-- C6 at a one-row table with a scalar, a nested record and a nested table:
one row text is written. -/
theorem normal_table_rows_witness :
    ∃ rowTexts,
      writeTabularArray .modeNormal 4 "" "t" [
        .record [("n", .scalar (.int 7)), ("p", .record [("x", .scalar (.int 1))]),
          ("q", .seq [.record [("y", .scalar (.int 2))]])]] 0 =
        some ("" ++ "t" ++ "\x7b" ++ stringsJoin ["n", "p", "q"] "|" ++ "\x7d:\n"
          ++ concatAll rowTexts) ∧ rowTexts.length = 1 := by
  obtain ⟨first, rest, rowTexts, hdata, hout, hall⟩ := normal_table_rows 4 0 "" "t" [
        .record [("n", .scalar (.int 7)), ("p", .record [("x", .scalar (.int 1))]),
          ("q", .seq [.record [("y", .scalar (.int 2))]])]] (by decide) (by decide)
  simp only [List.cons.injEq, Value.record.injEq] at hdata
  obtain ⟨rfl, rfl⟩ := hdata
  exact ⟨rowTexts, hout.trans (by rfl), hall.length_eq.symm⟩

/-- C7: in Flattened mode the header of a tabular sequence lists, in ascending
column order and joined with `|`, one entry per column of the first row: for a
column whose value in the first row is a flattenable record the entry is the
column name followed by that record's field names, ascending and comma-joined,
between braces; for every other column it is the bare column name. -/
theorem flattened_header_entries (fuel L : Nat) (indentStr key : String) (data : List Value)
    (htab : isTabular data = true) :
    (∃ first rest rows, data = Value.record first :: rest ∧
      writeTabularArray .modeFlattened (fuel + 1) indentStr key data L =
        some (indentStr ++ key ++ "\x7b" ++
          stringsJoin ((sortStrings (mapKeys first)).map fun col =>
            match mapGet first col with
            | some (.record sub) =>
                if canFlattenObject sub then
                  col ++ "\x7b" ++ stringsJoin (sortStrings (mapKeys sub)) "," ++ "\x7d"
                else col
            | _ => col) "|"
          ++ "\x7d:\n" ++ rows)) ∧
    ∀ sub : List (String × Value),
      (sortStrings (mapKeys sub)).Sorted (fun a b => strLE a b = true) ∧
      (sortStrings (mapKeys sub)).Perm (mapKeys sub) := by
  refine ⟨?_, fun sub => ⟨sortStrings_sorted _, sortStrings_perm _⟩⟩
  obtain ⟨first, rest, rfl⟩ := isTabular_head htab
  obtain ⟨out, hout⟩ := Option.isSome_iff_exists.mp
    (@writeTabularArrayFlattened_isSome indentStr key _ (sortStrings (mapKeys first)) L htab)
  simp only [writeTabularArrayFlattened, Option.map_eq_some'] at hout
  obtain ⟨rows, hrows, rfl⟩ := hout
  refine ⟨first, rest, rows, rfl, ?_⟩
  simp only [writeTabularArray, writeTabularArrayFlattened, hrows, Option.map_some',
    buildFlattenedSchema_eq]

/-- C7 at a table whose first row holds a flattenable record, a record that is
not flattenable and a scalar. -/
theorem flattened_header_entries_witness :
    ∃ rows, writeTabularArray .modeFlattened 1 "" "users" [
        .record [("p", .record [("u", .scalar (.int 1)), ("e", .scalar (.int 2))]),
          ("d", .record [("z", .record [])]), ("n", .scalar (.int 3))]] 0 =
      some ("users\x7bd|n|p\x7be,u\x7d\x7d:\n" ++ rows) := by
  obtain ⟨⟨first, rest, rows, hdata, hout⟩, _⟩ := flattened_header_entries 0 0 "" "users" [
        .record [("p", .record [("u", .scalar (.int 1)), ("e", .scalar (.int 2))]),
          ("d", .record [("z", .record [])]), ("n", .scalar (.int 3))]] (by decide)
  simp only [List.cons.injEq, Value.record.injEq] at hdata
  obtain ⟨rfl, rfl⟩ := hdata
  exact ⟨rows, hout.trans (by rfl)⟩

/-- C8: in Normalized mode the header of a tabular sequence lists, in ascending
column order and joined with `|`, one entry per column of the first row: for a
column whose value in the first row is a flattenable record the entry is the
column name followed by that record's field names, ascending and `|`-joined,
between braces; for every other column it is the bare column name.  The names
inside the braces are those of the Flattened header, in the same order. -/
theorem normalized_header_entries (fuel L : Nat) (indentStr key : String) (data : List Value)
    (htab : isTabular data = true) (hfuel : depthItems data ≤ fuel) :
    (∃ first rest rows, data = Value.record first :: rest ∧
      writeTabularArray .modeNormalized fuel indentStr key data L =
        some (indentStr ++ key ++ "\x7b" ++
          stringsJoin ((sortStrings (mapKeys first)).map fun col =>
            match mapGet first col with
            | some (.record sub) =>
                if canFlattenObject sub then
                  col ++ "\x7b" ++ stringsJoin (sortStrings (mapKeys sub)) "|" ++ "\x7d"
                else col
            | _ => col) "|"
          ++ "\x7d:\n" ++ rows) ∧
      buildFlattenedSchema (sortStrings (mapKeys first)) first =
        stringsJoin ((sortStrings (mapKeys first)).map fun col =>
          match mapGet first col with
          | some (.record sub) =>
              if canFlattenObject sub then
                col ++ "\x7b" ++ stringsJoin (sortStrings (mapKeys sub)) "," ++ "\x7d"
              else col
          | _ => col) "|") ∧
    ∀ sub : List (String × Value),
      (sortStrings (mapKeys sub)).Sorted (fun a b => strLE a b = true) ∧
      (sortStrings (mapKeys sub)).Perm (mapKeys sub) := by
  refine ⟨?_, fun sub => ⟨sortStrings_sorted _, sortStrings_perm _⟩⟩
  obtain ⟨out, hout⟩ := Option.isSome_iff_exists.mp
    (writeTabularArray_isSome .modeNormalized indentStr key data L htab hfuel)
  obtain ⟨first, rest, rfl⟩ := isTabular_head htab
  have hpos := le_trans (depth_pos _)
    (depth_mem_items (List.mem_cons_self (Value.record first) rest))
  obtain ⟨fuel2, rfl⟩ : ∃ k, fuel = k + 1 := ⟨fuel - 1, by omega⟩
  have hout2 := hout
  simp only [writeTabularArray, writeTabularArrayNormalized, Option.map_eq_some'] at hout2
  obtain ⟨rows, _, rfl⟩ := hout2
  refine ⟨first, rest, rows, rfl, ?_, buildFlattenedSchema_eq _ _⟩
  rw [hout, buildNormalizedSchema_eq]

/-- C8 at a table whose first row holds a flattenable record, a record that is
not flattenable and a scalar. -/
theorem normalized_header_entries_witness :
    ∃ rows, writeTabularArray .modeNormalized 4 "" "users" [
        .record [("p", .record [("u", .scalar (.int 1)), ("e", .scalar (.int 2))]),
          ("d", .record [("z", .record [])]), ("n", .scalar (.int 3))]] 0 =
      some ("users\x7bd|n|p\x7be|u\x7d\x7d:\n" ++ rows) := by
  obtain ⟨⟨first, rest, rows, hdata, hout, _⟩, _⟩ := normalized_header_entries 4 0 "" "users" [
        .record [("p", .record [("u", .scalar (.int 1)), ("e", .scalar (.int 2))]),
          ("d", .record [("z", .record [])]), ("n", .scalar (.int 3))]] (by decide) (by decide)
  simp only [List.cons.injEq, Value.record.injEq] at hdata
  obtain ⟨rfl, rfl⟩ := hdata
  exact ⟨rows, hout.trans (by rfl)⟩

/-- C9: in Flattened mode a column holding a flattenable record contributes to
the row's line exactly one value per field of that record, in ascending subkey
order, each the text of that field's scalar; so it contributes as many values
as the record has fields.  The row line is the `|`-joined list of the values of
all columns, and the Profile example puts the email, then the username, on the
row's line. -/
theorem flattened_record_values (m sub : List (String × Value)) (before after : List String)
    (col : String) (hget : mapGet m col = some (Value.record sub))
    (hflat : canFlattenObject sub = true) :
    extractFlattenedValues (before ++ col :: after) m =
      extractFlattenedValues before m ++
        ((sortStrings (mapKeys sub)).map fun subKey => fmtAny (mapGet sub subKey)) ++
        extractFlattenedValues after m ∧
    ((sortStrings (mapKeys sub)).map fun subKey => fmtAny (mapGet sub subKey)).length =
      sub.length ∧
    (∀ subKey ∈ sortStrings (mapKeys sub), ∃ s, mapGet sub subKey = some (Value.scalar s) ∧
      fmtAny (mapGet sub subKey) = fmtScalar s) ∧
    (sortStrings (mapKeys sub)).Sorted (fun a b => strLE a b = true) ∧
    (sortStrings (mapKeys sub)).Perm (mapKeys sub) ∧
    (∀ (fuel L : Nat) (indentStr key : String) (first : List (String × Value))
        (rest : List (List (String × Value))),
      writeTabularArray .modeFlattened (fuel + 1) indentStr key
          ((first :: rest).map Value.record) L =
        some (indentStr ++ key ++ "\x7b" ++
          buildFlattenedSchema (sortStrings (mapKeys first)) first ++ "\x7d:\n" ++
          concatAll ((first :: rest).map fun row =>
            spaces (L + 1) ++
              stringsJoin (extractFlattenedValues (sortStrings (mapKeys first)) row) "|"
              ++ "\n"))) ∧
    formatFlattened (.seq [
      .record [("name", .scalar (.str "Alice")), ("age", .scalar (.int 30)),
        ("city", .scalar (.str "Wonderland")),
        ("profile", .record [("username", .scalar (.str "alice")),
          ("email", .scalar (.str "alice@example.com"))])],
      .record [("name", .scalar (.str "Bob")), ("age", .scalar (.int 25)),
        ("city", .scalar (.str "Builderland")),
        ("profile", .record [("username", .scalar (.str "bob")),
          ("email", .scalar (.str "bob@example.com"))])]]) =
      some ("\x7bage|city|name|profile\x7bemail,username\x7d\x7d:\n" ++
        " 30|Wonderland|Alice|alice@example.com|alice\n" ++
        " 25|Builderland|Bob|bob@example.com|bob\n") := by
  refine ⟨?_, ?_, ?_, sortStrings_sorted _, sortStrings_perm _, ?_, ?_⟩
  · have h : before ++ col :: after = before ++ ([col] ++ after) := rfl
    rw [h, extractFlattenedValues_append, extractFlattenedValues_append,
      extractFlattenedValues_flattenable hget hflat, List.append_assoc]
  · rw [List.length_map, sortStrings_length]
    simp [mapKeys]
  · intro subKey hk
    obtain ⟨s, hs⟩ := canFlattenObject_scalar hflat (mem_sortStrings.mp hk)
    exact ⟨s, hs, by rw [hs]; rfl⟩
  · intro fuel L indentStr key first rest
    have h := writeTabularArrayFlattened_rows indentStr key first rest
      (sortStrings (mapKeys first)) L
    simpa only [writeTabularArray, List.map_cons] using h
  · set_option maxRecDepth 100000 in decide

/-- C9 at a row whose column `p` holds a record of two scalars. -/
theorem flattened_record_values_witness :
    extractFlattenedValues ["n", "p", "z"]
      [("z", .scalar (.int 9)), ("p", .record [("u", .scalar (.str "al")),
        ("e", .scalar (.str "a@x"))]), ("n", .scalar (.int 3))] =
      ["3", "a@x", "al", "9"] :=
  (flattened_record_values
    [("z", .scalar (.int 9)), ("p", .record [("u", .scalar (.str "al")),
        ("e", .scalar (.str "a@x"))]), ("n", .scalar (.int 3))]
    [("u", .scalar (.str "al")), ("e", .scalar (.str "a@x"))] ["n"] ["z"] "p"
    (by rfl) (by decide)).1.trans (by decide)

/-- C10, as stated, fails: with the columns `a` (a flattenable record) and `b`
(a scalar), the row line is `1|2`, where the scalar `2` of column `b` stands to
the right of the value `1` inlined from the record; the row's own scalar values
are not a prefix of the line's values. -/
theorem flattened_scalars_first_counterexample :
    extractFlattenedValues ["a", "b"]
        [("a", .record [("x", .scalar (.int 1))]), ("b", .scalar (.int 2))] = ["1", "2"] ∧
    rowValues ["a", "b"]
        [("a", .record [("x", .scalar (.int 1))]), ("b", .scalar (.int 2))] = ["2"] ∧
    (¬ ∃ inlined, extractFlattenedValues ["a", "b"]
        [("a", .record [("x", .scalar (.int 1))]), ("b", .scalar (.int 2))] =
      rowValues ["a", "b"]
        [("a", .record [("x", .scalar (.int 1))]), ("b", .scalar (.int 2))] ++ inlined) ∧
    formatFlattened (.seq [.record
        [("a", .record [("x", .scalar (.int 1))]), ("b", .scalar (.int 2))]]) =
      some "\x7ba\x7bx\x7d|b\x7d:\n 1|2\n" := by
  refine ⟨by decide, by decide, ?_, by decide⟩
  rintro ⟨inlined, h⟩
  have h1 : extractFlattenedValues ["a", "b"]
      [("a", .record [("x", .scalar (.int 1))]), ("b", .scalar (.int 2))] = ["1", "2"] := by
    decide
  have h2 : rowValues ["a", "b"]
      [("a", .record [("x", .scalar (.int 1))]), ("b", .scalar (.int 2))] = ["2"] := by
    decide
  rw [h1, h2] at h
  simp only [List.singleton_append, List.cons.injEq] at h
  exact absurd h.1 (by decide)

/-- C10, amended: in Flattened mode the values of a row are laid out column by
column in ascending column order.  The values of a flattenable nested record
stand at the position of its column: after the values of the columns before it
and before the values of the columns after it.  They follow all of the row's
own scalar values when every nested column sorts after every scalar column. -/
theorem flattened_values_in_column_order (m : List (String × Value))
    (before after : List String) (col : String) :
    extractFlattenedValues (before ++ col :: after) m =
      extractFlattenedValues before m ++ extractFlattenedValues [col] m ++
        extractFlattenedValues after m ∧
    (isNested (mapGet m col) = false →
      extractFlattenedValues [col] m = [fmtAny (mapGet m col)]) ∧
    (∀ sub, mapGet m col = some (Value.record sub) → canFlattenObject sub = true →
      extractFlattenedValues [col] m =
        (sortStrings (mapKeys sub)).map fun subKey => fmtAny (mapGet sub subKey)) ∧
    ((∀ c ∈ before, isNested (mapGet m c) = false) →
      (∀ c ∈ col :: after, isNested (mapGet m c) = true) →
      extractFlattenedValues (before ++ col :: after) m =
        rowValues (before ++ col :: after) m ++ extractFlattenedValues (col :: after) m) := by
  have happ : extractFlattenedValues (before ++ col :: after) m =
      extractFlattenedValues before m ++ extractFlattenedValues (col :: after) m :=
    extractFlattenedValues_append _ _ _
  refine ⟨?_, extractFlattenedValues_plain, fun sub hget hflat =>
    extractFlattenedValues_flattenable hget hflat, ?_⟩
  · have h : before ++ col :: after = before ++ ([col] ++ after) := rfl
    rw [h, extractFlattenedValues_append, extractFlattenedValues_append, List.append_assoc]
  · intro hb ha
    rw [happ]
    congr 1
    rw [rowValues_eq, List.filter_append, List.map_append]
    have h1 : (before.filter fun c => !isNested (mapGet m c)) = before :=
      List.filter_eq_self.mpr (fun c hc => by simp [hb c hc])
    have h2 : ((col :: after).filter fun c => !isNested (mapGet m c)) = [] :=
      List.filter_eq_nil_iff.mpr (fun c hc => by simp [ha c hc])
    rw [h1, h2, List.map_nil, List.append_nil]
    clear happ h1
    induction before with
    | nil => rfl
    | cons c rest ih =>
        have hc := hb c (List.mem_cons_self _ _)
        have hrest := ih (fun c2 hc2 => hb c2 (List.mem_cons_of_mem _ hc2))
        have hsplit : c :: rest = [c] ++ rest := rfl
        rw [hsplit, extractFlattenedValues_append, extractFlattenedValues_plain hc, hrest]
        rfl

/-- C10 amended, at a row with the record column `a` before the scalar column
`b`: the record's value comes first. -/
theorem flattened_values_in_column_order_witness :
    extractFlattenedValues ["a", "b"]
        [("a", .record [("x", .scalar (.int 1))]), ("b", .scalar (.int 2))] =
      ["1"] ++ extractFlattenedValues ["b"]
        [("a", .record [("x", .scalar (.int 1))]), ("b", .scalar (.int 2))] := by
  have h := flattened_values_in_column_order
    [("a", .record [("x", .scalar (.int 1))]), ("b", .scalar (.int 2))] [] ["b"] "a"
  rw [h.2.2.1 [("x", .scalar (.int 1))] (by rfl) (by decide)] at h
  exact h.1.trans (by decide)

/-- C11: in Flattened mode a column holding a record that is not flattenable
contributes exactly the one value `[nested]` to the row's values, and a column
holding a tabular sequence exactly the one value `[table]`, at the column's
position; the header entry of such a column is its bare name; and the table is
the header followed by one line per row, so neither value is expanded anywhere.
The two documented structures give `Alice|[nested]` and a row with `[table]`. -/
theorem flattened_placeholders (m : List (String × Value)) (before after : List String)
    (col : String) :
    (∀ sub, mapGet m col = some (Value.record sub) → canFlattenObject sub = false →
      extractFlattenedValues (before ++ col :: after) m =
        extractFlattenedValues before m ++ ["[nested]"] ++ extractFlattenedValues after m ∧
      buildFlattenedSchema [col] m = col) ∧
    (∀ sub, mapGet m col = some (Value.seq sub) → isTabular sub = true →
      extractFlattenedValues (before ++ col :: after) m =
        extractFlattenedValues before m ++ ["[table]"] ++ extractFlattenedValues after m ∧
      buildFlattenedSchema [col] m = col) ∧
    (∀ (fuel L : Nat) (indentStr key : String) (first : List (String × Value))
        (rest : List (List (String × Value))),
      writeTabularArray .modeFlattened (fuel + 1) indentStr key
          ((first :: rest).map Value.record) L =
        some (indentStr ++ key ++ "\x7b" ++
          buildFlattenedSchema (sortStrings (mapKeys first)) first ++ "\x7d:\n" ++
          concatAll ((first :: rest).map fun row =>
            spaces (L + 1) ++
              stringsJoin (extractFlattenedValues (sortStrings (mapKeys first)) row) "|"
              ++ "\n"))) ∧
    formatFlattened (.seq [
      .record [("name", .scalar (.str "Alice")),
        ("profile", .record [("username", .scalar (.str "alice")),
          ("address", .record [("street", .scalar (.str "123 Main St")),
            ("city", .scalar (.str "Wonderland")),
            ("country", .scalar (.str "Fantasy"))])])]]) =
      some "\x7bname|profile\x7d:\n Alice|[nested]\n" ∧
    formatFlattened (.seq [
      .record [("orderid", .scalar (.int 1001)),
        ("items", .seq [
          .record [("productid", .scalar (.int 100)), ("quantity", .scalar (.int 2)),
            ("price", .scalar (.float "99.99"))],
          .record [("productid", .scalar (.int 101)), ("quantity", .scalar (.int 1)),
            ("price", .scalar (.float "49.99"))]]),
        ("address", .record [("street", .scalar (.str "123 Main St")),
          ("city", .scalar (.str "Wonderland")),
          ("zipcode", .scalar (.str "12345"))])]]) =
      some ("\x7baddress\x7bcity,street,zipcode\x7d|items|orderid\x7d:\n" ++
        " Wonderland|123 Main St|12345|[table]|1001\n") := by
  have hsplit : before ++ col :: after = before ++ ([col] ++ after) := rfl
  refine ⟨?_, ?_, ?_, by decide, by decide⟩
  · intro sub hget hflat
    constructor
    · rw [hsplit, extractFlattenedValues_append, extractFlattenedValues_append,
        extractFlattenedValues_nested hget hflat, List.append_assoc]
    · simp [buildFlattenedSchema_eq, hget, hflat, stringsJoin, String.intercalate,
        String.intercalate.go]
  · intro sub hget htab
    constructor
    · rw [hsplit, extractFlattenedValues_append, extractFlattenedValues_append,
        extractFlattenedValues_table hget htab, List.append_assoc]
    · simp [buildFlattenedSchema_eq, hget, stringsJoin, String.intercalate,
        String.intercalate.go]
  · intro fuel L indentStr key first rest
    have h := writeTabularArrayFlattened_rows indentStr key first rest
      (sortStrings (mapKeys first)) L
    simpa only [writeTabularArray, List.map_cons] using h

/-- C11 at a row whose column `p` holds a record with a nested record and whose
column `t` holds a one-row table. -/
theorem flattened_placeholders_witness :
    extractFlattenedValues ["n", "p", "t"]
      [("t", .seq [.record [("a", .scalar (.int 1))]]),
        ("p", .record [("q", .record [])]), ("n", .scalar (.int 3))] =
      ["3", "[nested]", "[table]"] :=
  ((flattened_placeholders
      [("t", .seq [.record [("a", .scalar (.int 1))]]),
        ("p", .record [("q", .record [])]), ("n", .scalar (.int 3))]
      ["n"] ["t"] "p").1 [("q", .record [])] (by rfl) (by decide)).1.trans (by decide)

/-- C13: in Normalized mode a tabular sequence is the header followed by one
text per row, a row's text is its value line followed by one block per nested
column in ascending column order, and the block of every column holding a
flattenable record is exactly the marker line `> <column>:` followed by one
line: the indentation and that record's values in ascending subkey order,
`|`-joined, without key names.  The persons example gives the documented text. -/
theorem normalized_flattenable_block (fuel L : Nat) (indentStr key : String)
    (data : List Value) (htab : isTabular data = true) (hfuel : depthItems data ≤ fuel) :
    (∃ first rest cols rowTexts, data = Value.record first :: rest ∧
      writeTabularArray .modeNormalized fuel indentStr key data L =
        some (indentStr ++ key ++ "\x7b" ++ cols ++ "\x7d:\n" ++ concatAll rowTexts) ∧
      List.Forall₂ (fun row text => ∃ m blocks, row = Value.record m ∧
        text = spaces (L + 1) ++
          stringsJoin (((sortStrings (mapKeys first)).filter
            fun col => !isNested (mapGet m col)).map fun col => fmtAny (mapGet m col)) "|"
          ++ "\n" ++ concatAll blocks ∧
        List.Forall₂ (fun col block =>
          ∀ sub, mapGet m col = some (Value.record sub) → canFlattenObject sub = true →
            block = spaces (L + 1) ++ "  > " ++ col ++ ":\n" ++ (spaces (L + 1) ++ "  ") ++
              stringsJoin ((sortStrings (mapKeys sub)).map
                fun subKey => fmtAny (mapGet sub subKey)) "|" ++ "\n")
          ((sortStrings (mapKeys first)).filter fun col => isNested (mapGet m col)) blocks)
        data rowTexts) ∧
    (∀ sub : List (String × Value),
      (sortStrings (mapKeys sub)).Sorted (fun a b => strLE a b = true) ∧
      (sortStrings (mapKeys sub)).Perm (mapKeys sub)) ∧
    formatNormalized (.seq [
      .record [("name", .scalar (.str "Alice")), ("age", .scalar (.int 30)),
        ("city", .scalar (.str "Wonderland")),
        ("profile", .record [("username", .scalar (.str "alice")),
          ("email", .scalar (.str "alice@example.com"))])],
      .record [("name", .scalar (.str "Bob")), ("age", .scalar (.int 25)),
        ("city", .scalar (.str "Builderland")),
        ("profile", .record [("username", .scalar (.str "bob")),
          ("email", .scalar (.str "bob@example.com"))])]]) =
      some ("\x7bage|city|name|profile\x7bemail|username\x7d\x7d:\n" ++
        " 30|Wonderland|Alice\n" ++ "   > profile:\n" ++ "   alice@example.com|alice\n" ++
        " 25|Builderland|Bob\n" ++ "   > profile:\n" ++ "   bob@example.com|bob\n") := by
  refine ⟨?_, fun sub => ⟨sortStrings_sorted _, sortStrings_perm _⟩, ?_⟩
  · obtain ⟨first, rest, rowTexts, hdata, hout, hall⟩ :=
      writeTabularArrayNormalized_decomp fuel L indentStr key data htab hfuel
    refine ⟨first, rest, _, rowTexts, hdata, hout, hall.imp ?_⟩
    rintro row text ⟨m, blocks, hrow, _, htext, hblocks⟩
    refine ⟨m, blocks, hrow, by rw [htext, rowValues_eq], hblocks.imp ?_⟩
    rintro col block hcases sub hget hflat
    rcases hcases with ⟨sub2, hget2, _, hblock⟩ | ⟨sub2, _, hget2, hflat2, _⟩ |
      ⟨sub2, _, hget2, _⟩
    · rw [hget] at hget2
      cases hget2
      exact hblock
    · rw [hget] at hget2
      cases hget2
      rw [hflat] at hflat2
      cases hflat2
    · rw [hget] at hget2
      cases hget2
  · set_option maxRecDepth 100000 in decide

/-- C13 at a one-row table whose column `p` holds a record of two scalars. -/
theorem normalized_flattenable_block_witness :
    ∃ cols rowTexts,
      writeTabularArray .modeNormalized 3 "" "t"
        [.record [("p", .record [("u", .scalar (.int 1)), ("e", .scalar (.int 2))])]] 0 =
        some ("" ++ "t" ++ "\x7b" ++ cols ++ "\x7d:\n" ++ concatAll rowTexts) ∧
      rowTexts.length = 1 := by
  obtain ⟨⟨first, rest, cols, rowTexts, _, hout, hall⟩, _⟩ :=
    normalized_flattenable_block 3 0 "" "t"
      [.record [("p", .record [("u", .scalar (.int 1)), ("e", .scalar (.int 2))])]]
      (by decide) (by decide)
  exact ⟨cols, rowTexts, hout, hall.length_eq.symm⟩

/-- C14, at the input where the code departs from it: the column `p` holds the
record `t: [q: (x: 1)]`, which is not flattenable, so Normalized mode takes the
branch commented `use normal format`.  The block it writes differs from the
block Normal mode writes for the same record at the same indentation: the table
`t` inside the record is written in Normalized mode (header `t{q{x}}`, values
line `1`) and not in Normal mode (header `t{q}`, line `x: 1`). -/
theorem normalized_fallback_diverges :
    canFlattenObject [("t", .seq [.record [("q", .record [("x", .scalar (.int 1))])]])] = false ∧
    writeValue .modeNormalized 4
        (.record [("t", .seq [.record [("q", .record [("x", .scalar (.int 1))])]])]) 2 =
      some "  t\x7bq\x7bx\x7d\x7d:\n   \n     > q:\n     1\n" ∧
    writeValue .modeNormal 4
        (.record [("t", .seq [.record [("q", .record [("x", .scalar (.int 1))])]])]) 2 =
      some "  t\x7bq\x7d:\n   \n     > q:\n    x: 1\n" ∧
    formatNormalized (.seq [.record [("p",
        .record [("t", .seq [.record [("q", .record [("x", .scalar (.int 1))])]])])]]) =
      some "\x7bp\x7d:\n \n   > p:\n  t\x7bq\x7bx\x7d\x7d:\n   \n     > q:\n     1\n" ∧
    format (.seq [.record [("p",
        .record [("t", .seq [.record [("q", .record [("x", .scalar (.int 1))])]])])]]) =
      some "\x7bp\x7d:\n \n   > p:\n  t\x7bq\x7d:\n   \n     > q:\n    x: 1\n" ∧
    writeValue .modeNormalized 4
        (.record [("t", .seq [.record [("q", .record [("x", .scalar (.int 1))])]])]) 2 ≠
      writeValue .modeNormal 4
        (.record [("t", .seq [.record [("q", .record [("x", .scalar (.int 1))])]])]) 2 := by
  refine ⟨by decide, by decide, by decide, by decide, by decide, by decide⟩

/-- The fallback branch of Normalized mode as the code has it: the block of a
row column holding a record that is not flattenable is the marker line
`> <column>:` followed by that record written by the same writer, in Normalized
mode, two levels deeper.  It is the text Normal mode writes for the record at
the same indentation whenever no row of a tabular sequence inside the record
holds a flattenable record. -/
theorem normalized_fallback_block (fuel L : Nat) (indentStr key : String)
    (data : List Value) (htab : isTabular data = true) (hfuel : depthItems data ≤ fuel) :
    ∃ first rest cols rowTexts, data = Value.record first :: rest ∧
      writeTabularArray .modeNormalized fuel indentStr key data L =
        some (indentStr ++ key ++ "\x7b" ++ cols ++ "\x7d:\n" ++ concatAll rowTexts) ∧
      List.Forall₂ (fun row text => ∃ m blocks, row = Value.record m ∧
        text = spaces (L + 1) ++
          stringsJoin (((sortStrings (mapKeys first)).filter
            fun col => !isNested (mapGet m col)).map fun col => fmtAny (mapGet m col)) "|"
          ++ "\n" ++ concatAll blocks ∧
        List.Forall₂ (fun col block =>
          ∀ sub, mapGet m col = some (Value.record sub) → canFlattenObject sub = false →
            ∃ body,
              writeValue .modeNormalized (Value.record sub).depth (.record sub) (L + 2) =
                some body ∧
              block = spaces (L + 1) ++ "  > " ++ col ++ ":\n" ++ body ∧
              ((Value.record sub).allNodes (rowsAll notFlattenableCell) = true →
                writeValue .modeNormal (Value.record sub).depth (.record sub) (L + 2) =
                  some body))
          ((sortStrings (mapKeys first)).filter fun col => isNested (mapGet m col)) blocks)
        data rowTexts := by
  obtain ⟨first, rest, rowTexts, hdata, hout, hall⟩ :=
    writeTabularArrayNormalized_decomp fuel L indentStr key data htab hfuel
  refine ⟨first, rest, _, rowTexts, hdata, hout, hall.imp ?_⟩
  rintro row text ⟨m, blocks, hrow, _, htext, hblocks⟩
  refine ⟨m, blocks, hrow, by rw [htext, rowValues_eq], hblocks.imp ?_⟩
  rintro col block hcases sub hget hflat
  rcases hcases with ⟨sub2, hget2, hflat2, _⟩ | ⟨sub2, body, hget2, _, hbody, hblock⟩ |
    ⟨sub2, _, hget2, _⟩
  · rw [hget] at hget2
    cases hget2
    rw [hflat] at hflat2
    cases hflat2
  · rw [hget] at hget2
    cases hget2
    refine ⟨body, hbody, hblock, fun hP => ?_⟩
    rw [← writeValue_normalized_eq_normal _ _ hP (le_refl _)]
    exact hbody
  · rw [hget] at hget2
    cases hget2

/-- The fallback branch at a one-row table whose column `p` holds a record with
a nested record. -/
theorem normalized_fallback_block_witness :
    ∃ cols rowTexts,
      writeTabularArray .modeNormalized 4 "" "t"
        [.record [("p", .record [("q", .record [("x", .scalar (.int 1))])])]] 0 =
        some ("" ++ "t" ++ "\x7b" ++ cols ++ "\x7d:\n" ++ concatAll rowTexts) ∧
      rowTexts.length = 1 := by
  obtain ⟨first, rest, cols, rowTexts, _, hout, hall⟩ :=
    normalized_fallback_block 4 0 "" "t"
      [.record [("p", .record [("q", .record [("x", .scalar (.int 1))])])]]
      (by decide) (by decide)
  exact ⟨cols, rowTexts, hout, hall.length_eq.symm⟩

/-- C15, as stated, fails: the row column `t` holds the tabular sequence
`[q: (x: 1)]`, and the nested table Normalized mode writes for it (header
`t{q{x}}`, values line `1`) differs from the one Normal mode writes (header
`t{q}`, line `x: 1`). -/
theorem normalized_nested_table_counterexample :
    isTabular [.record [("q", .record [("x", .scalar (.int 1))])]] = true ∧
    writeTabularArray .modeNormalized 3 "" "t"
        [.record [("q", .record [("x", .scalar (.int 1))])]] 2 =
      some "t\x7bq\x7bx\x7d\x7d:\n   \n     > q:\n     1\n" ∧
    writeTabularArray .modeNormal 3 "" "t"
        [.record [("q", .record [("x", .scalar (.int 1))])]] 2 =
      some "t\x7bq\x7d:\n   \n     > q:\n    x: 1\n" ∧
    formatNormalized (.seq [.record [("t",
        .seq [.record [("q", .record [("x", .scalar (.int 1))])]])]]) =
      some "\x7bt\x7d:\n \n   > t\x7bq\x7bx\x7d\x7d:\n   \n     > q:\n     1\n" ∧
    format (.seq [.record [("t",
        .seq [.record [("q", .record [("x", .scalar (.int 1))])]])]]) =
      some "\x7bt\x7d:\n \n   > t\x7bq\x7d:\n   \n     > q:\n    x: 1\n" ∧
    writeTabularArray .modeNormalized 3 "" "t"
        [.record [("q", .record [("x", .scalar (.int 1))])]] 2 ≠
      writeTabularArray .modeNormal 3 "" "t"
        [.record [("q", .record [("x", .scalar (.int 1))])]] 2 := by
  refine ⟨by decide, by decide, by decide, by decide, by decide, by decide⟩

/-- C15, amended: in Normalized mode the block of a row column holding a
tabular sequence is the prefix `> ` followed by the nested table written by the
same writer, in Normalized mode, two levels deeper and named after the column.
It is the text Normal mode writes for the nested table at the same indentation
whenever no row of the nested table, or of a tabular sequence inside it, holds
a flattenable record. -/
theorem normalized_nested_table_block (fuel L : Nat) (indentStr key : String)
    (data : List Value) (htab : isTabular data = true) (hfuel : depthItems data ≤ fuel) :
    ∃ first rest cols rowTexts, data = Value.record first :: rest ∧
      writeTabularArray .modeNormalized fuel indentStr key data L =
        some (indentStr ++ key ++ "\x7b" ++ cols ++ "\x7d:\n" ++ concatAll rowTexts) ∧
      List.Forall₂ (fun row text => ∃ m blocks, row = Value.record m ∧
        text = spaces (L + 1) ++
          stringsJoin (((sortStrings (mapKeys first)).filter
            fun col => !isNested (mapGet m col)).map fun col => fmtAny (mapGet m col)) "|"
          ++ "\n" ++ concatAll blocks ∧
        List.Forall₂ (fun col block =>
          ∀ sub, mapGet m col = some (Value.seq sub) → isTabular sub = true →
            ∃ table,
              writeTabularArray .modeNormalized (depthItems sub) "" col sub (L + 2) =
                some table ∧
              block = spaces (L + 1) ++ "  > " ++ table ∧
              (∃ subCols subRows,
                table = "" ++ col ++ "\x7b" ++ subCols ++ "\x7d:\n" ++ subRows) ∧
              ((Value.seq sub).allNodes (rowsAll notFlattenableCell) = true →
                writeTabularArray .modeNormal (depthItems sub) "" col sub (L + 2) =
                  some table))
          ((sortStrings (mapKeys first)).filter fun col => isNested (mapGet m col)) blocks)
        data rowTexts := by
  obtain ⟨first, rest, rowTexts, hdata, hout, hall⟩ :=
    writeTabularArrayNormalized_decomp fuel L indentStr key data htab hfuel
  refine ⟨first, rest, _, rowTexts, hdata, hout, hall.imp ?_⟩
  rintro row text ⟨m, blocks, hrow, _, htext, hblocks⟩
  refine ⟨m, blocks, hrow, by rw [htext, rowValues_eq], hblocks.imp ?_⟩
  rintro col block hcases sub hget hsub
  rcases hcases with ⟨sub2, hget2, _⟩ | ⟨sub2, _, hget2, _⟩ |
    ⟨sub2, table, hget2, _, htable, hblock⟩
  · rw [hget] at hget2
    cases hget2
  · rw [hget] at hget2
    cases hget2
  · rw [hget] at hget2
    cases hget2
    refine ⟨table, htable, hblock, writeTabularArray_shape htable, fun hP => ?_⟩
    rw [← writeTabularArray_normalized_eq_normal _ _ _ _ hsub hP (le_refl _)]
    exact htable

/-- C15 amended, at a one-row table whose column `t` holds a one-row table of
scalars. -/
theorem normalized_nested_table_block_witness :
    ∃ cols rowTexts,
      writeTabularArray .modeNormalized 4 "" "o"
        [.record [("t", .seq [.record [("x", .scalar (.int 1))]])]] 0 =
        some ("" ++ "o" ++ "\x7b" ++ cols ++ "\x7d:\n" ++ concatAll rowTexts) ∧
      rowTexts.length = 1 := by
  obtain ⟨first, rest, cols, rowTexts, _, hout, hall⟩ :=
    normalized_nested_table_block 4 0 "" "o"
      [.record [("t", .seq [.record [("x", .scalar (.int 1))]])]]
      (by decide) (by decide)
  exact ⟨cols, rowTexts, hout, hall.length_eq.symm⟩

/-- C16: for a generic value in which no row of a tabular sequence holds a
record or a tabular sequence in any column, `format`, `formatFlattened` and
`formatNormalized` return the same text.  A value without any tabular sequence
is such a value, and so is a table whose rows hold only scalars. -/
theorem modes_agree_on_plain_rows (v : Value)
    (hP : v.allNodes (rowsAll isPlainCell) = true) :
    (∃ out, format v = some out ∧ formatFlattened v = some out ∧
      formatNormalized v = some out) ∧
    (∀ w : Value,
      w.allNodes (fun x => match x with
        | .seq items => !isTabular items
        | _ => true) = true →
      w.allNodes (rowsAll isPlainCell) = true) ∧
    (∀ rows : List (List (String × Value)),
      (∀ m ∈ rows, ∀ kv ∈ m, kv.2.isScalar = true) →
      (Value.seq (rows.map Value.record)).allNodes (rowsAll isPlainCell) = true) := by
  refine ⟨?_, ?_, ?_⟩
  · obtain ⟨out, hout⟩ := Option.isSome_iff_exists.mp
      (writeValue_isSome .modeNormal v 0 (le_refl v.depth))
    obtain ⟨outF, houtF⟩ := Option.isSome_iff_exists.mp
      (writeValue_isSome .modeFlattened v 0 (le_refl v.depth))
    have hF := (writes_rel Eq (fun _ => rfl) (fun _ _ _ _ h1 h2 => by rw [h1, h2])
      (rowsAll isPlainCell) .modeFlattened .modeNormal
      (fun fuel2 is k d L2 htab hP2 _ _ =>
        flattened_eq_normal_table fuel2 is k d L2 htab hP2) v.depth).1 v 0 hP outF out houtF hout
    have hP2 : v.allNodes (rowsAll notFlattenableCell) = true := by
      refine allNodes_mono (rowsAll_mono ?_) v hP
      intro x hx
      cases x with
      | scalar s => rfl
      | seq xs => rfl
      | record sub => simp [isPlainCell, isNested] at hx
    have hN := writeValue_normalized_eq_normal v 0 hP2 (le_refl v.depth)
    refine ⟨out, hout, ?_, ?_⟩
    · rw [formatFlattened, houtF, hF]
    · rw [formatNormalized, hN]
      exact hout
  · intro w hw
    refine allNodes_mono ?_ w hw
    intro x hx
    cases x with
    | scalar s => rfl
    | record m => rfl
    | seq items =>
        simp only [Bool.not_eq_true'] at hx
        simp [rowsAll, hx]
  · intro rows hrows
    have hfields : ∀ m : List (String × Value), (∀ kv ∈ m, kv.2.isScalar = true) →
        allNodesFields (rowsAll isPlainCell) m = true := by
      intro m
      induction m with
      | nil => intro _; rfl
      | cons kv rest ih =>
          intro h
          obtain ⟨k, x⟩ := kv
          have hx := h (k, x) (List.mem_cons_self _ _)
          simp only [allNodesFields, Bool.and_eq_true]
          refine ⟨?_, ih (fun kv hkv => h kv (List.mem_cons_of_mem _ hkv))⟩
          cases x with
          | scalar s => rfl
          | record sub => simp [Value.isScalar] at hx
          | seq xs => simp [Value.isScalar] at hx
    have hitems : ∀ rs : List (List (String × Value)),
        (∀ m ∈ rs, ∀ kv ∈ m, kv.2.isScalar = true) →
        allNodesItems (rowsAll isPlainCell) (rs.map Value.record) = true := by
      intro rs
      induction rs with
      | nil => intro _; rfl
      | cons m rest ih =>
          intro h
          simp only [List.map_cons, allNodesItems, Value.allNodes, Bool.and_eq_true]
          exact ⟨⟨rfl, hfields m (h m (List.mem_cons_self _ _))⟩,
            ih (fun m2 hm2 => h m2 (List.mem_cons_of_mem _ hm2))⟩
    simp only [Value.allNodes, Bool.and_eq_true]
    refine ⟨?_, hitems rows hrows⟩
    simp only [rowsAll, Bool.or_eq_true, Bool.not_eq_true', List.all_eq_true]
    right
    intro row hrow
    obtain ⟨m, hm, rfl⟩ := List.mem_map.mp hrow
    simp only [List.all_eq_true]
    intro kv hkv
    have hx := hrows m hm kv hkv
    obtain ⟨k, x⟩ := kv
    cases x with
    | scalar s => rfl
    | record sub => simp [Value.isScalar] at hx
    | seq xs => simp [Value.isScalar] at hx

/-- C16 at a record holding a table of scalar rows and a list of scalars. -/
theorem modes_agree_on_plain_rows_witness :
    ∃ out, format (.record [
        ("t", .seq [.record [("a", .scalar (.int 1)), ("b", .seq [.scalar (.int 2)])]]),
        ("l", .seq [.scalar (.str "x"), .scalar (.str "y")])]) = some out ∧
      formatFlattened (.record [
        ("t", .seq [.record [("a", .scalar (.int 1)), ("b", .seq [.scalar (.int 2)])]]),
        ("l", .seq [.scalar (.str "x"), .scalar (.str "y")])]) = some out ∧
      formatNormalized (.record [
        ("t", .seq [.record [("a", .scalar (.int 1)), ("b", .seq [.scalar (.int 2)])]]),
        ("l", .seq [.scalar (.str "x"), .scalar (.str "y")])]) = some out :=
  (modes_agree_on_plain_rows (.record [
        ("t", .seq [.record [("a", .scalar (.int 1)), ("b", .seq [.scalar (.int 2)])]]),
        ("l", .seq [.scalar (.str "x"), .scalar (.str "y")])]) (by decide)).1

/-- C12: in Flattened mode a tabular sequence of `n` rows is written as one
header text ending in a newline followed by `n` row texts each ending in a
newline, and nothing else, whatever the rows hold.  When no key and no scalar
text of the table holds a newline (nor the field name and indentation), the
header text and the row texts hold no other newline, so the output has exactly
`n + 1` newline characters. -/
theorem flattened_line_count (fuel L : Nat) (indentStr key : String) (data : List Value)
    (htab : isTabular data = true)
    (hindent : countNewlines indentStr = 0) (hkey : countNewlines key = 0)
    (hnl : (Value.seq data).allNodes noNewlineNode = true) :
    ∃ (headerText : String) (lineTexts : List String),
      writeTabularArray .modeFlattened (fuel + 1) indentStr key data L =
        some ((headerText ++ "\n") ++ concatAll (lineTexts.map fun t => t ++ "\n")) ∧
      lineTexts.length = data.length ∧
      countNewlines headerText = 0 ∧
      (∀ t ∈ lineTexts, countNewlines t = 0) ∧
      countNewlines ((headerText ++ "\n") ++ concatAll (lineTexts.map fun t => t ++ "\n")) =
        data.length + 1 := by
  obtain ⟨rows, rfl⟩ := rows_of_records (isTabular_rows htab)
  cases rows with
  | nil => simp [isTabular] at htab
  | cons first rest =>
      have hrowP : ∀ m ∈ first :: rest, (Value.record m).allNodes noNewlineNode = true :=
        fun m hm => allNodes_mem hnl (List.mem_map_of_mem Value.record hm)
      have hschema : ∀ col ∈ sortStrings (mapKeys first), countNewlines col = 0 :=
        fun col hcol => noNewline_key (allNodes_self (hrowP first (List.mem_cons_self _ _)))
          (mem_sortStrings.mp hcol)
      have hheader : countNewlines (indentStr ++ key ++ "\x7b" ++
          buildFlattenedSchema (sortStrings (mapKeys first)) first ++ "\x7d:") = 0 := by
        simp only [countNewlines_append, hindent, hkey,
          buildFlattenedSchema_noNewline hschema (hrowP first (List.mem_cons_self _ _))]
        decide
      have hlines : ∀ t ∈ (first :: rest).map (fun m => spaces (L + 1) ++
          stringsJoin (extractFlattenedValues (sortStrings (mapKeys first)) m) "|"),
          countNewlines t = 0 := by
        intro t ht
        obtain ⟨m, hm, rfl⟩ := List.mem_map.mp ht
        rw [countNewlines_append, countNewlines_spaces,
          countNewlines_stringsJoin_zero (by decide)
            (extractFlattenedValues_noNewline _ (hrowP m hm))]
      refine ⟨indentStr ++ key ++ "\x7b" ++
          buildFlattenedSchema (sortStrings (mapKeys first)) first ++ "\x7d:",
        (first :: rest).map (fun m => spaces (L + 1) ++
          stringsJoin (extractFlattenedValues (sortStrings (mapKeys first)) m) "|"),
        ?_, by simp, hheader, hlines, ?_⟩
      · have h := writeTabularArrayFlattened_rows indentStr key first rest
          (sortStrings (mapKeys first)) L
        simp only [writeTabularArray, List.map_cons] at h ⊢
        rw [h]
        simp only [List.map_map, String.append_assoc, Function.comp_def]
        rfl
      · rw [countNewlines_append, countNewlines_append, hheader, countNewlines_concatAll,
          List.map_map]
        have h1 : countNewlines "\n" = 1 := by decide
        have h2 : (countNewlines ∘ fun t => t ++ "\n") = fun t => countNewlines t + 1 := by
          funext t
          simp only [Function.comp, countNewlines_append, h1]
        rw [h2, sum_map_add_one, sum_map_eq_zero hlines, h1]
        simp only [List.length_map]
        omega

/-- C12 at a two-row table holding a flattenable record, a record that is not
flattenable and a nested table: three newlines. -/
theorem flattened_line_count_witness :
    ∃ (headerText : String) (lineTexts : List String),
      writeTabularArray .modeFlattened 1 "" "t" [
        .record [("p", .record [("x", .scalar (.int 1))]), ("q", .record [("y", .record [])]),
          ("r", .seq [.record [("z", .scalar (.int 2))]])],
        .record [("p", .scalar (.int 3)), ("q", .scalar (.int 4)),
          ("r", .scalar (.int 5))]] 0 =
        some ((headerText ++ "\n") ++ concatAll (lineTexts.map fun t => t ++ "\n")) ∧
      countNewlines ((headerText ++ "\n") ++ concatAll (lineTexts.map fun t => t ++ "\n")) =
        3 := by
  obtain ⟨headerText, lineTexts, hout, _, _, _, hcount⟩ :=
    flattened_line_count 0 0 "" "t" [
        .record [("p", .record [("x", .scalar (.int 1))]), ("q", .record [("y", .record [])]),
          ("r", .seq [.record [("z", .scalar (.int 2))]])],
        .record [("p", .scalar (.int 3)), ("q", .scalar (.int 4)),
          ("r", .scalar (.int 5))]] (by decide) (by decide) (by decide) (by decide)
  exact ⟨headerText, lineTexts, hout, hcount⟩

/-- C17, as stated, fails: the one-row table whose column `a` holds the record
without fields (which is flattenable) is written with four newlines in
Normalized mode, where the marker line is followed by an empty values line, and
with three in Normal mode. -/
theorem normalized_lines_counterexample :
    canFlattenObject [] = true ∧
    formatNormalized (.seq [.record [("a", .record [])]]) =
      some "\x7ba\x7b\x7d\x7d:\n \n   > a:\n   \n" ∧
    format (.seq [.record [("a", .record [])]]) = some "\x7ba\x7d:\n \n   > a:\n" ∧
    countNewlines "\x7ba\x7b\x7d\x7d:\n \n   > a:\n   \n" = 4 ∧
    countNewlines "\x7ba\x7d:\n \n   > a:\n" = 3 ∧
    ¬ (∃ norm normal, formatNormalized (.seq [.record [("a", .record [])]]) = some norm ∧
        format (.seq [.record [("a", .record [])]]) = some normal ∧
        countNewlines norm ≤ countNewlines normal) := by
  refine ⟨by decide, by decide, by decide, by decide, by decide, ?_⟩
  rintro ⟨norm, normal, h1, h2, hle⟩
  have e1 : formatNormalized (.seq [.record [("a", .record [])]]) =
      some "\x7ba\x7b\x7d\x7d:\n \n   > a:\n   \n" := by decide
  have e2 : format (.seq [.record [("a", .record [])]]) =
      some "\x7ba\x7d:\n \n   > a:\n" := by decide
  rw [e1] at h1
  rw [e2] at h2
  cases h1
  cases h2
  exact absurd hle (by decide)

/-- C17, amended: when every record held in a column of a table row has at
least one field (so that every flattenable nested record inside a table is
non-empty), the Normalized output has at most as many newline characters as the
Normal output. -/
theorem normalized_lines_le_normal (v : Value)
    (hP : v.allNodes (rowsAll notEmptyRecordCell) = true) :
    ∃ norm normal, formatNormalized v = some norm ∧ format v = some normal ∧
      countNewlines norm ≤ countNewlines normal := by
  obtain ⟨norm, hnorm⟩ := Option.isSome_iff_exists.mp
    (writeValue_isSome .modeNormalized v 0 (le_refl v.depth))
  obtain ⟨normal, hnormal⟩ := Option.isSome_iff_exists.mp
    (writeValue_isSome .modeNormal v 0 (le_refl v.depth))
  refine ⟨norm, normal, hnorm, hnormal, ?_⟩
  exact (writes_rel (fun x y => countNewlines x ≤ countNewlines y) (fun _ => le_refl _)
    (fun _ _ _ _ h1 h2 => by simp only [countNewlines_append]; omega)
    (rowsAll notEmptyRecordCell) .modeNormalized .modeNormal
    (fun fuel2 is k d L2 htab hP2 ihv iht =>
      normalized_le_normal_table fuel2 is k d L2 htab hP2 ihv iht) v.depth).1
    v 0 hP norm normal hnorm hnormal

/-- C17 amended, at a table whose rows hold a profile record of two fields. -/
theorem normalized_lines_le_normal_witness :
    ∃ norm normal,
      formatNormalized (.seq [
        .record [("name", .scalar (.str "Alice")),
          ("profile", .record [("username", .scalar (.str "alice")),
            ("email", .scalar (.str "alice@example.com"))])],
        .record [("name", .scalar (.str "Bob")),
          ("profile", .record [("username", .scalar (.str "bob")),
            ("email", .scalar (.str "bob@example.com"))])]]) = some norm ∧
      format (.seq [
        .record [("name", .scalar (.str "Alice")),
          ("profile", .record [("username", .scalar (.str "alice")),
            ("email", .scalar (.str "alice@example.com"))])],
        .record [("name", .scalar (.str "Bob")),
          ("profile", .record [("username", .scalar (.str "bob")),
            ("email", .scalar (.str "bob@example.com"))])]]) = some normal ∧
      countNewlines norm ≤ countNewlines normal :=
  normalized_lines_le_normal (.seq [
        .record [("name", .scalar (.str "Alice")),
          ("profile", .record [("username", .scalar (.str "alice")),
            ("email", .scalar (.str "alice@example.com"))])],
        .record [("name", .scalar (.str "Bob")),
          ("profile", .record [("username", .scalar (.str "bob")),
            ("email", .scalar (.str "bob@example.com"))])]]) (by decide)

/-- C18: the Flattened output has at most as many newline characters as the
Normalized output of the same value; this holds for every value, in particular
for every input holding a flattenable nested record inside a table, and on the
persons example Flattened has three lines and Normalized seven. -/
theorem flattened_lines_le_normalized (v : Value) :
    (∃ flat norm, formatFlattened v = some flat ∧ formatNormalized v = some norm ∧
      countNewlines flat ≤ countNewlines norm) ∧
    (∃ flat norm,
      formatFlattened (.seq [
        .record [("name", .scalar (.str "Alice")), ("age", .scalar (.int 30)),
          ("city", .scalar (.str "Wonderland")),
          ("profile", .record [("username", .scalar (.str "alice")),
            ("email", .scalar (.str "alice@example.com"))])],
        .record [("name", .scalar (.str "Bob")), ("age", .scalar (.int 25)),
          ("city", .scalar (.str "Builderland")),
          ("profile", .record [("username", .scalar (.str "bob")),
            ("email", .scalar (.str "bob@example.com"))])]]) = some flat ∧
      formatNormalized (.seq [
        .record [("name", .scalar (.str "Alice")), ("age", .scalar (.int 30)),
          ("city", .scalar (.str "Wonderland")),
          ("profile", .record [("username", .scalar (.str "alice")),
            ("email", .scalar (.str "alice@example.com"))])],
        .record [("name", .scalar (.str "Bob")), ("age", .scalar (.int 25)),
          ("city", .scalar (.str "Builderland")),
          ("profile", .record [("username", .scalar (.str "bob")),
            ("email", .scalar (.str "bob@example.com"))])]]) = some norm ∧
      countNewlines flat = 3 ∧ countNewlines norm = 7) := by
  constructor
  · obtain ⟨flat, hflat⟩ := Option.isSome_iff_exists.mp
      (writeValue_isSome .modeFlattened v 0 (le_refl v.depth))
    obtain ⟨norm, hnorm⟩ := Option.isSome_iff_exists.mp
      (writeValue_isSome .modeNormalized v 0 (le_refl v.depth))
    exact ⟨flat, norm, hflat, hnorm,
      writeValue_flattened_le_normalized v 0 v.depth flat norm hflat hnorm⟩
  · refine ⟨_, _, rfl, rfl, ?_, ?_⟩
    · set_option maxRecDepth 100000 in decide
    · set_option maxRecDepth 100000 in decide

/-- C19: for a tabular sequence in which every row holds at least one
flattenable nested record, the Flattened output is strictly shorter in bytes
than the Normal output of the same value. -/
theorem flattened_shorter_than_normal (data : List Value) (htab : isTabular data = true)
    (hflat : ∀ m, Value.record m ∈ data → ∃ col sub,
      mapGet m col = some (Value.record sub) ∧ canFlattenObject sub = true) :
    ∃ flat normal, formatFlattened (.seq data) = some flat ∧
      format (.seq data) = some normal ∧ byteLen flat < byteLen normal := by
  obtain ⟨flat, hF⟩ := Option.isSome_iff_exists.mp
    (writeValue_isSome .modeFlattened (.seq data) 0 (le_refl _))
  obtain ⟨normal, hN⟩ := Option.isSome_iff_exists.mp
    (writeValue_isSome .modeNormal (.seq data) 0 (le_refl _))
  refine ⟨flat, normal, hF, hN, ?_⟩
  obtain ⟨first, rest, hdata⟩ := isTabular_head htab
  have hpos : 1 ≤ depthItems data := by
    rw [hdata]
    exact le_trans (depth_pos _)
      (depth_mem_items (List.mem_cons_self (Value.record first) rest))
  obtain ⟨fuel, hfuel⟩ : ∃ k, depthItems data = k + 1 := ⟨depthItems data - 1, by omega⟩
  simp only [Value.depth, hfuel, writeValue, htab, if_true] at hF hN
  exact flattened_lt_normal_table fuel (spaces 0) "" data 0 htab hflat flat normal hF hN

/-- C19 at the two-row table of persons whose rows hold a profile record. -/
theorem flattened_shorter_than_normal_witness :
    ∃ flat normal,
      formatFlattened (.seq [
        .record [("name", .scalar (.str "Alice")),
          ("profile", .record [("username", .scalar (.str "alice")),
            ("email", .scalar (.str "alice@example.com"))])],
        .record [("name", .scalar (.str "Bob")),
          ("profile", .record [("username", .scalar (.str "bob")),
            ("email", .scalar (.str "bob@example.com"))])]]) = some flat ∧
      format (.seq [
        .record [("name", .scalar (.str "Alice")),
          ("profile", .record [("username", .scalar (.str "alice")),
            ("email", .scalar (.str "alice@example.com"))])],
        .record [("name", .scalar (.str "Bob")),
          ("profile", .record [("username", .scalar (.str "bob")),
            ("email", .scalar (.str "bob@example.com"))])]]) = some normal ∧
      byteLen flat < byteLen normal :=
  flattened_shorter_than_normal [
        .record [("name", .scalar (.str "Alice")),
          ("profile", .record [("username", .scalar (.str "alice")),
            ("email", .scalar (.str "alice@example.com"))])],
        .record [("name", .scalar (.str "Bob")),
          ("profile", .record [("username", .scalar (.str "bob")),
            ("email", .scalar (.str "bob@example.com"))])]]
    (by decide)
    (by
      intro m hm
      simp only [List.mem_cons, Value.record.injEq, List.mem_singleton, List.not_mem_nil,
        or_false] at hm
      rcases hm with rfl | rfl
      · exact ⟨"profile", _, rfl, by decide⟩
      · exact ⟨"profile", _, rfl, by decide⟩)

/-- C20: in every mode the output depends on the generic value alone, not on
the order in which the entries of its records are stored: two trees (with the
unique keys of Go maps) of which one is the other with the entries of its
records listed in another order are written identically, at every fuel and
indent level and by `format`, `formatFlattened` and `formatNormalized`.  Every
tree is such a reordering of itself, and the formatter is a function of the
tree, so formatting the same tree twice gives the same bytes. -/
theorem output_independent_of_entry_order (v v2 : Value) (hwf : v.wf = true)
    (hwf2 : v2.wf = true) (hr : v.reorders v2 = true) :
    (∀ (mode : formatMode) (fuel L : Nat),
      writeValue mode fuel v L = writeValue mode fuel v2 L) ∧
    format v = format v2 ∧ formatFlattened v = formatFlattened v2 ∧
    formatNormalized v = formatNormalized v2 ∧
    v.reorders v = true := by
  have hall : ∀ (mode : formatMode) (fuel L : Nat),
      writeValue mode fuel v L = writeValue mode fuel v2 L :=
    fun mode fuel L => (writes_reorders mode fuel).1 v v2 L hwf hwf2 hr
  have hfmt : ∀ mode : formatMode,
      writeValue mode v.depth v 0 = writeValue mode v2.depth v2 0 := by
    intro mode
    rw [← writeValue_fuel_irrel mode v 0 (le_max_left v.depth v2.depth),
      ← writeValue_fuel_irrel mode v2 0 (le_max_right v.depth v2.depth)]
    exact hall mode _ 0
  exact ⟨hall, hfmt .modeNormal, hfmt .modeFlattened, hfmt .modeNormalized,
    reorders_refl v hwf⟩

/-- C20 at a record holding a table, with the entries of the record and of the
rows listed in two different orders. -/
theorem output_independent_of_entry_order_witness :
    formatNormalized (.record [("n", .scalar (.int 1)),
        ("t", .seq [.record [("a", .scalar (.str "x")),
          ("p", .record [("u", .scalar (.int 2)), ("e", .scalar (.int 3))])]])]) =
      formatNormalized (.record [
        ("t", .seq [.record [("p", .record [("e", .scalar (.int 3)), ("u", .scalar (.int 2))]),
          ("a", .scalar (.str "x"))]]),
        ("n", .scalar (.int 1))]) :=
  (output_independent_of_entry_order
    (.record [("n", .scalar (.int 1)),
        ("t", .seq [.record [("a", .scalar (.str "x")),
          ("p", .record [("u", .scalar (.int 2)), ("e", .scalar (.int 3))])]])])
    (.record [
        ("t", .seq [.record [("p", .record [("e", .scalar (.int 3)), ("u", .scalar (.int 2))]),
          ("a", .scalar (.str "x"))]]),
        ("n", .scalar (.int 1))])
    (by decide) (by decide) (by decide)).2.2.2.1

/-- C21, as stated, fails: the struct has the two fields `A` and `B`, both with the
tag `jet:"x"` and neither excluded.  The encoding of the value of `A` is the
integer 1, but the record that `encode` returns holds the integer 2 under the
name `x`: the value of `B` has replaced it. -/
theorem struct_members_stored_counterexample :
    encode 2 (.struct [(⟨"A", "x", true⟩, .scalar (.int 1)),
        (⟨"B", "x", true⟩, .scalar (.int 2))])
      = some (.ok (.record [("x", .scalar (.int 2))])) ∧
    tagName ⟨"A", "x", true⟩ = "x" ∧
    encode 2 (valueInterface (.scalar (.int 1))) = some (.ok (.scalar (.int 1))) ∧
    mapGet [("x", .scalar (.int 2))] "x" ≠ some (.scalar (.int 1)) := by
  refine ⟨by rfl, by decide, by rfl, ?_⟩
  simp [mapGet]

/-- C21, amended: for a struct input (possibly behind one pointer) whose fields
that are not excluded are stored under pairwise distinct names, where the name of
a field is its `jet` tag if that is not empty and its identifier in lower case
otherwise: whenever `encode` returns a value, the value is a record that holds,
under the name of every field that is not excluded, the encoding of the value of
that field; and `encode` does return a record whenever every field that is not
excluded is exported and has a value that `encode` accepts. -/
theorem struct_members_stored (fuel : Nat) (v : RValue)
    (fields : List (StructField × RValue)) (hv : operand v = .struct fields)
    (hfuel : v.depth ≤ fuel) (hnames : (storedNames fields).Nodup) :
    (∀ r, encode fuel v = some (.ok r) →
      ∃ m, r = .record m ∧ ∀ p ∈ fields, tagName p.1 ≠ "-" →
        tagName p.1 = (if p.1.jetTag = "" then stringsToLower p.1.Name else p.1.jetTag) ∧
        ∃ g, encode fuel (valueInterface p.2) = some (.ok g) ∧
          mapGet m (tagName p.1) = some g) ∧
    ((∀ p ∈ fields, tagName p.1 ≠ "-" →
        p.1.exported = true ∧ ∃ g, encode fuel (valueInterface p.2) = some (.ok g)) →
      ∃ m, encode fuel v = some (.ok (.record m))) := by
  have heq := encode_eq_switch v hfuel
  rw [hv] at heq
  simp only [encodeSwitch] at heq
  constructor
  · intro r hr
    rw [heq] at hr
    cases hf : encodeFields (encode fuel) fields [] with
    | none => simp [hf] at hr
    | some res =>
        cases res with
        | error e => simp [hf] at hr
        | ok m =>
            simp only [hf, Option.some.injEq, Except.ok.injEq] at hr
            refine ⟨m, hr.symm, ?_⟩
            intro p hp hne
            refine ⟨rfl, ?_⟩
            obtain ⟨front, back, hsplit⟩ := List.append_of_mem hp
            rw [hsplit] at hf hnames
            exact encodeFields_last hf hne (storedNames_nodup_back hne hnames)
  · intro hall
    obtain ⟨m, hm⟩ := @encodeFields_total (encode fuel) fields [] hall
    exact ⟨m, by rw [heq, hm]⟩

/-- C21 amended, at a struct like `User` of the package documentation: `Name`
with the tag `username`, `Email` without a tag, `Internal` excluded. -/
theorem struct_members_stored_witness :
    (∀ r, encode 2 (.struct [(⟨"Name", "username", true⟩, .scalar (.str "alice")),
          (⟨"Email", "", true⟩, .scalar (.str "a@b.c")),
          (⟨"Internal", "-", true⟩, .scalar (.str "secret"))]) = some (.ok r) →
      ∃ m, r = .record m ∧
        ∀ p ∈ [((⟨"Name", "username", true⟩ : StructField), RValue.scalar (.str "alice")),
            (⟨"Email", "", true⟩, .scalar (.str "a@b.c")),
            (⟨"Internal", "-", true⟩, .scalar (.str "secret"))], tagName p.1 ≠ "-" →
        tagName p.1 = (if p.1.jetTag = "" then stringsToLower p.1.Name else p.1.jetTag) ∧
        ∃ g, encode 2 (valueInterface p.2) = some (.ok g) ∧
          mapGet m (tagName p.1) = some g) ∧
    ((∀ p ∈ [((⟨"Name", "username", true⟩ : StructField), RValue.scalar (.str "alice")),
            (⟨"Email", "", true⟩, .scalar (.str "a@b.c")),
            (⟨"Internal", "-", true⟩, .scalar (.str "secret"))], tagName p.1 ≠ "-" →
        p.1.exported = true ∧ ∃ g, encode 2 (valueInterface p.2) = some (.ok g)) →
      ∃ m, encode 2 (.struct [(⟨"Name", "username", true⟩, .scalar (.str "alice")),
          (⟨"Email", "", true⟩, .scalar (.str "a@b.c")),
          (⟨"Internal", "-", true⟩, .scalar (.str "secret"))]) = some (.ok (.record m))) :=
  struct_members_stored 2 _ _ (by rfl) (by decide) (by decide)

/-- C22: a struct field excluded by the tag `-` leaves no trace in the encoding.
Whenever `encode` returns a value for a struct (possibly behind one pointer), the
value is a record with pairwise distinct keys whose key set is exactly the set of
names of the fields that are not excluded, and `-` is none of them; and removing
the excluded fields from the input at every nesting depth changes neither the
result of `encode` nor what `Marshal`, `MarshalFlattened` and `MarshalNormalized`
return. -/
theorem excluded_members_absent (v : RValue) :
    (∀ fuel fields r, operand v = .struct fields → encode fuel v = some (.ok r) →
      ∃ m, r = .record m ∧ (mapKeys m).Nodup ∧ "-" ∉ mapKeys m ∧
        ∀ k, k ∈ mapKeys m ↔ ∃ p ∈ fields, tagName p.1 ≠ "-" ∧ tagName p.1 = k) ∧
    (∀ fuel, encode fuel (stripExcluded v) = encode fuel v) ∧
    Marshal (stripExcluded v) = Marshal v ∧
    MarshalFlattened (stripExcluded v) = MarshalFlattened v ∧
    MarshalNormalized (stripExcluded v) = MarshalNormalized v := by
  refine ⟨?_, fun fuel => encode_stripExcluded fuel v, ?_, ?_, ?_⟩
  · intro fuel fields r hv hr
    cases fuel with
    | zero => simp [encode] at hr
    | succ n =>
        rw [encode_succ, hv] at hr
        simp only [encodeSwitch] at hr
        cases hf : encodeFields (encode n) fields [] with
        | none => simp [hf] at hr
        | some res =>
            cases res with
            | error e => simp [hf] at hr
            | ok m =>
                simp only [hf, Option.some.injEq, Except.ok.injEq] at hr
                have hkeys : ∀ k, k ∈ mapKeys m ↔
                    ∃ p ∈ fields, tagName p.1 ≠ "-" ∧ tagName p.1 = k := by
                  intro k
                  rw [encodeFields_keys hf k]
                  simp [mapKeys]
                refine ⟨m, hr.symm, encodeFields_nodup hf (by simp [mapKeys]), ?_, hkeys⟩
                intro hmem
                obtain ⟨p, _, hne, heq⟩ := (hkeys "-").1 hmem
                exact hne heq
  · simp only [Marshal, marshal, encode_depth_stripExcluded]
  · simp only [MarshalFlattened, marshalFlattened, encode_depth_stripExcluded]
  · simp only [MarshalNormalized, marshalNormalized, encode_depth_stripExcluded]

/-- C22 at the struct `User` of the package documentation: the key set of the
record is `username`, `email`. -/
theorem excluded_members_absent_witness :
    ∃ m, (Value.record [("username", .scalar (.str "alice")),
        ("email", .scalar (.str "a@b.c"))]) = .record m ∧ (mapKeys m).Nodup ∧
      "-" ∉ mapKeys m ∧
      ∀ k, k ∈ mapKeys m ↔
        ∃ p ∈ [((⟨"Name", "username", true⟩ : StructField), RValue.scalar (.str "alice")),
            (⟨"Email", "email", true⟩, .scalar (.str "a@b.c")),
            (⟨"Internal", "-", true⟩, .scalar (.str "secret"))],
          tagName p.1 ≠ "-" ∧ tagName p.1 = k :=
  (excluded_members_absent
    (.struct [(⟨"Name", "username", true⟩, .scalar (.str "alice")),
      (⟨"Email", "email", true⟩, .scalar (.str "a@b.c")),
      (⟨"Internal", "-", true⟩, .scalar (.str "secret"))])).1 2 _ _ (by rfl) (by rfl)

/-- C23, as stated, fails: `encode` succeeds on the Go map with the single key `-`
and returns a record with a field named `-`. -/
theorem no_dash_field_counterexample :
    encode 2 (.map [(.str "-", .scalar (.int 1))])
      = some (.ok (.record [("-", .scalar (.int 1))])) ∧
    (Value.record [("-", .scalar (.int 1))]).allNodes noDashField = false := by
  exact ⟨by rfl, by decide⟩

/-- C23, amended: for every input in which no Go map that `encode` reaches (the
input itself after one dereference, or a component reached through fields that
are not excluded, slice elements and map values) has a key whose string is `-`:
when `encode` succeeds, no record anywhere in the resulting tree has a field
named `-`. -/
theorem no_dash_field (fuel : Nat) (v : RValue) (r : Value)
    (hmaps : ∀ entries, Component (operand v) (.map entries) →
      ∀ p ∈ entries, p.1.text ≠ "-")
    (hok : encode fuel v = some (.ok r)) : r.allNodes noDashField = true := by
  induction fuel generalizing v r with
  | zero => simp [encode] at hok
  | succ n ih =>
      have hr := hok
      rw [encode_succ] at hr
      rcases encodeSwitch_ok_cases hr with ⟨fields, m, hval, hf, rfl⟩ |
        ⟨elems, items, hval, hf, rfl⟩ | ⟨entries, m, hval, hf, rfl⟩ | ⟨s, hval, rfl⟩
      · rw [hval] at hmaps
        simp only [Value.allNodes, Bool.and_eq_true]
        constructor
        · simp only [noDashField, Bool.not_eq_true', List.contains_eq_any_beq,
            List.any_eq_false, beq_iff_eq]
          intro k hk heq
          rw [← heq] at hk
          have := (encodeFields_keys hf "-").1 hk
          simp only [mapKeys, List.map_nil, List.not_mem_nil, false_or] at this
          obtain ⟨p, _, hne, heq⟩ := this
          exact hne heq
        · apply allNodesFields_of_mem
          intro kv hkv
          rcases encodeFields_provenance hf kv.1 kv.2 hkv with h | ⟨p, hp, hne, _, hg⟩
          · cases h
          · exact ih _ _ (fun entries hc => hmaps entries (Component.field hp hne hc)) hg
      · rw [hval] at hmaps
        simp only [Value.allNodes, Bool.and_eq_true]
        refine ⟨rfl, ?_⟩
        apply allNodesItems_of_mem
        intro item hitem
        obtain ⟨x, hx, hg⟩ := forall₂_exists_left ((encodeElems_ok_iff _ _ _).1 hf) hitem
        exact ih _ _ (fun entries hc => hmaps entries (Component.elem hx hc)) hg
      · rw [hval] at hmaps
        simp only [Value.allNodes, Bool.and_eq_true]
        constructor
        · simp only [noDashField, Bool.not_eq_true', List.contains_eq_any_beq,
            List.any_eq_false, beq_iff_eq]
          intro k hk heq
          rw [← heq] at hk
          obtain ⟨x, hx⟩ := mem_mapKeys_iff.1 hk
          rcases encodeEntries_provenance hf _ _ hx with h | ⟨p, hp, hkey, _⟩
          · cases h
          · exact hmaps entries (Component.self _) p hp hkey
        · apply allNodesFields_of_mem
          intro kv hkv
          rcases encodeEntries_provenance hf kv.1 kv.2 hkv with h | ⟨p, hp, _, hg⟩
          · cases h
          · exact ih _ _ (fun entries hc => hmaps entries (Component.entry hp hc)) hg
      · rfl

/-- C23 amended, at a struct with an excluded field and a field holding a map with
the key `k`. -/
theorem no_dash_field_witness :
    (Value.record [("name", .scalar (.str "alice")),
      ("meta", .record [("k", .scalar (.int 1))])]).allNodes noDashField = true := by
  refine no_dash_field 3
    (.struct [(⟨"Name", "", true⟩, .scalar (.str "alice")),
      (⟨"Internal", "-", true⟩, .scalar (.str "secret")),
      (⟨"Meta", "", true⟩, .map [(.str "k", .scalar (.int 1))])]) _ ?_ (by rfl)
  intro entries hc p hp
  have hop : operand (.struct [(⟨"Name", "", true⟩, .scalar (.str "alice")),
      (⟨"Internal", "-", true⟩, .scalar (.str "secret")),
      (⟨"Meta", "", true⟩, .map [(.str "k", .scalar (.int 1))])]) =
      .struct [(⟨"Name", "", true⟩, .scalar (.str "alice")),
      (⟨"Internal", "-", true⟩, .scalar (.str "secret")),
      (⟨"Meta", "", true⟩, .map [(.str "k", .scalar (.int 1))])] := rfl
  rw [hop] at hc
  cases hc with
  | field hmem hne hc2 =>
      simp only [List.mem_cons, Prod.mk.injEq, List.mem_singleton, List.not_mem_nil,
        or_false] at hmem
      rcases hmem with ⟨rfl, rfl⟩ | ⟨rfl, rfl⟩ | ⟨rfl, rfl⟩
      · cases hc2
      · exact absurd rfl hne
      · have hop2 : operand (valueInterface (.map [(.str "k", .scalar (.int 1))])) =
            .map [(.str "k", .scalar (.int 1))] := rfl
        rw [hop2] at hc2
        cases hc2 with
        | self =>
            simp only [List.mem_singleton] at hp
            subst hp
            decide
        | entry hmem2 hc3 =>
            simp only [List.mem_singleton, Prod.mk.injEq] at hmem2
            obtain ⟨rfl, rfl⟩ := hmem2
            cases hc3

/-- C25: each of `Marshal`, `MarshalFlattened` and `MarshalNormalized` returns an
error exactly when `encode` of the input returns an error; it then returns that
error and nil bytes; and when `encode` returns a generic value it returns the
output of `format`, `formatFlattened` or `formatNormalized` for that value with
a nil error.  (In the pairs, the first component is the bytes, the second the
error, and `none` is nil.) -/
theorem marshal_error_propagation (v : RValue) :
    (∀ err, encode v.depth v = some (.error err) →
      Marshal v = some (none, some err) ∧ MarshalFlattened v = some (none, some err) ∧
        MarshalNormalized v = some (none, some err)) ∧
    (∀ g, encode v.depth v = some (.ok g) →
      ∃ (normal flattened normalized : String),
        format g = some normal ∧ formatFlattened g = some flattened ∧
        formatNormalized g = some normalized ∧
        Marshal v = some (some normal, none) ∧
        MarshalFlattened v = some (some flattened, none) ∧
        MarshalNormalized v = some (some normalized, none)) ∧
    ((∃ bytes err, Marshal v = some (bytes, some err)) ↔
      ∃ err, encode v.depth v = some (.error err)) ∧
    ((∃ bytes err, MarshalFlattened v = some (bytes, some err)) ↔
      ∃ err, encode v.depth v = some (.error err)) ∧
    ((∃ bytes err, MarshalNormalized v = some (bytes, some err)) ↔
      ∃ err, encode v.depth v = some (.error err)) := by
  have hN : ∀ g : Value, ∃ t, format g = some t := fun g =>
    Option.isSome_iff_exists.1 (writeValue_isSome .modeNormal g 0 (le_refl _))
  have hF : ∀ g : Value, ∃ t, formatFlattened g = some t := fun g =>
    Option.isSome_iff_exists.1 (writeValue_isSome .modeFlattened g 0 (le_refl _))
  have hZ : ∀ g : Value, ∃ t, formatNormalized g = some t := fun g =>
    Option.isSome_iff_exists.1 (writeValue_isSome .modeNormalized g 0 (le_refl _))
  refine ⟨?_, ?_, ?_, ?_, ?_⟩
  · intro err herr
    simp only [Marshal, marshal, MarshalFlattened, marshalFlattened, MarshalNormalized,
      marshalNormalized, herr, and_self]
  · intro g hg
    obtain ⟨t1, h1⟩ := hN g
    obtain ⟨t2, h2⟩ := hF g
    obtain ⟨t3, h3⟩ := hZ g
    refine ⟨t1, t2, t3, h1, h2, h3, ?_, ?_, ?_⟩
    · simp only [Marshal, marshal, hg, h1]
    · simp only [MarshalFlattened, marshalFlattened, hg, h2]
    · simp only [MarshalNormalized, marshalNormalized, hg, h3]
  · cases hres : encode v.depth v with
    | none => simp [Marshal, marshal, hres]
    | some res =>
        cases res with
        | error e => simp [Marshal, marshal, hres]
        | ok g =>
            obtain ⟨t1, h1⟩ := hN g
            simp [Marshal, marshal, hres, h1]
  · cases hres : encode v.depth v with
    | none => simp [MarshalFlattened, marshalFlattened, hres]
    | some res =>
        cases res with
        | error e => simp [MarshalFlattened, marshalFlattened, hres]
        | ok g =>
            obtain ⟨t1, h1⟩ := hF g
            simp [MarshalFlattened, marshalFlattened, hres, h1]
  · cases hres : encode v.depth v with
    | none => simp [MarshalNormalized, marshalNormalized, hres]
    | some res =>
        cases res with
        | error e => simp [MarshalNormalized, marshalNormalized, hres]
        | ok g =>
            obtain ⟨t1, h1⟩ := hZ g
            simp [MarshalNormalized, marshalNormalized, hres, h1]

/-- C25 at a slice holding a channel and at a slice of two strings. -/
theorem marshal_error_propagation_witness :
    (Marshal (.slice [.other .chan])
        = some (none, some "jet: unsupported type for marshaling chan") ∧
      MarshalFlattened (.slice [.other .chan])
        = some (none, some "jet: unsupported type for marshaling chan") ∧
      MarshalNormalized (.slice [.other .chan])
        = some (none, some "jet: unsupported type for marshaling chan")) ∧
    ∃ (normal flattened normalized : String),
      format (.seq [.scalar (.str "a"), .scalar (.str "b")]) = some normal ∧
      formatFlattened (.seq [.scalar (.str "a"), .scalar (.str "b")]) = some flattened ∧
      formatNormalized (.seq [.scalar (.str "a"), .scalar (.str "b")]) = some normalized ∧
      Marshal (.slice [.scalar (.str "a"), .scalar (.str "b")]) = some (some normal, none) ∧
      MarshalFlattened (.slice [.scalar (.str "a"), .scalar (.str "b")])
        = some (some flattened, none) ∧
      MarshalNormalized (.slice [.scalar (.str "a"), .scalar (.str "b")])
        = some (some normalized, none) :=
  ⟨(marshal_error_propagation (.slice [.other .chan])).1 _ (by rfl),
    (marshal_error_propagation (.slice [.scalar (.str "a"), .scalar (.str "b")])).2.1 _
      (by rfl)⟩

/-- C26: the formatter is total.  For every generic value, `format`,
`formatFlattened` and `formatNormalized` return their output; so does
`writeValue` in every mode at every indent level; and `writeTabularArray`, with
its three mode-specific writers, returns on every slice that `isTabular`
accepts, so that none of the type assertions on the first element and on the
rows fails (a failed assertion is the result `none`). -/
theorem formatter_total (mode : formatMode) (data : Value) (items : List Value)
    (fuel indentLevel : Nat) (indentStr key : String) :
    (format data).isSome = true ∧ (formatFlattened data).isSome = true ∧
    (formatNormalized data).isSome = true ∧
    (data.depth ≤ fuel → (writeValue mode fuel data indentLevel).isSome = true) ∧
    (isTabular items = true → depthItems items ≤ fuel →
      (writeTabularArray mode fuel indentStr key items indentLevel).isSome = true) := by
  refine ⟨?_, ?_, ?_, ?_, ?_⟩
  · exact writeValue_isSome .modeNormal data 0 (le_refl _)
  · exact writeValue_isSome .modeFlattened data 0 (le_refl _)
  · exact writeValue_isSome .modeNormalized data 0 (le_refl _)
  · intro hfuel
    exact writeValue_isSome mode data indentLevel hfuel
  · intro htab hfuel
    exact writeTabularArray_isSome mode indentStr key items indentLevel htab hfuel

/-- C26 at a table of one row that holds a nested record and a nested table, in
Normalized mode with the least fuel. -/
theorem formatter_total_witness :
    (writeValue .modeNormalized 5 (.seq [.record [("p", .record [("x", .scalar (.int 1))]),
        ("t", .seq [.record [("q", .scalar (.int 2))]])]]) 0).isSome = true ∧
    (writeTabularArray .modeNormalized 4 "" "rows"
      [.record [("p", .record [("x", .scalar (.int 1))]),
        ("t", .seq [.record [("q", .scalar (.int 2))]])]] 0).isSome = true :=
  ⟨(formatter_total .modeNormalized
      (.seq [.record [("p", .record [("x", .scalar (.int 1))]),
        ("t", .seq [.record [("q", .scalar (.int 2))]])]]) [] 5 0 "" "").2.2.2.1 (by decide),
    (formatter_total .modeNormalized (.seq [])
      [.record [("p", .record [("x", .scalar (.int 1))]),
        ("t", .seq [.record [("q", .scalar (.int 2))]])]] 4 0 "" "rows").2.2.2.2
      (by decide) (by decide)⟩

/-- C27: for a slice input (possibly behind one pointer), `encode` succeeds
exactly when it succeeds on every element, and its result is then a sequence of
the same length whose element at every index is the encoding of the element of
the input at that index; a slice without elements encodes to the sequence
without elements. -/
theorem slice_elements_in_order (fuel : Nat) (v : RValue) (elems : List RValue)
    (hv : operand v = .slice elems) (hfuel : v.depth ≤ fuel) :
    (∀ r, encode fuel v = some (.ok r) ↔
      ∃ items, r = .seq items ∧ items.length = elems.length ∧
        ∀ (i : Nat) (h1 : i < elems.length) (h2 : i < items.length),
          encode fuel (valueInterface (elems.get ⟨i, h1⟩)) = some (.ok (items.get ⟨i, h2⟩))) ∧
    (elems = [] → encode fuel v = some (.ok (.seq []))) := by
  have heq := encode_eq_switch v hfuel
  rw [hv] at heq
  simp only [encodeSwitch] at heq
  have hiff : ∀ items : List Value, encodeElems (encode fuel) elems = some (.ok items) ↔
      (items.length = elems.length ∧
        ∀ (i : Nat) (h1 : i < elems.length) (h2 : i < items.length),
          encode fuel (valueInterface (elems.get ⟨i, h1⟩)) =
            some (.ok (items.get ⟨i, h2⟩))) := by
    intro items
    rw [encodeElems_ok_iff, List.forall₂_iff_get]
    constructor
    · rintro ⟨h1, h2⟩
      exact ⟨h1.symm, h2⟩
    · rintro ⟨h1, h2⟩
      exact ⟨h1.symm, h2⟩
  constructor
  · intro r
    rw [heq]
    constructor
    · intro hr
      cases hf : encodeElems (encode fuel) elems with
      | none => simp [hf] at hr
      | some res =>
          cases res with
          | error e => simp [hf] at hr
          | ok items =>
              simp only [hf, Option.some.injEq, Except.ok.injEq] at hr
              exact ⟨items, hr.symm, (hiff items).1 hf⟩
    · rintro ⟨items, rfl, hlen, hget⟩
      rw [(hiff items).2 ⟨hlen, hget⟩]
  · intro hnil
    rw [heq, hnil]
    rfl

/-- C27 at a slice of a string and an integer held in variables of interface
type. -/
theorem slice_elements_in_order_witness :
    (∀ r, encode 3 (.slice [.iface (.scalar (.str "a")), .iface (.scalar (.int 2))])
        = some (.ok r) ↔
      ∃ items, r = .seq items ∧
        items.length = [RValue.iface (.scalar (.str "a")), .iface (.scalar (.int 2))].length ∧
        ∀ (i : Nat)
          (h1 : i < [RValue.iface (.scalar (.str "a")), .iface (.scalar (.int 2))].length)
          (h2 : i < items.length),
          encode 3 (valueInterface
            ([RValue.iface (.scalar (.str "a")), .iface (.scalar (.int 2))].get ⟨i, h1⟩))
            = some (.ok (items.get ⟨i, h2⟩))) ∧
    (([RValue.iface (.scalar (.str "a")), .iface (.scalar (.int 2))] : List RValue) = [] →
      encode 3 (.slice [.iface (.scalar (.str "a")), .iface (.scalar (.int 2))])
        = some (.ok (.seq []))) :=
  slice_elements_in_order 3 _ _ (by rfl) (by decide)

/-- C28, as stated, fails: `x` is a non-nil pointer to the string `a` and `p` is
a non-nil pointer to `x`.  `encode` of `x` returns the string, `encode` of `p`
returns the unsupported-type error for the kind ptr: one level of indirection is
taken off, not two. -/
theorem pointer_transparent_counterexample :
    encode 2 (.ptr (.scalar (.str "a"))) = some (.ok (.scalar (.str "a"))) ∧
    encode 2 (.ptr (.ptr (.scalar (.str "a"))))
      = some (.error "jet: unsupported type for marshaling ptr") :=
  ⟨by rfl, by rfl⟩

/-- C28, amended: for every pointer `p` to a variable `x` that is itself neither
a pointer nor of interface type, `encode` of `p` returns the same result (the
same generic value or the same error) as `encode` of `x`. -/
theorem pointer_transparent (fuel : Nat) (x : RValue)
    (hptr : x.kind ≠ .ptr) (hiface : x.kind ≠ .interface) :
    encode fuel (.ptr x) = encode fuel x := by
  cases fuel with
  | zero => rfl
  | succ n =>
      rw [encode_succ, encode_succ]
      have h1 : operand (.ptr x) = x := rfl
      have h2 : operand x = x := by
        simp only [operand, hptr, hiface, or_self, if_false]
      rw [h1, h2]

/-- C28 amended, at a pointer to a struct with one field. -/
theorem pointer_transparent_witness :
    encode 2 (.ptr (.struct [(⟨"Name", "", true⟩, .scalar (.str "alice"))]))
      = encode 2 (.struct [(⟨"Name", "", true⟩, .scalar (.str "alice"))]) :=
  pointer_transparent 2 _ (by decide) (by decide)

/-- C29: marshalling a slice of records without elements returns no bytes at all
(the empty text, so no header line) and a nil error, in all three modes; the
generic value in between is the sequence without elements, which is not tabular. -/
theorem empty_slice_empty_output :
    Marshal (.slice []) = some (some "", none) ∧
    MarshalFlattened (.slice []) = some (some "", none) ∧
    MarshalNormalized (.slice []) = some (some "", none) ∧
    encode (RValue.slice []).depth (.slice []) = some (.ok (.seq [])) ∧
    isTabular [] = false ∧
    format (.seq []) = some "" ∧ formatFlattened (.seq []) = some "" ∧
    formatNormalized (.seq []) = some "" := by
  refine ⟨?_, ?_, ?_, ?_, ?_, ?_, ?_, ?_⟩
  · rfl
  · rfl
  · rfl
  · rfl
  · rfl
  · rfl
  · rfl
  · rfl

/-- C30: for a sequence that is not tabular, `writeValue` in every mode writes one
line per element, in element order: the indentation, the marker `- `, the `%v`
text of the element and a newline, and nothing else.  At the top level the
indentation is empty; the number of newlines is the number of elements when no
element text holds a newline; and a sequence of scalars is written as the lines
`- <scalar text>`. -/
theorem non_tabular_sequence_lines (mode : formatMode) (items : List Value)
    (hnt : isTabular items = false) :
    (∀ fuel indentLevel, writeValue mode (fuel + 1) (.seq items) indentLevel =
      some (concatAll (items.map fun item =>
        spaces indentLevel ++ "- " ++ fmtV item ++ "\n"))) ∧
    format (.seq items) = some (concatAll (items.map fun item => "- " ++ fmtV item ++ "\n")) ∧
    formatFlattened (.seq items)
      = some (concatAll (items.map fun item => "- " ++ fmtV item ++ "\n")) ∧
    formatNormalized (.seq items)
      = some (concatAll (items.map fun item => "- " ++ fmtV item ++ "\n")) ∧
    ((∀ item ∈ items, countNewlines (fmtV item) = 0) →
      countNewlines (concatAll (items.map fun item => "- " ++ fmtV item ++ "\n"))
        = items.length) ∧
    (∀ scalars : List Scalar, items = scalars.map Value.scalar →
      format (.seq items)
        = some (concatAll (scalars.map fun s => "- " ++ fmtScalar s ++ "\n"))) := by
  have hgen : ∀ (m : formatMode) (fuel indentLevel : Nat),
      writeValue m (fuel + 1) (.seq items) indentLevel =
        some (concatAll (items.map fun item =>
          spaces indentLevel ++ "- " ++ fmtV item ++ "\n")) := by
    intro m fuel indentLevel
    simp only [writeValue, hnt, Bool.false_eq_true, if_false]
    exact writeAll_some (fun _ _ => rfl)
  have htop : ∀ m : formatMode, writeValue m (Value.seq items).depth (.seq items) 0 =
      some (concatAll (items.map fun item => "- " ++ fmtV item ++ "\n")) := by
    intro m
    have h0 : spaces 0 ++ "- " = "- " := by decide
    have := hgen m (depthItems items) 0
    simp only [h0] at this
    exact this
  refine ⟨hgen mode, htop .modeNormal, htop .modeFlattened, htop .modeNormalized, ?_, ?_⟩
  · intro hno
    rw [countNewlines_concatAll, List.map_map]
    have hone : ∀ item ∈ items,
        (countNewlines ∘ fun item => "- " ++ fmtV item ++ "\n") item = 1 := by
      intro item hitem
      have h1 : countNewlines "- " = 0 := by decide
      have h2 : countNewlines "\n" = 1 := by decide
      simp only [Function.comp, countNewlines_append, hno item hitem, h1, h2]
    rw [List.map_congr_left hone]
    simp
  · intro scalars hs
    have := htop .modeNormal
    rw [hs, List.map_map] at this
    rw [format, hs]
    exact this

/-- C30 at the sequence of the string `a` and the integer 2, whose output is the
two lines `- a` and `- 2`. -/
theorem non_tabular_sequence_lines_witness :
    format (.seq [.scalar (.str "a"), .scalar (.int 2)]) = some "- a\n- 2\n" :=
  (non_tabular_sequence_lines .modeNormal [.scalar (.str "a"), .scalar (.int 2)]
    (by decide)).2.1

/-- C31: the Normal-format example of the package documentation, evaluated.  For
the record whose field `persons` is a table with the one row of the example, the
code writes the row line behind one space, the marker `> profile:` behind three
spaces and the two lines of the profile behind two spaces; the documentation
shows two, four and four spaces. -/
theorem doc_normal_example_output :
    format (.record [("persons", .seq [.record [("age", .scalar (.int 30)),
        ("city", .scalar (.str "Wonderland")), ("name", .scalar (.str "Alice")),
        ("profile", .record [("email", .scalar (.str "alice@example.com")),
          ("username", .scalar (.str "alice"))])]])])
      = some ("persons\x7bage|city|name|profile\x7d:\n" ++ " 30|Wonderland|Alice\n" ++
          "   > profile:\n" ++ "  email: alice@example.com\n" ++ "  username: alice\n") ∧
    ("persons\x7bage|city|name|profile\x7d:\n" ++ " 30|Wonderland|Alice\n" ++
          "   > profile:\n" ++ "  email: alice@example.com\n" ++ "  username: alice\n")
      ≠ ("persons\x7bage|city|name|profile\x7d:\n" ++ "  30|Wonderland|Alice\n" ++
          "    > profile:\n" ++ "    email: alice@example.com\n" ++
          "    username: alice\n") := by
  refine ⟨by decide, by decide⟩

/-- C32: `canFlattenObject` holds exactly when every value of the record is a
scalar, that is, when no value is a record and no value is a sequence; a record
or a sequence of any kind (tabular, not tabular or empty) among the values makes
it fail, whatever is nested in it; and the record without fields is
flattenable. -/
theorem canFlattenObject_iff_scalars (r : List (String × Value)) :
    (canFlattenObject r = true ↔ ∀ kv ∈ r, ∃ s, kv.2 = .scalar s) ∧
    (canFlattenObject r = true ↔
      ∀ kv ∈ r, (∀ sub, kv.2 ≠ .record sub) ∧ (∀ items, kv.2 ≠ .seq items)) ∧
    canFlattenObject [] = true ∧
    (∀ front back key items, r = front ++ (key, .seq items) :: back →
      canFlattenObject r = false) ∧
    (∀ front back key sub, r = front ++ (key, .record sub) :: back →
      canFlattenObject r = false) := by
  have h1 : canFlattenObject r = true ↔ ∀ kv ∈ r, ∃ s, kv.2 = .scalar s := by
    simp only [canFlattenObject, List.all_eq_true]
    constructor
    · intro h kv hkv
      have := h kv hkv
      cases hx : kv.2 with
      | scalar s => exact ⟨s, rfl⟩
      | record sub => simp [hx] at this
      | seq items => simp [hx] at this
    · intro h kv hkv
      obtain ⟨s, hs⟩ := h kv hkv
      simp [hs]
  refine ⟨h1, ?_, rfl, ?_, ?_⟩
  · rw [h1]
    constructor
    · intro h kv hkv
      obtain ⟨s, hs⟩ := h kv hkv
      rw [hs]
      constructor
      · intro sub hsub
        cases hsub
      · intro items hitems
        cases hitems
    · intro h kv hkv
      obtain ⟨hrec, hseq⟩ := h kv hkv
      cases hx : kv.2 with
      | scalar s => exact ⟨s, rfl⟩
      | record sub => exact absurd hx (hrec sub)
      | seq items => exact absurd hx (hseq items)
  · intro front back key items hr
    cases hc : canFlattenObject r with
    | false => rfl
    | true =>
        obtain ⟨s, hs⟩ := h1.1 hc (key, .seq items) (by rw [hr]; simp)
        cases hs
  · intro front back key sub hr
    cases hc : canFlattenObject r with
    | false => rfl
    | true =>
        obtain ⟨s, hs⟩ := h1.1 hc (key, .record sub) (by rw [hr]; simp)
        cases hs

/-- C33: the formatter is not injective, because scalar text is written without
escaping: the record with the single field `a` holding the string `1`, a
newline and `b: 2`, and the record with the two fields `a` = `1` and `b` = `2`
are different trees with the same Normal-mode output. -/
theorem format_not_injective :
    format (.record [("a", .scalar (.str "1\nb: 2"))]) = some "a: 1\nb: 2\n" ∧
    format (.record [("a", .scalar (.str "1")), ("b", .scalar (.str "2"))])
      = some "a: 1\nb: 2\n" ∧
    Value.record [("a", .scalar (.str "1\nb: 2"))]
      ≠ Value.record [("a", .scalar (.str "1")), ("b", .scalar (.str "2"))] ∧
    ¬ Function.Injective format := by
  have h1 : format (.record [("a", .scalar (.str "1\nb: 2"))]) = some "a: 1\nb: 2\n" := by
    decide
  have h2 : format (.record [("a", .scalar (.str "1")), ("b", .scalar (.str "2"))])
      = some "a: 1\nb: 2\n" := by decide
  have h3 : Value.record [("a", .scalar (.str "1\nb: 2"))]
      ≠ Value.record [("a", .scalar (.str "1")), ("b", .scalar (.str "2"))] := by
    intro h
    simp at h
  refine ⟨h1, h2, h3, ?_⟩
  intro hinj
  exact h3 (hinj (h1.trans h2.symm))

/-- C34: for a tabular sequence in which the value of every row at every column
has the shape of the first row's value at that column (both scalars, both
flattenable records with the same subkeys, both records that are not
flattenable, both tabular sequences, or both sequences that are not tabular),
the Flattened table is the header, whose entries list the leaf names (a bare
column, or the subkeys inside the braces), followed by one line per row holding,
`|`-joined, exactly one value for every leaf of the header in order: the row's
value at that leaf, with `[nested]` or `[table]` at a bare column holding a
record or a tabular sequence. -/
theorem flattened_values_match_header (fuel L : Nat) (indentStr key : String)
    (data : List Value) (htab : isTabular data = true)
    (hshape : ∀ first m, data.head? = some (.record first) → Value.record m ∈ data →
      ∀ col ∈ sortStrings (mapKeys first),
        sameShape (mapGet first col) (mapGet m col) = true) :
    ∃ first rest, data = (first :: rest).map Value.record ∧
      writeTabularArray .modeFlattened (fuel + 1) indentStr key data L =
        some (indentStr ++ key ++ "\x7b" ++
          stringsJoin ((sortStrings (mapKeys first)).map fun col =>
            headerEntry col (columnLeaves first col)) "|" ++ "\x7d:\n" ++
          concatAll ((first :: rest).map fun m =>
            spaces (L + 1) ++
              stringsJoin ((headerLeaves (sortStrings (mapKeys first)) first).map (leafValue m))
                "|" ++ "\n")) ∧
      ∀ m ∈ first :: rest,
        extractFlattenedValues (sortStrings (mapKeys first)) m =
          (headerLeaves (sortStrings (mapKeys first)) first).map (leafValue m) ∧
        (extractFlattenedValues (sortStrings (mapKeys first)) m).length =
          (headerLeaves (sortStrings (mapKeys first)) first).length := by
  obtain ⟨rows, hrows⟩ := rows_of_records (isTabular_rows htab)
  obtain ⟨first, rest, rfl⟩ : ∃ first rest, rows = first :: rest := by
    cases rows with
    | nil =>
        subst hrows
        simp [isTabular] at htab
    | cons first rest => exact ⟨first, rest, rfl⟩
  subst hrows
  refine ⟨first, rest, rfl, ?_⟩
  have hvals : ∀ m ∈ first :: rest,
      extractFlattenedValues (sortStrings (mapKeys first)) m =
        (headerLeaves (sortStrings (mapKeys first)) first).map (leafValue m) := by
    intro m hm
    rw [extractFlattenedValues_eq_cells, headerLeaves_eq, List.map_flatMap]
    apply List.flatMap_congr
    intro col hcol
    exact flattenedCell_of_sameShape
      (hshape first m rfl (List.mem_map.2 ⟨m, hm, rfl⟩) col hcol)
  constructor
  · have hw : writeTabularArray .modeFlattened (fuel + 1) indentStr key
        ((first :: rest).map Value.record) L =
        writeTabularArrayFlattened indentStr key ((first :: rest).map Value.record)
          (sortStrings (mapKeys first)) L := by
      simp only [List.map_cons, writeTabularArray]
    rw [hw, writeTabularArrayFlattened_rows, buildFlattenedSchema_entries]
    congr 3
    apply List.map_congr_left
    intro m hm
    rw [hvals m hm]
  · intro m hm
    refine ⟨hvals m hm, ?_⟩
    rw [hvals m hm, List.length_map]

/-- C34 at a table of two rows with a scalar column, a column of flattenable
records and a column of records that are not flattenable. -/
theorem flattened_values_match_header_witness :
    ∃ first rest,
      [Value.record [("id", .scalar (.int 1)), ("n", .record [("t", .record [])]),
          ("p", .record [("x", .scalar (.int 3)), ("y", .scalar (.int 4))])],
        .record [("id", .scalar (.int 2)), ("n", .record [("u", .seq [])]),
          ("p", .record [("y", .scalar (.int 6)), ("x", .scalar (.int 5))])]]
        = (first :: rest).map Value.record ∧
      writeTabularArray .modeFlattened 1 "" "rows"
        [Value.record [("id", .scalar (.int 1)), ("n", .record [("t", .record [])]),
          ("p", .record [("x", .scalar (.int 3)), ("y", .scalar (.int 4))])],
        .record [("id", .scalar (.int 2)), ("n", .record [("u", .seq [])]),
          ("p", .record [("y", .scalar (.int 6)), ("x", .scalar (.int 5))])]] 0 =
        some ("" ++ "rows" ++ "\x7b" ++
          stringsJoin ((sortStrings (mapKeys first)).map fun col =>
            headerEntry col (columnLeaves first col)) "|" ++ "\x7d:\n" ++
          concatAll ((first :: rest).map fun m =>
            spaces (0 + 1) ++
              stringsJoin ((headerLeaves (sortStrings (mapKeys first)) first).map (leafValue m))
                "|" ++ "\n")) ∧
      ∀ m ∈ first :: rest,
        extractFlattenedValues (sortStrings (mapKeys first)) m =
          (headerLeaves (sortStrings (mapKeys first)) first).map (leafValue m) ∧
        (extractFlattenedValues (sortStrings (mapKeys first)) m).length =
          (headerLeaves (sortStrings (mapKeys first)) first).length := by
  refine flattened_values_match_header 0 0 "" "rows" _ (by decide) ?_
  intro first m hhead hm col hcol
  simp only [List.head?_cons, Option.some.injEq, Value.record.injEq] at hhead
  subst hhead
  simp only [List.mem_cons, Value.record.injEq, List.mem_singleton, List.not_mem_nil,
    or_false] at hm
  have hschema : sortStrings (mapKeys [("id", Value.scalar (.int 1)),
      ("n", .record [("t", .record [])]),
      ("p", .record [("x", .scalar (.int 3)), ("y", .scalar (.int 4))])])
      = ["id", "n", "p"] := by decide
  rw [hschema] at hcol
  simp only [List.mem_cons, List.mem_singleton, List.not_mem_nil, or_false] at hcol
  rcases hm with rfl | rfl <;> rcases hcol with rfl | rfl | rfl <;> decide

/-- C35: a tabular sequence whose Flattened row line has fewer values than the
header has leaf names.  The first row holds under `p` a flattenable record with
the two fields `x` and `y`, the second row a scalar; both rows have the keys
`id` and `p`.  The header, built from the first row, has the three leaves `id`,
`x`, `y`; the line of the second row has the two values `2` and `5`. -/
theorem flattened_row_header_mismatch :
    isTabular [.record [("id", .scalar (.int 1)),
        ("p", .record [("x", .scalar (.int 1)), ("y", .scalar (.int 2))])],
      .record [("id", .scalar (.int 2)), ("p", .scalar (.int 5))]] = true ∧
    formatFlattened (.seq [.record [("id", .scalar (.int 1)),
        ("p", .record [("x", .scalar (.int 1)), ("y", .scalar (.int 2))])],
      .record [("id", .scalar (.int 2)), ("p", .scalar (.int 5))]])
      = some "\x7bid|p\x7bx,y\x7d\x7d:\n 1|1|2\n 2|5\n" ∧
    headerLeaves ["id", "p"] [("id", .scalar (.int 1)),
        ("p", .record [("x", .scalar (.int 1)), ("y", .scalar (.int 2))])]
      = [("id", none), ("p", some "x"), ("p", some "y")] ∧
    buildFlattenedSchema ["id", "p"] [("id", .scalar (.int 1)),
        ("p", .record [("x", .scalar (.int 1)), ("y", .scalar (.int 2))])]
      = "id|p\x7bx,y\x7d" ∧
    extractFlattenedValues ["id", "p"] [("id", .scalar (.int 2)), ("p", .scalar (.int 5))]
      = ["2", "5"] := by
  refine ⟨by decide, by decide, by decide, by decide, by decide⟩

/-- C36, as stated, fails: the row of the table is a record whose field `a` holds
the sequence of 1 and 2, which is not tabular.  The output is the header and the
row line; the sequence is the first value of the row line, and no line of the
output is `a: [1 2]` behind any indentation. -/
theorem sequence_field_line_counterexample :
    mapGet [("a", Value.seq [.scalar (.int 1), .scalar (.int 2)]), ("b", .scalar (.int 3))] "a"
      = some (.seq [.scalar (.int 1), .scalar (.int 2)]) ∧
    isTabular [.scalar (.int 1), .scalar (.int 2)] = false ∧
    format (.seq [.record [("a", .seq [.scalar (.int 1), .scalar (.int 2)]),
        ("b", .scalar (.int 3))]]) = some (linesAt 0 ["\x7ba|b\x7d:", " [1 2]|3"]) ∧
    ∀ L, spaces L ++ "a" ++ ": " ++ fmtV (.seq [.scalar (.int 1), .scalar (.int 2)])
      ∉ ["\x7ba|b\x7d:", " [1 2]|3"] := by
  refine ⟨by rfl, by decide, by decide, ?_⟩
  intro L hmem
  have hlen : byteLen (spaces L ++ "a" ++ ": " ++
      fmtV (.seq [.scalar (.int 1), .scalar (.int 2)])) = L + 8 := by
    have h1 : byteLen "a" = 1 := by decide
    have h2 : byteLen ": " = 2 := by decide
    have h3 : byteLen (fmtV (.seq [.scalar (.int 1), .scalar (.int 2)])) = 5 := by decide
    simp only [byteLen_append, byteLen_spaces, h1, h2, h3]
  simp only [List.mem_cons, List.mem_singleton, List.not_mem_nil, or_false] at hmem
  rcases hmem with h | h
  · rw [h] at hlen
    have h6 : byteLen "\x7ba|b\x7d:" = 6 := by decide
    omega
  · have h0 : L = 0 := by
      rw [h] at hlen
      have h8 : byteLen " [1 2]|3" = 8 := by decide
      omega
    subst h0
    revert h
    decide

/-- C36, amended: a sequence that is not tabular (an empty one included), held by
a field of a record that `writeValue` renders, is written in every mode as the
single line of the indentation, the key, `: ` and the `%v` text of the sequence;
held by a column of a table row it is one `|`-joined value of the row line; it
is never written as `- ` items.  The table writers call `writeValue` on records
only, so their output does not depend on what `writeValue` does on other values;
and when no key and no scalar text holds the character `-`, the text written for
a record, and for a table, holds no `-` at all, so no line of it starts with
`- `. -/
theorem sequence_field_line (mode : formatMode) (v : List (String × Value))
    (fuel L : Nat) (hfuel : (Value.record v).depth ≤ fuel) :
    (∃ texts, writeValue mode fuel (.record v) L = some (concatAll texts) ∧
      List.Forall₂ (fun key text =>
        ∀ sub, mapGet v key = some (.seq sub) → isTabular sub = false →
          text = spaces L ++ key ++ ": " ++ fmtV (.seq sub) ++ "\n")
        (sortStrings (mapKeys v)) texts) ∧
    (∀ schema col sub, col ∈ schema → mapGet v col = some (.seq sub) →
      isTabular sub = false →
      fmtV (.seq sub) ∈ rowValues schema v ∧
        fmtV (.seq sub) ∈ extractFlattenedValues schema v) ∧
    (∀ (wv : Value → Nat → Option String)
      (wt : String → String → List Value → Nat → Option String)
      (indentStr key : String) (data : List Value) (schema : List String) (K : Nat),
      writeTabularArrayNormal wv wt indentStr key data schema K =
        writeTabularArrayNormal
          (fun x k => match x with
            | .record r => wv (.record r) k
            | _ => none) wt indentStr key data schema K ∧
      writeTabularArrayNormalized wv wt indentStr key data schema K =
        writeTabularArrayNormalized
          (fun x k => match x with
            | .record r => wv (.record r) k
            | _ => none) wt indentStr key data schema K) ∧
    ((Value.record v).allNodes (noCharNode '-') = true →
      ∃ out, writeValue mode fuel (.record v) L = some out ∧ charCount '-' out = 0) ∧
    (∀ key data, isTabular data = true → depthItems data ≤ fuel →
      (Value.seq data).allNodes (noCharNode '-') = true → charCount '-' key = 0 →
      ∃ out, writeTabularArray mode fuel (spaces L) key data L = some out ∧
        charCount '-' out = 0) := by
  refine ⟨?_, ?_, ?_, ?_, ?_⟩
  · obtain ⟨out, hout⟩ :=
      Option.isSome_iff_exists.mp (writeValue_isSome mode (.record v) L hfuel)
    obtain ⟨fuel2, rfl⟩ : ∃ k, fuel = k + 1 :=
      ⟨fuel - 1, by have := depth_pos (Value.record v); omega⟩
    have hout2 := hout
    rw [writeValue] at hout2
    obtain ⟨texts, hall, rfl⟩ := (writeAll_eq_some_iff _ _ _).mp hout2
    refine ⟨texts, hout, hall.imp ?_⟩
    intro key text hkt sub hget hsub
    simp only [hget, hsub, Bool.false_eq_true, if_false, Option.some.injEq] at hkt
    exact hkt.symm
  · intro schema col sub hcol hget hsub
    constructor
    · rw [rowValues_eq]
      refine List.mem_map.2 ⟨col, List.mem_filter.2 ⟨hcol, ?_⟩, ?_⟩
      · simp [hget, isNested, hsub]
      · simp [hget, fmtAny]
    · rw [extractFlattenedValues_eq]
      refine List.mem_flatMap.2 ⟨col, hcol, ?_⟩
      simp [hget, hsub]
  · intro wv wt indentStr key data schema K
    constructor
    · exact writeTabularArrayNormal_congr (fun _ _ _ _ _ => rfl) (fun _ _ _ _ _ _ => rfl)
    · exact writeTabularArrayNormalized_congr (fun _ _ _ _ _ => rfl)
        (fun _ _ _ _ _ _ => rfl)
  · intro hnodes
    obtain ⟨ls, hq, hw⟩ := (writes_lines mode formatConstants_noDash fuel).1 v hnodes hfuel
    exact ⟨linesAt L ls, hw L,
      charCount_linesAt_zero (by decide) (by decide) hq L⟩
  · intro key data htab hd hnodes hkey
    obtain ⟨hdr, ls, hh, hq, hw⟩ :=
      (writes_lines mode formatConstants_noDash fuel).2 key data htab hnodes hkey hd
    refine ⟨_, hw L (spaces L), ?_⟩
    have hnl : charCount '-' "\n" = 0 := by decide
    simp only [charCount_append, charCount_spaces (by decide : charCount '-' " " = 0), hh, hnl,
      charCount_linesAt_zero (by decide) (by decide) hq L]

/-- C36 amended, at a record holding a sequence of two scalars, an empty sequence
and a nested record with a sequence, in Flattened mode at level 1. -/
theorem sequence_field_line_witness :
    ∃ texts, writeValue .modeFlattened 4
        (.record [("tags", .seq [.scalar (.str "a"), .scalar (.str "b")]),
          ("none", .seq []), ("r", .record [("ids", .seq [.scalar (.int 1)])])]) 1
        = some (concatAll texts) ∧
      List.Forall₂ (fun key text =>
        ∀ sub, mapGet [("tags", Value.seq [.scalar (.str "a"), .scalar (.str "b")]),
            ("none", .seq []), ("r", .record [("ids", .seq [.scalar (.int 1)])])] key
            = some (.seq sub) → isTabular sub = false →
          text = spaces 1 ++ key ++ ": " ++ fmtV (.seq sub) ++ "\n")
        (sortStrings (mapKeys [("tags", Value.seq [.scalar (.str "a"), .scalar (.str "b")]),
            ("none", .seq []), ("r", .record [("ids", .seq [.scalar (.int 1)])])])) texts :=
  (sequence_field_line .modeFlattened _ 4 1 (by decide)).1

/-- C37, as stated, fails: the nested table of a table row is rendered at indent
level 2 (the call of `writeTabularArray` for the column `t` of the row of a
table at level 0), and its header line, which follows the prefix `> `, has three
leading spaces, not two. -/
theorem normal_table_indentation_counterexample :
    writeTabularArray .modeNormal 3 (spaces 0) ""
        [.record [("t", .seq [.record [("q", .scalar (.int 1))]])]] 0 =
      some (linesAt 0 ["\x7bt\x7d:", " ", "   > t\x7bq\x7d:", "   1"]) ∧
    writeTabularArrayNormal (writeValue .modeNormal 2)
        (fun indentStr key _ K => some (indentStr ++ key ++ " at level " ++ toString K))
        (spaces 0) "" [.record [("t", .seq [.record [("q", .scalar (.int 1))]])]] ["t"] 0 =
      some ("\x7bt\x7d:\n" ++ " \n" ++ "   > " ++ "t at level 2") ∧
    writeTabularArray .modeNormal 2 "" "t" [.record [("q", .scalar (.int 1))]] 2 =
      some (linesAt 0 ["t\x7bq\x7d:", "   1"]) ∧
    leadingSpaces "   > t\x7bq\x7d:" = 3 ∧ leadingSpaces "   > t\x7bq\x7d:" ≠ 2 := by
  refine ⟨by decide, by decide, by decide, by decide, by decide⟩

/-- C37, amended: in Normal mode, a table written at indent level `L` behind the
indentation of that level (as a top-level table and a table held by a record
field are) has its header line behind `L` spaces, every row line behind `L+1`
spaces, and the marker `> <column>:` of a nested record behind exactly `L+3`
spaces; the nested record is written at indent level `L+2`, every field line of
it behind `L+2` spaces, one less than the marker.  The count of leading spaces
of a header, row or field line is that indentation plus the spaces the key, or
the row values, start with.  A nested table of a row is written at level `L+2`
too, but its header follows the prefix `> ` on a line with `L+3` leading
spaces. -/
theorem normal_table_indentation (fuel L : Nat) (key : String) (data : List Value)
    (htab : isTabular data = true) (hfuel : depthItems data ≤ fuel) :
    ∃ first rest rowTexts, data = Value.record first :: rest ∧
      writeTabularArray .modeNormal fuel (spaces L) key data L =
        some (spaces L ++ key ++ "\x7b" ++ stringsJoin (sortStrings (mapKeys first)) "|"
          ++ "\x7d:\n" ++ concatAll rowTexts) ∧
      leadingSpaces (spaces L ++ key ++ "\x7b" ++ stringsJoin (sortStrings (mapKeys first)) "|"
          ++ "\x7d:\n" ++ concatAll rowTexts) = L + leadingSpaces key ∧
      List.Forall₂ (fun row text => ∃ m blocks, row = Value.record m ∧
        text = spaces (L + 1) ++ stringsJoin (rowValues (sortStrings (mapKeys first)) m) "|"
          ++ "\n" ++ concatAll blocks ∧
        leadingSpaces text =
          L + 1 + leadingSpaces (stringsJoin (rowValues (sortStrings (mapKeys first)) m) "|") ∧
        List.Forall₂ (fun col block =>
          (∃ sub fields, mapGet m col = some (Value.record sub) ∧
            writeValue .modeNormal (Value.record sub).depth (.record sub) (L + 2)
              = some (concatAll fields) ∧
            block = spaces (L + 3) ++ "> " ++ col ++ ":\n" ++ concatAll fields ∧
            leadingSpaces block = L + 3 ∧
            List.Forall₂ (fun k field => (∃ tail, field = spaces (L + 2) ++ k ++ tail) ∧
                leadingSpaces field = L + 2 + leadingSpaces k)
              (sortStrings (mapKeys sub)) fields) ∨
          (∃ sub cols rows, mapGet m col = some (Value.seq sub) ∧ isTabular sub = true ∧
            writeTabularArray .modeNormal (depthItems sub) "" col sub (L + 2)
              = some ("" ++ col ++ "\x7b" ++ cols ++ "\x7d:\n" ++ rows) ∧
            block = spaces (L + 3) ++ "> " ++ col ++ "\x7b" ++ cols ++ "\x7d:\n" ++ rows ∧
            leadingSpaces block = L + 3))
          ((sortStrings (mapKeys first)).filter fun col => isNested (mapGet m col)) blocks)
        data rowTexts := by
  obtain ⟨out, hout⟩ := Option.isSome_iff_exists.mp
    (writeTabularArray_isSome .modeNormal (spaces L) key data L htab hfuel)
  obtain ⟨first, rest, rfl⟩ := isTabular_head htab
  have hpos := le_trans (depth_pos _)
    (depth_mem_items (List.mem_cons_self (Value.record first) rest))
  obtain ⟨fuel2, rfl⟩ : ∃ k, fuel = k + 1 := ⟨fuel - 1, by omega⟩
  have hout2 := hout
  simp only [writeTabularArray, writeTabularArrayNormal, Option.map_eq_some'] at hout2
  obtain ⟨rows, hrows, rfl⟩ := hout2
  obtain ⟨rowTexts, hall, rfl⟩ := (writeAll_eq_some_iff _ _ _).mp hrows
  refine ⟨first, rest, rowTexts, rfl, hout, ?_, (forall₂_mem_left hall).imp ?_⟩
  · rw [String.append_assoc (spaces L ++ key ++ "\x7b"),
      String.append_assoc (spaces L ++ key ++ "\x7b")]
    exact leadingSpaces_behind L key "\x7b" _ '\x7b' (by decide) (by decide)
  rintro row text ⟨hrow, hrt⟩
  cases row with
  | scalar s => simp at hrt
  | seq xs => simp at hrt
  | record m =>
      simp only [Option.map_eq_some'] at hrt
      obtain ⟨nested, hnested, rfl⟩ := hrt
      rw [writeAll_filter (fun col => isNested (mapGet m col))] at hnested
      · obtain ⟨blocks, hblocks, rfl⟩ := (writeAll_eq_some_iff _ _ _).mp hnested
        refine ⟨m, blocks, rfl, rfl,
          leadingSpaces_behind (L + 1) _ "\n" _ '\n' (by decide) (by decide),
          (forall₂_mem_left hblocks).imp ?_⟩
        rintro col block ⟨hcol, hcb⟩
        have hn : isNested (mapGet m col) = true := (List.mem_filter.mp hcol).2
        cases hget : mapGet m col with
        | none => simp [hget, isNested] at hn
        | some x =>
            cases x with
            | scalar s => simp [hget, isNested] at hn
            | record sub =>
                left
                simp only [hget, Option.map_eq_some'] at hcb
                obtain ⟨body, hbody, rfl⟩ := hcb
                have hd := depth_cell_record hrow hget
                rw [writeValue_fuel_irrel .modeNormal _ _ (by omega)] at hbody
                obtain ⟨fields, rfl, hfields⟩ := writeValue_record_fields_lead hbody
                refine ⟨sub, fields, rfl, hbody, by rw [markerPrefix_eq], ?_, hfields⟩
                rw [markerPrefix_eq, String.append_assoc (spaces (L + 3) ++ "> "),
                  String.append_assoc (spaces (L + 3) ++ "> ")]
                exact leadingSpaces_marker _ _
            | seq sub =>
                right
                have hsub : isTabular sub = true := by simpa [hget, isNested] using hn
                simp only [hget, hsub, if_true, Option.map_eq_some'] at hcb
                obtain ⟨table, htable, rfl⟩ := hcb
                have hd := depth_cell_seq hrow hget
                rw [writeTabularArray_fuel_irrel .modeNormal _ _ _ _ hsub (by omega)] at htable
                obtain ⟨cols, rows, rfl⟩ := writeTabularArray_shape htable
                refine ⟨sub, cols, rows, rfl, hsub, htable, ?_, ?_⟩
                · rw [markerPrefix_eq]
                  simp only [String.empty_append, String.append_assoc]
                · rw [markerPrefix_eq]
                  exact leadingSpaces_marker _ _
      · intro col _ hn
        cases hget : mapGet m col with
        | none => rfl
        | some x =>
            cases x with
            | scalar s => rfl
            | record sub => simp [hget, isNested] at hn
            | seq sub =>
                have hsub : isTabular sub = false := by simpa [hget, isNested] using hn
                simp [hsub]

/-- C37 amended, at a one-row table with a scalar, a nested record and a nested
table, written at level 1 behind one space. -/
theorem normal_table_indentation_witness :
    ∃ rowTexts,
      writeTabularArray .modeNormal 4 (spaces 1) "t" [
        .record [("n", .scalar (.int 7)), ("p", .record [("x", .scalar (.int 1))]),
          ("q", .seq [.record [("y", .scalar (.int 2))]])]] 1 =
        some (spaces 1 ++ "t" ++ "\x7b" ++ stringsJoin ["n", "p", "q"] "|" ++ "\x7d:\n"
          ++ concatAll rowTexts) ∧ rowTexts.length = 1 := by
  obtain ⟨first, rest, rowTexts, hdata, hout, _, hall⟩ := normal_table_indentation 4 1 "t" [
        .record [("n", .scalar (.int 7)), ("p", .record [("x", .scalar (.int 1))]),
          ("q", .seq [.record [("y", .scalar (.int 2))]])]] (by decide) (by decide)
  simp only [List.cons.injEq, Value.record.injEq] at hdata
  obtain ⟨rfl, rfl⟩ := hdata
  exact ⟨rowTexts, hout.trans (by rfl), hall.length_eq.symm⟩

/-- C38: indentation is a uniform shift.  For a record whose keys and scalar texts
hold no newline, in every mode, the text written at indent level `L+1` is the
text written at level `L` with one space inserted at the start of every line;
indeed the text at any level `K` is one fixed list of lines, each behind `K`
spaces. -/
theorem indentation_uniform_shift (mode : formatMode) (v : List (String × Value))
    (fuel L : Nat) (hfuel : (Value.record v).depth ≤ fuel)
    (hnl : (Value.record v).allNodes noNewlineNode = true) :
    ∃ out, writeValue mode fuel (.record v) L = some out ∧
      writeValue mode fuel (.record v) (L + 1) = some (shiftLines out) ∧
      ∃ ls : List String, (∀ l ∈ ls, countNewlines l = 0) ∧
        ∀ K, writeValue mode fuel (.record v) K = some (linesAt K ls) := by
  rw [noNewlineNode_eq] at hnl
  obtain ⟨ls, hq, hw⟩ := (writes_lines mode formatConstants_noNewline fuel).1 v hnl hfuel
  refine ⟨linesAt L ls, hw L, ?_, ls, hq, hw⟩
  rw [hw (L + 1), shiftLines_linesAt L ls hq]

/-- C38 at a record with a scalar, a nested record and a table whose row holds a
flattenable record, in Normalized mode from level 0 to level 1. -/
theorem indentation_uniform_shift_witness :
    ∃ out, writeValue .modeNormalized 5
        (.record [("n", .scalar (.int 7)), ("r", .record [("x", .scalar (.str "y"))]),
          ("t", .seq [.record [("p", .record [("a", .scalar (.int 1))])]])]) 0 = some out ∧
      writeValue .modeNormalized 5
        (.record [("n", .scalar (.int 7)), ("r", .record [("x", .scalar (.str "y"))]),
          ("t", .seq [.record [("p", .record [("a", .scalar (.int 1))])]])]) (0 + 1)
        = some (shiftLines out) ∧
      ∃ ls : List String, (∀ l ∈ ls, countNewlines l = 0) ∧
        ∀ K, writeValue .modeNormalized 5
          (.record [("n", .scalar (.int 7)), ("r", .record [("x", .scalar (.str "y"))]),
            ("t", .seq [.record [("p", .record [("a", .scalar (.int 1))])]])]) K
          = some (linesAt K ls) :=
  indentation_uniform_shift .modeNormalized _ 5 0 (by decide) (by decide)

/-- C39, at the input where the code departs from it: the struct has the single
field `p`, not exported, not excluded, holding a nil pointer.  `encode` does not
return the unsupported-type error: `Interface` panics on the field before the
nil pointer is looked at, and `Marshal` does not return.  With the same field
exported, `encode` returns the error. -/
theorem nil_member_unexported_panics :
    tagName ⟨"p", "", false⟩ ≠ "-" ∧
    encode 2 (.struct [(⟨"p", "", false⟩, .ptr .invalid)]) = none ∧
    Marshal (.struct [(⟨"p", "", false⟩, .ptr .invalid)]) = none ∧
    MarshalFlattened (.struct [(⟨"p", "", false⟩, .ptr .invalid)]) = none ∧
    MarshalNormalized (.struct [(⟨"p", "", false⟩, .ptr .invalid)]) = none ∧
    encode 2 (.struct [(⟨"P", "", true⟩, .ptr .invalid)]) =
      some (.error "jet: unsupported type for marshaling invalid") := by
  refine ⟨by decide, by rfl, by rfl, by rfl, by rfl, by rfl⟩

/-- Null inputs on structs whose fields are exported: `encode` of nil and of a nil
pointer returns the unsupported-type error for the kind invalid; `encode` of a
struct (possibly behind one pointer) with a field that is not excluded and holds
a nil pointer or a nil interface returns an unsupported-type error, provided
every field that `encode` reaches and that is not excluded is exported;
`Marshal`, `MarshalFlattened` and `MarshalNormalized` then return that error and
nil bytes; and a slice without elements (such as a nil slice) encodes to the
empty sequence, a map without entries (such as a nil map) to the empty
record. -/
theorem nil_input_rejected (v : RValue) (fields : List (StructField × RValue))
    (field : StructField) (fieldValue : RValue)
    (hv : operand v = .struct fields) (hmem : (field, fieldValue) ∈ fields)
    (hne : tagName field ≠ "-")
    (hnil : fieldValue = .ptr .invalid ∨ fieldValue = .iface .invalid)
    (hexp : ∀ fields2 field2 fieldValue2, Component (operand v) (.struct fields2) →
      (field2, fieldValue2) ∈ fields2 → tagName field2 ≠ "-" → field2.exported = true) :
    (∀ fuel, encode (fuel + 1) .invalid
      = some (.error "jet: unsupported type for marshaling invalid")) ∧
    (∀ fuel, encode (fuel + 1) (.ptr .invalid)
      = some (.error "jet: unsupported type for marshaling invalid")) ∧
    (∃ err, encode v.depth v = some (.error err) ∧
      (∃ w, Component (operand v) w ∧ supportedKind w.kind = false ∧
        err = "jet: unsupported type for marshaling " ++ w.kind.name) ∧
      Marshal v = some (none, some err) ∧ MarshalFlattened v = some (none, some err) ∧
      MarshalNormalized v = some (none, some err)) ∧
    (∀ fuel, encode (fuel + 1) (.slice []) = some (.ok (.seq []))) ∧
    (∀ fuel, encode (fuel + 1) (.map []) = some (.ok (.record []))) := by
  refine ⟨fun _ => rfl, fun _ => rfl, ?_, fun _ => rfl, fun _ => rfl⟩
  have hcomp : Component (operand v) .invalid := by
    rw [hv]
    have hop : operand (valueInterface fieldValue) = .invalid := by
      rcases hnil with h | h <;> subst h <;> rfl
    exact Component.field hmem hne (hop ▸ Component.self _)
  cases hres : encode v.depth v with
  | none => exact absurd hres (encode_ne_none v.depth v (le_refl _) hexp)
  | some res =>
      cases res with
      | ok r =>
          have := encode_ok_components v.depth v r hres .invalid hcomp
          simp [RValue.kind, supportedKind] at this
      | error err =>
          refine ⟨err, rfl, encode_error_component v.depth v err hres, ?_, ?_, ?_⟩
          · simp only [Marshal, marshal, hres]
          · simp only [MarshalFlattened, marshalFlattened, hres]
          · simp only [MarshalNormalized, marshalNormalized, hres]

/-- Null inputs at a struct with the exported field `P` holding a nil pointer. -/
theorem nil_input_rejected_witness :
    Marshal (.struct [(⟨"P", "", true⟩, .ptr .invalid)])
      = some (none, some "jet: unsupported type for marshaling invalid") := by
  have h := nil_input_rejected (.struct [(⟨"P", "", true⟩, .ptr .invalid)])
    [(⟨"P", "", true⟩, .ptr .invalid)] ⟨"P", "", true⟩ (.ptr .invalid) rfl
    (List.mem_cons_self _ _) (by decide) (Or.inl rfl)
    (by
      intro fields2 field2 fieldValue2 hc hmem2 hne2
      have hop : operand (.struct [(⟨"P", "", true⟩, .ptr .invalid)]) =
          .struct [(⟨"P", "", true⟩, .ptr .invalid)] := rfl
      rw [hop] at hc
      cases hc with
      | self =>
          simp only [List.mem_singleton, Prod.mk.injEq] at hmem2
          obtain ⟨rfl, _⟩ := hmem2
          rfl
      | field hmem3 hne3 hc3 =>
          simp only [List.mem_singleton, Prod.mk.injEq] at hmem3
          obtain ⟨rfl, rfl⟩ := hmem3
          cases hc3)
  obtain ⟨err, henc, _, hm, _, _⟩ := h.2.2.1
  have herr : encode (RValue.struct [(⟨"P", "", true⟩, .ptr .invalid)]).depth
      (.struct [(⟨"P", "", true⟩, .ptr .invalid)])
      = some (.error "jet: unsupported type for marshaling invalid") := by rfl
  rw [herr] at henc
  simp only [Option.some.injEq, Except.error.injEq] at henc
  rw [← henc] at hm
  exact hm

/-- C40: `Unmarshal` is a no-op.  For every byte input and every target it
returns a nil error and the target as it was; in particular the result does not
depend on the bytes, so input that is not Jet text is accepted like any other. -/
theorem unmarshal_noop (data : List Nat) (v : RValue) :
    Unmarshal data v = (none, v) ∧ (Unmarshal data v).1 = none ∧
    (Unmarshal data v).2 = v ∧ ∀ data2 : List Nat, Unmarshal data2 v = Unmarshal data v := by
  refine ⟨?_, ?_, ?_, ?_⟩
  · simp only [Unmarshal, unmarshal]
  · simp only [Unmarshal, unmarshal]
  · simp only [Unmarshal, unmarshal]
  · intro data2
    simp only [Unmarshal, unmarshal]

end Jet
